import Mathlib

/-!
# elox: deterministic hash table, classes, call frames, upvalues and exceptions

A shallow embedding of parts of the elox virtual machine
(`src/elox/lib/CloseTable.c`, `src/elox/lib/vm.c`, `src/elox/lib/builtins.c`) and of
the scanner and the string functions of slox (`src/slox/lib/scanner.c`,
`src/slox/lib/object.c`), together with theorems about them.

Modelling conventions.

* `int32_t` counters (`tableSize`, `entriesCount`, `count`, `modCount`) are natural
  numbers; signed overflow is undefined behaviour in C and lies outside the model.
* `next` and `chain` are integers, `-1` being the end-of-chain mark of the source.
* A partial result `none` of a table operation means that the C code would read or
  write outside the `entries` array, or that a chain walk would not come to an end.
* `hashValue` and `valuesEquals` are defined outside `CloseTable.c`; they are taken
  as parameters (`KeyOps`), error-free and deterministic.
* The stack array of the upvalue and exception code is a list with the index
  `stackTop`; an upvalue object is named by its index and is open on a stack index or
  closed over a value. A result `none` or `fault` stands for a read or write outside an
  array or through a value of the wrong kind.
* A runtime error is the message passed to `runtimeError`; the exception object that
  `runtimeError` builds is not modelled.
* Objects of the heap are named by their index; interned strings are compared by their
  characters.
* The source of the scanner is the list of its characters with the terminating NUL;
  a read outside it gives `none`.
* A cell of an allocated array that was never written is `none`; the macros of
  `memory.h`, which is not among the sources, are parameters or are modelled as a
  reallocation that keeps the old cells.
-/

namespace Elox

/-! ## Definitions

### The deterministic hash table (`CloseTable.c`) -/

/-- Tagged value of the VM; `undefined` is the in-band mark of an empty slot. -/
inductive Value where
  | undefined : Value
  | nil : Value
  | bool (b : Bool) : Value
  | number (bits : Nat) : Value
  | obj (ref : Nat) : Value
deriving DecidableEq, Repr

/-- The struct `TableEntry` of `CloseTable.h`. -/
structure TableEntry where
  key : Value
  value : Value
  next : Int
  chain : Int
deriving DecidableEq, Repr

/-- The struct `CloseTable` of `CloseTable.h`; `entries` is the allocated array, its
length is the allocated size. -/
structure CloseTable where
  entries : List TableEntry
  tableSize : Nat
  entriesCount : Nat
  count : Nat
  modCount : Nat
deriving DecidableEq, Repr

/-- The functions `hashValue` and `valuesEquals` used by the table, and the content
`uninit` of freshly allocated memory (which `rehash` only partly overwrites). -/
structure KeyOps where
  hashValue : Value → Nat
  valuesEquals : Value → Value → Bool
  uninit : TableEntry

/-- The function `initCloseTable`. -/
def initCloseTable : CloseTable :=
  { entries := [], tableSize := 0, entriesCount := 0, count := 0, modCount := 0 }

/-- The expression `keyHash & (tableSize - 1)`. -/
def bucketOf (keyHash tableSize : Nat) : Nat :=
  keyHash &&& (tableSize - 1)

/-- The `while (idx >= 0)` loop of `lookup`; the result is the index of the entry
found (`some none` is the `NULL` of the source). -/
def lookupLoop (ops : KeyOps) (entries : List TableEntry) (key : Value) :
    Nat → Int → Option (Option Nat)
  | fuel, idx =>
    if idx < 0 then some none
    else
      match fuel with
      | 0 => none
      | fuel + 1 =>
        match entries[idx.toNat]? with
        | none => none
        | some entry =>
          if key ≠ Value.undefined ∧ ops.valuesEquals entry.key key = true then
            some (some idx.toNat)
          else lookupLoop ops entries key fuel entry.next

/-- The function `lookup`. -/
def lookup (ops : KeyOps) (table : CloseTable) (key : Value) (keyHash : Nat) :
    Option (Option Nat) :=
  match table.entries[bucketOf keyHash table.tableSize]? with
  | none => none
  | some b => lookupLoop ops table.entries key (table.entries.length + 1) b.chain

/-- The function `closeTableGet`; `some none` is the result `false`, `some (some v)` the
result `true` with `*value = v`. -/
def closeTableGet (ops : KeyOps) (table : CloseTable) (key : Value) :
    Option (Option Value) :=
  if table.count = 0 then some none
  else
    match lookup ops table key (ops.hashValue key) with
    | none => none
    | some none => some none
    | some (some i) =>
      match table.entries[i]? with
      | none => none
      | some e => some (some e.value)

/-- The `for` loop of `closeTableGetNext`, `remaining` being `entriesCount - i`. -/
def getNextLoop (entries : List TableEntry) : Nat → Nat → Option (Int × Option Nat)
  | 0, _ => some (-1, none)
  | remaining + 1, i =>
    match entries[i]? with
    | none => none
    | some entry =>
      if entry.key ≠ Value.undefined then some ((i : Int) + 1, some i)
      else getNextLoop entries remaining (i + 1)

/-- The function `closeTableGetNext`: the returned index and the index of the entry
stored in `*valueEntry`. -/
def closeTableGetNext (table : CloseTable) (start : Int) : Option (Int × Option Nat) :=
  if start < 0 then some (-1, none)
  else getNextLoop table.entries (table.entriesCount - start.toNat) start.toNat

/-- The statements that fill the entry at `idx` and link it in front of the chain of
`bucket`: `e->key = key; e->value = value; e->next = entries[bucket].chain;
entries[bucket].chain = idx`, as in `closeTableSet` and in the loop of `rehash`. -/
def linkEntry (entries : List TableEntry) (idx : Nat) (key value : Value) (bucket : Nat) :
    Option (List TableEntry) :=
  match entries[idx]?, entries[bucket]? with
  | some e, some b =>
    let entries1 := entries.set idx { e with key := key, value := value, next := b.chain }
    match entries1[bucket]? with
    | some b1 => some (entries1.set bucket { b1 with chain := (idx : Int) })
    | none => none
  | _, _ => none

/-- The copying loop of `rehash`: `i` is the index of `p` in the old entries,
`remaining` is `entriesCount - i`, and `q` is the next free index of `newEntries`. -/
def rehashLoop (ops : KeyOps) (newSize : Nat) (oldEntries : List TableEntry) :
    Nat → Nat → Nat → List TableEntry → Option (List TableEntry)
  | 0, _, _, newEntries => some newEntries
  | remaining + 1, i, q, newEntries =>
    match oldEntries[i]? with
    | none => none
    | some p =>
      if p.key ≠ Value.undefined then
        match linkEntry newEntries q p.key p.value
            (bucketOf (ops.hashValue p.key) newSize) with
        | none => none
        | some newEntries1 => rehashLoop ops newSize oldEntries remaining (i + 1) (q + 1) newEntries1
      else rehashLoop ops newSize oldEntries remaining (i + 1) q newEntries

/-- The function `rehash`. The branch `newSize == table->tableSize` of the source is
empty (`// TODO: implement`). -/
def rehash (ops : KeyOps) (table : CloseTable) (newSize : Nat) : Option CloseTable :=
  let newSize := if newSize = 0 then 8 else newSize
  if newSize = table.tableSize then some table
  else
    match rehashLoop ops newSize table.entries table.entriesCount 0 0
        (List.replicate newSize { ops.uninit with chain := -1 }) with
    | none => none
    | some newEntries =>
      some { table with entries := newEntries, tableSize := newSize,
                        entriesCount := table.count }

/-- The function `closeTableSet`; the test `count >= tableSize * 0.75` is exact in
double arithmetic and is written `4 * count ≥ 3 * tableSize`. -/
def closeTableSet (ops : KeyOps) (table : CloseTable) (key value : Value) :
    Option (CloseTable × Bool) :=
  let keyHash := ops.hashValue key
  match (if table.count > 0 then lookup ops table key keyHash else some none) with
  | none => none
  | some (some i) =>
    match table.entries[i]? with
    | none => none
    | some e =>
      some ({ table with entries := table.entries.set i { e with value := value } }, false)
  | some none =>
    let table1 := { table with modCount := table.modCount + 1 }
    match (if table1.entriesCount = table1.tableSize then
            rehash ops table1
              (if 4 * table1.count ≥ 3 * table1.tableSize then 2 * table1.tableSize
               else table1.tableSize)
           else some table1) with
    | none => none
    | some table2 =>
      match linkEntry table2.entries table2.entriesCount key value
          (bucketOf keyHash table2.tableSize) with
      | none => none
      | some entries =>
        some ({ table2 with entries := entries, count := table2.count + 1,
                            entriesCount := table2.entriesCount + 1 }, true)

/-- The function `closeTableDelete`. -/
def closeTableDelete (ops : KeyOps) (table : CloseTable) (key : Value) :
    Option (CloseTable × Bool) :=
  if table.count = 0 then some (table, false)
  else
    match lookup ops table key (ops.hashValue key) with
    | none => none
    | some none => some (table, false)
    | some (some i) =>
      match table.entries[i]? with
      | none => none
      | some e =>
        some ({ table with entries := table.entries.set i { e with key := Value.undefined },
                           modCount := table.modCount + 1,
                           count := table.count - 1 }, true)

/-! ### Specification-level notions for the table -/

/-- The laws assumed of the key functions: `valuesEquals` is an equivalence on values
other than `undefined`, equal keys have equal hashes, and `undefined` equals no other
value. -/
structure KeyOps.Lawful (ops : KeyOps) : Prop where
  refl : ∀ a, a ≠ Value.undefined → ops.valuesEquals a a = true
  symm : ∀ a b, ops.valuesEquals a b = true → ops.valuesEquals b a = true
  trans : ∀ a b c, ops.valuesEquals a b = true → ops.valuesEquals b c = true →
    ops.valuesEquals a c = true
  hash_eq : ∀ a b, ops.valuesEquals a b = true → ops.hashValue a = ops.hashValue b
  undef : ∀ a, a ≠ Value.undefined → ops.valuesEquals Value.undefined a = false

/-- `InChain entries idx j`: the index `j` is met when the links `next` are followed
from the index `idx`. -/
inductive InChain (entries : List TableEntry) : Int → Nat → Prop where
  | here (j : Nat) : InChain entries (j : Int) j
  | step (i j : Nat) (e : TableEntry) :
      entries[i]? = some e → InChain entries e.next j → InChain entries (i : Int) j

/-- The key and value of the entry at index `j`, when it is live. -/
def cell (entries : List TableEntry) (j : Nat) : Option (Value × Value) :=
  match entries[j]? with
  | none => none
  | some e => if e.key = Value.undefined then none else some (e.key, e.value)

/-- The live key/value pairs at the indices `i, ..., i + r - 1`, in index order. -/
def contentsFrom (entries : List TableEntry) (i r : Nat) : List (Value × Value) :=
  (List.range' i r).filterMap (cell entries)

/-- The live key/value pairs of a table, in index order. -/
def contents (table : CloseTable) : List (Value × Value) :=
  contentsFrom table.entries 0 table.entriesCount

/-- The chain structure of the first `n` entries: heads and links are `-1` or point
below `n`, links strictly decrease, every live entry is on the chain of the bucket of
its key, and every entry on the chain of a bucket is a tombstone or has a key of that
bucket. -/
structure Chained (ops : KeyOps) (entries : List TableEntry) (n : Nat) : Prop where
  le : n ≤ entries.length
  head : ∀ (b : Nat) (e : TableEntry), entries[b]? = some e → -1 ≤ e.chain ∧ e.chain < n
  next : ∀ (j : Nat) (e : TableEntry), j < n → entries[j]? = some e → -1 ≤ e.next ∧ e.next < j
  complete : ∀ (j : Nat) (e : TableEntry), j < n → entries[j]? = some e → e.key ≠ Value.undefined →
    ∃ b, entries[bucketOf (ops.hashValue e.key) entries.length]? = some b ∧
      InChain entries b.chain j
  sound : ∀ (b : Nat) (be : TableEntry) (j : Nat) (e : TableEntry), entries[b]? = some be → InChain entries be.chain j →
    entries[j]? = some e →
    e.key = Value.undefined ∨ bucketOf (ops.hashValue e.key) entries.length = b

/-- Well-formed tables: the array has `tableSize` entries, the chains are well formed,
live keys are pairwise unequal and `count` is the number of live entries. -/
structure WF (ops : KeyOps) (table : CloseTable) : Prop where
  size : table.entries.length = table.tableSize
  chained : Chained ops table.entries table.entriesCount
  uniq : (contents table).Pairwise (fun p q => ops.valuesEquals p.1 q.1 = false)
  cnt : table.count = (contents table).length

/-- Lookup in an association list. -/
def alookup (ops : KeyOps) (l : List (Value × Value)) (k : Value) : Option Value :=
  (l.find? (fun p => ops.valuesEquals p.1 k)).map (fun p => p.2)

/-- Insert into an association list: overwrite the value of an equal key in place, or
append at the end. -/
def aset (ops : KeyOps) (l : List (Value × Value)) (k v : Value) : List (Value × Value) :=
  if l.any (fun p => ops.valuesEquals p.1 k) then
    l.map (fun p => if ops.valuesEquals p.1 k then (p.1, v) else p)
  else l ++ [(k, v)]

/-- Delete from an association list. -/
def adelete (ops : KeyOps) (l : List (Value × Value)) (k : Value) : List (Value × Value) :=
  l.filter (fun p => !ops.valuesEquals p.1 k)

/-- An operation on a table. -/
inductive Op where
  | set (k v : Value) : Op
  | delete (k : Value) : Op
deriving DecidableEq, Repr

/-- Apply a sequence of `closeTableSet` and `closeTableDelete` calls. -/
def runOps (ops : KeyOps) : List Op → CloseTable → Option CloseTable
  | [], t => some t
  | Op.set k v :: r, t =>
    match closeTableSet ops t k v with
    | none => none
    | some (t1, _) => runOps ops r t1
  | Op.delete k :: r, t =>
    match closeTableDelete ops t k with
    | none => none
    | some (t1, _) => runOps ops r t1

/-- The iteration protocol over `closeTableGetNext`: start at `start`, collect the key
and value of each entry returned, continue from the returned index, stop at `-1`. -/
def iterate (table : CloseTable) : Nat → Int → Option (List (Value × Value))
  | 0, _ => none
  | fuel + 1, start =>
    match closeTableGetNext table start with
    | none => none
    | some (next, entry) =>
      if next < 0 then some []
      else
        match entry with
        | none => none
        | some i =>
          match table.entries[i]? with
          | none => none
          | some e => (iterate table fuel next).map (fun l => (e.key, e.value) :: l)

/-- The key of a `set` operation is not the `undefined` mark. -/
def Op.keyDefined : Op → Prop
  | Op.set k _ => k ≠ Value.undefined
  | Op.delete _ => True

/-- The effect of an operation on the list of live pairs. -/
def Op.apply (ops : KeyOps) (l : List (Value × Value)) : Op → List (Value × Value)
  | Op.set k v => aset ops l k v
  | Op.delete k => adelete ops l k

/-- A concrete instance of the key functions: a number hashes to its bit pattern, every
other value to 0, and `valuesEquals` is equality of values. -/
def demoOps : KeyOps :=
  { hashValue := fun v => match v with
      | Value.number n => n
      | _ => 0,
    valuesEquals := fun a b => decide (a = b),
    uninit := { key := Value.nil, value := Value.nil, next := 0, chain := 0 } }

/-- The operation that stores `100 + j` under the key `j`. -/
def ins (j : Nat) : Op := Op.set (Value.number j) (Value.number (100 + j))

/-- The operation that deletes the key `j`. -/
def del (j : Nat) : Op := Op.delete (Value.number j)

/-- The table of size 8 reached from the empty table by `ins 0, ..., ins (n - 1)` followed
by `del 0, ..., del (d - 1)`, for `1 ≤ n ≤ 8` and `d ≤ n`. -/
def demoTable (n d : Nat) : CloseTable :=
  { entries := (List.range 8).map (fun j =>
      if j < n then
        { key := if j < d then Value.undefined else Value.number j,
          value := Value.number (100 + j), next := -1, chain := (j : Int) }
      else { demoOps.uninit with chain := -1 }),
    tableSize := 8, entriesCount := n, count := n - d, modCount := n + d }

/-- Eight inserts fill the table, three deletes leave five live entries among eight
slots, and the last insert meets a full entries array that is less than three quarters
live. -/
def failingOps : List Op :=
  [ins 0, ins 1, ins 2, ins 3, ins 4, ins 5, ins 6, ins 7, del 0, del 1, del 2, ins 8]

/-- The deterministic-table invariant in the words of the specification: the live count
is at most `entriesCount`, `entriesCount` is at most `tableSize`, and every index linked
from the chain of a bucket `b` is in bounds and refers to an entry whose key hashes to
`b`. -/
def SpecInv (ops : KeyOps) (t : CloseTable) : Prop :=
  t.count ≤ t.entriesCount ∧ t.entriesCount ≤ t.tableSize ∧
  ∀ (b : Nat) (be : TableEntry) (j : Nat), b < t.tableSize → t.entries[b]? = some be →
    InChain t.entries be.chain j →
    j < t.entriesCount ∧
      ∃ e, t.entries[j]? = some e ∧ bucketOf (ops.hashValue e.key) t.tableSize = b

/-- The invariant with tombstones taken into account: an entry linked from the chain of
a bucket `b` is a tombstone or has a key that hashes to `b`. -/
def ChainInv (ops : KeyOps) (t : CloseTable) : Prop :=
  t.count ≤ t.entriesCount ∧ t.entriesCount ≤ t.tableSize ∧
  ∀ (b : Nat) (be : TableEntry) (j : Nat), b < t.tableSize → t.entries[b]? = some be →
    InChain t.entries be.chain j →
    j < t.entriesCount ∧
      ∃ e, t.entries[j]? = some e ∧
        (e.key = Value.undefined ∨ bucketOf (ops.hashValue e.key) t.tableSize = b)

/-- The table reached from the empty table by `ins 1` followed by `del 1`. -/
def tombTable : CloseTable :=
  { entries := [
      { key := Value.undefined, value := Value.number 101, next := -1, chain := -1 },
      { demoOps.uninit with chain := 0 },
      { demoOps.uninit with chain := -1 }, { demoOps.uninit with chain := -1 },
      { demoOps.uninit with chain := -1 }, { demoOps.uninit with chain := -1 },
      { demoOps.uninit with chain := -1 }, { demoOps.uninit with chain := -1 }],
    tableSize := 8, entriesCount := 1, count := 0, modCount := 2 }

/-- The tables reachable from the empty table by `closeTableSet` calls only, with keys
other than `undefined`. -/
inductive SetReach (ops : KeyOps) : CloseTable → Prop where
  | init : SetReach ops initCloseTable
  | step (t : CloseTable) (k v : Value) (t1 : CloseTable) (b : Bool) :
      SetReach ops t → k ≠ Value.undefined → closeTableSet ops t k v = some (t1, b) →
      SetReach ops t1

/-! ### Map iterators (`builtins.c`) -/

/-- The fields `current` and `modCount` of a map iterator instance; the field `map`
refers to the map, whose table is passed to the functions below. -/
structure MapIterator where
  current : Int
  modCount : Nat
deriving DecidableEq, Repr

/-- The result of a native call: a raised runtime error with its message, a returned
value, or a fault (a read through a pointer that was never set, or outside an array). -/
inductive NativeResult (α : Type) where
  | raised (message : String) : NativeResult α
  | returned (a : α) : NativeResult α
  | fault : NativeResult α
deriving DecidableEq, Repr

/-- The function `mapIterator`: `current` is 0 and `modCount` is the `modCount` of the
table of the map. -/
def mapIterator (items : CloseTable) : MapIterator :=
  { current := 0, modCount := items.modCount }

/-- The function `mapIteratorNext`: the iterator after the call and the key and value
of the tuple returned. -/
def mapIteratorNext (items : CloseTable) (it : MapIterator) :
    NativeResult (MapIterator × Value × Value) :=
  if it.modCount ≠ items.modCount then NativeResult.raised "Map modified during iteration"
  else
    match closeTableGetNext items it.current with
    | none => NativeResult.fault
    | some (nextIndex, entry) =>
      match entry with
      | none => NativeResult.fault
      | some i =>
        match items.entries[i]? with
        | none => NativeResult.fault
        | some e => NativeResult.returned ({ it with current := nextIndex }, e.key, e.value)

/-- A mutation of a map: `Op.set` is `mapPut` / `INDEX_STORE` / `MAP_SET` (a call of
`closeTableSet`), `Op.delete` is `mapRemove` (a call of `closeTableDelete`). The flag
returned is the result of the table function: a new key was inserted, respectively a
present key was removed. -/
def mutate (ops : KeyOps) (items : CloseTable) : Op → Option (CloseTable × Bool)
  | Op.set k v => closeTableSet ops items k v
  | Op.delete k => closeTableDelete ops items k

/-- A sequence of mutations of a map, with the flag of each. -/
def mutateAll (ops : KeyOps) : List Op → CloseTable → Option (CloseTable × List Bool)
  | [], items => some (items, [])
  | o :: r, items =>
    match mutate ops items o with
    | none => none
    | some (items1, b) =>
      match mutateAll ops r items1 with
      | none => none
      | some (items2, bs) => some (items2, b :: bs)

/-- The table `demoTable 1 0` after the value 7 was stored under its key 0. -/
def overwrittenTable : CloseTable :=
  { entries := (demoTable 1 0).entries.set 0
      { key := Value.number 0, value := Value.number 7, next := -1, chain := 0 },
    tableSize := 8, entriesCount := 1, count := 1, modCount := 1 }

/-! ### Classes and `instanceOf` (`vm.c`, `builtins.c`) -/

/-- The fields `baseId`, `classId` and `super` of `ObjClass`; `super` is the index of
the superclass in the list of classes, `none` for nil. The ids are natural numbers: the
products are taken without overflow. -/
structure ObjClass where
  baseId : Nat
  classId : Nat
  super : Option Nat
deriving DecidableEq, Repr

/-- Modelled from the spec: the elox function `newClass` (not among the sources), as
far as the ids go. The class receives its `baseId`, a prime taken from the prime
generator of the VM, and has no superclass; its `classId` is its `baseId`, as
`registerStaticClass` sets it for a class without superclass. -/
def newClass (baseId : Nat) : ObjClass :=
  { baseId := baseId, classId := baseId, super := none }

/-- The function `inherit`, as far as the ids go: `subclass->classId = subclass->baseId *
superclass->classId` and `subclass->super = superclassVal`. The result is `none` when
the superclass value is not a class (runtime error "Superclass must be a class"). -/
def inherit (classes : List ObjClass) (sub sup : Nat) : Option (List ObjClass) :=
  match classes[sup]?, classes[sub]? with
  | some superclass, some subclass =>
    some (classes.set sub
      { baseId := subclass.baseId, classId := subclass.baseId * superclass.classId,
        super := some sup })
  | _, _ => none

/-- A class declaration `class X` or `class X : Y`: the opcode `CLASS` followed, when a
superclass is given, by `INHERIT` on the new class. -/
def declareClass (classes : List ObjClass) (baseId : Nat) (sup : Option Nat) :
    Option (List ObjClass) :=
  match sup with
  | none => some (classes ++ [newClass baseId])
  | some s => inherit (classes ++ [newClass baseId]) classes.length s

/-- The function `instanceOf`. -/
def instanceOf (clazz instanceClass : ObjClass) : Bool :=
  instanceClass.classId % clazz.classId == 0

/-- The class hierarchies built by class declarations, each class with a prime
`baseId` that no other class has and with a superclass, if any, declared before it. -/
inductive Built : List ObjClass → Prop where
  | empty : Built []
  | declare (classes classes1 : List ObjClass) (baseId : Nat) (sup : Option Nat) :
      Built classes → Nat.Prime baseId → (∀ c, c ∈ classes → c.baseId ≠ baseId) →
      (∀ s, sup = some s → s < classes.length) →
      declareClass classes baseId sup = some classes1 → Built classes1

/-- `onChain classes fuel k c`: the class of index `k` is the class of index `c` or is
met on its chain of superclasses. -/
def onChain (classes : List ObjClass) : Nat → Nat → Nat → Bool
  | 0, _, _ => false
  | fuel + 1, k, c =>
    if c = k then true
    else
      match classes[c]? with
      | none => false
      | some cl =>
        match cl.super with
        | none => false
        | some s => onChain classes fuel k s

/-- The facts about a class hierarchy that class declarations keep: a superclass was
declared before its subclass, every `baseId` is a prime that no other class has, and
the `classId` of a class is its `baseId`, multiplied by the `classId` of its superclass
when it has one. -/
structure Hier (classes : List ObjClass) : Prop where
  below : ∀ (c : Nat) (cl : ObjClass) (s : Nat), classes[c]? = some cl → cl.super = some s →
    s < c
  prime : ∀ (c : Nat) (cl : ObjClass), classes[c]? = some cl → Nat.Prime cl.baseId
  distinct : ∀ (i j : Nat) (ci cj : ObjClass), classes[i]? = some ci → classes[j]? = some cj →
    ci.baseId = cj.baseId → i = j
  root : ∀ (c : Nat) (cl : ObjClass), classes[c]? = some cl → cl.super = none →
    cl.classId = cl.baseId
  sub : ∀ (c : Nat) (cl : ObjClass) (s : Nat), classes[c]? = some cl → cl.super = some s →
    ∃ sc, classes[s]? = some sc ∧ cl.classId = cl.baseId * sc.classId

/-- The hierarchy after `class A`, `class B : A`, `class C` with the primes 2, 3, 5. -/
def demoClasses : List ObjClass :=
  [{ baseId := 2, classId := 2, super := none }, { baseId := 3, classId := 6, super := some 0 },
   { baseId := 5, classId := 5, super := none }]

/-! ### Call frames: `adjustArgs` and `setupStackFrame` (`vm.c`) -/

/-- The function `push`; a stack is the list of the values below `stackTop`, the bottom
first. -/
def push (stack : List Value) (value : Value) : List Value :=
  stack ++ [value]

/-- The function `popn`; its parameter is a `uint8_t`, so a count is taken modulo 256.
Lowering `stackTop` below the bottom of the stack has no meaning in C; the model stops
at the empty stack. -/
def popn (stack : List Value) (n : Nat) : List Value :=
  stack.take (stack.length - n % 256)

/-- The loop `for (i = 0; i < *missingArgs; i++) { push(vm, NIL_VAL); stackArgs++; }`. -/
def pushMissing : Nat → List Value → Nat → List Value × Nat
  | 0, stack, stackArgs => (stack, stackArgs)
  | n + 1, stack, stackArgs => pushMissing n (push stack Value.nil) (stackArgs + 1)

/-- The function `adjustArgs`: the stack, the result `stackArgs` and `*missingArgs`
(which the caller initialises to 0). -/
def adjustArgs (stack : List Value) (argCount arity maxArgs : Nat) : List Value × Nat × Nat :=
  if argCount ≠ arity then
    if argCount < arity then
      let missingArgs := arity - argCount
      let r := pushMissing missingArgs stack argCount
      (r.1, r.2, missingArgs)
    else if argCount > maxArgs then
      let extraArgs := argCount - maxArgs
      (popn stack extraArgs, argCount - extraArgs, 0)
    else (stack, argCount, 0)
  else (stack, argCount, 0)

/-- The fields of `CallFrame` set by `setupStackFrame`; `slots` is the index of the
slot `frame->slots` points to. -/
structure CallFrame where
  slots : Int
  fixedArgs : Nat
  varArgs : Int
deriving DecidableEq, Repr

/-- The function `setupStackFrame`: the stack, the frame and the result `stackArgs`. -/
def setupStackFrame (stack : List Value) (argCount arity maxArgs : Nat) :
    List Value × CallFrame × Nat :=
  let r := adjustArgs stack argCount arity maxArgs
  (r.1,
   { slots := (r.1.length : Int) - (r.2.1 : Int) - 1, fixedArgs := arity,
     varArgs := (argCount : Int) + (r.2.2 : Int) - (arity : Int) },
   r.2.1)

/-! ### The opcode `UNPACK` (`vm.c`) -/

/-- An upvalue of the closure of the frame: its `location` is a stack slot while it is
open and its own cell once it is closed. -/
inductive ObjUpvalue where
  | opened (stackIndex : Nat) : ObjUpvalue
  | closed (value : Value) : ObjUpvalue
deriving DecidableEq, Repr

/-- An assignment `a[i] = v`; `none` when `i` is outside the array. -/
def storeAt {α : Type} (a : List α) (i : Nat) (v : α) : Option (List α) :=
  if i < a.length then some (a.set i v) else none

/-- What the arithmetic opcodes use from outside the model: `IS_STRING`, the string that
`concatenate` builds from two strings, and the operations on doubles, which act on the
bit patterns carried by `Value.number`. -/
structure ArithOps where
  isString : Value → Bool
  concat : Value → Value → Value
  add : Nat → Nat → Nat
  sub : Nat → Nat → Nat
  mul : Nat → Nat → Nat
  div : Nat → Nat → Nat
  fmod : Nat → Nat → Nat

/-- The macro `IS_NUMBER`. -/
def isNumber : Value → Bool
  | Value.number _ => true
  | _ => false

/-- The macro `AS_NUMBER`, on a value that is a number. -/
def asNumber : Value → Nat
  | Value.number bits => bits
  | _ => 0

/-- The function `peek`: the value `distance` below the top of the stack; `none` below
the bottom. -/
def peek (stack : List Value) (distance : Nat) : Option Value :=
  if distance < stack.length then stack[stack.length - 1 - distance]? else none

/-- The function `pop`, as far as the stack goes; the value it returns is `peek stack 0`. -/
def pop (stack : List Value) : List Value :=
  stack.dropLast

/-- The macro `BINARY_OP(NUMBER_VAL, op)`, used by `SUBTRACT`, `MULTIPLY` and `DIVIDE`;
`MODULO` has the same text with `fmod(a, b)`. -/
def binaryOp (op : Nat → Nat → Nat) (stack : List Value) : NativeResult (List Value) :=
  match peek stack 0, peek stack 1 with
  | some b, some a =>
    if !isNumber b || !isNumber a then NativeResult.raised "Operands must be numbers"
    else
      NativeResult.returned
        (push (pop (pop stack)) (Value.number (op (asNumber a) (asNumber b))))
  | _, _ => NativeResult.fault

/-- The opcode `ADD`. -/
def opAdd (ar : ArithOps) (stack : List Value) : NativeResult (List Value) :=
  match peek stack 0, peek stack 1 with
  | some b, some a =>
    if ar.isString b && ar.isString a then
      NativeResult.returned (push (popn stack 2) (ar.concat a b))
    else if isNumber b && isNumber a then
      NativeResult.returned
        (push (pop (pop stack)) (Value.number (ar.add (asNumber a) (asNumber b))))
    else NativeResult.raised "Operands must be two numbers or two strings"
  | _, _ => NativeResult.fault

/-- The opcode `SUBTRACT`. -/
def opSubtract (ar : ArithOps) (stack : List Value) : NativeResult (List Value) :=
  binaryOp ar.sub stack

/-- The opcode `MULTIPLY`. -/
def opMultiply (ar : ArithOps) (stack : List Value) : NativeResult (List Value) :=
  binaryOp ar.mul stack

/-- The opcode `DIVIDE`. -/
def opDivide (ar : ArithOps) (stack : List Value) : NativeResult (List Value) :=
  binaryOp ar.div stack

/-- The opcode `MODULO`. -/
def opModulo (ar : ArithOps) (stack : List Value) : NativeResult (List Value) :=
  binaryOp ar.fmod stack

/-- An instance of `ArithOps` in which no value is a string and the operations on
bit patterns are those on natural numbers. -/
def demoArith : ArithOps :=
  { isString := fun _ => false, concat := fun a _ => a,
    add := fun a b => a + b, sub := fun a b => a - b, mul := fun a b => a * b,
    div := fun a b => a / b, fmod := fun a b => a % b }

/-! ### Upvalues, frames and exception unwinding (`vm.c`) -/

/-- A `TryBlock` of a frame. -/
structure TryBlock where
  handlerTableOffset : Nat
  stackOffset : Nat
deriving DecidableEq, Repr

/-- The enumeration `VarType`. -/
inductive VarType where
  | varLocal : VarType
  | varUpvalue : VarType
  | varGlobal : VarType
deriving DecidableEq, Repr

/-- A record of a handler table, as decoded from its five bytes: the storage class and
handle of the variable that holds the exception class, and the handler address. -/
structure HandlerRecord where
  typeVarType : VarType
  typeHandle : Nat
  handlerAddress : Nat
deriving DecidableEq, Repr

/-- The fields of a `CallFrame` that exception handling, `RETURN` and the upvalue
opcodes use: `function` names the function of the frame, `upvalues` are the upvalues of
its closure (indices into the upvalue objects of the VM), `handlerStack` is the array of
try blocks. -/
structure Frame where
  function : Nat
  ip : Nat
  slots : Nat
  upvalues : List Nat
  handlerStack : List TryBlock
  handlerCount : Nat
deriving DecidableEq, Repr

/-- The part of the `VM` used by the upvalue and exception code: `stack` is the whole
stack array and `stackTop` the index of the first free slot; `frames` are the frames
`0 .. frameCount - 1`; `upvalueObjs` are the upvalue objects, an upvalue being named by
its index; `openUpvalues` is the list `vm->openUpvalues`, linked by `next`. -/
structure VM where
  stack : List Value
  stackTop : Nat
  frames : List Frame
  upvalueObjs : List ObjUpvalue
  openUpvalues : List Nat
  globalValues : List Value
deriving DecidableEq, Repr

/-- The loop of `closeUpvalues(last)` over the open list; `none` when an upvalue of the
list is missing, is not open, or points outside the stack array. -/
def closeLoop (stack : List Value) (last : Nat) :
    List Nat → List ObjUpvalue → Option (List Nat × List ObjUpvalue)
  | [], objs => some ([], objs)
  | u :: rest, objs =>
    match objs[u]? with
    | some (ObjUpvalue.opened location) =>
      if location ≥ last then
        match stack[location]? with
        | some v => closeLoop stack last rest (objs.set u (ObjUpvalue.closed v))
        | none => none
      else some (u :: rest, objs)
    | _ => none

/-- The function `closeUpvalues`. -/
def closeUpvalues (vm : VM) (last : Nat) : Option VM :=
  match closeLoop vm.stack last vm.openUpvalues vm.upvalueObjs with
  | none => none
  | some (opened, objs) => some { vm with openUpvalues := opened, upvalueObjs := objs }

/-- The loop `while (upvalue != NULL && upvalue->location > local)` of `captureUpvalue`:
the upvalues passed and the rest of the list, which starts at `upvalue`. -/
def captureWalk (objs : List ObjUpvalue) (slot : Nat) :
    List Nat → Option (List Nat × List Nat)
  | [] => some ([], [])
  | u :: rest =>
    match objs[u]? with
    | some (ObjUpvalue.opened location) =>
      if location > slot then
        match captureWalk objs slot rest with
        | none => none
        | some (passed, r) => some (u :: passed, r)
      else some ([], u :: rest)
    | _ => none

/-- The function `captureUpvalue` for the stack slot `slot`: the VM and the upvalue
returned. A new upvalue object is the next index of `upvalueObjs`. -/
def captureUpvalue (vm : VM) (slot : Nat) : Option (VM × Nat) :=
  match captureWalk vm.upvalueObjs slot vm.openUpvalues with
  | none => none
  | some (passed, rest) =>
    let found :=
      match rest with
      | [] => none
      | u :: _ => if vm.upvalueObjs[u]? = some (ObjUpvalue.opened slot) then some u else none
    match found with
    | some u => some (vm, u)
    | none =>
      let created := vm.upvalueObjs.length
      some ({ vm with upvalueObjs := vm.upvalueObjs ++ [ObjUpvalue.opened slot],
                      openUpvalues := passed ++ created :: rest }, created)

/-- The value `*upvalue->location`. -/
def readUpvalue (vm : VM) (u : Nat) : Option Value :=
  match vm.upvalueObjs[u]? with
  | some (ObjUpvalue.opened location) => vm.stack[location]?
  | some (ObjUpvalue.closed v) => some v
  | none => none

/-- The assignment `*upvalue->location = value`. -/
def writeUpvalue (vm : VM) (u : Nat) (value : Value) : Option VM :=
  match vm.upvalueObjs[u]? with
  | some (ObjUpvalue.opened location) =>
    (storeAt vm.stack location value).map (fun s => { vm with stack := s })
  | some (ObjUpvalue.closed _) =>
    some { vm with upvalueObjs := vm.upvalueObjs.set u (ObjUpvalue.closed value) }
  | none => none

/-- The function `push` on the stack array. -/
def vmPush (vm : VM) (value : Value) : Option VM :=
  (storeAt vm.stack vm.stackTop value).map
    (fun s => { vm with stack := s, stackTop := vm.stackTop + 1 })

/-- The function `peek` on the stack array. -/
def vmPeek (vm : VM) (distance : Nat) : Option Value :=
  if distance < vm.stackTop then vm.stack[vm.stackTop - 1 - distance]? else none

/-- The opcode `GET_UPVALUE slot` in a frame whose closure has the upvalues
`upvalues`. -/
def opGetUpvalue (vm : VM) (upvalues : List Nat) (slot : Nat) : Option VM :=
  match upvalues[slot]? with
  | none => none
  | some u =>
    match readUpvalue vm u with
    | none => none
    | some v => vmPush vm v

/-- The opcode `SET_UPVALUE slot`. -/
def opSetUpvalue (vm : VM) (upvalues : List Nat) (slot : Nat) : Option VM :=
  match upvalues[slot]?, vmPeek vm 0 with
  | some u, some v => writeUpvalue vm u v
  | _, _ => none

/-- The opcode `GET_LOCAL slot postArgs` in a frame with base `slots` and `varArgs`. -/
def opGetLocal (vm : VM) (slots varArgs slot postArgs : Nat) : Option VM :=
  match vm.stack[slots + (slot + postArgs * varArgs)]? with
  | none => none
  | some v => vmPush vm v

/-- The loop of `CLOSURE` over the capture records `(isLocal, index)`: the upvalues of
the new closure, in order. -/
def closureLoop (frame : Frame) : List (Bool × Nat) → VM → Option (VM × List Nat)
  | [], vm => some (vm, [])
  | (isLocal, index) :: rest, vm =>
    if isLocal then
      match captureUpvalue vm (frame.slots + index) with
      | none => none
      | some (vm1, u) =>
        match closureLoop frame rest vm1 with
        | none => none
        | some (vm2, us) => some (vm2, u :: us)
    else
      match frame.upvalues[index]? with
      | none => none
      | some u =>
        match closureLoop frame rest vm with
        | none => none
        | some (vm2, us) => some (vm2, u :: us)

/-- The opcode `CLOSURE`: the closure value `closure` is pushed and its upvalues are
filled in; the result holds the upvalues of the new closure. -/
def opClosure (vm : VM) (frame : Frame) (closure : Value) (captures : List (Bool × Nat)) :
    Option (VM × List Nat) :=
  match vmPush vm closure with
  | none => none
  | some vm1 => closureLoop frame captures vm1

/-- The opcode `CLOSE_UPVALUE`. -/
def opCloseUpvalue (vm : VM) : Option VM :=
  if vm.stackTop = 0 then none
  else
    match closeUpvalues vm (vm.stackTop - 1) with
    | none => none
    | some vm1 => some { vm1 with stackTop := vm1.stackTop - 1 }

/-- The opcode `RETURN`, up to the test `frameCount == exitFrame`. -/
def opReturn (vm : VM) : Option VM :=
  match vm.frames.getLast?, vmPeek vm 0 with
  | some frame, some result =>
    match closeUpvalues vm frame.slots with
    | none => none
    | some vm1 =>
      vmPush { vm1 with frames := vm1.frames.dropLast, stackTop := frame.slots } result
  | _, _ => none

/-- Every open upvalue points to a stack slot strictly below the stack top. -/
def OpenBelowTop (vm : VM) : Prop :=
  ∀ (u location : Nat), u ∈ vm.openUpvalues →
    vm.upvalueObjs[u]? = some (ObjUpvalue.opened location) → location < vm.stackTop

/-- The slot an open upvalue points to. -/
def slotOf (objs : List ObjUpvalue) (u : Nat) : Option Nat :=
  match objs[u]? with
  | some (ObjUpvalue.opened location) => some location
  | _ => none

/-- The open list is well formed: each upvalue of the list is open and points into the
stack array, and the slots strictly descend along the list. -/
def OpenSorted (stack : List Value) (objs : List ObjUpvalue) (opened : List Nat) : Prop :=
  (∀ u, u ∈ opened → ∃ location, objs[u]? = some (ObjUpvalue.opened location) ∧
    location < stack.length) ∧
  opened.Pairwise (fun u w => ∀ a b, slotOf objs u = some a → slotOf objs w = some b → b < a)

/-- The upvalues of an open list that point below `last`. -/
def belowLast (objs : List ObjUpvalue) (last : Nat) (u : Nat) : Bool :=
  match slotOf objs u with
  | some location => decide (location < last)
  | none => false

/-- The outcome of the inspection of one handler record by `propagateException`: the
record catches (with its handler address), it does not match, the process is ended by
`runtimeError` (which is called while an exception is being handled), or the code
reads outside an array or takes a value that is not a class for a class. -/
inductive RecordOutcome where
  | matched (handlerAddress : Nat) : RecordOutcome
  | skipped : RecordOutcome
  | aborted (message : String) : RecordOutcome
  | fault : RecordOutcome
deriving DecidableEq, Repr

/-- The result of `propagateException`: true with the VM after the catch, false with
the VM after all frames down to `exitFrame` were discarded, the end of the process, or
a fault. -/
inductive Propagated where
  | caught (vm : VM) : Propagated
  | unhandled (vm : VM) : Propagated
  | aborted (message : String) : Propagated
  | fault : Propagated
deriving DecidableEq, Repr

/-- The `switch (typeVarType)` of `propagateException`: the value `classVal`. -/
def readClassVal (vm : VM) (frame : Frame) (record : HandlerRecord) : Option Value :=
  match record.typeVarType with
  | VarType.varLocal => vm.stack[frame.slots + record.typeHandle]?
  | VarType.varUpvalue =>
    match frame.upvalues[record.typeHandle]? with
    | none => none
    | some u => readUpvalue vm u
  | VarType.varGlobal => vm.globalValues[record.typeHandle]?

/-- The body of the loop over the handler records, for one record. `asClass` gives the
class object of a value that is a class (`IS_CLASS`, `AS_CLASS`) and `exceptionClass` is
`exception->clazz`. -/
def inspectRecord (asClass : Value → Option ObjClass) (exceptionClass : ObjClass) (vm : VM)
    (frame : Frame) (record : HandlerRecord) : RecordOutcome :=
  match readClassVal vm frame record with
  | none => RecordOutcome.fault
  | some classVal =>
    if record.typeVarType = VarType.varGlobal ∧ classVal = Value.undefined then
      RecordOutcome.aborted "Undefined global variable"
    else if record.typeVarType = VarType.varGlobal ∧ asClass classVal = none then
      RecordOutcome.aborted "Not a type to catch"
    else
      match asClass classVal with
      | none => RecordOutcome.fault
      | some handlerClass =>
        if instanceOf handlerClass exceptionClass = true then
          RecordOutcome.matched record.handlerAddress
        else RecordOutcome.skipped

/-- The loop `for (i = 0; i < numHandlers; i++)` over the records of one handler
table. -/
def scanRecords (asClass : Value → Option ObjClass) (exceptionClass : ObjClass) (vm : VM)
    (frame : Frame) : List HandlerRecord → RecordOutcome
  | [] => RecordOutcome.skipped
  | record :: rest =>
    match inspectRecord asClass exceptionClass vm frame record with
    | RecordOutcome.skipped => scanRecords asClass exceptionClass vm frame rest
    | outcome => outcome

/-- The statements of a catch: `frame->ip` is the handler address, the exception is
popped, `stackTop` is `frame->slots + tryBlock->stackOffset`, the exception is pushed.
The frames above the frame `index` were discarded by the enclosing loop. -/
def catchAt (vm : VM) (index : Nat) (frame : Frame) (tryBlock : TryBlock)
    (handlerAddress : Nat) : Option VM :=
  match vmPeek vm 0 with
  | none => none
  | some exception =>
    vmPush { vm with frames := vm.frames.take index ++ [{ frame with ip := handlerAddress }],
                     stackTop := frame.slots + tryBlock.stackOffset } exception

/-- The loop `for (handlerStack = frame->handlerCount; handlerStack > 0; handlerStack--)`
over the try blocks of the frame `index`; `tables` gives the decoded handler table of a
function at an offset of its code. The result `none` means that no record of the frame
matched. -/
def scanTryBlocks (tables : Nat → Nat → List HandlerRecord) (asClass : Value → Option ObjClass)
    (exceptionClass : ObjClass) (vm : VM) (index : Nat) (frame : Frame) :
    Nat → Option Propagated
  | 0 => none
  | handlerStack + 1 =>
    match frame.handlerStack[handlerStack]? with
    | none => some Propagated.fault
    | some tryBlock =>
      match scanRecords asClass exceptionClass vm frame
          (tables frame.function tryBlock.handlerTableOffset) with
      | RecordOutcome.matched handlerAddress =>
        match catchAt vm index frame tryBlock handlerAddress with
        | none => some Propagated.fault
        | some vm1 => some (Propagated.caught vm1)
      | RecordOutcome.aborted message => some (Propagated.aborted message)
      | RecordOutcome.fault => some Propagated.fault
      | RecordOutcome.skipped =>
        scanTryBlocks tables asClass exceptionClass vm index frame handlerStack

/-- The loop `while (vm->frameCount > exitFrame)` of `propagateException`, `count`
being `frameCount`. -/
def propagateLoop (tables : Nat → Nat → List HandlerRecord) (asClass : Value → Option ObjClass)
    (exceptionClass : ObjClass) (exitFrame : Nat) (vm : VM) : Nat → Propagated
  | 0 => Propagated.unhandled { vm with frames := vm.frames.take 0 }
  | count + 1 =>
    if count + 1 > exitFrame then
      match vm.frames[count]? with
      | none => Propagated.fault
      | some frame =>
        match scanTryBlocks tables asClass exceptionClass vm count frame frame.handlerCount with
        | some result => result
        | none => propagateLoop tables asClass exceptionClass exitFrame vm count
    else Propagated.unhandled { vm with frames := vm.frames.take (count + 1) }

/-- The function `propagateException`. -/
def propagateException (tables : Nat → Nat → List HandlerRecord)
    (asClass : Value → Option ObjClass) (exceptionClass : ObjClass) (vm : VM)
    (exitFrame : Nat) : Propagated :=
  propagateLoop tables asClass exceptionClass exitFrame vm vm.frames.length

/-- The path of `THROW` after `propagateException` returned false: the call stack is
unrolled to `exitFrame` and the exception is the one value above the slot of the frame
that was entered there. -/
def unrollTo (vm : VM) (exitFrame : Nat) (exception : Value) : Option VM :=
  match vm.frames[exitFrame]? with
  | none => none
  | some retFrame =>
    vmPush { vm with frames := vm.frames.take exitFrame, stackTop := retFrame.slots + 1 }
      exception

/-- A VM with four values on the stack and two open upvalues, on the slots 3 and 1. -/
def demoUpvalueVM : VM :=
  { stack := [Value.number 10, Value.number 11, Value.number 12, Value.number 13,
              Value.nil, Value.nil],
    stackTop := 4, frames := [],
    upvalueObjs := [ObjUpvalue.opened 3, ObjUpvalue.opened 1],
    openUpvalues := [0, 1], globalValues := [] }

/-- A frame at the base of the stack, without try blocks. -/
def demoFrame : Frame :=
  { function := 0, ip := 0, slots := 0, upvalues := [], handlerStack := [], handlerCount := 0 }

/-- The VM `demoUpvalueVM` after a `CLOSURE` that captures the local 2. -/
def demoClosureVM1 : VM :=
  { stack := [Value.number 10, Value.number 11, Value.number 12, Value.number 13,
              Value.obj 1, Value.nil],
    stackTop := 5, frames := [],
    upvalueObjs := [ObjUpvalue.opened 3, ObjUpvalue.opened 1, ObjUpvalue.opened 2],
    openUpvalues := [0, 2, 1], globalValues := [] }

/-- The VM `demoClosureVM1` after a `CLOSURE` that captures the locals 3 and 2. -/
def demoClosureVM2 : VM :=
  { stack := [Value.number 10, Value.number 11, Value.number 12, Value.number 13,
              Value.obj 1, Value.obj 2],
    stackTop := 6, frames := [],
    upvalueObjs := [ObjUpvalue.opened 3, ObjUpvalue.opened 1, ObjUpvalue.opened 2],
    openUpvalues := [0, 2, 1], globalValues := [] }

/-- A handler record together with the place where `propagateException` meets it: the
index of the frame, the frame and the try block. -/
structure Candidate where
  index : Nat
  frame : Frame
  tryBlock : TryBlock
  record : HandlerRecord
deriving DecidableEq, Repr

/-- The handler records of the frame `index`, from the try block `handlerStack - 1` down
to the try block 0, each handler table in the order of its records. -/
def tryBlockCandidates (tables : Nat → Nat → List HandlerRecord) (index : Nat) (frame : Frame) :
    Nat → List Candidate
  | 0 => []
  | handlerStack + 1 =>
    (match frame.handlerStack[handlerStack]? with
      | none => []
      | some tryBlock =>
        (tables frame.function tryBlock.handlerTableOffset).map
          (fun record => { index := index, frame := frame, tryBlock := tryBlock,
                           record := record })) ++
    tryBlockCandidates tables index frame handlerStack

/-- The handler records of the frames `count - 1` down to `exitFrame`, in the order
stated for the handler search: innermost frame first, within a frame the most recent try
block first, within a handler table the records in order. -/
def candidates (tables : Nat → Nat → List HandlerRecord) (vm : VM) (exitFrame : Nat) :
    Nat → List Candidate
  | 0 => []
  | count + 1 =>
    if count + 1 > exitFrame then
      (match vm.frames[count]? with
        | none => []
        | some frame => tryBlockCandidates tables count frame frame.handlerCount) ++
      candidates tables vm exitFrame count
    else []

/-- The first record of a list that does not merely fail to match, with its outcome. -/
def firstDecisive (asClass : Value → Option ObjClass) (exceptionClass : ObjClass) (vm : VM) :
    List Candidate → Option (Candidate × RecordOutcome)
  | [] => none
  | c :: rest =>
    match inspectRecord asClass exceptionClass vm c.frame c.record with
    | RecordOutcome.skipped => firstDecisive asClass exceptionClass vm rest
    | outcome => some (c, outcome)

/-- The effect of a decisive record: a matching record catches in its frame and try
block; a global record whose variable is undefined or is not a class ends the process
with the message of `runtimeError`. -/
def settle (vm : VM) (c : Candidate) : RecordOutcome → Propagated
  | RecordOutcome.matched handlerAddress =>
    match catchAt vm c.index c.frame c.tryBlock handlerAddress with
    | none => Propagated.fault
    | some vm1 => Propagated.caught vm1
  | RecordOutcome.aborted message => Propagated.aborted message
  | _ => Propagated.fault

/-- The handler search as a statement: the records are inspected in the order of
`candidates`, and the first decisive one settles the result; when no record is decisive,
the frames down to `exitFrame` are discarded. -/
def selectHandler (tables : Nat → Nat → List HandlerRecord) (asClass : Value → Option ObjClass)
    (exceptionClass : ObjClass) (vm : VM) (exitFrame : Nat) : Propagated :=
  match firstDecisive asClass exceptionClass vm
      (candidates tables vm exitFrame vm.frames.length) with
  | none => Propagated.unhandled { vm with frames := vm.frames.take exitFrame }
  | some (c, outcome) => settle vm c outcome

/-- The values that are classes in the examples: the object 50 is the class `A` and the
object 51 the class `B : A` of `demoClasses`. -/
def demoAsClass (v : Value) : Option ObjClass :=
  if v = Value.obj 50 then some { baseId := 2, classId := 2, super := none }
  else if v = Value.obj 51 then some { baseId := 3, classId := 6, super := some 0 }
  else none

/-- The handler tables of the examples: the function 0 has at offset 0 a table with a
handler for the global 0 and at offset 8 a table with a handler for the global 1
followed by a handler for the global 0. -/
def demoTables (function offset : Nat) : List HandlerRecord :=
  if function = 0 ∧ offset = 0 then
    [{ typeVarType := VarType.varGlobal, typeHandle := 0, handlerAddress := 9 }]
  else if function = 0 ∧ offset = 8 then
    [{ typeVarType := VarType.varGlobal, typeHandle := 1, handlerAddress := 7 },
     { typeVarType := VarType.varGlobal, typeHandle := 0, handlerAddress := 9 }]
  else []

/-- The class `B : A` of `demoClasses`, the class of the exception in the examples. -/
def demoExceptionClass : ObjClass :=
  { baseId := 3, classId := 6, super := some 0 }

/-- A VM in which an exception of class `B` (the object 60, on top of the stack) is
thrown in an inner frame that has an open upvalue on its local at the stack index 5; the
outer frame has a try block, entered with one value above its base, whose handler
catches `A`. -/
def demoThrowVM : VM :=
  { stack := [Value.obj 1, Value.number 11, Value.obj 2, Value.number 13, Value.number 14,
              Value.number 15, Value.obj 60, Value.nil],
    stackTop := 7,
    frames := [{ function := 0, ip := 3, slots := 0, upvalues := [],
                 handlerStack := [{ handlerTableOffset := 0, stackOffset := 1 }],
                 handlerCount := 1 },
               { function := 1, ip := 5, slots := 3, upvalues := [], handlerStack := [],
                 handlerCount := 0 }],
    upvalueObjs := [ObjUpvalue.opened 5],
    openUpvalues := [0],
    globalValues := [Value.obj 50, Value.undefined] }

/-- The VM `demoThrowVM` after the catch in the outer frame. -/
def demoCaughtVM : VM :=
  { stack := [Value.obj 1, Value.obj 60, Value.obj 2, Value.number 13, Value.number 14,
              Value.number 15, Value.obj 60, Value.nil],
    stackTop := 2,
    frames := [{ function := 0, ip := 9, slots := 0, upvalues := [],
                 handlerStack := [{ handlerTableOffset := 0, stackOffset := 1 }],
                 handlerCount := 1 }],
    upvalueObjs := [ObjUpvalue.opened 5],
    openUpvalues := [0],
    globalValues := [Value.obj 50, Value.undefined] }

/-- The VM `demoThrowVM` after the unroll of `THROW` to the exit frame 1. -/
def demoUnrolledVM : VM :=
  { stack := [Value.obj 1, Value.number 11, Value.obj 2, Value.number 13, Value.obj 60,
              Value.number 15, Value.obj 60, Value.nil],
    stackTop := 5,
    frames := [{ function := 0, ip := 3, slots := 0, upvalues := [],
                 handlerStack := [{ handlerTableOffset := 0, stackOffset := 1 }],
                 handlerCount := 1 }],
    upvalueObjs := [ObjUpvalue.opened 5],
    openUpvalues := [0],
    globalValues := [Value.obj 50, Value.undefined] }

/-- A VM in which an exception of class `B` is thrown in a frame whose try block has a
handler for the global 1, which is undefined, before a handler for the class `A`. -/
def demoAbortVM : VM :=
  { stack := [Value.obj 1, Value.obj 60, Value.nil],
    stackTop := 2,
    frames := [{ function := 0, ip := 3, slots := 0, upvalues := [],
                 handlerStack := [{ handlerTableOffset := 8, stackOffset := 1 }],
                 handlerCount := 1 }],
    upvalueObjs := [],
    openUpvalues := [],
    globalValues := [Value.obj 50, Value.undefined] }

/-! ### Classes, instances and member references (`vm.c`) -/

/-- Modelled from the spec: the elox `Table` with `tableGet`, `tableSet` and
`tableAddAll` (`table.c` is not among the sources). A table maps interned strings to
values and holds a key at most once; keys are compared by their characters. The list
is the order in which the keys were added, and its length is the field `count` (the
class tables never lose a key). -/
abbrev Table (α : Type) := List (String × α)

/-- Modelled from the spec: `tableGet`, the value stored under a key, if any. -/
def tableGet {α : Type} : Table α → String → Option α
  | [], _ => none
  | (k, v) :: rest, key => if k = key then some v else tableGet rest key

/-- Modelled from the spec: `tableSet`, which stores the value under the key and returns
true when the key is new; `inherit` reads the result in this sense. -/
def tableSet {α : Type} : Table α → String → α → Table α × Bool
  | [], key, value => ([(key, value)], true)
  | (k, v) :: rest, key, value =>
    if k = key then ((k, value) :: rest, false)
    else ((k, v) :: (tableSet rest key value).1, (tableSet rest key value).2)

/-- Modelled from the spec: `tableAddAll(from, to)`, a `tableSet` into `to` for each
entry of `from`. -/
def tableAddAll {α : Type} : Table α → Table α → Table α
  | [], dest => dest
  | (k, v) :: rest, dest => tableAddAll rest (tableSet dest k v).1

/-- A `MemberRef`: `instField offset` has the function `getClassInstFieldRef` and the
offset of an instance field; `classMember clazz name` has the function
`getClassMemberRef` and points to the value cell of the entry `name` in the method table
of the class `clazz`; `unset` is a slot of the freshly allocated array. -/
inductive MemberRef where
  | instField (offset : Nat) : MemberRef
  | classMember (clazz : Nat) (name : String) : MemberRef
  | unset : MemberRef
deriving DecidableEq, Repr

/-- The struct `ObjClass` with its tables: the ids and `super` of `ObjClass`, the name,
the field table (name to index), the method table, the initializer and the array
`memberRefs`. The statics and the fast slots `hashCode` and `equals` are left out. -/
structure ClassObj extends ObjClass where
  name : String
  fields : Table Nat
  methods : Table Value
  initializer : Value
  memberRefs : List MemberRef
deriving DecidableEq, Repr

/-- The objects of the heap that the class opcodes use; a `Value.obj r` names the object
at the index `r`. A function has the field `parentClass`; a bound method has a receiver
and a method object. -/
inductive HeapObj where
  | clazz (c : ClassObj) : HeapObj
  | inst (clazz : Nat) (fields : List Value) : HeapObj
  | function (parentClass : Option Nat) : HeapObj
  | boundMethod (receiver : Value) (method : Nat) : HeapObj
  | other : HeapObj
deriving DecidableEq, Repr

/-- The stack (bottom first, up to `stackTop`) and the heap. -/
structure ObjVM where
  stack : List Value
  heap : List HeapObj
deriving DecidableEq, Repr

/-- The outcome of an opcode: the next state; a runtime error raised by `runtimeError`
with its message, in the state in which `runtimeError` is called (the exception object
that `runtimeError` then builds is not part of the model); or a fault (a read outside
an array, or the use of a value as an object of a kind it is not). -/
inductive OpResult (σ : Type) where
  | next (st : σ) : OpResult σ
  | threw (message : String) (st : σ) : OpResult σ
  | fault : OpResult σ
deriving DecidableEq, Repr

/-- The class a value is, `IS_CLASS` and `AS_CLASS`: its index and the class object. -/
def classAt (heap : List HeapObj) : Value → Option (Nat × ClassObj)
  | Value.obj r =>
    match heap[r]? with
    | some (HeapObj.clazz c) => some (r, c)
    | _ => none
  | _ => none

/-- The instance a value is, `IS_INSTANCE` and `AS_INSTANCE`: its index, the index of
its class and its field values. -/
def instanceAt (heap : List HeapObj) : Value → Option (Nat × Nat × List Value)
  | Value.obj r =>
    match heap[r]? with
    | some (HeapObj.inst clazz fields) => some (r, clazz, fields)
    | _ => none
  | _ => none

/-- The class object at an index of the heap. -/
def classObjAt (heap : List HeapObj) (clazz : Nat) : Option ClassObj :=
  match heap[clazz]? with
  | some (HeapObj.clazz c) => some c
  | _ => none

/-- Modelled from the spec: the elox function `newClass` (not among the sources) on the
whole class object: the class has its name and its `baseId`, no superclass, empty
tables, no initializer and no member refs; its `classId` is its `baseId`. -/
def newClassObj (name : String) (baseId : Nat) : ClassObj :=
  { toObjClass := newClass baseId, name := name, fields := [], methods := [],
    initializer := Value.nil, memberRefs := [] }

/-- The opcode `CLASS name`; `baseId` is the prime the new class receives. -/
def opClass (st : ObjVM) (name : String) (baseId : Nat) : ObjVM :=
  { stack := push st.stack (Value.obj st.heap.length),
    heap := st.heap ++ [HeapObj.clazz (newClassObj name baseId)] }

/-- The loop of `inherit` over the fields of the superclass: the field table of the
subclass, and the name of the field at which the loop stopped with the runtime error,
if any. -/
def inheritFields : Table Nat → Table Nat → Table Nat × Option String
  | [], fields => (fields, none)
  | (key, value) :: rest, fields =>
    if (tableSet fields key value).2 then inheritFields rest (tableSet fields key value).1
    else ((tableSet fields key value).1, some key)

/-- The opcode `INHERIT`, that is the function `inherit`, on the whole class objects: the
superclass is `peek(vm, 1)` and the subclass `peek(vm, 0)`. -/
def opInherit (st : ObjVM) : OpResult ObjVM :=
  match peek st.stack 1, peek st.stack 0 with
  | some superclassVal, some subclassVal =>
    match classAt st.heap superclassVal with
    | none => OpResult.threw "Superclass must be a class" st
    | some (sup, superclass) =>
      match classAt st.heap subclassVal with
      | none => OpResult.fault
      | some (sub, subclass) =>
        match inheritFields superclass.fields subclass.fields with
        | (fields, some key) =>
          OpResult.threw ("Field '" ++ key ++ "' shadows field from superclass")
            { stack := st.stack,
              heap := st.heap.set sub (HeapObj.clazz
                { name := subclass.name, baseId := subclass.baseId,
                  classId := subclass.baseId * superclass.classId, super := subclass.super,
                  fields := fields, methods := subclass.methods,
                  initializer := subclass.initializer, memberRefs := subclass.memberRefs }) }
        | (fields, none) =>
          OpResult.next
            { stack := pop st.stack,
              heap := st.heap.set sub (HeapObj.clazz
                { name := subclass.name, baseId := subclass.baseId,
                  classId := subclass.baseId * superclass.classId, super := some sup,
                  fields := fields,
                  methods := tableAddAll superclass.methods subclass.methods,
                  initializer := subclass.initializer, memberRefs := subclass.memberRefs }) }
  | _, _ => OpResult.fault

/-- The opcode `METHOD name`, that is the function `defineMethod`: the method is
`peek(vm, 0)` and the class `peek(vm, 1)`. -/
def opMethod (st : ObjVM) (name : String) : OpResult ObjVM :=
  match peek st.stack 0, peek st.stack 1 with
  | some (Value.obj f), some classVal =>
    match st.heap[f]?, classAt st.heap classVal with
    | some (HeapObj.function _), some (cl, clazz) =>
      let heap1 := st.heap.set f (HeapObj.function (some cl))
      let clazz1 : ClassObj :=
        if name = clazz.name then { clazz with initializer := Value.obj f }
        else { clazz with methods := (tableSet clazz.methods name (Value.obj f)).1 }
      OpResult.next { stack := pop st.stack, heap := heap1.set cl (HeapObj.clazz clazz1) }
    | _, _ => OpResult.fault
  | _, _ => OpResult.fault

/-- The opcode `FIELD name`, that is the function `defineField`: the class is
`peek(vm, 0)`. The function returns nothing and raises nothing. -/
def opField (st : ObjVM) (name : String) : OpResult ObjVM :=
  match peek st.stack 0 with
  | some classVal =>
    match classAt st.heap classVal with
    | some (cl, clazz) =>
      let index := clazz.fields.length
      OpResult.next { stack := st.stack,
                      heap := st.heap.set cl (HeapObj.clazz
                        { clazz with fields := (tableSet clazz.fields name index).1 }) }
    | none => OpResult.fault
  | none => OpResult.fault

/-- A record of `RESOLVE_MEMBERS`: the bit `super` and the bits `propType` of the slot
type (`MEMBER_FIELD` is 1, `MEMBER_METHOD` is 2), the name and the slot. -/
structure MemberRecord where
  super : Bool
  propType : Nat
  propName : String
  slot : Nat
deriving DecidableEq, Repr

/-- The body of the loop of `RESOLVE_MEMBERS` for one record, up to the store: the
member ref, or the name that is undefined. -/
def resolveMember (heap : List HeapObj) (cl : Nat) (clazz : ClassObj) (record : MemberRecord) :
    Option (Except String MemberRef) :=
  if record.super then
    match clazz.super with
    | none => none
    | some sup =>
      match classObjAt heap sup with
      | none => none
      | some superClass =>
        match tableGet superClass.methods record.propName with
        | none => some (Except.error record.propName)
        | some _ => some (Except.ok (MemberRef.classMember sup record.propName))
  else
    match (if record.propType % 2 = 1 then tableGet clazz.fields record.propName else none) with
    | some index => some (Except.ok (MemberRef.instField index))
    | none =>
      if record.propType / 2 % 2 = 1 then
        match tableGet clazz.methods record.propName with
        | some _ => some (Except.ok (MemberRef.classMember cl record.propName))
        | none => some (Except.error record.propName)
      else some (Except.error record.propName)

/-- The loop of `RESOLVE_MEMBERS` over the records; the class object is stored back
after each record. -/
def resolveLoop (cl : Nat) : List MemberRecord → ObjVM → OpResult ObjVM
  | [], st => OpResult.next st
  | record :: rest, st =>
    match classObjAt st.heap cl with
    | none => OpResult.fault
    | some clazz =>
      match resolveMember st.heap cl clazz record with
      | none => OpResult.fault
      | some (Except.error name) =>
        OpResult.threw ("Undefined property '" ++ name ++ "'") st
      | some (Except.ok ref) =>
        match storeAt clazz.memberRefs record.slot ref with
        | none => OpResult.fault
        | some refs =>
          resolveLoop cl rest
            { stack := st.stack,
              heap := st.heap.set cl (HeapObj.clazz { clazz with memberRefs := refs }) }

/-- The opcode `RESOLVE_MEMBERS numSlots` with its records: the class is
`peek(vm, 0)`. -/
def opResolveMembers (st : ObjVM) (numSlots : Nat) (records : List MemberRecord) :
    OpResult ObjVM :=
  match peek st.stack 0 with
  | some classVal =>
    match classAt st.heap classVal with
    | some (cl, clazz) =>
      resolveLoop cl records
        { stack := st.stack,
          heap := st.heap.set cl (HeapObj.clazz
            { clazz with memberRefs := List.replicate numSlots MemberRef.unset }) }
    | none => OpResult.fault
  | none => OpResult.fault

/-- The function `setInstanceField`: the heap and the result of the function. -/
def setInstanceField (heap : List HeapObj) (instanceRef : Nat) (name : String) (value : Value) :
    Option (List HeapObj × Bool) :=
  match heap[instanceRef]? with
  | some (HeapObj.inst cl fields) =>
    match classObjAt heap cl with
    | none => none
    | some clazz =>
      match tableGet clazz.fields name with
      | some valueOffset =>
        match storeAt fields valueOffset value with
        | none => none
        | some fields1 => some (heap.set instanceRef (HeapObj.inst cl fields1), false)
      | none => some (heap, true)
  | _ => none

/-- The opcode `SET_PROPERTY fieldName`. -/
def opSetProperty (st : ObjVM) (fieldName : String) : OpResult ObjVM :=
  match peek st.stack 1, peek st.stack 0 with
  | some instanceVal, some value =>
    match instanceAt st.heap instanceVal with
    | some (instanceRef, _, _) =>
      match setInstanceField st.heap instanceRef fieldName value with
      | none => OpResult.fault
      | some (heap1, result) =>
        if !result then
          OpResult.threw ("Undefined field '" ++ fieldName ++ "'")
            { stack := st.stack, heap := heap1 }
        else
          OpResult.next { stack := push (pop (pop st.stack)) value, heap := heap1 }
    | none => OpResult.threw "Only instances have fields" st
  | _, _ => OpResult.fault

/-- The value a member ref points to: `*ref->getMemberRef(&ref->refData, instance)`. -/
def readMemberRef (heap : List HeapObj) (ref : MemberRef) (fields : List Value) : Option Value :=
  match ref with
  | MemberRef.instField offset => fields[offset]?
  | MemberRef.classMember clazz name =>
    match classObjAt heap clazz with
    | none => none
    | some c => tableGet c.methods name
  | MemberRef.unset => none

/-- The member ref `instance->clazz->memberRefs[propRef]` that `MEMBER_INVOKE`,
`SUPER_INVOKE` and `GET_SUPER` take for the instance `instanceVal`. -/
def receiverMemberRef (heap : List HeapObj) (instanceVal : Value) (propRef : Nat) :
    Option MemberRef :=
  match instanceAt heap instanceVal with
  | none => none
  | some (_, cl, _) =>
    match classObjAt heap cl with
    | none => none
    | some clazz => clazz.memberRefs[propRef]?

/-- The member ref `getFrameFunction(frame)->parentClass->memberRefs[propRef]` that
`GET_MEMBER_PROPERTY` and `SET_MEMBER_PROPERTY` take; `function` is the function of the
frame. -/
def parentMemberRef (heap : List HeapObj) (function : Nat) (propRef : Nat) : Option MemberRef :=
  match heap[function]? with
  | some (HeapObj.function (some parentClass)) =>
    match classObjAt heap parentClass with
    | none => none
    | some clazz => clazz.memberRefs[propRef]?
  | _ => none

/-- The opcode `MEMBER_INVOKE propRef argCount`, up to the call of `invokeMember`: the
arguments `*method` and `isMember` of that call. -/
def opMemberInvoke (st : ObjVM) (propRef argCount : Nat) : Option (Value × Bool) :=
  match peek st.stack argCount with
  | none => none
  | some instanceVal =>
    match instanceAt st.heap instanceVal, receiverMemberRef st.heap instanceVal propRef with
    | some (_, _, fields), some ref =>
      match readMemberRef st.heap ref fields with
      | none => none
      | some method =>
        some (method, match ref with
                      | MemberRef.classMember _ _ => true
                      | _ => false)
    | _, _ => none

/-- The opcode `SUPER_INVOKE propRef argCount`, up to the call of `invokeMember`: the
argument `*method` of that call; the member ref is read without an instance. -/
def opSuperInvoke (st : ObjVM) (propRef argCount : Nat) : Option Value :=
  match peek st.stack argCount with
  | none => none
  | some instanceVal =>
    match receiverMemberRef st.heap instanceVal propRef with
    | some (MemberRef.classMember clazz name) =>
      readMemberRef st.heap (MemberRef.classMember clazz name) []
    | _ => none

/-- The opcode `GET_SUPER propRef`: the bound method is a new object of the heap. -/
def opGetSuper (st : ObjVM) (propRef : Nat) : Option ObjVM :=
  match peek st.stack 0 with
  | none => none
  | some instanceVal =>
    match instanceAt st.heap instanceVal, receiverMemberRef st.heap instanceVal propRef with
    | some (_, _, fields), some ref =>
      match readMemberRef st.heap ref fields with
      | some (Value.obj method) =>
        some { stack := push (pop st.stack) (Value.obj st.heap.length),
               heap := st.heap ++ [HeapObj.boundMethod instanceVal method] }
      | _ => none
    | _, _ => none

/-- The opcode `GET_MEMBER_PROPERTY propRef` in a frame with the function `function`. -/
def opGetMemberProperty (st : ObjVM) (function : Nat) (propRef : Nat) : Option ObjVM :=
  match peek st.stack 0 with
  | none => none
  | some instanceVal =>
    match instanceAt st.heap instanceVal, parentMemberRef st.heap function propRef with
    | some (_, _, fields), some ref =>
      match readMemberRef st.heap ref fields with
      | none => none
      | some prop => some { stack := push (pop st.stack) prop, heap := st.heap }
    | _, _ => none

/-- The function `bindMethod`. -/
def bindMethod (st : ObjVM) (clazz : Nat) (name : String) : OpResult ObjVM :=
  match classObjAt st.heap clazz with
  | none => OpResult.fault
  | some c =>
    match tableGet c.methods name with
    | none => OpResult.threw ("Undefined property '" ++ name ++ "'") st
    | some (Value.obj method) =>
      match peek st.stack 0 with
      | none => OpResult.fault
      | some receiver =>
        OpResult.next { stack := push (pop st.stack) (Value.obj st.heap.length),
                        heap := st.heap ++ [HeapObj.boundMethod receiver method] }
    | some _ => OpResult.fault

/-- The classes of the VM that `classOfValue` and `FOREACH_INIT` name. -/
structure Builtins where
  iteratorClass : Nat
  numberClass : Nat
  boolClass : Nat
deriving DecidableEq, Repr

/-- The function `classOfValue`, for numbers, booleans, instances and classes; the heap
of the model holds no string, array or map. -/
def classOfValue (vm : Builtins) (heap : List HeapObj) : Value → Option Nat
  | Value.number _ => some vm.numberClass
  | Value.bool _ => some vm.boolClass
  | Value.obj r =>
    match heap[r]? with
    | some (HeapObj.inst clazz _) => some clazz
    | some (HeapObj.clazz _) => some r
    | _ => none
  | _ => none

/-- The end of `FOREACH_INIT`, from `ObjClass *iteratorClass = iterator->clazz` on: the
bound methods `hasNext` and `next` of the iterator are stored into the two locals. The
result of `bindMethod` is not tested there: when the method is missing, the pop that
follows takes the exception object that `runtimeError` has pushed, which the model does
not hold; the model gives a fault. -/
def bindIterator (st : ObjVM) (iterator : Value) (iteratorClass : Nat)
    (slots varArgs hasNextSlot hasNextPostArgs nextSlot nextPostArgs : Nat) : OpResult ObjVM :=
  let afterBind (r : OpResult ObjVM) : Option ObjVM :=
    match r with
    | OpResult.next s1 => some s1
    | _ => none
  let st1 : ObjVM := { stack := push st.stack iterator, heap := st.heap }
  match afterBind (bindMethod st1 iteratorClass "hasNext") with
  | none => OpResult.fault
  | some st2 =>
    match peek st2.stack 0,
        storeAt (pop st2.stack) (slots + (hasNextSlot + hasNextPostArgs * varArgs))
          ((peek st2.stack 0).getD Value.nil) with
    | some _, some stack3 =>
      let st3 : ObjVM := { stack := push stack3 iterator, heap := st2.heap }
      match afterBind (bindMethod st3 iteratorClass "next") with
      | none => OpResult.fault
      | some st4 =>
        match peek st4.stack 0,
            storeAt (pop st4.stack) (slots + (nextSlot + nextPostArgs * varArgs))
              ((peek st4.stack 0).getD Value.nil) with
        | some _, some stack5 => OpResult.next { stack := stack5, heap := st4.heap }
        | _, _ => OpResult.fault
    | _, _ => OpResult.fault

/-- The opcode `FOREACH_INIT` in a frame with base `slots` and `varArgs`. The call of
the method `iterator` is the parameter `doCall`: it leaves the result of the call on
top of the stack in place of the callee. -/
def opForeachInit (vm : Builtins) (doCall : ObjVM → OpResult ObjVM) (st : ObjVM)
    (slots varArgs hasNextSlot hasNextPostArgs nextSlot nextPostArgs : Nat) : OpResult ObjVM :=
  match peek st.stack 0, classObjAt st.heap vm.iteratorClass with
  | some iterableVal, some iteratorClass =>
    let direct : Bool :=
      match instanceAt st.heap iterableVal with
      | some (_, cl, _) =>
        match classObjAt st.heap cl with
        | some c => instanceOf c.toObjClass iteratorClass.toObjClass
        | none => false
      | none => false
    if direct then
      match instanceAt st.heap iterableVal with
      | some (_, cl, _) =>
        bindIterator st iterableVal cl slots varArgs hasNextSlot hasNextPostArgs nextSlot
          nextPostArgs
      | none => OpResult.fault
    else
      let notIterable : OpResult ObjVM :=
        OpResult.threw "Attempt to iterate non-iterable value" st
      match classOfValue vm st.heap iterableVal with
      | none => notIterable
      | some clazz =>
        match bindMethod st clazz "iterator" with
        | OpResult.fault => OpResult.fault
        | OpResult.threw _ _ => notIterable
        | OpResult.next st1 =>
          match peek st1.stack 0 with
          | none => OpResult.fault
          | some bound =>
            match doCall { stack := push st1.stack bound, heap := st1.heap } with
            | OpResult.fault => OpResult.fault
            | OpResult.threw message st2 => OpResult.threw message st2
            | OpResult.next st2 =>
              match peek st2.stack 0 with
              | none => OpResult.fault
              | some iteratorVal =>
                let st3 : ObjVM := { stack := popn st2.stack 2, heap := st2.heap }
                match instanceAt st3.heap iteratorVal with
                | some (_, cl, _) =>
                  match classObjAt st3.heap cl with
                  | some c =>
                    if instanceOf iteratorClass.toObjClass c.toObjClass then
                      bindIterator st3 iteratorVal cl slots varArgs hasNextSlot
                        hasNextPostArgs nextSlot nextPostArgs
                    else OpResult.threw "Attempt to iterate non-iterable value" st3
                  | none => OpResult.fault
                | none => OpResult.threw "Attempt to iterate non-iterable value" st3
  | _, _ => OpResult.fault

/-- The opcodes of a class declaration, and the pushes and pops between them. -/
inductive ClassOp where
  | cls (name : String) (baseId : Nat) : ClassOp
  | inherit : ClassOp
  | method (name : String) : ClassOp
  | field (name : String) : ClassOp
  | resolve (numSlots : Nat) (records : List MemberRecord) : ClassOp
  | pushValue (value : Value) : ClassOp
  | popValue : ClassOp
deriving DecidableEq, Repr

/-- One opcode of a class declaration. -/
def ClassOp.step (st : ObjVM) : ClassOp → OpResult ObjVM
  | ClassOp.cls name baseId => OpResult.next (opClass st name baseId)
  | ClassOp.inherit => opInherit st
  | ClassOp.method name => opMethod st name
  | ClassOp.field name => opField st name
  | ClassOp.resolve numSlots records => opResolveMembers st numSlots records
  | ClassOp.pushValue value => OpResult.next { stack := push st.stack value, heap := st.heap }
  | ClassOp.popValue => OpResult.next { stack := pop st.stack, heap := st.heap }

/-- A run of class opcodes; it stops at the first runtime error. -/
def runClassOps : ObjVM → List ClassOp → OpResult ObjVM
  | st, [] => OpResult.next st
  | st, op :: rest =>
    match op.step st with
    | OpResult.next st1 => runClassOps st1 rest
    | result => result

/-- A heap with the class `Point`, which declares the fields `x` and `y`, and one
instance of it; the stack holds the instance and, on top, the number 5. -/
def demoPropertyVM : ObjVM :=
  { stack := [Value.obj 1, Value.number 5],
    heap := [HeapObj.clazz { name := "Point", baseId := 2, classId := 2, super := none,
                             fields := [("x", 0), ("y", 1)], methods := [],
                             initializer := Value.nil, memberRefs := [] },
             HeapObj.inst 0 [Value.number 1, Value.number 2]] }

/-- The classes of the VM in the heap `demoIteratorHeap`. -/
def demoBuiltins : Builtins :=
  { iteratorClass := 1, numberClass := 3, boolClass := 4 }

/-- A heap with the builtin classes `Object`, `Iterator : Object` and
`$MapIterator : Iterator` as `registerBuiltins` makes them (primes 2, 3 and 5), the
classes of numbers and booleans, the native methods (objects 5 to 11), an instance of
`$MapIterator` (object 12) and an instance of `Iterator` (object 13). -/
def demoIteratorHeap : List HeapObj :=
  [HeapObj.clazz { name := "Object", baseId := 2, classId := 2, super := none, fields := [],
                   methods := [("toString", Value.obj 5), ("hashCode", Value.obj 6)],
                   initializer := Value.nil, memberRefs := [] },
   HeapObj.clazz { name := "Iterator", baseId := 3, classId := 6, super := some 0, fields := [],
                   methods := [("toString", Value.obj 5), ("hashCode", Value.obj 6),
                               ("hasNext", Value.obj 7), ("next", Value.obj 8),
                               ("remove", Value.obj 9)],
                   initializer := Value.nil, memberRefs := [] },
   HeapObj.clazz { name := "$MapIterator", baseId := 5, classId := 30, super := some 1,
                   fields := [("map", 0), ("current", 1), ("modCount", 2)],
                   methods := [("toString", Value.obj 5), ("hashCode", Value.obj 6),
                               ("hasNext", Value.obj 10), ("next", Value.obj 11),
                               ("remove", Value.obj 9)],
                   initializer := Value.nil, memberRefs := [] },
   HeapObj.clazz { name := "Number", baseId := 7, classId := 14, super := some 0, fields := [],
                   methods := [("toString", Value.obj 5), ("hashCode", Value.obj 6)],
                   initializer := Value.nil, memberRefs := [] },
   HeapObj.clazz { name := "Bool", baseId := 11, classId := 22, super := some 0, fields := [],
                   methods := [("toString", Value.obj 5), ("hashCode", Value.obj 6)],
                   initializer := Value.nil, memberRefs := [] },
   HeapObj.other, HeapObj.other, HeapObj.other, HeapObj.other, HeapObj.other, HeapObj.other,
   HeapObj.other,
   HeapObj.inst 2 [Value.nil, Value.number 0, Value.number 0],
   HeapObj.inst 1 []]

/-- A frame with two locals for the bound methods and, on top of the stack, the
iterable `iterable`. -/
def demoIteratorVM (iterable : Value) : ObjVM :=
  { stack := [Value.nil, Value.nil, iterable], heap := demoIteratorHeap }

/-- The opcodes of `class P { a }` followed by `class S : P { a }`, in the order
`CLASS`, `INHERIT`, `FIELD`: the superclass is below the subclass for `INHERIT`, and the
subclass is on top of the stack for `FIELD`. -/
def demoShadowOps : List ClassOp :=
  [ClassOp.cls "P" 2, ClassOp.field "a", ClassOp.cls "S" 3, ClassOp.inherit,
   ClassOp.pushValue (Value.obj 1), ClassOp.field "a"]

/-- The same declarations with the field of the subclass declared before `INHERIT`. -/
def demoShadowEarlyOps : List ClassOp :=
  [ClassOp.cls "P" 2, ClassOp.field "a", ClassOp.cls "S" 3, ClassOp.field "a",
   ClassOp.inherit]

/-- Four function objects, for the methods `f` and `m` of `K` and `g` and `n` of `S`. -/
def demoFunctionsVM : ObjVM :=
  { stack := [],
    heap := [HeapObj.function none, HeapObj.function none, HeapObj.function none,
             HeapObj.function none] }

/-- The opcodes of `class K { f() {} m() { this.f(); } }` and of
`class S : K { g() {} n() { this.g(); } }`: in each class the one `this` reference has
the ref index 0. -/
def demoMemberOps : List ClassOp :=
  [ClassOp.cls "K" 2,
   ClassOp.pushValue (Value.obj 0), ClassOp.method "f",
   ClassOp.pushValue (Value.obj 1), ClassOp.method "m",
   ClassOp.resolve 1 [{ super := false, propType := 3, propName := "f", slot := 0 }],
   ClassOp.cls "S" 3, ClassOp.inherit,
   ClassOp.pushValue (Value.obj 5),
   ClassOp.pushValue (Value.obj 2), ClassOp.method "g",
   ClassOp.pushValue (Value.obj 3), ClassOp.method "n",
   ClassOp.resolve 1 [{ super := false, propType := 3, propName := "g", slot := 0 }]]

/-- The heap after `demoMemberOps`: the class `K` is the object 4 and the class `S` the
object 5. -/
def demoMemberHeap : List HeapObj :=
  [HeapObj.function (some 4), HeapObj.function (some 4), HeapObj.function (some 5),
   HeapObj.function (some 5),
   HeapObj.clazz { name := "K", baseId := 2, classId := 2, super := none, fields := [],
                   methods := [("f", Value.obj 0), ("m", Value.obj 1)],
                   initializer := Value.nil,
                   memberRefs := [MemberRef.classMember 4 "f"] },
   HeapObj.clazz { name := "S", baseId := 3, classId := 6, super := some 4, fields := [],
                   methods := [("f", Value.obj 0), ("m", Value.obj 1), ("g", Value.obj 2),
                               ("n", Value.obj 3)],
                   initializer := Value.nil,
                   memberRefs := [MemberRef.classMember 5 "g"] }]

/-- The inherited method `m` of `K` runs on an instance of `S` (the object 6), which is on
top of the stack. -/
def demoMemberVM : ObjVM :=
  { stack := [Value.obj 6], heap := demoMemberHeap ++ [HeapObj.inst 5 []] }

/-- A class `K` after its declaration: the field `x`, the methods `f` and `m`, and the
member ref 0, which `RESOLVE_MEMBERS` resolved to the method `f`. -/
def demoClassK : ClassObj :=
  { name := "K", baseId := 2, classId := 2, super := none, fields := [("x", 0)],
    methods := [("f", Value.obj 0), ("m", Value.obj 1)], initializer := Value.nil,
    memberRefs := [MemberRef.classMember 4 "f"] }

/-- The state before `INHERIT` for `class S : K`: the class `K` (object 4) is below the
new class `S` (object 5) on the stack. -/
def demoInheritVM : ObjVM :=
  { stack := [Value.obj 4, Value.obj 5],
    heap := [HeapObj.function (some 4), HeapObj.function (some 4), HeapObj.function none,
             HeapObj.function none, HeapObj.clazz demoClassK,
             HeapObj.clazz (newClassObj "S" 3)] }

/-- The state after that `INHERIT`. -/
def demoInheritedVM : ObjVM :=
  { stack := [Value.obj 4],
    heap := [HeapObj.function (some 4), HeapObj.function (some 4), HeapObj.function none,
             HeapObj.function none, HeapObj.clazz demoClassK,
             HeapObj.clazz { name := "S", baseId := 3, classId := 6, super := some 4,
                             fields := [("x", 0)],
                             methods := [("f", Value.obj 0), ("m", Value.obj 1)],
                             initializer := Value.nil, memberRefs := [] }] }

/-! ### The scanner (`scanner.c`, `scanner.h`) -/

/-- The enumeration `TokenType` of `scanner.h`, with the enumerator `TOKEN_FUN` that
`scanner.c` uses for the keyword `fun`. -/
inductive TokenType where
  | TOKEN_LEFT_PAREN | TOKEN_RIGHT_PAREN
  | TOKEN_LEFT_BRACE | TOKEN_RIGHT_BRACE
  | TOKEN_LEFT_BRACKET | TOKEN_RIGHT_BRACKET
  | TOKEN_COLON | TOKEN_COMMA | TOKEN_DOT | TOKEN_MINUS | TOKEN_PERCENT
  | TOKEN_PLUS | TOKEN_SEMICOLON | TOKEN_SLASH | TOKEN_STAR
  | TOKEN_BANG | TOKEN_BANG_EQUAL
  | TOKEN_EQUAL | TOKEN_EQUAL_EQUAL
  | TOKEN_GREATER | TOKEN_GREATER_EQUAL
  | TOKEN_LESS | TOKEN_LESS_EQUAL
  | TOKEN_IDENTIFIER | TOKEN_STRING | TOKEN_NUMBER
  | TOKEN_AND | TOKEN_BREAK | TOKEN_CATCH | TOKEN_CONTINUE
  | TOKEN_CLASS | TOKEN_ELSE | TOKEN_FALSE | TOKEN_FOR | TOKEN_FOREACH
  | TOKEN_FUNCTION | TOKEN_IF | TOKEN_NIL | TOKEN_OR | TOKEN_PRINT
  | TOKEN_RETURN | TOKEN_SUPER | TOKEN_THIS | TOKEN_THROW | TOKEN_TRUE
  | TOKEN_TRY | TOKEN_VAR | TOKEN_WHILE
  | TOKEN_FUN
  | TOKEN_ERROR | TOKEN_EOF
deriving DecidableEq, Repr

/-- The field `start` of a token: a position in the source buffer, or the message of an
error token. -/
inductive TokenStart where
  | source (index : Nat) : TokenStart
  | message (text : String) : TokenStart
deriving DecidableEq, Repr

/-- The struct `Token`. -/
structure Token where
  type : TokenType
  start : TokenStart
  length : Nat
  line : Nat
deriving DecidableEq, Repr

/-- The struct `Scanner`, with the source buffer it points into: `source` is the whole
buffer, its terminating NUL included, and `start` and `current` are indices into it.
A read or write at an index outside the buffer has no result (`none`). -/
structure Scanner where
  source : List Char
  start : Nat
  current : Nat
  line : Nat
deriving DecidableEq, Repr

/-- The character NUL. -/
def NUL : Char := Char.ofNat 0

/-- The function `initScanner`. -/
def initScanner (source : List Char) : Scanner :=
  { source := source, start := 0, current := 0, line := 1 }

/-- The function `isAlpha`. -/
def isAlpha (c : Char) : Bool :=
  (decide ('a' ≤ c) && decide (c ≤ 'z')) || (decide ('A' ≤ c) && decide (c ≤ 'Z')) || c == '_'

/-- The function `isDigit`. -/
def isDigit (c : Char) : Bool :=
  decide ('0' ≤ c) && decide (c ≤ '9')

/-- The function `peek` of the scanner. -/
def Scanner.peek (s : Scanner) : Option Char :=
  s.source[s.current]?

/-- The function `isAtEnd`. -/
def Scanner.isAtEnd (s : Scanner) : Option Bool :=
  s.peek.map (fun c => c == NUL)

/-- The function `peekNext`. -/
def Scanner.peekNext (s : Scanner) : Option Char :=
  match s.isAtEnd with
  | none => none
  | some true => some NUL
  | some false => s.source[s.current + 1]?

/-- The function `advance`: the character read and the scanner after it. -/
def Scanner.advance (s : Scanner) : Option (Char × Scanner) :=
  match s.source[s.current]? with
  | none => none
  | some c => some (c, { s with current := s.current + 1 })

/-- The function `match`. -/
def Scanner.matchChar (s : Scanner) (expected : Char) : Option (Bool × Scanner) :=
  match s.source[s.current]? with
  | none => none
  | some c =>
    if c = NUL then some (false, s)
    else if c ≠ expected then some (false, s)
    else some (true, { s with current := s.current + 1 })

/-- The function `makeToken`. -/
def makeToken (s : Scanner) (type : TokenType) : Token :=
  { type := type, start := TokenStart.source s.start, length := s.current - s.start,
    line := s.line }

/-- The function `makeTrimmedToken`. -/
def makeTrimmedToken (s : Scanner) (type : TokenType) (len : Nat) : Token :=
  { type := type, start := TokenStart.source s.start, length := len, line := s.line }

/-- The function `errorToken`. -/
def errorToken (s : Scanner) (message : String) : Token :=
  { type := TokenType.TOKEN_ERROR, start := TokenStart.message message,
    length := message.length, line := s.line }

/-- The enumeration `WSSState`. -/
inductive WSSState where
  | WSS_SCAN | WSS_STAR | WSS_DONE
deriving DecidableEq, Repr

/-- The loop `while (peek() != '\n' && !isAtEnd()) advance();` of a line comment; the
first argument bounds the number of turns. -/
def lineComment : Nat → Scanner → Option Scanner
  | 0, _ => none
  | fuel + 1, s =>
    match s.peek with
    | none => none
    | some c =>
      if c ≠ '\n' ∧ c ≠ NUL then lineComment fuel { s with current := s.current + 1 }
      else some s

/-- The loop `while (!isAtEnd())` of a block comment, with its state machine; the first
argument bounds the number of turns. -/
def blockComment : Nat → WSSState → Scanner → Option (WSSState × Scanner)
  | 0, _, _ => none
  | fuel + 1, state, s =>
    match s.peek with
    | none => none
    | some ch =>
      if ch = NUL then some (state, s)
      else
        let s1 : Scanner := { s with current := s.current + 1 }
        match state with
        | WSSState.WSS_SCAN =>
          if ch = '*' then blockComment fuel WSSState.WSS_STAR s1
          else if ch = '\n' then
            blockComment fuel WSSState.WSS_SCAN { s1 with line := s1.line + 1 }
          else blockComment fuel WSSState.WSS_SCAN s1
        | WSSState.WSS_STAR =>
          if ch = '/' then some (WSSState.WSS_DONE, s1)
          else if ch = '\n' then
            blockComment fuel WSSState.WSS_SCAN { s1 with line := s1.line + 1 }
          else blockComment fuel WSSState.WSS_SCAN s1
        | WSSState.WSS_DONE => some (WSSState.WSS_DONE, s1)

/-- The function `skipWhitespace`: its result and the scanner after it; the first
argument bounds the number of turns of the outer loop and of each inner loop. -/
def skipWhitespaceLoop (bound : Nat) : Nat → Scanner → Option (Bool × Scanner)
  | 0, _ => none
  | fuel + 1, s =>
    match s.peek with
    | none => none
    | some c =>
      if c = ' ' ∨ c = '\r' ∨ c = '\t' then
        skipWhitespaceLoop bound fuel { s with current := s.current + 1 }
      else if c = '\n' then
        skipWhitespaceLoop bound fuel { s with line := s.line + 1, current := s.current + 1 }
      else if c = '/' then
        match s.peekNext with
        | none => none
        | some n =>
          if n = '/' then
            match lineComment bound s with
            | none => none
            | some s1 => skipWhitespaceLoop bound fuel s1
          else if n = '*' then
            match blockComment bound WSSState.WSS_SCAN { s with current := s.current + 1 } with
            | none => none
            | some (state, s1) =>
              if state ≠ WSSState.WSS_DONE then some (false, s1)
              else skipWhitespaceLoop bound fuel s1
          else some (true, s)
      else some (true, s)

/-- The function `skipWhitespace`; every turn of its loops reads a character of the
buffer, so the length of the buffer bounds them. -/
def skipWhitespace (s : Scanner) : Option (Bool × Scanner) :=
  skipWhitespaceLoop (s.source.length + 1) (s.source.length + 1) s

/-- The function `checkKeyword`. -/
def checkKeyword (s : Scanner) (start length : Nat) (rest : String) (type : TokenType) :
    TokenType :=
  if s.current - s.start = start + length ∧
      (s.source.drop (s.start + start)).take length = rest.toList then type
  else TokenType.TOKEN_IDENTIFIER

/-- The function `identifierType`; `none` when `scanner.start[k]` is outside the
buffer. In the case `'t'` the case `'h'` of the inner switch falls through to the case
`'r'`. -/
def identifierType (s : Scanner) : Option TokenType :=
  match s.source[s.start]? with
  | none => none
  | some c0 =>
    if c0 = 'a' then some (checkKeyword s 1 2 "nd" TokenType.TOKEN_AND)
    else if c0 = 'b' then some (checkKeyword s 1 4 "reak" TokenType.TOKEN_BREAK)
    else if c0 = 'c' then
      if s.current - s.start > 1 then
        match s.source[s.start + 1]? with
        | none => none
        | some c1 =>
          if c1 = 'a' then some (checkKeyword s 2 3 "tch" TokenType.TOKEN_CATCH)
          else if c1 = 'l' then some (checkKeyword s 2 3 "ass" TokenType.TOKEN_CLASS)
          else if c1 = 'o' then some (checkKeyword s 2 6 "ntinue" TokenType.TOKEN_CONTINUE)
          else some TokenType.TOKEN_IDENTIFIER
      else some TokenType.TOKEN_IDENTIFIER
    else if c0 = 'e' then some (checkKeyword s 1 3 "lse" TokenType.TOKEN_ELSE)
    else if c0 = 'f' then
      if s.current - s.start > 1 then
        match s.source[s.start + 1]? with
        | none => none
        | some c1 =>
          if c1 = 'a' then some (checkKeyword s 2 3 "lse" TokenType.TOKEN_FALSE)
          else if c1 = 'o' then some (checkKeyword s 2 1 "r" TokenType.TOKEN_FOR)
          else if c1 = 'u' then some (checkKeyword s 2 1 "n" TokenType.TOKEN_FUN)
          else some TokenType.TOKEN_IDENTIFIER
      else some TokenType.TOKEN_IDENTIFIER
    else if c0 = 'i' then some (checkKeyword s 1 1 "f" TokenType.TOKEN_IF)
    else if c0 = 'n' then some (checkKeyword s 1 2 "il" TokenType.TOKEN_NIL)
    else if c0 = 'o' then some (checkKeyword s 1 1 "r" TokenType.TOKEN_OR)
    else if c0 = 'p' then some (checkKeyword s 1 4 "rint" TokenType.TOKEN_PRINT)
    else if c0 = 'r' then some (checkKeyword s 1 5 "eturn" TokenType.TOKEN_RETURN)
    else if c0 = 's' then some (checkKeyword s 1 4 "uper" TokenType.TOKEN_SUPER)
    else if c0 = 't' then
      if s.current - s.start > 1 then
        match s.source[s.start + 1]?, s.source[s.start + 2]? with
        | some c1, some c2 =>
          if c1 = 'h' ∧ c2 = 'i' then some (checkKeyword s 3 1 "s" TokenType.TOKEN_THIS)
          else if c1 = 'h' ∧ c2 = 'r' then some (checkKeyword s 3 2 "ow" TokenType.TOKEN_THROW)
          else if c1 = 'h' ∨ c1 = 'r' then
            if c2 = 'u' then some (checkKeyword s 3 1 "e" TokenType.TOKEN_TRUE)
            else if c2 = 'y' then some (checkKeyword s 3 0 "" TokenType.TOKEN_TRY)
            else some TokenType.TOKEN_IDENTIFIER
          else some TokenType.TOKEN_IDENTIFIER
        | some c1, none =>
          if c1 = 'h' ∨ c1 = 'r' then none else some TokenType.TOKEN_IDENTIFIER
        | none, _ => none
      else some TokenType.TOKEN_IDENTIFIER
    else if c0 = 'v' then some (checkKeyword s 1 2 "ar" TokenType.TOKEN_VAR)
    else if c0 = 'w' then some (checkKeyword s 1 4 "hile" TokenType.TOKEN_WHILE)
    else some TokenType.TOKEN_IDENTIFIER

/-- The loop `while (isAlpha(peek()) || isDigit(peek())) advance();`. -/
def identifierLoop : Nat → Scanner → Option Scanner
  | 0, _ => none
  | fuel + 1, s =>
    match s.peek with
    | none => none
    | some c =>
      if isAlpha c || isDigit c then identifierLoop fuel { s with current := s.current + 1 }
      else some s

/-- The function `identifier`. -/
def identifier (s : Scanner) : Option (Token × Scanner) :=
  match identifierLoop (s.source.length + 1) s with
  | none => none
  | some s1 =>
    match identifierType s1 with
    | none => none
    | some type => some (makeToken s1 type, s1)

/-- The loop `while (isDigit(peek())) advance();`. -/
def digitLoop : Nat → Scanner → Option Scanner
  | 0, _ => none
  | fuel + 1, s =>
    match s.peek with
    | none => none
    | some c =>
      if isDigit c then digitLoop fuel { s with current := s.current + 1 } else some s

/-- The function `number`. -/
def number (s : Scanner) : Option (Token × Scanner) :=
  match digitLoop (s.source.length + 1) s with
  | none => none
  | some s1 =>
    match s1.peek, s1.peekNext with
    | some c, some n =>
      if c = '.' ∧ isDigit n = true then
        match digitLoop (s.source.length + 1) { s1 with current := s1.current + 1 } with
        | none => none
        | some s2 => some (makeToken s2 TokenType.TOKEN_NUMBER, s2)
      else some (makeToken s1 TokenType.TOKEN_NUMBER, s1)
    | _, _ => none

/-- The enumeration `SSMODE` of `string`. -/
inductive SSMODE where
  | SCAN | ESCAPE
deriving DecidableEq, Repr

/-- The loop `do { ... } while (!complete)` of `string`: `output` is the index the
pointer `output` points to; the decoded characters are written into the source buffer.
The result is the token returned from inside the loop, or the value of `output` at the
end of the loop, with the scanner. The first argument bounds the number of turns. -/
def stringLoop (delimiter : Char) : Nat → SSMODE → Nat → Scanner →
    Option ((Token ⊕ Nat) × Scanner)
  | 0, _, _, _ => none
  | fuel + 1, mode, output, s =>
    match s.advance with
    | none => none
    | some (ch, s1) =>
      match mode with
      | SSMODE.SCAN =>
        if ch = delimiter then
          (storeAt s1.source output ch).map
            (fun src => (Sum.inr (output + 1), { s1 with source := src }))
        else if ch = '\\' then stringLoop delimiter fuel SSMODE.ESCAPE output s1
        else if ch = NUL then some (Sum.inl (errorToken s1 "Unterminated string"), s1)
        else
          match storeAt s1.source output ch with
          | none => none
          | some src =>
            stringLoop delimiter fuel SSMODE.SCAN (output + 1) { s1 with source := src }
      | SSMODE.ESCAPE =>
        if ch = '\'' ∨ ch = '\\' ∨ ch = '"' then
          match storeAt s1.source output ch with
          | none => none
          | some src =>
            stringLoop delimiter fuel SSMODE.SCAN (output + 1) { s1 with source := src }
        else if ch = 'n' then
          match storeAt s1.source output '\n' with
          | none => none
          | some src =>
            stringLoop delimiter fuel SSMODE.SCAN (output + 1) { s1 with source := src }
        else if ch = 'r' then
          match storeAt s1.source output '\r' with
          | none => none
          | some src =>
            stringLoop delimiter fuel SSMODE.SCAN (output + 1) { s1 with source := src }
        else if ch = 't' then
          match storeAt s1.source output '\t' with
          | none => none
          | some src =>
            stringLoop delimiter fuel SSMODE.SCAN (output + 1) { s1 with source := src }
        else if ch = NUL then some (Sum.inl (errorToken s1 "Unterminated string"), s1)
        else some (Sum.inl (errorToken s1 "Invalid escape sequence"), s1)

/-- The function `string`. -/
def scanString (s : Scanner) (delimiter : Char) : Option (Token × Scanner) :=
  match stringLoop delimiter (s.source.length + 1) SSMODE.SCAN s.current s with
  | none => none
  | some (Sum.inl token, s1) => some (token, s1)
  | some (Sum.inr output, s1) =>
    some (makeTrimmedToken s1 TokenType.TOKEN_STRING (output - s.current + 1), s1)

/-- The `switch (c)` of `scanToken` for the tokens of one or two characters. -/
def punctuation (s : Scanner) (c : Char) : Option (Token × Scanner) :=
  let one (type : TokenType) : Option (Token × Scanner) := some (makeToken s type, s)
  let two (yes no : TokenType) : Option (Token × Scanner) :=
    (s.matchChar '=').map (fun r => (makeToken r.2 (if r.1 then yes else no), r.2))
  if c = '(' then one TokenType.TOKEN_LEFT_PAREN
  else if c = ')' then one TokenType.TOKEN_RIGHT_PAREN
  else if c = '{' then one TokenType.TOKEN_LEFT_BRACE
  else if c = '}' then one TokenType.TOKEN_RIGHT_BRACE
  else if c = '[' then one TokenType.TOKEN_LEFT_BRACKET
  else if c = ']' then one TokenType.TOKEN_RIGHT_BRACKET
  else if c = ':' then one TokenType.TOKEN_COLON
  else if c = ';' then one TokenType.TOKEN_SEMICOLON
  else if c = ',' then one TokenType.TOKEN_COMMA
  else if c = '.' then one TokenType.TOKEN_DOT
  else if c = '-' then one TokenType.TOKEN_MINUS
  else if c = '+' then one TokenType.TOKEN_PLUS
  else if c = '/' then one TokenType.TOKEN_SLASH
  else if c = '%' then one TokenType.TOKEN_PERCENT
  else if c = '*' then one TokenType.TOKEN_STAR
  else if c = '!' then two TokenType.TOKEN_BANG_EQUAL TokenType.TOKEN_BANG
  else if c = '=' then two TokenType.TOKEN_EQUAL_EQUAL TokenType.TOKEN_EQUAL
  else if c = '<' then two TokenType.TOKEN_LESS_EQUAL TokenType.TOKEN_LESS
  else if c = '>' then two TokenType.TOKEN_GREATER_EQUAL TokenType.TOKEN_GREATER
  else if c = '"' then scanString s '"'
  else if c = '\'' then scanString s '\''
  else some (errorToken s "Unexpected character.", s)

/-- The function `scanToken`: the token and the scanner after the call. -/
def scanToken (s : Scanner) : Option (Token × Scanner) :=
  match skipWhitespace s with
  | none => none
  | some (false, s1) => some (errorToken s1 "Unterminated comment", s1)
  | some (true, s1) =>
    let s2 : Scanner := { s1 with start := s1.current }
    match s2.isAtEnd with
    | none => none
    | some true => some (makeToken s2 TokenType.TOKEN_EOF, s2)
    | some false =>
      match s2.advance with
      | none => none
      | some (c, s3) =>
        if isAlpha c then identifier s3
        else if isDigit c then number s3
        else punctuation s3 c

/-- The source buffer of a text: its characters and the terminating NUL. -/
def sourceOf (text : String) : List Char :=
  text.toList ++ [NUL]

/-- An item of the body of a string literal, as the text describing string literals has
it: an ordinary character, or an escape, written in the source as a backslash followed
by the character `c`. -/
inductive StrItem where
  | plain (c : Char) : StrItem
  | escape (c : Char) : StrItem
deriving DecidableEq, Repr

/-- The characters of an item in the source. -/
def StrItem.encode : StrItem → List Char
  | StrItem.plain c => [c]
  | StrItem.escape c => ['\\', c]

/-- The single character an escape denotes. -/
def decodeEscape (c : Char) : Char :=
  if c = 'n' then '\n' else if c = 'r' then '\r' else if c = 't' then '\t' else c

/-- The character an item denotes. -/
def StrItem.decode : StrItem → Char
  | StrItem.plain c => c
  | StrItem.escape c => decodeEscape c

/-- The escapes that string literals accept: `\n \r \t \\ \' \"`. -/
def acceptedEscape (c : Char) : Bool :=
  c == 'n' || c == 'r' || c == 't' || c == '\\' || c == '\'' || c == '"'

/-- An item of the body of a literal with the given delimiter: an ordinary character is
not the delimiter, the backslash or NUL; an escape is one of the accepted ones. -/
def StrItem.ok (delimiter : Char) : StrItem → Bool
  | StrItem.plain c => c != delimiter && c != '\\' && c != NUL
  | StrItem.escape c => acceptedEscape c

/-- The source text of a body. -/
def encodeItems : List StrItem → List Char
  | [] => []
  | i :: items => i.encode ++ encodeItems items

/-- The decoded text of a body. -/
def decodeItems (items : List StrItem) : List Char :=
  items.map StrItem.decode

/-- The keywords that `identifierType` has a case for, each with its token type. -/
def keywordTable : List (String × TokenType) :=
  [("and", TokenType.TOKEN_AND), ("or", TokenType.TOKEN_OR), ("if", TokenType.TOKEN_IF),
   ("else", TokenType.TOKEN_ELSE), ("while", TokenType.TOKEN_WHILE),
   ("for", TokenType.TOKEN_FOR), ("break", TokenType.TOKEN_BREAK),
   ("continue", TokenType.TOKEN_CONTINUE), ("fun", TokenType.TOKEN_FUN),
   ("return", TokenType.TOKEN_RETURN), ("class", TokenType.TOKEN_CLASS),
   ("this", TokenType.TOKEN_THIS), ("super", TokenType.TOKEN_SUPER),
   ("true", TokenType.TOKEN_TRUE), ("false", TokenType.TOKEN_FALSE),
   ("nil", TokenType.TOKEN_NIL), ("var", TokenType.TOKEN_VAR),
   ("print", TokenType.TOKEN_PRINT), ("try", TokenType.TOKEN_TRY),
   ("catch", TokenType.TOKEN_CATCH), ("throw", TokenType.TOKEN_THROW)]

/-- The type of the first token of a source text. -/
def firstTokenType (text : String) : Option TokenType :=
  (scanToken (initScanner (sourceOf text))).map (fun r => r.1.type)

/-- The body `a\nb` of a string literal: two ordinary characters around an escape. -/
def demoStringItems : List StrItem :=
  [StrItem.plain 'a', StrItem.escape 'n', StrItem.plain 'b']

/-- An instance of `ArithOps` in which the objects are the strings; `concatenate` is
not looked into. -/
def demoStringArith : ArithOps :=
  { isString := fun v => match v with
      | Value.obj _ => true
      | _ => false,
    concat := fun a _ => a,
    add := fun a b => a + b, sub := fun a b => a - b, mul := fun a b => a * b,
    div := fun a b => a / b, fmod := fun a b => a % b }

/-! ### The width of `classId` (`vm.c`, `builtins.c`) -/

/-- The assignment `subclass->classId = subclass->baseId * superclass->classId` of
`inherit` and `clazz->classId = clazz->baseId * super->classId` of
`registerStaticClass`, in an unsigned integer type of `bits` bits: the product is taken
modulo `2 ^ bits`. The declaration of the field is not among the sources; its width is
the parameter. -/
def inheritBounded (bits : Nat) (classes : List ObjClass) (sub sup : Nat) :
    Option (List ObjClass) :=
  match classes[sup]?, classes[sub]? with
  | some superclass, some subclass =>
    some (classes.set sub
      { baseId := subclass.baseId,
        classId := (subclass.baseId * superclass.classId) % 2 ^ bits,
        super := some sup })
  | _, _ => none

/-- A chain of class declarations `class C0`, `class C1 : C0`, `class C2 : C1`, ... with
the given `baseId`s, after the classes `classes`. -/
def declareChain (bits : Nat) : List Nat → List ObjClass → Option (List ObjClass)
  | [], classes => some classes
  | baseId :: rest, classes =>
    if classes.length = 0 then declareChain bits rest (classes ++ [newClass baseId])
    else
      match inheritBounded bits (classes ++ [newClass baseId]) classes.length
          (classes.length - 1) with
      | none => none
      | some classes1 => declareChain bits rest classes1

/-- The first sixteen primes. -/
def demoPrimes : List Nat :=
  [2, 3, 5, 7, 11, 13, 17, 19, 23, 29, 31, 37, 41, 43, 47, 53]

/-! ### String interning (`object.c`) -/

/-- The struct `ObjString`: the bytes `chars` (with their number `length`) and the
hash. -/
structure ObjString where
  chars : List Nat
  hash : Nat
deriving DecidableEq, Repr

/-- The string objects of the VM, a string object being named by its index, and the
table `vm->strings`, the list of its keys. -/
structure StringVM where
  objects : List ObjString
  strings : List Nat
deriving DecidableEq, Repr

/-- Modelled from the spec: `tableFindString` (`table.c` is not among the sources), the
lookup of the interning table: the key of the table that has the given length, hash and
bytes, if there is one. -/
def tableFindString (objects : List ObjString) (strings : List Nat) (chars : List Nat)
    (hash : Nat) : Option Nat :=
  strings.find? (fun r =>
    match objects[r]? with
    | some o => decide (o.hash = hash) && decide (o.chars = chars)
    | none => false)

/-- The function `allocateString`: a new string object, entered into `vm->strings`. -/
def allocateString (vm : StringVM) (chars : List Nat) (hash : Nat) : StringVM × Nat :=
  ({ objects := vm.objects ++ [{ chars := chars, hash := hash }],
     strings := vm.strings ++ [vm.objects.length] }, vm.objects.length)

/-- The function `takeString`; `hashString` is the hash function, which is not among
the sources. The freeing of `chars` is not modelled. -/
def takeString (hashString : List Nat → Nat) (vm : StringVM) (chars : List Nat) :
    StringVM × Nat :=
  match tableFindString vm.objects vm.strings chars (hashString chars) with
  | some interned => (vm, interned)
  | none => allocateString vm chars (hashString chars)

/-- The function `copyString`; the new string object holds a copy of the bytes. -/
def copyString (hashString : List Nat → Nat) (vm : StringVM) (chars : List Nat) :
    StringVM × Nat :=
  match tableFindString vm.objects vm.strings chars (hashString chars) with
  | some interned => (vm, interned)
  | none => allocateString vm chars (hashString chars)

/-- The bytes of the string object `r`. -/
def charsOf (vm : StringVM) (r : Nat) : Option (List Nat) :=
  (vm.objects[r]?).map (fun o => o.chars)

/-- The state of the interning table that `copyString` and `takeString` keep: each key
is a string object whose hash is the hash of its bytes, and two keys with the same bytes
are the same key. -/
def InternInv (hashString : List Nat → Nat) (vm : StringVM) : Prop :=
  (∀ r, r ∈ vm.strings → ∃ o, vm.objects[r]? = some o ∧ o.hash = hashString o.chars) ∧
  (∀ r1 r2, r1 ∈ vm.strings → r2 ∈ vm.strings → charsOf vm r1 = charsOf vm r2 → r1 = r2)

/-- A call of `copyString` or of `takeString`. -/
inductive InternCall where
  | copy (chars : List Nat) : InternCall
  | take (chars : List Nat) : InternCall
deriving DecidableEq, Repr

/-- The bytes of a call. -/
def InternCall.chars : InternCall → List Nat
  | InternCall.copy chars => chars
  | InternCall.take chars => chars

/-- The VM and the string object returned by a call. -/
def InternCall.run (hashString : List Nat → Nat) (vm : StringVM) : InternCall → StringVM × Nat
  | InternCall.copy chars => copyString hashString vm chars
  | InternCall.take chars => takeString hashString vm chars

/-- The VM after a sequence of calls. -/
def internAll (hashString : List Nat → Nat) : StringVM → List InternCall → StringVM
  | vm, [] => vm
  | vm, call :: rest => internAll hashString (call.run hashString vm).1 rest

/-! ### Modules (`vm.c`) -/

/-- A module file, as far as `import` goes: whether `compile` gives a function for it,
and the `import` statements that its body executes, in order. -/
structure ModuleFile where
  compiles : Bool
  imports : List String
deriving DecidableEq, Repr

/-- What `import` does besides returning: the files loaded, the sources compiled and the
module bodies run, in order. -/
inductive ModuleEvent where
  | loaded (name : String) : ModuleEvent
  | compiled (name : String) : ModuleEvent
  | ran (name : String) : ModuleEvent
deriving DecidableEq, Repr

/-- The table `vm->modules`, as the list of its keys, and the events so far. -/
structure ModuleVM where
  modules : List String
  events : List ModuleEvent
deriving DecidableEq, Repr

/-- The body of a module: its `import` statements in order; the body ends with an
exception when one of them fails. `importOne` is the function `import`. -/
def runBody (importOne : ModuleVM → String → Option (Bool × ModuleVM)) :
    ModuleVM → List String → Option (Bool × ModuleVM)
  | vm, [] => some (true, vm)
  | vm, name :: rest =>
    match importOne vm name with
    | none => none
    | some (false, vm1) => some (false, vm1)
    | some (true, vm1) => runBody importOne vm1 rest

/-- The function `import`: its result and the VM. `files` stands for `loadFile` and
`compile`; the test `tableFindString(&vm->modules, ...) != NULL` is the membership in
the list of keys. The first argument bounds the depth of nested imports; the result is
`none` when this depth is reached. -/
def importModule (files : String → Option ModuleFile) :
    Nat → ModuleVM → String → Option (Bool × ModuleVM)
  | 0, _, _ => none
  | depth + 1, vm, moduleName =>
    if moduleName ∈ vm.modules then some (true, vm)
    else
      match files moduleName with
      | none => some (false, vm)
      | some file =>
        let vm1 : ModuleVM :=
          { vm with events := vm.events ++ [ModuleEvent.loaded moduleName] }
        if file.compiles then
          runBody (importModule files depth)
            { vm1 with events := vm1.events ++ [ModuleEvent.compiled moduleName,
                                                ModuleEvent.ran moduleName] }
            file.imports
        else some (false, vm1)

/-- The files of the examples: the module `m` imports nothing and the module `a`
imports itself. -/
def demoFiles (name : String) : Option ModuleFile :=
  if name = "m" then some { compiles := true, imports := [] }
  else if name = "a" then some { compiles := true, imports := ["a"] }
  else none

/-! ### Calls and `runtimeError` (`vm.c`, `builtins.c`) -/

/-- The part of the VM that calls use: the stack below `stackTop` (bottom first), the
heap, the array `frames`, which has `FRAMES_MAX` records, `frameCount` and
`handlingException`. -/
structure CallVM where
  stack : List Value
  heap : List HeapObj
  frames : List CallFrame
  frameCount : Nat
  handlingException : Nat
deriving DecidableEq, Repr

/-- The constant `FRAMES_MAX`, the number of records of `vm->frames`. -/
def CallVM.framesMax (vm : CallVM) : Nat :=
  vm.frames.length

/-- A native function: from the VM, the frame of the call and the number of arguments
to the VM and the value returned; `raised` stands for `EXCEPTION_VAL`, returned after a
call of `runtimeError` with the message. -/
abbrev NativeFn := CallVM → CallFrame → Nat → CallVM × NativeResult Value

/-- The function `call`, for a function and for a closure (`callFunction`,
`callClosure`): `arity` and `maxArgs` are those of the function. The fields `function`,
`ip` and `handlerCount` of the frame are left out. -/
def call (vm : CallVM) (argCount arity maxArgs : Nat) : OpResult CallVM :=
  if vm.frameCount = vm.framesMax then OpResult.threw "Stack overflow" vm
  else
    match storeAt vm.frames vm.frameCount
        (setupStackFrame vm.stack argCount arity maxArgs).2.1 with
    | none => OpResult.fault
    | some frames =>
      OpResult.next { vm with stack := (setupStackFrame vm.stack argCount arity maxArgs).1,
                              frames := frames, frameCount := vm.frameCount + 1 }

/-- The function `setupNativeStackFrame`: the stack, the frame and `stackArgs`. -/
def setupNativeStackFrame (stack : List Value) (frame : CallFrame)
    (argCount arity maxArgs : Nat) : List Value × CallFrame × Nat :=
  ((adjustArgs stack argCount arity maxArgs).1,
   { frame with slots := ((adjustArgs stack argCount arity maxArgs).1.length : Int)
                          - ((adjustArgs stack argCount arity maxArgs).2.1 : Int) },
   (adjustArgs stack argCount arity maxArgs).2.1)

/-- The function `callNative` for a native with the function `function`, `arity` and
`maxArgs`. The frame record is `vm->frames[vm->frameCount++]`; there is a fault when
this record is outside the array. -/
def callNative (function : NativeFn) (arity maxArgs : Nat) (vm : CallVM) (argCount : Nat)
    (method : Bool) : OpResult CallVM :=
  match vm.frames[vm.frameCount]? with
  | none => OpResult.fault
  | some frame =>
    let r := setupNativeStackFrame vm.stack frame (argCount + (if method then 1 else 0))
      arity maxArgs
    let vm1 : CallVM :=
      { vm with stack := r.1, frames := vm.frames.set vm.frameCount r.2.1,
                frameCount := vm.frameCount + 1 }
    match function vm1 r.2.1 r.2.2 with
    | (vm2, NativeResult.returned result) =>
      OpResult.next
        { vm2 with frameCount := vm2.frameCount - 1,
                   stack := push (vm2.stack.take
                     (vm2.stack.length - (r.2.2 + (if method then 0 else 1)))) result }
    | (vm2, NativeResult.raised message) =>
      OpResult.threw message { vm2 with frameCount := vm2.frameCount - 1 }
    | (_, NativeResult.fault) => OpResult.fault

/-- The function `callNativeClosure`; `function` is the native of the closure with the
upvalues of the closure passed to it. -/
def callNativeClosure (function : NativeFn) (arity maxArgs : Nat) (vm : CallVM)
    (argCount : Nat) (method : Bool) : OpResult CallVM :=
  match vm.frames[vm.frameCount]? with
  | none => OpResult.fault
  | some frame =>
    let r := setupNativeStackFrame vm.stack frame (argCount + (if method then 1 else 0))
      arity maxArgs
    let vm1 : CallVM :=
      { vm with stack := r.1, frames := vm.frames.set vm.frameCount r.2.1,
                frameCount := vm.frameCount + 1 }
    match function vm1 r.2.1 r.2.2 with
    | (vm2, NativeResult.returned result) =>
      OpResult.next
        { vm2 with frameCount := vm2.frameCount - 1,
                   stack := push (vm2.stack.take
                     (vm2.stack.length - (r.2.2 + (if method then 0 else 1)))) result }
    | (vm2, NativeResult.raised message) =>
      OpResult.threw message { vm2 with frameCount := vm2.frameCount - 1 }
    | (_, NativeResult.fault) => OpResult.fault

/-- The kinds of object that `callMethod` tells apart, with what a call needs of each. -/
inductive Callable where
  | function (arity maxArgs : Nat) : Callable
  | closure (arity maxArgs : Nat) : Callable
  | nativeClosure (function : NativeFn) (arity maxArgs : Nat) : Callable
  | native (function : NativeFn) (arity maxArgs : Nat) : Callable
  | other : Callable

/-- The function `callMethod`. -/
def callMethod (vm : CallVM) (callable : Callable) (argCount : Nat) : OpResult CallVM :=
  match callable with
  | Callable.function arity maxArgs => call vm argCount arity maxArgs
  | Callable.closure arity maxArgs => call vm argCount arity maxArgs
  | Callable.nativeClosure function arity maxArgs =>
    callNativeClosure function arity maxArgs vm argCount true
  | Callable.native function arity maxArgs => callNative function arity maxArgs vm argCount true
  | Callable.other => OpResult.threw "Can only call functions and classes" vm

/-- The native `exceptionInit`: the instance is the argument 0 and the message the
argument 1 of the call, that is the values at `frame->slots[0]` and `frame->slots[1]`;
the message is stored in the field `message` of the instance. -/
def exceptionInit : NativeFn := fun vm frame _ =>
  match vm.stack[frame.slots.toNat]?, vm.stack[frame.slots.toNat + 1]? with
  | some (Value.obj inst), some msg =>
    match setInstanceField vm.heap inst "message" msg with
    | none => (vm, NativeResult.fault)
    | some (heap1, _) =>
      ({ vm with heap := heap1 }, NativeResult.returned (Value.obj inst))
  | _, _ => (vm, NativeResult.fault)

/-- What `runtimeError` takes from the VM: the class `vm->runtimeExceptionClass`, the
kind of each object that may be called, and the string object that `takeString` gives
for a text. -/
structure ErrorEnv where
  runtimeExceptionClass : Nat
  callables : Nat → Callable
  stringValue : String → Value

/-- The result of `runtimeError`: the process is ended with the message (an exception
was being handled), or `EXCEPTION_VAL` is returned in the given VM, or there is a
fault. -/
inductive ErrorResult where
  | exited (message : String) : ErrorResult
  | sentinel (vm : CallVM) : ErrorResult
  | fault : ErrorResult
deriving DecidableEq, Repr

/-- Modelled from the spec: the elox function `newInstance` (not among the sources): an
instance of the class with one field value, nil, for each field of the class. -/
def newInstance (cl : Nat) (clazz : ClassObj) : HeapObj :=
  HeapObj.inst cl (List.replicate clazz.fields.length Value.nil)

/-- The function `runtimeError` with the formatted text `message`. The result of
`callMethod` is not tested; when the call of the initializer itself raises a runtime
error, that call of `runtimeError` finds `handlingException` set and ends the
process. -/
def runtimeError (env : ErrorEnv) (vm : CallVM) (message : String) : ErrorResult :=
  if vm.handlingException ≠ 0 then ErrorResult.exited message
  else
    match classObjAt vm.heap env.runtimeExceptionClass with
    | none => ErrorResult.fault
    | some clazz =>
      match clazz.initializer with
      | Value.obj init =>
        match callMethod
            { vm with handlingException := vm.handlingException + 1,
                      heap := vm.heap ++ [newInstance env.runtimeExceptionClass clazz],
                      stack := push (push vm.stack (Value.obj vm.heap.length))
                        (env.stringValue message) }
            (env.callables init) 1 with
        | OpResult.fault => ErrorResult.fault
        | OpResult.threw nested _ => ErrorResult.exited nested
        | OpResult.next vm1 =>
          ErrorResult.sentinel
            { vm1 with stack := push (pop vm1.stack) (Value.obj vm.heap.length),
                       handlingException := vm1.handlingException - 1 }
      | _ => ErrorResult.fault

/-- A heap with the class `RuntimeException` (object 0), which has the fields `message`
and `stacktrace` of its superclasses and their initializer, the native `exceptionInit`
(object 1); the superclasses themselves are left out of the heap. -/
def demoErrorHeap : List HeapObj :=
  [HeapObj.clazz { name := "RuntimeException", baseId := 11, classId := 2 * 3 * 7 * 11,
                   super := none, fields := [("message", 0), ("stacktrace", 1)],
                   methods := [("Exception", Value.obj 1)], initializer := Value.obj 1,
                   memberRefs := [] },
   HeapObj.other]

/-- The environment of `runtimeError` in the examples: the object 1 is the native
`exceptionInit`, registered with the arity 2, and the string object of a text is named
by the length of the text. -/
def demoErrorEnv : ErrorEnv :=
  { runtimeExceptionClass := 0,
    callables := fun r => if r = 1 then Callable.native exceptionInit 2 2 else Callable.other,
    stringValue := fun text => Value.obj (100 + text.length) }

/-- A VM with two frame records, `frameCount` of them in use, and one value on the
stack. -/
def demoCallVM (frameCount : Nat) : CallVM :=
  { stack := [Value.number 7], heap := demoErrorHeap,
    frames := [{ slots := 0, fixedArgs := 0, varArgs := 0 },
               { slots := 0, fixedArgs := 0, varArgs := 0 }],
    frameCount := frameCount, handlingException := 0 }

/-! ### The growth of the stack (`vm.c`) -/

/-- The stack array and the pointers of the VM into it. A pointer is an address counted
in values: `stack` is the address of the array and `cells` its contents, a cell that was
never written being `none`; `frameSlots` are the pointers `slots` of the frames
`0 .. frameCount - 1`, and `openLocations` the pointers `location` of the upvalues of
the open list. -/
structure StackVM where
  stack : Int
  cells : List (Option Value)
  stackTop : Int
  stackTopMax : Int
  stackCapacity : Int
  frameSlots : List Int
  openLocations : List Int
deriving DecidableEq, Repr

/-- Modelled from the spec: the macro `GROW_ARRAY` (`memory.h` is not among the
sources), a reallocation to `newCount` cells: the cells of the old array are kept as
far as the new array goes, and the further cells were never written. The address of
the new array is chosen by the allocator and is a parameter of the callers. -/
def growArray {α : Type} (cells : List (Option α)) (newCount : Nat) : List (Option α) :=
  cells.take newCount ++ List.replicate (newCount - cells.length) none

/-- The function `ensureStack`. The macro `GROW_CAPACITY` is the parameter
`growCapacity`, and `newStack` is the address that the reallocation returns. -/
def ensureStack (growCapacity : Int → Int) (newStack : Int) (vm : StackVM) (required : Int) :
    StackVM :=
  if required > vm.stackCapacity then
    let oldCapacity := vm.stackTopMax - vm.stack + 1
    let newCapacity := growCapacity oldCapacity
    let oldStack := vm.stack
    { stack := newStack,
      cells := growArray vm.cells newCapacity.toNat,
      stackTop := newStack + oldCapacity - 1,
      stackTopMax := newStack + newCapacity - 1,
      stackCapacity := newCapacity,
      frameSlots :=
        if oldStack ≠ newStack then vm.frameSlots.map (fun slots => newStack + (slots - oldStack))
        else vm.frameSlots,
      openLocations :=
        if oldStack ≠ newStack then
          vm.openLocations.map (fun location => newStack + (location - oldStack))
        else vm.openLocations }
  else vm

/-- The depth of the stack, `stackTop - stack`. -/
def StackVM.depth (vm : StackVM) : Int :=
  vm.stackTop - vm.stack

/-- The offsets of the frame bases from the base of the stack. -/
def StackVM.frameOffsets (vm : StackVM) : List Int :=
  vm.frameSlots.map (fun slots => slots - vm.stack)

/-- The offsets of the slots of the open upvalues from the base of the stack. -/
def StackVM.openOffsets (vm : StackVM) : List Int :=
  vm.openLocations.map (fun location => location - vm.stack)

/-- A stack of four cells at the address 1000 that holds two values; there are two
frames, with the bases 0 and 1, and one open upvalue, on the slot 1. -/
def demoStackVM : StackVM :=
  { stack := 1000, cells := [some (Value.number 1), some (Value.number 2), none, none],
    stackTop := 1002, stackTopMax := 1003, stackCapacity := 4,
    frameSlots := [1000, 1001], openLocations := [1001] }

/-! ### The opcode `INSTANCEOF` (`vm.c`) -/

/-- The opcode `INSTANCEOF`: the class is `peek(vm, 0)`; both operands are popped, and a
boolean is pushed when `classOfValue` returns a class for the left operand. -/
def opInstanceOf (vm : Builtins) (st : ObjVM) : OpResult ObjVM :=
  match peek st.stack 0 with
  | none => OpResult.fault
  | some classVal =>
    match classAt st.heap classVal with
    | none => OpResult.threw "Righthand operand must be a class" st
    | some (_, clazz) =>
      match peek (pop st.stack) 0 with
      | none => OpResult.fault
      | some val =>
        match classOfValue vm st.heap val with
        | none => OpResult.next { stack := pop (pop st.stack), heap := st.heap }
        | some instClassRef =>
          match classObjAt st.heap instClassRef with
          | none => OpResult.fault
          | some instClass =>
            OpResult.next
              { stack := push (pop (pop st.stack))
                  (Value.bool (instanceOf clazz.toObjClass instClass.toObjClass)),
                heap := st.heap }

/-- A heap with the class `A` (object 0), an instance of it (object 1), a function
(object 2) and the classes of numbers and booleans (objects 3 and 4, as `demoBuiltins`
names them). -/
def demoInstanceOfHeap : List HeapObj :=
  [HeapObj.clazz (newClassObj "A" 2), HeapObj.inst 0 [], HeapObj.function none,
   HeapObj.clazz (newClassObj "Number" 3), HeapObj.clazz (newClassObj "Bool" 5)]

/-- The operands of `INSTANCEOF` above the number 7: a left operand and the class
`A`. -/
def demoInstanceOfVM (left : Value) : ObjVM :=
  { stack := [Value.number 7, left, Value.obj 0], heap := demoInstanceOfHeap }

/-! ### The opcodes `GET_VARARG` and `SET_VARARG` (`vm.c`) -/

/-- The function `pop` on the stack array: the value popped and the VM. -/
def vmPop (vm : VM) : Option (Value × VM) :=
  if vm.stackTop = 0 then none
  else
    match vm.stack[vm.stackTop - 1]? with
    | some v => some (v, { vm with stackTop := vm.stackTop - 1 })
    | none => none

/-- The index in the stack array of `frame->slots[frame->fixedArgs + index + 1]`; `none`
when the address is below the array. -/
def varArgSlot (frame : CallFrame) (index : Int) : Option Nat :=
  if 0 ≤ frame.slots + ((frame.fixedArgs : Int) + index + 1) then
    some (frame.slots + ((frame.fixedArgs : Int) + index + 1)).toNat
  else none

/-- The opcode `GET_VARARG`; `toInt` is the conversion `int index = AS_NUMBER(indexVal)`
of a double, given by its bit pattern, to `int`. -/
def opGetVararg (toInt : Nat → Int) (frame : CallFrame) (vm : VM) : OpResult VM :=
  match vmPop vm with
  | none => OpResult.fault
  | some (indexVal, vm1) =>
    if !isNumber indexVal then OpResult.threw "Arg index is not a number" vm1
    else
      match varArgSlot frame (toInt (asNumber indexVal)) with
      | none => OpResult.fault
      | some k =>
        match vm1.stack[k]? with
        | none => OpResult.fault
        | some v =>
          match vmPush vm1 v with
          | none => OpResult.fault
          | some vm2 => OpResult.next vm2

/-- The opcode `SET_VARARG`: the index is `peek(vm, 1)` and the value `pop(vm)`. -/
def opSetVararg (toInt : Nat → Int) (frame : CallFrame) (vm : VM) : OpResult VM :=
  match vmPeek vm 1 with
  | none => OpResult.fault
  | some indexVal =>
    if !isNumber indexVal then OpResult.threw "Arg index is not a number" vm
    else
      match vmPop vm with
      | none => OpResult.fault
      | some (val, vm1) =>
        match varArgSlot frame (toInt (asNumber indexVal)) with
        | none => OpResult.fault
        | some k =>
          match storeAt vm1.stack k val with
          | none => OpResult.fault
          | some stack2 =>
            match vmPop { vm1 with stack := stack2 } with
            | none => OpResult.fault
            | some (_, vm3) =>
              match vmPush vm3 val with
              | none => OpResult.fault
              | some vm4 => OpResult.next vm4

/-- The slots of the vararg pack of a frame: `frame->slots[fixedArgs + 1 + i]` for
`0 <= i < varArgs`. -/
def inVarArgPack (frame : CallFrame) (k : Nat) : Bool :=
  decide (frame.slots + (frame.fixedArgs : Int) + 1 ≤ (k : Int) ∧
    (k : Int) < frame.slots + (frame.fixedArgs : Int) + 1 + frame.varArgs)

/-- A frame at the base of the stack with one fixed argument and one vararg. -/
def demoVarArgFrame : CallFrame :=
  { slots := 0, fixedArgs := 1, varArgs := 1 }

/-- The stack of the frame `demoVarArgFrame`: the callee, the fixed argument 10, the
vararg 20, the local 30, and on top the operands pushed for the opcode. -/
def demoVarArgVM (operands : List Value) : VM :=
  { stack := [Value.obj 0, Value.number 10, Value.number 20, Value.number 30] ++ operands
      ++ [Value.nil, Value.nil],
    stackTop := 4 + operands.length, frames := [], upvalueObjs := [], openUpvalues := [],
    globalValues := [] }

/-! ### `hasNext` of map iterators (`builtins.c`) -/

/-- The function `mapIteratorHasNext`. -/
def mapIteratorHasNext (items : CloseTable) (it : MapIterator) : NativeResult Bool :=
  match closeTableGetNext items it.current with
  | none => NativeResult.fault
  | some (nextIndex, _) => NativeResult.returned (decide (nextIndex ≥ 0))

/-! ### Heap strings (`object.c`) -/

/-- The struct `HeapCString`; `chars` is the allocated array, a cell that was never
written being `none`. -/
structure HeapCString where
  chars : List (Option Char)
  length : Nat
  capacity : Nat
deriving DecidableEq, Repr

/-- The function `initHeapStringSize`; `none` when `chars[0]` is outside the array. -/
def initHeapStringSize (initialCapacity : Nat) : Option HeapCString :=
  (storeAt (List.replicate initialCapacity (none : Option Char)) 0 (some NUL)).map
    (fun chars => { chars := chars, length := 0, capacity := initialCapacity })

/-- The function `initHeapString`. -/
def initHeapString : Option HeapCString :=
  initHeapStringSize 8

/-- The characters `data` written into the array from the index `offset` on; `none` when
a character falls outside the array. -/
def writeChars : List (Option Char) → Nat → List Char → Option (List (Option Char))
  | chars, _, [] => some chars
  | chars, offset, c :: rest =>
    match storeAt chars offset (some c) with
    | none => none
    | some chars1 => writeChars chars1 (offset + 1) rest

/-- The C library function `vsnprintf(chars + offset, size, format, ap)`, for the
formatted output `text`: with `size` 0 nothing is written; otherwise the first
`size - 1` characters of the output and a NUL are written; the length of the whole
output is returned. -/
def vsnprintf (chars : List (Option Char)) (offset size : Nat) (text : List Char) :
    Option (List (Option Char)) × Nat :=
  if size = 0 then (some chars, text.length)
  else (writeChars chars offset (text.take (size - 1) ++ [NUL]), text.length)

/-- The conversion of an `int` to the `size_t` parameter of `vsnprintf`, `size_t` having
64 bits. -/
def toSizeT (n : Int) : Nat :=
  (n % 2 ^ 64).toNat

/-- The function `addStringVFmt`, for the formatted output `text`; the macro
`GROW_CAPACITY` is the parameter `growCapacity`. -/
def addStringVFmt (growCapacity : Nat → Nat) (string : HeapCString) (text : List Char) :
    Option HeapCString :=
  let available : Int := (string.capacity : Int) - (string.length : Int) - 1
  match vsnprintf string.chars string.length (toSizeT available) text with
  | (none, _) => none
  | (some chars1, required) =>
    if (required : Int) ≤ available then
      some { chars := chars1, length := string.length + required, capacity := string.capacity }
    else
      let requiredCapacity := string.length + required + 1
      let newCapacity :=
        if growCapacity string.capacity < requiredCapacity then requiredCapacity
        else growCapacity string.capacity
      let available2 : Int := (newCapacity : Int) - (string.length : Int) - 1
      match vsnprintf (growArray chars1 newCapacity) string.length (toSizeT available2) text with
      | (none, _) => none
      | (some chars3, required2) =>
        some { chars := chars3, length := string.length + required2, capacity := newCapacity }

/-- The content of a heap string: the characters of `chars` before the first NUL, as the
C string functions read it; `none` when a cell that was never written, or the end of
the array, comes first. -/
def cString : List (Option Char) → Option (List Char)
  | [] => none
  | none :: _ => none
  | some c :: rest => if c = NUL then some [] else (cString rest).map (fun l => c :: l)

/-- The capacity doubled, eight at least. -/
def doubleCapacity (capacity : Nat) : Nat :=
  if capacity < 8 then 8 else capacity * 2

/-! ### Specification-level notions for field layouts and token lines -/

/-- A field table is dense: no name occurs twice, and the indices of the names are the
numbers below the number of names, each once. -/
def DenseFields (fields : Table Nat) : Prop :=
  (fields.map Prod.fst).Nodup ∧ (fields.map Prod.snd).Perm (List.range fields.length)

/-- The opcodes of a class `K` that declares the field `x` twice. -/
def demoTwiceOps : List ClassOp :=
  [ClassOp.cls "K" 2, ClassOp.field "x", ClassOp.field "x"]

/-- The number of newline characters of a source before the index `index`. -/
def newlinesBefore (source : List Char) (index : Nat) : Nat :=
  (source.take index).count '\n'

/-- The first two tokens of a source: two calls of `scanToken` after `initScanner`. -/
def scanTwo (source : List Char) : Option (Token × Token) :=
  match scanToken (initScanner source) with
  | none => none
  | some (first, s1) =>
    match scanToken s1 with
    | none => none
    | some (second, _) => some (first, second)

/-! ## Theorems

### The deterministic table -/

theorem bucketOf_lt (h n : Nat) (hn : 0 < n) : bucketOf h n < n := by
  unfold bucketOf
  have := @Nat.and_le_right h (n - 1)
  omega

/-- Pointwise description of the result of `linkEntry`. -/
theorem linkEntry_spec (E : List TableEntry) (n : Nat) (k v : Value) (bk : Nat)
    (hn : n < E.length) (hb : bk < E.length) :
    ∃ E' b, linkEntry E n k v bk = some E' ∧ E[bk]? = some b ∧ E'.length = E.length ∧
      ∀ (j : Nat) (x : TableEntry), E[j]? = some x →
        ∃ x', E'[j]? = some x' ∧
          x'.chain = (if j = bk then (n : Int) else x.chain) ∧
          x'.key = (if j = n then k else x.key) ∧
          x'.value = (if j = n then v else x.value) ∧
          x'.next = (if j = n then b.chain else x.next) := by
  obtain ⟨e, he⟩ : ∃ e, E[n]? = some e := ⟨E[n], by simp [hn]⟩
  obtain ⟨b, hb'⟩ : ∃ b, E[bk]? = some b := ⟨E[bk], by simp [hb]⟩
  have hb1 : ∃ b1, (E.set n { e with key := k, value := v, next := b.chain })[bk]? = some b1 ∧
      b1 = (if n = bk then { e with key := k, value := v, next := b.chain } else b) := by
    rw [List.getElem?_set]
    by_cases h : n = bk
    · simp [h, hb]
    · simp [h, hb']
  obtain ⟨b1, hb1, hb1e⟩ := hb1
  refine ⟨(E.set n { e with key := k, value := v, next := b.chain }).set bk
    { b1 with chain := (n : Int) }, b, ?_, hb', ?_, ?_⟩
  · simp only [linkEntry, he, hb', hb1]
  · simp
  · intro j x hx
    rw [List.getElem?_set, List.getElem?_set]
    simp only [List.length_set]
    by_cases h1 : bk = j
    · subst h1
      simp only [hb, if_true]
      refine ⟨_, rfl, by simp, ?_⟩
      rw [hb'] at hx
      cases hx
      subst hb1e
      by_cases h2 : n = bk
      · subst h2; rw [he] at hb'; cases hb'; simp
      · have h3 : ¬ bk = n := fun h => h2 h.symm
        simp [h2, h3]
    · have h1' : ¬ j = bk := fun h => h1 h.symm
      simp only [h1, if_false, h1']
      by_cases h2 : n = j
      · subst h2
        rw [he] at hx; cases hx
        simp [hn]
      · have h2' : ¬ j = n := fun h => h2 h.symm
        simp [h2, h2', hx]

theorem InChain.nonneg {E : List TableEntry} {idx : Int} {j : Nat} (h : InChain E idx j) :
    0 ≤ idx := by
  cases h <;> omega

theorem InChain.inv {E : List TableEntry} {i j : Nat} (h : InChain E (i : Int) j) :
    i = j ∨ ∃ e, E[i]? = some e ∧ InChain E e.next j := by
  generalize hi : (i : Int) = idx at h
  cases h with
  | here j => left; omega
  | step i' j e he hc =>
    have : i = i' := by omega
    subst this
    exact Or.inr ⟨e, he, hc⟩

/-- Indices met on a chain starting below `n` are below `n`. -/
theorem InChain.lt {E : List TableEntry} {n : Nat}
    (hnext : ∀ (j : Nat) (e : TableEntry), j < n → E[j]? = some e → e.next < j)
    {idx : Int} {j : Nat} (h : InChain E idx j) (hidx : idx < n) : j < n := by
  induction h with
  | here j => omega
  | step i j e he _ ih =>
    have := hnext i e (by omega) he
    exact ih (by omega)

/-- Chains only depend on the `next` fields of the entries below `n`. -/
theorem InChain.transfer {E E' : List TableEntry} {n : Nat}
    (hnext : ∀ (j : Nat) (e : TableEntry), j < n → E[j]? = some e → e.next < j)
    (hagree : ∀ (j : Nat) (e : TableEntry), j < n → E[j]? = some e →
      ∃ e', E'[j]? = some e' ∧ e'.next = e.next)
    {idx : Int} {j : Nat} (h : InChain E idx j) (hidx : idx < n) : InChain E' idx j := by
  induction h with
  | here j => exact InChain.here j
  | step i j e he _ ih =>
    have h1 := hnext i e (by omega) he
    obtain ⟨e', he', hn'⟩ := hagree i e (by omega) he
    refine InChain.step i j e' he' ?_
    rw [hn']
    exact ih (by omega)

theorem cell_eq_of {E E' : List TableEntry} {j : Nat} {x x' : TableEntry}
    (h : E[j]? = some x) (h' : E'[j]? = some x') (hk : x'.key = x.key)
    (hv : x'.value = x.value) : cell E' j = cell E j := by
  simp [cell, h, h', hk, hv]

/-- Appending an entry with `linkEntry` keeps the chain structure. -/
theorem Chained.link {ops : KeyOps} {E : List TableEntry} {n : Nat} (k v : Value)
    (hc : Chained ops E n) (hn : n < E.length) :
    ∃ E', linkEntry E n k v (bucketOf (ops.hashValue k) E.length) = some E' ∧
      E'.length = E.length ∧ Chained ops E' (n + 1) ∧
      (∀ j, j < n → cell E' j = cell E j) ∧
      cell E' n = (if k = Value.undefined then none else some (k, v)) := by
  have hbk : bucketOf (ops.hashValue k) E.length < E.length := bucketOf_lt _ _ (by omega)
  obtain ⟨E', b, hE', hb, hlen, hpt⟩ := linkEntry_spec E n k v _ hn hbk
  have hback : ∀ (j : Nat) (x' : TableEntry), E'[j]? = some x' → ∃ x, E[j]? = some x := by
    intro j x' hx'
    have hj : j < E.length := by
      rw [← hlen]
      exact (List.getElem?_eq_some.mp hx').1
    exact ⟨E[j], by simp [hj]⟩
  have hnextE : ∀ (j : Nat) (e : TableEntry), j < n → E[j]? = some e → e.next < j :=
    fun j e hj he => (hc.next j e hj he).2
  have hnextE' : ∀ (j : Nat) (e : TableEntry), j < n → E'[j]? = some e → e.next < j := by
    intro j e' hj he'
    obtain ⟨x, hx⟩ := hback j e' he'
    obtain ⟨x', hx', _, _, _, hnx⟩ := hpt j x hx
    rw [hx'] at he'; cases he'
    rw [hnx, if_neg (by omega)]
    exact hnextE j x hj hx
  have hfw : ∀ (j : Nat) (e : TableEntry), j < n → E[j]? = some e →
      ∃ e', E'[j]? = some e' ∧ e'.next = e.next := by
    intro j e hj he
    obtain ⟨x', hx', _, _, _, hnx⟩ := hpt j e he
    exact ⟨x', hx', by rw [hnx, if_neg (by omega)]⟩
  have hbw : ∀ (j : Nat) (e : TableEntry), j < n → E'[j]? = some e →
      ∃ e', E[j]? = some e' ∧ e'.next = e.next := by
    intro j e' hj he'
    obtain ⟨x, hx⟩ := hback j e' he'
    obtain ⟨x', hx', _, _, _, hnx⟩ := hpt j x hx
    rw [hx'] at he'; cases he'
    exact ⟨x, hx, by rw [hnx, if_neg (by omega)]⟩
  obtain ⟨en, hen⟩ : ∃ e, E[n]? = some e := ⟨E[n], by simp [hn]⟩
  obtain ⟨en', hen', _, hkn, hvn, hnn⟩ := hpt n en hen
  simp only [if_true] at hkn hvn hnn
  refine ⟨E', hE', hlen, ⟨by omega, ?_, ?_, ?_, ?_⟩, ?_, ?_⟩
  · -- head
    intro b0 e' he'
    obtain ⟨x, hx⟩ := hback b0 e' he'
    obtain ⟨x', hx', hch, _⟩ := hpt b0 x hx
    rw [hx'] at he'; cases he'
    have := hc.head b0 x hx
    rw [hch]
    split <;> omega
  · -- next
    intro j e' hj he'
    obtain ⟨x, hx⟩ := hback j e' he'
    obtain ⟨x', hx', _, _, _, hnx⟩ := hpt j x hx
    rw [hx'] at he'; cases he'
    rw [hnx]
    by_cases hjn : j = n
    · subst hjn
      have := hc.head _ b hb
      simp only [if_true]; omega
    · have := hc.next j x (by omega) hx
      rw [if_neg hjn]; exact this
  · -- complete
    intro j e' hj he' hkey
    obtain ⟨x, hx⟩ := hback j e' he'
    obtain ⟨x', hx', _, hkx, _, _⟩ := hpt j x hx
    rw [hx'] at he'; cases he'
    rw [hlen]
    by_cases hjn : j = n
    · subst hjn
      rw [hkx, if_pos rfl]
      obtain ⟨b', hb', hch, _⟩ := hpt _ b hb
      refine ⟨b', hb', ?_⟩
      rw [hch, if_pos rfl]
      exact InChain.here j
    · rw [hkx, if_neg hjn] at hkey ⊢
      obtain ⟨be, hbe, hin⟩ := hc.complete j x (by omega) hx hkey
      obtain ⟨be', hbe', hch, _⟩ := hpt _ be hbe
      refine ⟨be', hbe', ?_⟩
      rw [hch]
      have hlt := (hc.head _ be hbe).2
      split
      · next heq =>
        rw [heq, hb] at hbe; cases hbe
        refine InChain.step n j en' hen' ?_
        rw [hnn]
        exact InChain.transfer hnextE hfw hin hlt
      · exact InChain.transfer hnextE hfw hin hlt
  · -- sound
    intro b0 be' j e' hbe' hin he'
    obtain ⟨be, hbe⟩ := hback b0 be' hbe'
    obtain ⟨be2, hbe2, hch, _⟩ := hpt b0 be hbe
    rw [hbe2] at hbe'; cases hbe'
    obtain ⟨x, hx⟩ := hback j e' he'
    obtain ⟨x', hx', _, hkx, _, _⟩ := hpt j x hx
    rw [hx'] at he'; cases he'
    rw [hlen]
    rw [hch] at hin
    have hlt := (hc.head _ be hbe).2
    by_cases hb0 : b0 = bucketOf (ops.hashValue k) E.length
    · rw [if_pos hb0] at hin
      rcases InChain.inv hin with h | ⟨e2, he2, hin2⟩
      · subst h
        rw [hkx, if_pos rfl]
        exact Or.inr hb0.symm
      · rw [hen'] at he2; cases he2
        rw [hnn] at hin2
        have hltb := (hc.head _ b hb).2
        have hinE := InChain.transfer hnextE' hbw hin2 hltb
        have hjn := InChain.lt hnextE hinE hltb
        rw [hkx, if_neg (by omega)]
        subst hb0
        exact hc.sound _ b j x hb hinE hx
    · rw [if_neg hb0] at hin
      have hinE := InChain.transfer hnextE' hbw hin hlt
      have hjn := InChain.lt hnextE hinE hlt
      rw [hkx, if_neg (by omega)]
      exact hc.sound _ be j x hbe hinE hx
  · -- cells below n
    intro j hj
    cases hx : E[j]? with
    | none =>
      have : E'[j]? = none := by
        rw [List.getElem?_eq_none_iff] at hx ⊢
        omega
      simp [cell, hx, this]
    | some x =>
      obtain ⟨x', hx', _, hkx, hvx, _⟩ := hpt j x hx
      rw [if_neg (by omega)] at hkx hvx
      exact cell_eq_of hx hx' hkx hvx
  · -- the new cell
    simp [cell, hen', hkn, hvn]

theorem lookupLoop_neg (ops : KeyOps) (E : List TableEntry) (key : Value) (fuel : Nat)
    (idx : Int) (h : idx < 0) : lookupLoop ops E key fuel idx = some none := by
  unfold lookupLoop
  simp [h]

theorem lookupLoop_succ (ops : KeyOps) (E : List TableEntry) (key : Value) (fuel : Nat)
    (i : Nat) (e : TableEntry) (he : E[i]? = some e) :
    lookupLoop ops E key (fuel + 1) (i : Int) =
      if key ≠ Value.undefined ∧ ops.valuesEquals e.key key = true then some (some i)
      else lookupLoop ops E key fuel e.next := by
  rw [lookupLoop]
  have : ¬ ((i : Int) < 0) := by omega
  simp [this, he]

/-- With strictly decreasing links the chain walk ends, and it returns an entry of the
chain with an equal key, or `NULL` when the chain has none. -/
theorem lookupLoop_spec (ops : KeyOps) (E : List TableEntry) (key : Value) (n : Nat)
    (hle : n ≤ E.length)
    (hnext : ∀ (j : Nat) (e : TableEntry), j < n → E[j]? = some e → -1 ≤ e.next ∧ e.next < j) :
    ∀ (fuel : Nat) (idx : Int), -1 ≤ idx → idx < n → idx < fuel →
      ∃ r, lookupLoop ops E key fuel idx = some r ∧
        (∀ i, r = some i → InChain E idx i ∧ key ≠ Value.undefined ∧
          ∃ e, E[i]? = some e ∧ ops.valuesEquals e.key key = true) ∧
        (r = none → ∀ (j : Nat) (e : TableEntry), InChain E idx j → E[j]? = some e →
          ¬ (key ≠ Value.undefined ∧ ops.valuesEquals e.key key = true)) := by
  intro fuel
  induction fuel with
  | zero =>
    intro idx h1 _ h3
    refine ⟨none, lookupLoop_neg _ _ _ _ _ (by omega), by simp, ?_⟩
    intro _ j e hin
    have := hin.nonneg
    omega
  | succ fuel ih =>
    intro idx h1 h2 h3
    by_cases hneg : idx < 0
    · refine ⟨none, lookupLoop_neg _ _ _ _ _ hneg, by simp, ?_⟩
      intro _ j e hin
      have := hin.nonneg
      omega
    · obtain ⟨i, rfl⟩ : ∃ i : Nat, idx = (i : Int) := ⟨idx.toNat, by omega⟩
      have hi : i < n := by omega
      have hil : i < E.length := by omega
      obtain ⟨e, he⟩ : ∃ e, E[i]? = some e := ⟨E[i], by simp [hil]⟩
      rw [lookupLoop_succ ops E key fuel i e he]
      by_cases hm : key ≠ Value.undefined ∧ ops.valuesEquals e.key key = true
      · rw [if_pos hm]
        refine ⟨some i, rfl, ?_, by simp⟩
        intro i' hi'
        cases hi'
        exact ⟨InChain.here i, hm.1, e, he, hm.2⟩
      · rw [if_neg hm]
        have hn := hnext i e hi he
        obtain ⟨r, hr, h_some, h_none⟩ := ih e.next hn.1 (by omega) (by omega)
        refine ⟨r, hr, ?_, ?_⟩
        · intro i' hi'
          obtain ⟨hin, hk, e', he', heq⟩ := h_some i' hi'
          exact ⟨InChain.step i i' e he hin, hk, e', he', heq⟩
        · intro hnone j e' hin he'
          rcases InChain.inv hin with h | ⟨e2, he2, hin2⟩
          · subst h
            rw [he] at he'; cases he'
            exact hm
          · rw [he] at he2; cases he2
            exact h_none hnone j e' hin2 he'

theorem mem_contentsFrom {E : List TableEntry} {i r : Nat} {p : Value × Value} :
    p ∈ contentsFrom E i r ↔ ∃ j, i ≤ j ∧ j < i + r ∧ cell E j = some p := by
  simp only [contentsFrom, List.mem_filterMap, List.mem_range'_1]
  constructor
  · rintro ⟨j, ⟨h1, h2⟩, h3⟩; exact ⟨j, h1, h2, h3⟩
  · rintro ⟨j, h1, h2, h3⟩; exact ⟨j, ⟨h1, h2⟩, h3⟩

theorem cell_some {E : List TableEntry} {j : Nat} {p : Value × Value} (h : cell E j = some p) :
    ∃ e, E[j]? = some e ∧ e.key ≠ Value.undefined ∧ p = (e.key, e.value) := by
  unfold cell at h
  cases he : E[j]? with
  | none => simp [he] at h
  | some e =>
    simp only [he] at h
    by_cases hk : e.key = Value.undefined
    · simp [hk] at h
    · simp only [hk, if_false, Option.some.injEq] at h
      exact ⟨e, rfl, hk, h.symm⟩

theorem cell_of_live {E : List TableEntry} {j : Nat} {e : TableEntry} (h : E[j]? = some e)
    (hk : e.key ≠ Value.undefined) : cell E j = some (e.key, e.value) := by
  simp [cell, h, hk]

theorem cell_of_dead {E : List TableEntry} {j : Nat} {e : TableEntry} (h : E[j]? = some e)
    (hk : e.key = Value.undefined) : cell E j = none := by
  simp [cell, h, hk]

theorem KeyOps.Lawful.ne_undef {ops : KeyOps} (hl : ops.Lawful) {a b : Value}
    (h : ops.valuesEquals a b = true) (hb : b ≠ Value.undefined) : a ≠ Value.undefined := by
  intro ha
  subst ha
  rw [hl.undef b hb] at h
  cases h

theorem KeyOps.Lawful.ne_undef_right {ops : KeyOps} (hl : ops.Lawful) {a b : Value}
    (h : ops.valuesEquals a b = true) (ha : a ≠ Value.undefined) : b ≠ Value.undefined :=
  hl.ne_undef (hl.symm a b h) ha

/-- On a well-formed table `lookup` returns: it finds a live entry with an equal key, or
no live entry has an equal key. -/
theorem lookup_wf {ops : KeyOps} (hl : ops.Lawful) {t : CloseTable} (hw : WF ops t)
    (hpos : 0 < t.tableSize) (key : Value) :
    ∃ r, lookup ops t key (ops.hashValue key) = some r ∧
      (∀ i, r = some i → i < t.entriesCount ∧ key ≠ Value.undefined ∧
        ∃ e, t.entries[i]? = some e ∧ e.key ≠ Value.undefined ∧
          ops.valuesEquals e.key key = true) ∧
      (r = none → ∀ (j : Nat) (e : TableEntry), j < t.entriesCount → t.entries[j]? = some e →
        e.key ≠ Value.undefined → ops.valuesEquals e.key key = false) := by
  have hc := hw.chained
  have hlen := hw.size
  have hbk : bucketOf (ops.hashValue key) t.tableSize < t.entries.length := by
    rw [hlen]; exact bucketOf_lt _ _ hpos
  obtain ⟨b, hb⟩ : ∃ b, t.entries[bucketOf (ops.hashValue key) t.tableSize]? = some b :=
    ⟨t.entries[bucketOf (ops.hashValue key) t.tableSize], by simp [hbk]⟩
  have hh := hc.head _ b hb
  obtain ⟨r, hr, h_some, h_none⟩ := lookupLoop_spec ops t.entries key t.entriesCount hc.le
    hc.next (t.entries.length + 1) b.chain hh.1 hh.2 (by have := hc.le; omega)
  refine ⟨r, by simp only [lookup, hb, hr], ?_, ?_⟩
  · intro i hi
    obtain ⟨hin, hk, e, he, heq⟩ := h_some i hi
    exact ⟨InChain.lt (fun j e hj he => (hc.next j e hj he).2) hin hh.2, hk, e, he,
      hl.ne_undef heq hk, heq⟩
  · intro hnone j e hj he hlive
    by_contra hne
    have heq : ops.valuesEquals e.key key = true := by
      cases h : ops.valuesEquals e.key key
      · exact absurd h hne
      · rfl
    have hk : key ≠ Value.undefined := hl.ne_undef_right heq hlive
    obtain ⟨b', hb', hin⟩ := hc.complete j e hj he hlive
    rw [hl.hash_eq _ _ heq, hlen, hb] at hb'
    cases hb'
    exact h_none hnone j e hin he ⟨hk, heq⟩

theorem find_unique {ops : KeyOps} (hl : ops.Lawful) {l : List (Value × Value)}
    (hu : l.Pairwise (fun p q => ops.valuesEquals p.1 q.1 = false)) {p : Value × Value}
    {k : Value} (hp : p ∈ l) (heq : ops.valuesEquals p.1 k = true) :
    l.find? (fun q => ops.valuesEquals q.1 k) = some p := by
  induction l with
  | nil => cases hp
  | cons q l ih =>
    rw [List.pairwise_cons] at hu
    rcases List.mem_cons.mp hp with h | h
    · subst h
      simp [List.find?, heq]
    · cases hq : ops.valuesEquals q.1 k
      · simp only [List.find?, hq]
        exact ih hu.2 h
      · have h1 := hl.trans _ _ _ hq (hl.symm _ _ heq)
        rw [hu.1 p h] at h1
        cases h1

/-- On a well-formed table `closeTableGet` is lookup in the list of live pairs. -/
theorem closeTableGet_wf {ops : KeyOps} (hl : ops.Lawful) {t : CloseTable} (hw : WF ops t)
    (key : Value) : closeTableGet ops t key = some (alookup ops (contents t) key) := by
  unfold closeTableGet
  by_cases h0 : t.count = 0
  · have : contents t = [] := by
      have := hw.cnt
      rw [h0] at this
      exact List.length_eq_zero.mp this.symm
    simp [h0, this, alookup]
  · rw [if_neg h0]
    have hne : contents t ≠ [] := by
      intro h
      have := hw.cnt
      rw [h] at this
      exact h0 this
    obtain ⟨p, hp⟩ := List.exists_mem_of_ne_nil _ hne
    obtain ⟨j, _, hj, _⟩ := mem_contentsFrom.mp hp
    have hpos : 0 < t.tableSize := by
      have := hw.chained.le
      have := hw.size
      omega
    obtain ⟨r, hr, h_some, h_none⟩ := lookup_wf hl hw hpos key
    rw [hr]
    cases r with
    | none =>
      have : alookup ops (contents t) key = none := by
        unfold alookup
        rw [Option.map_eq_none', List.find?_eq_none]
        intro q hq
        obtain ⟨j, _, hj, hcell⟩ := mem_contentsFrom.mp hq
        obtain ⟨e, he, hk, rfl⟩ := cell_some hcell
        simp [h_none rfl j e (by omega) he hk]
      simp [this]
    | some i =>
      obtain ⟨hi, _, e, he, hk, heq⟩ := h_some i rfl
      have hmem : (e.key, e.value) ∈ contents t :=
        mem_contentsFrom.mpr ⟨i, by omega, by omega, cell_of_live he hk⟩
      have := find_unique hl hw.uniq hmem heq
      simp [he, alookup, this]

theorem contentsFrom_zero (E : List TableEntry) (i : Nat) : contentsFrom E i 0 = [] := by
  simp [contentsFrom]

theorem contentsFrom_cons_some {E : List TableEntry} {i : Nat} {p : Value × Value} (r : Nat)
    (h : cell E i = some p) : contentsFrom E i (r + 1) = p :: contentsFrom E (i + 1) r := by
  simp [contentsFrom, List.range'_succ, List.filterMap_cons, h]

theorem contentsFrom_cons_none {E : List TableEntry} {i : Nat} (r : Nat)
    (h : cell E i = none) : contentsFrom E i (r + 1) = contentsFrom E (i + 1) r := by
  simp [contentsFrom, List.range'_succ, List.filterMap_cons, h]

theorem contentsFrom_concat (E : List TableEntry) (i r : Nat) :
    contentsFrom E i (r + 1) = contentsFrom E i r ++ (cell E (i + r)).toList := by
  simp only [contentsFrom, List.range'_1_concat, List.filterMap_append]
  congr 1

theorem contentsFrom_congr {E E' : List TableEntry} {i r : Nat}
    (h : ∀ j, i ≤ j → j < i + r → cell E' j = cell E j) :
    contentsFrom E' i r = contentsFrom E i r := by
  unfold contentsFrom
  apply List.filterMap_congr
  intro j hj
  rw [List.mem_range'_1] at hj
  exact h j hj.1 hj.2

theorem contentsFrom_length_le (E : List TableEntry) (i r : Nat) :
    (contentsFrom E i r).length ≤ r := by
  unfold contentsFrom
  have := List.length_filterMap_le (cell E) (List.range' i r)
  simpa using this

/-- The copying loop of `rehash` appends the live pairs of the old entries, in order, to
the new entries and keeps the chain structure of the new entries. -/
theorem rehashLoop_spec (ops : KeyOps) (E : List TableEntry) (newSize : Nat) :
    ∀ (r i q : Nat) (N : List TableEntry), i + r ≤ E.length → N.length = newSize →
      Chained ops N q → q + (contentsFrom E i r).length ≤ newSize →
      ∃ N', rehashLoop ops newSize E r i q N = some N' ∧ N'.length = newSize ∧
        Chained ops N' (q + (contentsFrom E i r).length) ∧
        contentsFrom N' 0 (q + (contentsFrom E i r).length) =
          contentsFrom N 0 q ++ contentsFrom E i r := by
  intro r
  induction r with
  | zero =>
    intro i q N _ hN hc _
    refine ⟨N, rfl, hN, ?_, ?_⟩
    · simpa [contentsFrom_zero] using hc
    · simp [contentsFrom_zero]
  | succ r ih =>
    intro i q N hi hN hc hq
    have hil : i < E.length := by omega
    obtain ⟨p, hp⟩ : ∃ p, E[i]? = some p := ⟨E[i], by simp [hil]⟩
    by_cases hk : p.key = Value.undefined
    · have hcell := cell_of_dead hp hk
      rw [contentsFrom_cons_none r hcell] at hq ⊢
      obtain ⟨N', h1, h2, h3, h4⟩ := ih (i + 1) q N (by omega) hN hc hq
      refine ⟨N', ?_, h2, h3, h4⟩
      rw [rehashLoop]
      simp only [hp, hk, ne_eq, not_true_eq_false, if_false]
      exact h1
    · have hcell := cell_of_live hp hk
      rw [contentsFrom_cons_some r hcell] at hq ⊢
      simp only [List.length_cons] at hq ⊢
      obtain ⟨N1, hl1, hlen1, hc1, hbelow, hnew⟩ := hc.link p.key p.value (by omega)
      rw [hN] at hl1
      rw [if_neg hk] at hnew
      have hcont : contentsFrom N1 0 (q + 1) = contentsFrom N 0 q ++ [(p.key, p.value)] := by
        rw [contentsFrom_concat, Nat.zero_add, hnew]
        congr 1
        exact contentsFrom_congr (fun j _ hj => hbelow j (by omega))
      obtain ⟨N', h1, h2, h3, h4⟩ := ih (i + 1) (q + 1) N1 (by omega) (by omega) hc1
        (by omega)
      have harr : q + 1 + (contentsFrom E (i + 1) r).length =
          q + ((contentsFrom E (i + 1) r).length + 1) := by omega
      rw [harr] at h3 h4
      refine ⟨N', ?_, h2, h3, ?_⟩
      · rw [rehashLoop]
        simp only [hp, hk, ne_eq, not_false_eq_true, if_true, hl1]
        exact h1
      · rw [h4, hcont]
        simp

theorem chained_replicate (ops : KeyOps) (n : Nat) (u : TableEntry) :
    Chained ops (List.replicate n { u with chain := -1 }) 0 := by
  refine ⟨by omega, ?_, ?_, ?_, ?_⟩
  · intro b e he
    rw [List.getElem?_replicate] at he
    split at he
    · cases he; simp
    · cases he
  · intro j e hj; omega
  · intro j e hj; omega
  · intro b be j e hbe hin
    rw [List.getElem?_replicate] at hbe
    split at hbe
    · cases hbe
      have := hin.nonneg
      simp at this
    · cases hbe

/-- A rehash to a different size that has room for the live entries returns, keeps the
live pairs and their order, and reclaims the tombstones. -/
theorem rehash_spec (ops : KeyOps) (t : CloseTable) (newSize : Nat)
    (hle : t.entriesCount ≤ t.entries.length) (hcnt : t.count = (contents t).length)
    (hne : (if newSize = 0 then 8 else newSize) ≠ t.tableSize)
    (hroom : t.count ≤ (if newSize = 0 then 8 else newSize)) :
    ∃ t', rehash ops t newSize = some t' ∧
      t'.entries.length = (if newSize = 0 then 8 else newSize) ∧
      t'.tableSize = (if newSize = 0 then 8 else newSize) ∧
      t'.entriesCount = t.count ∧ t'.count = t.count ∧ t'.modCount = t.modCount ∧
      Chained ops t'.entries t'.entriesCount ∧ contents t' = contents t := by
  generalize hs : (if newSize = 0 then 8 else newSize) = s at hne hroom
  obtain ⟨N', h1, h2, h3, h4⟩ := rehashLoop_spec ops t.entries s t.entriesCount 0 0
    (List.replicate s { ops.uninit with chain := -1 }) (by omega) (by simp)
    (chained_replicate ops s ops.uninit) (by unfold contents at hcnt; omega)
  refine ⟨{ t with entries := N', tableSize := s, entriesCount := t.count }, ?_, h2, rfl, rfl,
    rfl, rfl, ?_, ?_⟩
  · unfold rehash
    simp only [hs, if_neg hne, h1]
  · simp only
    rw [hcnt]
    unfold contents
    simpa using h3
  · simp only [contents]
    rw [hcnt]
    simp only [contents]
    rw [Nat.zero_add] at h4
    rw [h4]
    simp [contentsFrom_zero]

/-- A change of keys to `undefined` and of values keeps the chain structure. -/
theorem Chained.congr {ops : KeyOps} {E E' : List TableEntry} {n : Nat}
    (hc : Chained ops E n) (hlen : E'.length = E.length)
    (hpt : ∀ (j : Nat) (x : TableEntry), E[j]? = some x →
      ∃ x', E'[j]? = some x' ∧ x'.chain = x.chain ∧ x'.next = x.next ∧
        (x'.key = x.key ∨ x'.key = Value.undefined)) :
    Chained ops E' n := by
  have hback : ∀ (j : Nat) (x' : TableEntry), E'[j]? = some x' →
      ∃ x, E[j]? = some x ∧ x'.chain = x.chain ∧ x'.next = x.next ∧
        (x'.key = x.key ∨ x'.key = Value.undefined) := by
    intro j x' hx'
    have hj : j < E.length := by
      rw [← hlen]
      exact (List.getElem?_eq_some.mp hx').1
    obtain ⟨x2, hx2, h⟩ := hpt j E[j] (by simp [hj])
    rw [hx2] at hx'; cases hx'
    exact ⟨E[j], by simp [hj], h⟩
  have hnextE : ∀ (j : Nat) (e : TableEntry), j < n → E[j]? = some e → e.next < j :=
    fun j e hj he => (hc.next j e hj he).2
  have hnextE' : ∀ (j : Nat) (e : TableEntry), j < n → E'[j]? = some e → e.next < j := by
    intro j e' hj he'
    obtain ⟨x, hx, _, hn, _⟩ := hback j e' he'
    rw [hn]; exact hnextE j x hj hx
  have hfw : ∀ (j : Nat) (e : TableEntry), j < n → E[j]? = some e →
      ∃ e', E'[j]? = some e' ∧ e'.next = e.next := by
    intro j e _ he
    obtain ⟨x', hx', _, hn, _⟩ := hpt j e he
    exact ⟨x', hx', hn⟩
  have hbw : ∀ (j : Nat) (e : TableEntry), j < n → E'[j]? = some e →
      ∃ e', E[j]? = some e' ∧ e'.next = e.next := by
    intro j e' _ he'
    obtain ⟨x, hx, _, hn, _⟩ := hback j e' he'
    exact ⟨x, hx, hn.symm⟩
  refine ⟨by rw [hlen]; exact hc.le, ?_, ?_, ?_, ?_⟩
  · intro b e' he'
    obtain ⟨x, hx, hch, _⟩ := hback b e' he'
    rw [hch]; exact hc.head b x hx
  · intro j e' hj he'
    obtain ⟨x, hx, _, hn, _⟩ := hback j e' he'
    rw [hn]; exact hc.next j x hj hx
  · intro j e' hj he' hkey
    obtain ⟨x, hx, _, _, hk⟩ := hback j e' he'
    have hk' : e'.key = x.key := by
      rcases hk with h | h
      · exact h
      · exact absurd h hkey
    rw [hk'] at hkey ⊢
    obtain ⟨be, hbe, hin⟩ := hc.complete j x hj hx hkey
    rw [hlen]
    obtain ⟨be', hbe', hch, _⟩ := hpt _ be hbe
    refine ⟨be', hbe', ?_⟩
    rw [hch]
    exact InChain.transfer hnextE hfw hin (hc.head _ be hbe).2
  · intro b be' j e' hbe' hin he'
    obtain ⟨be, hbe, hch, _⟩ := hback b be' hbe'
    obtain ⟨x, hx, _, _, hk⟩ := hback j e' he'
    rw [hch] at hin
    have hinE := InChain.transfer hnextE' hbw hin (hc.head _ be hbe).2
    rw [hlen]
    rcases hk with h | h
    · rw [h]; exact hc.sound b be j x hbe hinE hx
    · exact Or.inl h

/-- Pairwise relations on the live pairs, read on indices. -/
theorem pairwise_contentsFrom {E : List TableEntry} {R : Value × Value → Value × Value → Prop}
    (n : Nat) :
    (contentsFrom E 0 n).Pairwise R ↔
      ∀ i j, i < j → j < n → ∀ p q, cell E i = some p → cell E j = some q → R p q := by
  induction n with
  | zero => simp [contentsFrom_zero]
  | succ n ih =>
    rw [contentsFrom_concat, List.pairwise_append, ih, Nat.zero_add]
    constructor
    · rintro ⟨h1, _, h3⟩ i j hij hj p q hp hq
      by_cases hjn : j = n
      · subst hjn
        apply h3 p (mem_contentsFrom.mpr ⟨i, by omega, by omega, hp⟩) q
        simp [hq]
      · exact h1 i j hij (by omega) p q hp hq
    · intro h
      refine ⟨fun i j hij hj => h i j hij (by omega), ?_, ?_⟩
      · cases cell E n <;> simp
      · intro a ha b hb
        obtain ⟨i, _, hi, hci⟩ := mem_contentsFrom.mp ha
        cases hcn : cell E n with
        | none => simp [hcn] at hb
        | some q =>
          simp only [hcn, Option.toList_some, List.mem_singleton] at hb
          subst hb
          exact h i n (by omega) (by omega) a b hci hcn

/-- In a well-formed table two live entries with equal keys are the same entry. -/
theorem WF.index_unique {ops : KeyOps} (hl : ops.Lawful) {t : CloseTable} (hw : WF ops t)
    {i j : Nat} {p q : Value × Value} (hi : i < t.entriesCount) (hj : j < t.entriesCount)
    (hp : cell t.entries i = some p) (hq : cell t.entries j = some q)
    (heq : ops.valuesEquals p.1 q.1 = true) : i = j := by
  have hu := (pairwise_contentsFrom t.entriesCount).mp hw.uniq
  rcases Nat.lt_trichotomy i j with h | h | h
  · rw [hu i j h hj p q hp hq] at heq; cases heq
  · exact h
  · have h2 := hl.symm _ _ heq
    rw [hu j i h hi q p hq hp] at h2; cases h2

/-- The lookup made by `closeTableSet` and `closeTableDelete` on a well-formed table. -/
theorem lookup_phase {ops : KeyOps} (hl : ops.Lawful) {t : CloseTable} (hw : WF ops t)
    (key : Value) :
    ∃ r, (if t.count > 0 then lookup ops t key (ops.hashValue key) else some none) = some r ∧
      (∀ i, r = some i → 0 < t.count ∧ lookup ops t key (ops.hashValue key) = some (some i) ∧
        i < t.entriesCount ∧ key ≠ Value.undefined ∧
        ∃ e, t.entries[i]? = some e ∧ e.key ≠ Value.undefined ∧
          ops.valuesEquals e.key key = true) ∧
      (r = none → (t.count = 0 ∨ lookup ops t key (ops.hashValue key) = some none) ∧
        ∀ p, p ∈ contents t → ops.valuesEquals p.1 key = false) := by
  by_cases h0 : t.count > 0
  · rw [if_pos h0]
    have hpos : 0 < t.tableSize := by
      have h1 := hw.chained.le
      have h2 := hw.size
      have h3 := hw.cnt
      have h4 := contentsFrom_length_le t.entries 0 t.entriesCount
      unfold contents at h3
      omega
    obtain ⟨r, hr, h_some, h_none⟩ := lookup_wf hl hw hpos key
    refine ⟨r, hr, ?_, ?_⟩
    · intro i hi
      subst hi
      exact ⟨h0, hr, h_some i rfl⟩
    · intro hnone
      subst hnone
      refine ⟨Or.inr hr, ?_⟩
      intro p hp
      obtain ⟨j, _, hj, hcell⟩ := mem_contentsFrom.mp hp
      obtain ⟨e, he, hk, rfl⟩ := cell_some hcell
      exact h_none rfl j e (by omega) he hk
  · rw [if_neg h0]
    refine ⟨none, rfl, by simp, ?_⟩
    intro _
    refine ⟨Or.inl (by omega), ?_⟩
    have : contents t = [] := by
      have := hw.cnt
      exact List.length_eq_zero.mp (by omega)
    simp [this]

theorem any_eq_true_of_mem {ops : KeyOps} {l : List (Value × Value)} {p : Value × Value}
    {k : Value} (hp : p ∈ l) (h : ops.valuesEquals p.1 k = true) :
    l.any (fun q => ops.valuesEquals q.1 k) = true :=
  List.any_eq_true.mpr ⟨p, hp, h⟩

theorem any_eq_false_of_forall {ops : KeyOps} {l : List (Value × Value)} {k : Value}
    (h : ∀ p, p ∈ l → ops.valuesEquals p.1 k = false) :
    l.any (fun q => ops.valuesEquals q.1 k) = false := by
  rw [List.any_eq_false]
  intro p hp
  simp [h p hp]

/-- Overwriting the value of a key that is present. -/
theorem closeTableSet_present {ops : KeyOps} (hl : ops.Lawful) {t : CloseTable}
    (hw : WF ops t) (key value : Value)
    (hany : (contents t).any (fun q => ops.valuesEquals q.1 key) = true) :
    ∃ t', closeTableSet ops t key value = some (t', false) ∧ WF ops t' ∧
      contents t' = aset ops (contents t) key value ∧ t'.tableSize = t.tableSize ∧
      t'.entriesCount = t.entriesCount ∧ t'.count = t.count ∧ t'.modCount = t.modCount := by
  obtain ⟨r, hr, h_some, h_none⟩ := lookup_phase hl hw key
  cases r with
  | none =>
    have := any_eq_false_of_forall (h_none rfl).2
    rw [this] at hany; cases hany
  | some i =>
    obtain ⟨_, _, hi, hk, e, he, hlive, heq⟩ := h_some i rfl
    have hil : i < t.entries.length := (List.getElem?_eq_some.mp he).1
    have hpt : ∀ (j : Nat) (x : TableEntry), t.entries[j]? = some x →
        ∃ x', (t.entries.set i { e with value := value })[j]? = some x' ∧
          x'.chain = x.chain ∧ x'.next = x.next ∧ x'.key = x.key ∧
          x'.value = (if j = i then value else x.value) := by
      intro j x hx
      rw [List.getElem?_set]
      by_cases hji : i = j
      · subst hji
        rw [he] at hx; cases hx
        simp [hil]
      · have : ¬ j = i := fun h => hji h.symm
        simp [hji, this, hx]
    have hcells : ∀ j, j < t.entriesCount →
        cell (t.entries.set i { e with value := value }) j =
          (cell t.entries j).map
            (fun p => if ops.valuesEquals p.1 key then (p.1, value) else p) := by
      intro j hj
      have hjl : j < t.entries.length := by have := hw.chained.le; omega
      obtain ⟨x', hx', _, _, hkx, hvx⟩ := hpt j t.entries[j] (by simp [hjl])
      have hx : t.entries[j]? = some t.entries[j] := by simp [hjl]
      by_cases hkd : t.entries[j].key = Value.undefined
      · rw [cell_of_dead hx hkd, cell_of_dead hx' (by rw [hkx]; exact hkd)]
        rfl
      · rw [cell_of_live hx hkd, cell_of_live hx' (by rw [hkx]; exact hkd)]
        simp only [Option.map_some']
        by_cases hji : j = i
        · subst hji
          rw [he] at hx
          cases hx
          simp [hkx, hvx, heq]
        · have hne : ops.valuesEquals t.entries[j].key key = false := by
            cases h : ops.valuesEquals t.entries[j].key key
            · rfl
            · exfalso
              apply hji
              exact hw.index_unique hl hj hi (cell_of_live hx hkd) (cell_of_live he hlive)
                (hl.trans _ _ _ h (hl.symm _ _ heq))
          simp [hkx, hvx, hji, hne]
    have hcont : contents { t with entries := t.entries.set i { e with value := value } } =
        (contents t).map (fun p => if ops.valuesEquals p.1 key then (p.1, value) else p) := by
      simp only [contents, contentsFrom]
      rw [List.map_filterMap]
      apply List.filterMap_congr
      intro j hj
      rw [List.mem_range'_1] at hj
      exact hcells j (by omega)
    refine ⟨{ t with entries := t.entries.set i { e with value := value } }, ?_, ?_, ?_, rfl,
      rfl, rfl, rfl⟩
    · unfold closeTableSet
      simp only [hr, he]
    · refine ⟨by simp [hw.size], ?_, ?_, ?_⟩
      · refine hw.chained.congr (by simp) ?_
        intro j x hx
        obtain ⟨x', hx', h1, h2, h3, _⟩ := hpt j x hx
        exact ⟨x', hx', h1, h2, Or.inl h3⟩
      · rw [hcont, List.pairwise_map]
        refine hw.uniq.imp ?_
        intro a b hab
        have h1 : ∀ p : Value × Value,
            (if ops.valuesEquals p.1 key then (p.1, value) else p).1 = p.1 := by
          intro p; split <;> rfl
        rw [h1, h1]; exact hab
      · rw [hcont, List.length_map]; exact hw.cnt
    · rw [hcont]
      unfold aset
      rw [if_pos hany]

/-- Appending a new live pair to a well-formed table that has a free slot. -/
theorem WF.append {ops : KeyOps} {t : CloseTable} (hw : WF ops t) (key value : Value)
    (hk : key ≠ Value.undefined) (hroom : t.entriesCount < t.tableSize)
    (habs : ∀ p, p ∈ contents t → ops.valuesEquals p.1 key = false) :
    ∃ E', linkEntry t.entries t.entriesCount key value
        (bucketOf (ops.hashValue key) t.tableSize) = some E' ∧
      WF ops { t with entries := E', count := t.count + 1,
                      entriesCount := t.entriesCount + 1 } ∧
      contents { t with entries := E', count := t.count + 1,
                        entriesCount := t.entriesCount + 1 } = contents t ++ [(key, value)] := by
  obtain ⟨E', hE', hlen, hc, hbelow, hnew⟩ := hw.chained.link key value
    (by rw [hw.size]; exact hroom)
  rw [hw.size] at hE'
  rw [if_neg hk] at hnew
  have hcont : contents { t with entries := E', count := t.count + 1, entriesCount := t.entriesCount + 1 } = contents t ++ [(key, value)] := by
    simp only [contents]
    rw [contentsFrom_concat, Nat.zero_add, hnew]
    congr 1
    exact contentsFrom_congr (fun j _ hj => hbelow j (by omega))
  refine ⟨E', hE', ⟨by simp only; rw [hlen, hw.size], hc, ?_, ?_⟩, hcont⟩
  · rw [hcont, List.pairwise_append]
    refine ⟨hw.uniq, by simp, ?_⟩
    intro a ha b hb
    simp only [List.mem_singleton] at hb
    subst hb
    exact habs a ha
  · rw [hcont]
    simp [hw.cnt]

/-- Inserting a key that is absent, when the entries array has a free slot or the table
is at least three quarters live (so that the rehash doubles it). -/
theorem closeTableSet_absent {ops : KeyOps} (hl : ops.Lawful) {t : CloseTable}
    (hw : WF ops t) (key value : Value) (hk : key ≠ Value.undefined)
    (hany : (contents t).any (fun q => ops.valuesEquals q.1 key) = false)
    (hok : t.entriesCount = t.tableSize → 3 * t.tableSize ≤ 4 * t.count) :
    ∃ t', closeTableSet ops t key value = some (t', true) ∧ WF ops t' ∧
      contents t' = aset ops (contents t) key value ∧
      t'.tableSize = (if t.entriesCount = t.tableSize then
          (if t.tableSize = 0 then 8 else 2 * t.tableSize) else t.tableSize) ∧
      t'.entriesCount = (if t.entriesCount = t.tableSize then t.count else t.entriesCount) + 1 ∧
      t'.count = t.count + 1 ∧ t'.modCount = t.modCount + 1 := by
  obtain ⟨r, hr, h_some, h_none⟩ := lookup_phase hl hw key
  cases r with
  | some i =>
    obtain ⟨_, _, hi, _, e, he, hlive, heq⟩ := h_some i rfl
    have hmem : (e.key, e.value) ∈ contents t :=
      mem_contentsFrom.mpr ⟨i, by omega, by omega, cell_of_live he hlive⟩
    have h1 : (contents t).any (fun q => ops.valuesEquals q.1 key) = true :=
      any_eq_true_of_mem hmem heq
    rw [h1] at hany; cases hany
  | none =>
    have habs := (h_none rfl).2
    have haset : aset ops (contents t) key value = contents t ++ [(key, value)] := by
      unfold aset; rw [hany]; simp
    have hcnt_le : t.count ≤ t.entriesCount := by
      have h3 := hw.cnt
      have h4 := contentsFrom_length_le t.entries 0 t.entriesCount
      unfold contents at h3
      omega
    by_cases hfull : t.entriesCount = t.tableSize
    · have hge := hok hfull
      have hw1 : WF ops { t with modCount := t.modCount + 1 } :=
        ⟨hw.size, hw.chained, hw.uniq, hw.cnt⟩
      have hs : (if 2 * t.tableSize = 0 then 8 else 2 * t.tableSize) =
          (if t.tableSize = 0 then 8 else 2 * t.tableSize) := by
        by_cases h0 : t.tableSize = 0 <;> simp [h0]
      have hsz : t.tableSize < (if t.tableSize = 0 then 8 else 2 * t.tableSize) := by
        split <;> omega
      obtain ⟨t2, ht2, hlen2, hsize2, hn2, hcount2, hmod2, hc2, hcont2⟩ :=
        rehash_spec ops { t with modCount := t.modCount + 1 } (2 * t.tableSize)
          (by simp only; exact hw.chained.le) hw.cnt
          (by simp only; rw [hs]; omega) (by simp only; rw [hs]; omega)
      simp only at hn2 hcount2 hmod2
      rw [hs] at hlen2 hsize2
      have hcont2' : contents t2 = contents t := hcont2
      have hw2 : WF ops t2 :=
        ⟨by rw [hlen2, hsize2], hc2, by rw [hcont2']; exact hw.uniq,
          by rw [hcont2', hcount2]; exact hw.cnt⟩
      obtain ⟨E', hE', hw', hcont'⟩ := hw2.append key value hk (by omega)
        (by rw [hcont2']; exact habs)
      refine ⟨_, ?_, hw', ?_, ?_, ?_, ?_, ?_⟩
      · unfold closeTableSet
        simp only [hr, hfull, if_true, if_pos hge, ge_iff_le]
        simp only [hfull] at ht2
        simp only [ht2, hE']
      · rw [hcont', hcont2', haset]
      · simp [hfull, hsize2]
      · simp [hfull, hn2]
      · simp [hcount2]
      · simp [hmod2]
    · have hlt : t.entriesCount < t.tableSize := by
        have h1 := hw.chained.le
        have h2 := hw.size
        omega
      have hw1 : WF ops { t with modCount := t.modCount + 1 } :=
        ⟨hw.size, hw.chained, hw.uniq, hw.cnt⟩
      obtain ⟨E', hE', hw', hcont'⟩ := hw1.append key value hk hlt habs
      refine ⟨_, ?_, hw', ?_, ?_, ?_, ?_, ?_⟩
      · unfold closeTableSet
        simp only [hr, hfull, if_false]
        simp only at hE'
        simp only [hE']
      · rw [hcont', haset]; rfl
      · simp [hfull]
      · simp [hfull]
      · simp
      · simp

/-- Inserting a key that is absent faults when the entries array is full and fewer
than three quarters of it are live: `rehash` is called with the current size, does
nothing, and the new entry is written at index `tableSize`, outside the array. -/
theorem closeTableSet_fault {ops : KeyOps} (hl : ops.Lawful) {t : CloseTable}
    (hw : WF ops t) (key value : Value)
    (hany : (contents t).any (fun q => ops.valuesEquals q.1 key) = false)
    (hfull : t.entriesCount = t.tableSize) (hlow : 4 * t.count < 3 * t.tableSize) :
    closeTableSet ops t key value = none := by
  obtain ⟨r, hr, h_some, h_none⟩ := lookup_phase hl hw key
  cases r with
  | some i =>
    obtain ⟨_, _, hi, _, e, he, hlive, heq⟩ := h_some i rfl
    have hmem : (e.key, e.value) ∈ contents t :=
      mem_contentsFrom.mpr ⟨i, by omega, by omega, cell_of_live he hlive⟩
    have h1 : (contents t).any (fun q => ops.valuesEquals q.1 key) = true :=
      any_eq_true_of_mem hmem heq
    rw [h1] at hany; cases hany
  | none =>
    have hnot : ¬ (3 * t.tableSize ≤ 4 * t.count) := by omega
    have h0 : t.tableSize ≠ 0 := by omega
    have hnone : t.entries[t.tableSize]? = none := by
      rw [List.getElem?_eq_none_iff, hw.size]
    unfold closeTableSet
    simp only [hr, hfull, if_true, ge_iff_le, if_neg hnot]
    simp only [rehash, h0, if_false, if_true, linkEntry, hnone]

/-- Deleting a key that is absent. -/
theorem closeTableDelete_absent {ops : KeyOps} (hl : ops.Lawful) {t : CloseTable}
    (hw : WF ops t) (key : Value)
    (hany : (contents t).any (fun q => ops.valuesEquals q.1 key) = false) :
    closeTableDelete ops t key = some (t, false) := by
  obtain ⟨r, hr, h_some, h_none⟩ := lookup_phase hl hw key
  cases r with
  | some i =>
    obtain ⟨_, _, hi, _, e, he, hlive, heq⟩ := h_some i rfl
    have hmem : (e.key, e.value) ∈ contents t :=
      mem_contentsFrom.mpr ⟨i, by omega, by omega, cell_of_live he hlive⟩
    have h1 : (contents t).any (fun q => ops.valuesEquals q.1 key) = true :=
      any_eq_true_of_mem hmem heq
    rw [h1] at hany; cases hany
  | none =>
    unfold closeTableDelete
    rcases (h_none rfl).1 with h | h
    · simp [h]
    · by_cases h0 : t.count = 0
      · simp [h0]
      · simp [h0, h]

/-- Deleting a key that is present: its entry becomes a tombstone. -/
theorem closeTableDelete_present {ops : KeyOps} (hl : ops.Lawful) {t : CloseTable}
    (hw : WF ops t) (key : Value)
    (hany : (contents t).any (fun q => ops.valuesEquals q.1 key) = true) :
    ∃ i e, i < t.entriesCount ∧ t.entries[i]? = some e ∧ e.key ≠ Value.undefined ∧
      ops.valuesEquals e.key key = true ∧ 0 < t.count ∧
      closeTableDelete ops t key =
        some ({ t with entries := t.entries.set i { e with key := Value.undefined },
                       modCount := t.modCount + 1, count := t.count - 1 }, true) ∧
      WF ops { t with entries := t.entries.set i { e with key := Value.undefined },
                      modCount := t.modCount + 1, count := t.count - 1 } ∧
      contents { t with entries := t.entries.set i { e with key := Value.undefined },
                        modCount := t.modCount + 1, count := t.count - 1 } =
        adelete ops (contents t) key := by
  obtain ⟨r, hr, h_some, h_none⟩ := lookup_phase hl hw key
  cases r with
  | none =>
    have := any_eq_false_of_forall (h_none rfl).2
    rw [this] at hany; cases hany
  | some i =>
    obtain ⟨hpos, hlk, hi, hk, e, he, hlive, heq⟩ := h_some i rfl
    have hil : i < t.entries.length := (List.getElem?_eq_some.mp he).1
    have hpt : ∀ (j : Nat) (x : TableEntry), t.entries[j]? = some x →
        ∃ x', (t.entries.set i { e with key := Value.undefined })[j]? = some x' ∧
          x'.chain = x.chain ∧ x'.next = x.next ∧ x'.value = x.value ∧
          x'.key = (if j = i then Value.undefined else x.key) := by
      intro j x hx
      rw [List.getElem?_set]
      by_cases hji : i = j
      · subst hji
        rw [he] at hx; cases hx
        simp [hil]
      · have : ¬ j = i := fun h => hji h.symm
        simp [hji, this, hx]
    have hcells : ∀ j, j < t.entriesCount →
        cell (t.entries.set i { e with key := Value.undefined }) j =
          (cell t.entries j).filter (fun p => !ops.valuesEquals p.1 key) := by
      intro j hj
      have hjl : j < t.entries.length := by have := hw.chained.le; omega
      obtain ⟨x', hx', _, _, hvx, hkx⟩ := hpt j t.entries[j] (by simp [hjl])
      have hx : t.entries[j]? = some t.entries[j] := by simp [hjl]
      by_cases hji : j = i
      · subst hji
        rw [he] at hx
        cases hx
        rw [cell_of_dead hx' (by rw [hkx]; simp), cell_of_live he hlive]
        simp [Option.filter, heq]
      · rw [if_neg hji] at hkx
        by_cases hkd : t.entries[j].key = Value.undefined
        · rw [cell_of_dead hx hkd, cell_of_dead hx' (by rw [hkx]; exact hkd)]
          rfl
        · rw [cell_of_live hx hkd, cell_of_live hx' (by rw [hkx]; exact hkd)]
          have hne : ops.valuesEquals t.entries[j].key key = false := by
            cases h : ops.valuesEquals t.entries[j].key key
            · rfl
            · exfalso
              apply hji
              exact hw.index_unique hl hj hi (cell_of_live hx hkd) (cell_of_live he hlive)
                (hl.trans _ _ _ h (hl.symm _ _ heq))
          simp [Option.filter, hkx, hvx, hne]
    have hcont : contents { t with entries := t.entries.set i { e with key := Value.undefined }, modCount := t.modCount + 1, count := t.count - 1 } = adelete ops (contents t) key := by
      simp only [contents, contentsFrom, adelete]
      rw [List.filter_filterMap]
      apply List.filterMap_congr
      intro j hj
      rw [List.mem_range'_1] at hj
      exact hcells j (by omega)
    have hmem : (e.key, e.value) ∈ contents t :=
      mem_contentsFrom.mpr ⟨i, by omega, by omega, cell_of_live he hlive⟩
    have hlen : (adelete ops (contents t) key).length + 1 = (contents t).length := by
      have hu := hw.uniq
      have hm := hmem
      generalize contents t = l at hu hm
      induction l with
      | nil => cases hm
      | cons q l ih =>
        rw [List.pairwise_cons] at hu
        rcases List.mem_cons.mp hm with h | h
        · subst h
          have hall : ∀ p, p ∈ l → (!ops.valuesEquals p.1 key) = true := by
            intro p hp
            have h1 := hu.1 p hp
            cases h2 : ops.valuesEquals p.1 key
            · rfl
            · rw [hl.trans _ _ _ heq (hl.symm _ _ h2)] at h1; cases h1
          simp only [adelete, List.filter_cons, heq, Bool.not_true, Bool.false_eq_true,
            if_false, List.length_cons, add_left_inj]
          rw [List.filter_eq_self.mpr hall]
        · have hq : ops.valuesEquals q.1 key = false := by
            cases h2 : ops.valuesEquals q.1 key
            · rfl
            · have h1 := hu.1 (e.key, e.value) h
              rw [hl.trans _ _ _ h2 (hl.symm _ _ heq)] at h1; cases h1
          have := ih hu.2 h
          simp only [adelete, List.filter_cons, hq, Bool.not_false, if_true,
            List.length_cons] at this ⊢
          omega
    refine ⟨i, e, hi, he, hlive, heq, hpos, ?_, ⟨by simp [hw.size], ?_, ?_, ?_⟩, hcont⟩
    · unfold closeTableDelete
      have h0 : ¬ t.count = 0 := by omega
      simp only [h0, if_false, hlk, he]
    · refine hw.chained.congr (by simp) ?_
      intro j x hx
      obtain ⟨x', hx', h1, h2, _, h3⟩ := hpt j x hx
      refine ⟨x', hx', h1, h2, ?_⟩
      rw [h3]
      split
      · exact Or.inr rfl
      · exact Or.inl rfl
    · rw [hcont]
      exact hw.uniq.filter _
    · rw [hcont]
      have := hw.cnt
      simp only
      omega

/-- The loop of `closeTableGetNext` finds the first live entry at or after `i`. -/
theorem getNextLoop_spec (E : List TableEntry) :
    ∀ (r i : Nat), i + r ≤ E.length →
      (getNextLoop E r i = some (-1, none) ∧ contentsFrom E i r = []) ∨
      (∃ j e, i ≤ j ∧ j < i + r ∧ E[j]? = some e ∧
        getNextLoop E r i = some ((j : Int) + 1, some j) ∧
        contentsFrom E i r = (e.key, e.value) :: contentsFrom E (j + 1) (i + r - (j + 1))) := by
  intro r
  induction r with
  | zero =>
    intro i _
    exact Or.inl ⟨rfl, contentsFrom_zero E i⟩
  | succ r ih =>
    intro i hi
    have hil : i < E.length := by omega
    obtain ⟨p, hp⟩ : ∃ p, E[i]? = some p := ⟨E[i], by simp [hil]⟩
    by_cases hk : p.key = Value.undefined
    · rw [contentsFrom_cons_none r (cell_of_dead hp hk)]
      have hstep : getNextLoop E (r + 1) i = getNextLoop E r (i + 1) := by
        rw [getNextLoop]; simp [hp, hk]
      rw [hstep]
      rcases ih (i + 1) (by omega) with h | ⟨j, e, h1, h2, h3, h4, h5⟩
      · exact Or.inl h
      · refine Or.inr ⟨j, e, by omega, by omega, h3, h4, ?_⟩
        rw [h5]
        congr 2
        omega
    · refine Or.inr ⟨i, p, by omega, by omega, hp, ?_, ?_⟩
      · rw [getNextLoop]; simp [hp, hk]
      · rw [contentsFrom_cons_some r (cell_of_live hp hk)]
        congr 2
        omega

/-- Iterating with `closeTableGetNext` from an index `s` yields the live pairs at the
indices from `s` on, in index order. -/
theorem iterate_from (t : CloseTable) (hle : t.entriesCount ≤ t.entries.length) :
    ∀ (fuel s : Nat), s ≤ t.entriesCount → t.entriesCount - s < fuel →
      iterate t fuel (s : Int) = some (contentsFrom t.entries s (t.entriesCount - s)) := by
  intro fuel
  induction fuel with
  | zero => intro s _ h; omega
  | succ fuel ih =>
    intro s hs hf
    have hstart : closeTableGetNext t (s : Int) =
        getNextLoop t.entries (t.entriesCount - s) s := by
      unfold closeTableGetNext
      have : ¬ ((s : Int) < 0) := by omega
      simp [this]
    rw [iterate, hstart]
    rcases getNextLoop_spec t.entries (t.entriesCount - s) s (by omega) with
      ⟨h1, h2⟩ | ⟨j, e, h1, h2, h3, h4, h5⟩
    · rw [h1, h2]; simp
    · rw [h4, h5]
      have hn : ¬ ((j : Int) + 1 < 0) := by omega
      have hcast : (j : Int) + 1 = ((j + 1 : Nat) : Int) := by omega
      simp only [hn, if_false, h3]
      rw [hcast, ih (j + 1) (by omega) (by omega)]
      simp only [Option.map_some', Option.some.injEq, List.cons.injEq, true_and]
      congr 1
      omega

/-- Iterating a table from index 0 yields its live pairs in index order. -/
theorem iterate_wf {ops : KeyOps} {t : CloseTable} (hw : WF ops t) :
    iterate t (t.entriesCount + 1) 0 = some (contents t) := by
  have := iterate_from t hw.chained.le (t.entriesCount + 1) 0 (by omega) (by omega)
  simpa [contents] using this

theorem wf_init (ops : KeyOps) : WF ops initCloseTable := by
  refine ⟨rfl, ⟨by simp [initCloseTable], ?_, ?_, ?_, ?_⟩, ?_, ?_⟩
  · intro b e he; simp [initCloseTable] at he
  · intro j e hj; simp [initCloseTable] at hj
  · intro j e hj; simp [initCloseTable] at hj
  · intro b be j e hbe; simp [initCloseTable] at hbe
  · simp [contents, initCloseTable, contentsFrom_zero]
  · simp [contents, initCloseTable, contentsFrom_zero]

/-- Every completed `closeTableSet` on a well-formed table refines `aset`. -/
theorem closeTableSet_ok {ops : KeyOps} (hl : ops.Lawful) {t t1 : CloseTable} {b : Bool}
    (hw : WF ops t) (key value : Value) (hk : key ≠ Value.undefined)
    (h : closeTableSet ops t key value = some (t1, b)) :
    WF ops t1 ∧ contents t1 = aset ops (contents t) key value ∧
      b = !(contents t).any (fun q => ops.valuesEquals q.1 key) := by
  cases hany : (contents t).any (fun q => ops.valuesEquals q.1 key)
  · by_cases hf : t.entriesCount = t.tableSize ∧ 4 * t.count < 3 * t.tableSize
    · rw [closeTableSet_fault hl hw key value hany hf.1 hf.2] at h; cases h
    · obtain ⟨t', h1, h2, h3, _⟩ := closeTableSet_absent hl hw key value hk hany
        (by intro hh; by_contra hc; exact hf ⟨hh, by omega⟩)
      rw [h1] at h; cases h
      exact ⟨h2, h3, rfl⟩
  · obtain ⟨t', h1, h2, h3, _⟩ := closeTableSet_present hl hw key value hany
    rw [h1] at h; cases h
    exact ⟨h2, h3, rfl⟩

/-- On a well-formed table `closeTableDelete` returns and refines `adelete`. -/
theorem closeTableDelete_ok {ops : KeyOps} (hl : ops.Lawful) {t : CloseTable}
    (hw : WF ops t) (key : Value) :
    ∃ t1 b, closeTableDelete ops t key = some (t1, b) ∧ WF ops t1 ∧
      contents t1 = adelete ops (contents t) key ∧
      b = (contents t).any (fun q => ops.valuesEquals q.1 key) := by
  cases hany : (contents t).any (fun q => ops.valuesEquals q.1 key)
  · refine ⟨t, false, closeTableDelete_absent hl hw key hany, hw, ?_, rfl⟩
    unfold adelete
    symm
    rw [List.filter_eq_self]
    intro p hp
    rw [List.any_eq_false] at hany
    have := hany p hp
    simpa using this
  · obtain ⟨i, e, _, _, _, _, _, h1, h2, h3⟩ := closeTableDelete_present hl hw key hany
    exact ⟨_, true, h1, h2, h3, rfl⟩

/-- A completed run of operations from a well-formed table ends in a well-formed table
whose live pairs are those of the association-list model. -/
theorem runOps_wf {ops : KeyOps} (hl : ops.Lawful) :
    ∀ (l : List Op) (t t1 : CloseTable), WF ops t → (∀ o, o ∈ l → o.keyDefined) →
      runOps ops l t = some t1 →
      WF ops t1 ∧ contents t1 = l.foldl (Op.apply ops) (contents t) := by
  intro l
  induction l with
  | nil =>
    intro t t1 hw _ h
    simp only [runOps, Option.some.injEq] at h
    subst h
    exact ⟨hw, rfl⟩
  | cons o l ih =>
    intro t t1 hw hdef h
    cases o with
    | set k v =>
      have hk : k ≠ Value.undefined := hdef (Op.set k v) (List.mem_cons_self _ _)
      simp only [runOps] at h
      cases hs : closeTableSet ops t k v with
      | none => rw [hs] at h; cases h
      | some r =>
        obtain ⟨t2, b⟩ := r
        rw [hs] at h
        obtain ⟨hw2, hc2, _⟩ := closeTableSet_ok hl hw k v hk hs
        obtain ⟨h1, h2⟩ := ih t2 t1 hw2 (fun o ho => hdef o (List.mem_cons_of_mem _ ho)) h
        exact ⟨h1, by rw [h2, hc2]; rfl⟩
    | delete k =>
      simp only [runOps] at h
      obtain ⟨t2, b, hd, hw2, hc2, _⟩ := closeTableDelete_ok hl hw k
      rw [hd] at h
      obtain ⟨h1, h2⟩ := ih t2 t1 hw2 (fun o ho => hdef o (List.mem_cons_of_mem _ ho)) h
      exact ⟨h1, by rw [h2, hc2]; rfl⟩

/-- After every completed run of operations from the empty table, iterating with
`closeTableGetNext` from index 0 yields the pairs of the association-list model. -/
theorem runOps_iterate {ops : KeyOps} (hl : ops.Lawful) (l : List Op) (t : CloseTable)
    (hdef : ∀ o, o ∈ l → o.keyDefined) (h : runOps ops l initCloseTable = some t) :
    iterate t (t.entriesCount + 1) 0 = some (l.foldl (Op.apply ops) []) := by
  obtain ⟨hw, hc⟩ := runOps_wf hl l initCloseTable t (wf_init ops) hdef h
  rw [iterate_wf hw, hc]
  simp [contents, initCloseTable, contentsFrom_zero]

theorem demoOps_lawful : demoOps.Lawful := by
  refine ⟨?_, ?_, ?_, ?_, ?_⟩
  · intro a _; simp [demoOps]
  · intro a b h; simp [demoOps] at h ⊢; exact h.symm
  · intro a b c h1 h2; simp [demoOps] at h1 h2 ⊢; exact h1.trans h2
  · intro a b h; simp [demoOps] at h; rw [h]
  · intro a ha; simp [demoOps]; exact fun h => ha h.symm

theorem runOps_cons_set {ops : KeyOps} {t t1 : CloseTable} {k v : Value} {b : Bool}
    (r : List Op) (h : closeTableSet ops t k v = some (t1, b)) :
    runOps ops (Op.set k v :: r) t = runOps ops r t1 := by
  simp only [runOps, h]

theorem runOps_cons_delete {ops : KeyOps} {t t1 : CloseTable} {k : Value} {b : Bool}
    (r : List Op) (h : closeTableDelete ops t k = some (t1, b)) :
    runOps ops (Op.delete k :: r) t = runOps ops r t1 := by
  simp only [runOps, h]

theorem runOps_append (ops : KeyOps) (l r : List Op) (t : CloseTable) :
    runOps ops (l ++ r) t = (runOps ops l t).bind (runOps ops r) := by
  induction l generalizing t with
  | nil => rfl
  | cons o l ih =>
    cases o with
    | set k v =>
      simp only [List.cons_append, runOps]
      cases closeTableSet ops t k v with
      | none => rfl
      | some p => exact ih p.1
    | delete k =>
      simp only [List.cons_append, runOps]
      cases closeTableDelete ops t k with
      | none => rfl
      | some p => exact ih p.1

/-- The first eleven operations of `failingOps` reach the table `demoTable 8 3`. -/
theorem demo_eleven : runOps demoOps (failingOps.take 11) initCloseTable =
    some (demoTable 8 3) := by
  simp only [failingOps, ins, del, List.take]
  rw [runOps_cons_set _ (by decide : closeTableSet demoOps initCloseTable (Value.number 0)
      (Value.number (100 + 0)) = some (demoTable 1 0, true)),
    runOps_cons_set _ (by decide : closeTableSet demoOps (demoTable 1 0) (Value.number 1)
      (Value.number (100 + 1)) = some (demoTable 2 0, true)),
    runOps_cons_set _ (by decide : closeTableSet demoOps (demoTable 2 0) (Value.number 2)
      (Value.number (100 + 2)) = some (demoTable 3 0, true)),
    runOps_cons_set _ (by decide : closeTableSet demoOps (demoTable 3 0) (Value.number 3)
      (Value.number (100 + 3)) = some (demoTable 4 0, true)),
    runOps_cons_set _ (by decide : closeTableSet demoOps (demoTable 4 0) (Value.number 4)
      (Value.number (100 + 4)) = some (demoTable 5 0, true)),
    runOps_cons_set _ (by decide : closeTableSet demoOps (demoTable 5 0) (Value.number 5)
      (Value.number (100 + 5)) = some (demoTable 6 0, true)),
    runOps_cons_set _ (by decide : closeTableSet demoOps (demoTable 6 0) (Value.number 6)
      (Value.number (100 + 6)) = some (demoTable 7 0, true)),
    runOps_cons_set _ (by decide : closeTableSet demoOps (demoTable 7 0) (Value.number 7)
      (Value.number (100 + 7)) = some (demoTable 8 0, true)),
    runOps_cons_delete _ (by decide : closeTableDelete demoOps (demoTable 8 0) (Value.number 0)
      = some (demoTable 8 1, true)),
    runOps_cons_delete _ (by decide : closeTableDelete demoOps (demoTable 8 1) (Value.number 1)
      = some (demoTable 8 2, true)),
    runOps_cons_delete _ (by decide : closeTableDelete demoOps (demoTable 8 2) (Value.number 2)
      = some (demoTable 8 3, true))]
  rfl

theorem failingOps_split : failingOps = failingOps.take 11 ++ [ins 8] := by decide

/-- C1, evaluated at `failingOps`: the first eleven operations reach a table with eight
slots in use, five of them live, iteration over it still yields the five live pairs in
insertion order, and the twelfth operation, the insert of a new key, does not complete:
`rehash` is called with the current size and does nothing, so the entry is written at
index 8 of an array of 8 entries. No iteration result exists after that operation. -/
theorem c1_iteration_fails_after_full_table_with_tombstones :
    runOps demoOps (failingOps.take 11) initCloseTable = some (demoTable 8 3) ∧
    iterate (demoTable 8 3) 9 0 = some [(Value.number 3, Value.number 103),
      (Value.number 4, Value.number 104), (Value.number 5, Value.number 105),
      (Value.number 6, Value.number 106), (Value.number 7, Value.number 107)] ∧
    runOps demoOps failingOps initCloseTable = none := by
  refine ⟨demo_eleven, by decide, ?_⟩
  rw [failingOps_split, runOps_append, demo_eleven]
  simp only [Option.bind, ins, runOps]
  rw [(by decide : closeTableSet demoOps (demoTable 8 3) (Value.number 8)
    (Value.number (100 + 8)) = none)]

theorem InChain.inv_int {E : List TableEntry} {idx : Int} {j : Nat} (h : InChain E idx j) :
    0 ≤ idx ∧ (idx.toNat = j ∨ ∃ e, E[idx.toNat]? = some e ∧ InChain E e.next j) := by
  cases h with
  | here j => exact ⟨by omega, Or.inl (by simp)⟩
  | step i j e he hc => exact ⟨by omega, Or.inr ⟨e, by simpa using he, hc⟩⟩

/-- Well-formed tables satisfy the invariant with tombstones taken into account. -/
theorem WF.chainInv {ops : KeyOps} {t : CloseTable} (hw : WF ops t) : ChainInv ops t := by
  have hc := hw.chained
  refine ⟨?_, by rw [← hw.size]; exact hc.le, ?_⟩
  · have h3 := hw.cnt
    have h4 := contentsFrom_length_le t.entries 0 t.entriesCount
    unfold contents at h3
    omega
  · intro b be j _ hbe hin
    have hj : j < t.entriesCount :=
      InChain.lt (fun j e hj he => (hc.next j e hj he).2) hin (hc.head b be hbe).2
    have hjl : j < t.entries.length := by have := hc.le; omega
    refine ⟨hj, t.entries[j], by simp [hjl], ?_⟩
    have := hc.sound b be j t.entries[j] hbe hin (by simp [hjl])
    rw [hw.size] at this
    exact this

theorem tombTable_reached : runOps demoOps [ins 1, del 1] initCloseTable = some tombTable := by
  simp only [ins, del]
  rw [runOps_cons_set _ (by decide : closeTableSet demoOps initCloseTable (Value.number 1)
      (Value.number (100 + 1)) = some ({ tombTable with
        entries := tombTable.entries.set 0
          { key := Value.number 1, value := Value.number 101, next := -1, chain := -1 },
        count := 1, modCount := 1 }, true)),
    runOps_cons_delete _ (by decide : closeTableDelete demoOps _ (Value.number 1) =
      some (tombTable, true))]
  rfl

/-- C2 as stated fails after a delete: in the table reached by `ins 1, del 1` the chain
of bucket 1 still links index 0, whose key is now `undefined` and hashes to bucket 0. -/
theorem c2_tombstone_key_does_not_hash_to_its_bucket :
    runOps demoOps [ins 1, del 1] initCloseTable = some tombTable ∧
      ¬ SpecInv demoOps tombTable := by
  refine ⟨tombTable_reached, ?_⟩
  intro h
  obtain ⟨_, e, he, hb⟩ := h.2.2 1 { demoOps.uninit with chain := 0 } 0 (by decide) (by decide)
    (InChain.here 0)
  have : e = { key := Value.undefined, value := Value.number 101, next := -1, chain := -1 } := by
    simp [tombTable] at he
    exact he.symm
  subst this
  revert hb
  decide

/-- C2, amended: every table reached from the empty table by a sequence of
`closeTableSet` and `closeTableDelete` calls that complete (keys other than `undefined`)
has `count ≤ entriesCount ≤ tableSize`, and every index linked from the chain of a
bucket `b` is below `entriesCount` and refers to a tombstone or to an entry whose key
hashes to `b`. -/
theorem c2_invariant_of_completed_runs {ops : KeyOps} (hl : ops.Lawful) (l : List Op)
    (t : CloseTable) (hdef : ∀ o, o ∈ l → o.keyDefined)
    (h : runOps ops l initCloseTable = some t) : ChainInv ops t :=
  (runOps_wf hl l initCloseTable t (wf_init ops) hdef h).1.chainInv

theorem c2_invariant_of_completed_runs_witness :
    runOps demoOps [ins 1, del 1] initCloseTable = some tombTable ∧
      ChainInv demoOps tombTable :=
  ⟨tombTable_reached,
    c2_invariant_of_completed_runs demoOps_lawful [ins 1, del 1] tombTable
      (by
        intro o ho
        simp only [ins, del, List.mem_cons, List.mem_singleton, List.not_mem_nil, or_false] at ho
        rcases ho with rfl | rfl
        · simp [Op.keyDefined]
        · simp [Op.keyDefined])
      tombTable_reached⟩

/-- C3, evaluated at the table reached by the first eleven operations of `failingOps`:
the entries array is full (`entriesCount = tableSize = 8`) with `count = 5`, less than
three quarters of 8; `closeTableSet` calls `rehash` with the size 8, which returns the
table as it is, tombstones included, and the new entry is then written at index 8,
outside the array of 8 entries. -/
theorem c3_same_size_rehash_reclaims_nothing :
    runOps demoOps (failingOps.take 11) initCloseTable = some (demoTable 8 3) ∧
    (demoTable 8 3).entriesCount = (demoTable 8 3).tableSize ∧
    (demoTable 8 3).entries.length = 8 ∧
    4 * (demoTable 8 3).count < 3 * (demoTable 8 3).tableSize ∧
    closeTableGet demoOps (demoTable 8 3) (Value.number 8) = some none ∧
    rehash demoOps { demoTable 8 3 with modCount := 12 } 8 =
      some { demoTable 8 3 with modCount := 12 } ∧
    linkEntry (demoTable 8 3).entries 8 (Value.number 8) (Value.number 108) 0 = none ∧
    closeTableSet demoOps (demoTable 8 3) (Value.number 8) (Value.number 108) = none := by
  refine ⟨demo_eleven, ?_, ?_, ?_, ?_, ?_, ?_, ?_⟩ <;> decide

theorem alookup_aset_self {ops : KeyOps} (hl : ops.Lawful) (l : List (Value × Value))
    (k v : Value) (hk : k ≠ Value.undefined) : alookup ops (aset ops l k v) k = some v := by
  unfold aset
  by_cases hany : l.any (fun p => ops.valuesEquals p.1 k) = true
  · rw [if_pos hany]
    induction l with
    | nil => simp at hany
    | cons p l ih =>
      cases hp : ops.valuesEquals p.1 k
      · have : l.any (fun p => ops.valuesEquals p.1 k) = true := by
          simpa [List.any_cons, hp] using hany
        have := ih this
        simp only [alookup, List.map_cons, hp, Bool.false_eq_true, if_false, List.find?_cons]
          at this ⊢
        exact this
      · simp [alookup, List.map_cons, hp, List.find?_cons]
  · rw [if_neg hany]
    have hnone : l.find? (fun p => ops.valuesEquals p.1 k) = none := by
      rw [List.find?_eq_none]
      intro p hp hh
      exact hany (List.any_eq_true.mpr ⟨p, hp, hh⟩)
    simp [alookup, List.find?_append, hnone, List.find?_cons, hl.refl k hk]

theorem alookup_aset_other {ops : KeyOps} (hl : ops.Lawful) (l : List (Value × Value))
    (k v k' : Value) (hne : ops.valuesEquals k k' = false) :
    alookup ops (aset ops l k v) k' = alookup ops l k' := by
  unfold aset
  split
  · clear * - hl hne
    induction l with
    | nil => rfl
    | cons p l ih =>
      simp only [alookup, List.map_cons, List.find?_cons] at ih ⊢
      cases hp : ops.valuesEquals p.1 k
      · simp only [Bool.false_eq_true, if_false]
        cases hp' : ops.valuesEquals p.1 k'
        · exact ih
        · rfl
      · simp only [if_true]
        have hp' : ops.valuesEquals p.1 k' = false := by
          cases h : ops.valuesEquals p.1 k'
          · rfl
          · rw [hl.trans _ _ _ (hl.symm _ _ hp) h] at hne; cases hne
        rw [hp']
        exact ih
  · simp [alookup, List.find?_append, List.find?_cons, hne]

theorem alookup_adelete_self {ops : KeyOps} (l : List (Value × Value)) (k : Value) :
    alookup ops (adelete ops l k) k = none := by
  unfold alookup adelete
  rw [Option.map_eq_none', List.find?_eq_none]
  intro p hp
  have := (List.mem_filter.mp hp).2
  simpa using this

theorem alookup_adelete_other {ops : KeyOps} (hl : ops.Lawful) (l : List (Value × Value))
    (k k' : Value) (hne : ops.valuesEquals k k' = false) :
    alookup ops (adelete ops l k) k' = alookup ops l k' := by
  induction l with
  | nil => rfl
  | cons p l ih =>
    simp only [alookup, adelete, List.filter_cons, List.find?_cons] at ih ⊢
    cases hp : ops.valuesEquals p.1 k
    · simp only [Bool.not_false, if_true, List.find?_cons]
      cases hp' : ops.valuesEquals p.1 k'
      · exact ih
      · rfl
    · have hp' : ops.valuesEquals p.1 k' = false := by
        cases h : ops.valuesEquals p.1 k'
        · rfl
        · rw [hl.trans _ _ _ (hl.symm _ _ hp) h] at hne; cases hne
      simp only [Bool.not_true, Bool.false_eq_true, if_false, hp']
      exact ih

theorem alookup_isSome_iff_any (ops : KeyOps) (l : List (Value × Value)) (k : Value) :
    (alookup ops l k).isSome = l.any (fun p => ops.valuesEquals p.1 k) := by
  induction l with
  | nil => rfl
  | cons p l ih =>
    simp only [alookup, List.find?_cons, List.any_cons] at ih ⊢
    cases hp : ops.valuesEquals p.1 k
    · simpa using ih
    · simp

/-- Tables built by inserts only are well formed and have no tombstones. -/
theorem SetReach.wf {ops : KeyOps} (hl : ops.Lawful) {t : CloseTable} (h : SetReach ops t) :
    WF ops t ∧ t.count = t.entriesCount := by
  induction h with
  | init => exact ⟨wf_init ops, rfl⟩
  | step t k v t1 b _ hk hs ih =>
    obtain ⟨hw, hcn⟩ := ih
    cases hany : (contents t).any (fun q => ops.valuesEquals q.1 k)
    · obtain ⟨t', h1, h2, _, _, h5, h6, _⟩ := closeTableSet_absent hl hw k v hk hany
        (by intro hh; omega)
      rw [h1] at hs; cases hs
      refine ⟨h2, ?_⟩
      rw [h5, h6, hcn]
      split <;> rfl
    · obtain ⟨t', h1, h2, _, _, h5, h6, _⟩ := closeTableSet_present hl hw k v hany
      rw [h1] at hs; cases hs
      exact ⟨h2, by rw [h5, h6, hcn]⟩

/-- C4: on every table built from the empty table by inserts only, `closeTableSet` of a
key `k` other than `undefined` returns, afterwards `closeTableGet` of `k` returns the
value stored, and `closeTableGet` of every key not equal to `k` returns what it returned
before (the doubling rehash included). -/
theorem c4_get_after_set {ops : KeyOps} (hl : ops.Lawful) {t : CloseTable}
    (hr : SetReach ops t) (k v : Value) (hk : k ≠ Value.undefined) :
    ∃ t1 b, closeTableSet ops t k v = some (t1, b) ∧
      closeTableGet ops t1 k = some (some v) ∧
      ∀ k', ops.valuesEquals k k' = false →
        closeTableGet ops t1 k' = closeTableGet ops t k' := by
  obtain ⟨hw, hcn⟩ := hr.wf hl
  have key : ∀ (t1 : CloseTable) (b : Bool), closeTableSet ops t k v = some (t1, b) →
      closeTableGet ops t1 k = some (some v) ∧
      ∀ k', ops.valuesEquals k k' = false →
        closeTableGet ops t1 k' = closeTableGet ops t k' := by
    intro t1 b hs
    obtain ⟨hw1, hc1, _⟩ := closeTableSet_ok hl hw k v hk hs
    refine ⟨?_, ?_⟩
    · rw [closeTableGet_wf hl hw1, hc1, alookup_aset_self hl _ k v hk]
    · intro k' hne
      rw [closeTableGet_wf hl hw1, closeTableGet_wf hl hw, hc1,
        alookup_aset_other hl _ k v k' hne]
  cases hany : (contents t).any (fun q => ops.valuesEquals q.1 k)
  · obtain ⟨t', h1, _⟩ := closeTableSet_absent hl hw k v hk hany (by intro hh; omega)
    exact ⟨t', true, h1, key t' true h1⟩
  · obtain ⟨t', h1, _⟩ := closeTableSet_present hl hw k v hany
    exact ⟨t', false, h1, key t' false h1⟩

theorem c4_get_after_set_witness :
    ∃ t1 b, closeTableSet demoOps (demoTable 1 0) (Value.number 9) (Value.number 109) =
        some (t1, b) ∧
      closeTableGet demoOps t1 (Value.number 9) = some (some (Value.number 109)) ∧
      ∀ k', demoOps.valuesEquals (Value.number 9) k' = false →
        closeTableGet demoOps t1 k' = closeTableGet demoOps (demoTable 1 0) k' :=
  c4_get_after_set demoOps_lawful
    (SetReach.step initCloseTable (Value.number 0) (Value.number 100) (demoTable 1 0) true
      SetReach.init (by decide) (by decide))
    (Value.number 9) (Value.number 109) (by decide)

/-- Claim C5: on a table that satisfies the invariant of the deterministic table, `WF`,
which the empty table satisfies and which `closeTableSet` and `closeTableDelete` keep,
`closeTableDelete` of a present key returns true, turns the entry of the key into a
tombstone, decrements `count`, leaves `entriesCount`, `tableSize` and every `next` and
`chain` link unchanged, makes `closeTableGet` of the key return false and keeps the
result of `closeTableGet` for every other key; `closeTableDelete` of an absent key
returns false and leaves the table unchanged. -/
theorem c5_delete_on_well_formed_tables {ops : KeyOps} (hl : ops.Lawful) {t : CloseTable}
    (hw : WF ops t) (k : Value) :
    (∀ v, closeTableGet ops t k = some (some v) →
      ∃ t1 i e, closeTableDelete ops t k = some (t1, true) ∧
        t.entries[i]? = some e ∧ ops.valuesEquals e.key k = true ∧
        t1.entries = t.entries.set i { e with key := Value.undefined } ∧
        t1.count + 1 = t.count ∧ t1.entriesCount = t.entriesCount ∧
        t1.tableSize = t.tableSize ∧
        t1.entries.map (fun x => (x.next, x.chain)) =
          t.entries.map (fun x => (x.next, x.chain)) ∧
        closeTableGet ops t1 k = some none ∧
        ∀ k', ops.valuesEquals k k' = false →
          closeTableGet ops t1 k' = closeTableGet ops t k') ∧
    (closeTableGet ops t k = some none → closeTableDelete ops t k = some (t, false)) := by
  have hget := closeTableGet_wf hl hw k
  have hsome := alookup_isSome_iff_any ops (contents t) k
  constructor
  · intro v hv
    rw [hget] at hv
    have hany : (contents t).any (fun q => ops.valuesEquals q.1 k) = true := by
      rw [← hsome, Option.some.inj hv]; rfl
    obtain ⟨i, e, hi, he, hlive, heq, hpos, hd, hw1, hc1⟩ :=
      closeTableDelete_present hl hw k hany
    refine ⟨_, i, e, hd, he, heq, rfl, ?_, rfl, rfl, ?_, ?_, ?_⟩
    · simp only; omega
    · simp only
      apply List.ext_getElem?
      intro j
      simp only [List.getElem?_map, List.getElem?_set]
      by_cases hij : i = j
      · subst hij
        have hil : i < t.entries.length := (List.getElem?_eq_some.mp he).1
        simp [hil, he]
      · simp [hij]
    · rw [closeTableGet_wf hl hw1, hc1, alookup_adelete_self]
    · intro k' hne
      rw [closeTableGet_wf hl hw1, closeTableGet_wf hl hw, hc1,
        alookup_adelete_other hl _ k k' hne]
  · intro hv
    rw [hget] at hv
    have hany : (contents t).any (fun q => ops.valuesEquals q.1 k) = false := by
      rw [← hsome, Option.some.inj hv]; rfl
    exact closeTableDelete_absent hl hw k hany

theorem demoTable_one_wf : WF demoOps (demoTable 1 0) :=
  (runOps_wf demoOps_lawful [ins 0] initCloseTable (demoTable 1 0) (wf_init demoOps)
    (by intro o ho; simp only [ins, List.mem_singleton] at ho; subst ho; simp [Op.keyDefined])
    (by
      simp only [ins]
      rw [runOps_cons_set _ (by decide : closeTableSet demoOps initCloseTable (Value.number 0)
        (Value.number (100 + 0)) = some (demoTable 1 0, true))]
      rfl)).1

theorem c5_delete_on_well_formed_tables_witness :
    closeTableGet demoOps (demoTable 1 0) (Value.number 0) = some (some (Value.number 100)) ∧
    ∃ t1 i e, closeTableDelete demoOps (demoTable 1 0) (Value.number 0) = some (t1, true) ∧
      (demoTable 1 0).entries[i]? = some e ∧
      demoOps.valuesEquals e.key (Value.number 0) = true ∧
      t1.entries = (demoTable 1 0).entries.set i { e with key := Value.undefined } ∧
      t1.count + 1 = (demoTable 1 0).count ∧ t1.entriesCount = (demoTable 1 0).entriesCount ∧
      t1.tableSize = (demoTable 1 0).tableSize ∧
      t1.entries.map (fun x => (x.next, x.chain)) =
        (demoTable 1 0).entries.map (fun x => (x.next, x.chain)) ∧
      closeTableGet demoOps t1 (Value.number 0) = some none ∧
      ∀ k', demoOps.valuesEquals (Value.number 0) k' = false →
        closeTableGet demoOps t1 k' = closeTableGet demoOps (demoTable 1 0) k' :=
  ⟨by decide,
    (c5_delete_on_well_formed_tables demoOps_lawful demoTable_one_wf (Value.number 0)).1
      (Value.number 100) (by decide)⟩

theorem rehash_modCount {ops : KeyOps} {t t1 : CloseTable} {n : Nat}
    (h : rehash ops t n = some t1) : t1.modCount = t.modCount := by
  unfold rehash at h
  simp only at h
  generalize (if n = 0 then 8 else n) = s at h
  by_cases hs : s = t.tableSize
  · rw [if_pos hs] at h
    cases h; rfl
  · rw [if_neg hs] at h
    cases hl : rehashLoop ops s t.entries t.entriesCount 0 0
        (List.replicate s { ops.uninit with chain := -1 }) with
    | none => rw [hl] at h; cases h
    | some N => rw [hl] at h; cases h; rfl

theorem closeTableSet_modCount {ops : KeyOps} {t t1 : CloseTable} {k v : Value} {b : Bool}
    (h : closeTableSet ops t k v = some (t1, b)) :
    t1.modCount = t.modCount + (if b = true then 1 else 0) := by
  unfold closeTableSet at h
  simp only at h
  split at h
  · cases h
  · split at h
    · cases h
    · cases h; rfl
  · split at h
    · cases h
    · next t2 ht2 =>
      split at h
      · cases h
      · cases h
        simp only [if_true]
        split at ht2
        · exact rehash_modCount ht2
        · cases ht2; rfl

theorem closeTableDelete_modCount {ops : KeyOps} {t t1 : CloseTable} {k : Value} {b : Bool}
    (h : closeTableDelete ops t k = some (t1, b)) :
    t1.modCount = t.modCount + (if b = true then 1 else 0) := by
  unfold closeTableDelete at h
  split at h
  · cases h; rfl
  · split at h
    · cases h
    · cases h; rfl
    · split at h
      · cases h
      · cases h; rfl

/-- A sequence of mutations adds to `modCount` the number of mutations that inserted a
new key or removed a present key. -/
theorem mutateAll_modCount (ops : KeyOps) :
    ∀ (l : List Op) (items items1 : CloseTable) (flags : List Bool),
      mutateAll ops l items = some (items1, flags) →
      items1.modCount = items.modCount + flags.count true := by
  intro l
  induction l with
  | nil =>
    intro items items1 flags h
    simp only [mutateAll, Option.some.injEq, Prod.mk.injEq] at h
    obtain ⟨rfl, rfl⟩ := h
    simp
  | cons o l ih =>
    intro items items1 flags h
    simp only [mutateAll] at h
    cases hm : mutate ops items o with
    | none => rw [hm] at h; cases h
    | some p =>
      obtain ⟨items2, b⟩ := p
      rw [hm] at h
      simp only at h
      cases hr : mutateAll ops l items2 with
      | none => rw [hr] at h; cases h
      | some q =>
        obtain ⟨items3, bs⟩ := q
        rw [hr] at h
        simp only [Option.some.injEq, Prod.mk.injEq] at h
        obtain ⟨rfl, rfl⟩ := h
        have h1 := ih items2 items3 bs hr
        have h2 : items2.modCount = items.modCount + (if b = true then 1 else 0) := by
          cases o with
          | set k v =>
            exact closeTableSet_modCount hm
          | delete k =>
            exact closeTableDelete_modCount hm
        rw [h1, h2, List.count_cons]
        cases b <;> simp
        omega

/-- C7 as stated fails for a mutation that overwrites the value of an existing key: on
the map holding the key 0 an iterator is created, `mapPut` stores 7 under the key 0
(the table function returns false and `modCount` stays 1), and `next()` returns the
entry `(0, 7)` instead of raising the error. -/
theorem c7_overwrite_is_not_detected :
    mutateAll demoOps [Op.set (Value.number 0) (Value.number 7)] (demoTable 1 0) =
      some (overwrittenTable, [false]) ∧
    mapIteratorNext overwrittenTable (mapIterator (demoTable 1 0)) =
      NativeResult.returned ({ current := 1, modCount := 1 }, Value.number 0,
        Value.number 7) := by
  constructor <;> decide

/-- C7, amended: for every map, every iterator whose `modCount` is the one of the map
(as `mapIterator` sets it and `next()` keeps it) and every sequence of mutations of the
map made afterwards (`mapPut` / `INDEX_STORE` / `MAP_SET`, `mapRemove`) that complete,
the next call of `next()` raises "Map modified during iteration" exactly when one of the
mutations inserted a new key or removed a present key. -/
theorem c7_structural_change_is_detected (ops : KeyOps) (l : List Op)
    (items items1 : CloseTable) (flags : List Bool) (it : MapIterator)
    (hit : it.modCount = items.modCount)
    (h : mutateAll ops l items = some (items1, flags)) :
    mapIteratorNext items1 it = NativeResult.raised "Map modified during iteration" ↔
      true ∈ flags := by
  have hm := mutateAll_modCount ops l items items1 flags h
  unfold mapIteratorNext
  constructor
  · intro hr
    by_contra hnot
    have h0 : flags.count true = 0 := List.count_eq_zero.mpr hnot
    have heq : ¬ (it.modCount ≠ items1.modCount) := by
      intro hne; apply hne; omega
    rw [if_neg heq] at hr
    split at hr
    · cases hr
    · split at hr
      · cases hr
      · split at hr <;> cases hr
  · intro hmem
    have hpos : 0 < flags.count true := List.count_pos_iff.mpr hmem
    have hne : it.modCount ≠ items1.modCount := by omega
    rw [if_pos hne]

theorem c7_structural_change_is_detected_witness :
    mapIteratorNext (demoTable 2 0) (mapIterator (demoTable 1 0)) =
        NativeResult.raised "Map modified during iteration" ↔
      true ∈ [true] :=
  c7_structural_change_is_detected demoOps [Op.set (Value.number 1) (Value.number 101)]
    (demoTable 1 0) (demoTable 2 0) [true] (mapIterator (demoTable 1 0)) rfl (by decide)

/-! ### Classes and `instanceOf` -/

theorem declareClass_eq {classes classes1 : List ObjClass} {b : Nat} {sup : Option Nat}
    (hs : ∀ s, sup = some s → s < classes.length)
    (h : declareClass classes b sup = some classes1) :
    ∃ cl, classes1 = classes ++ [cl] ∧ cl.baseId = b ∧ cl.super = sup ∧
      (sup = none → cl.classId = b) ∧
      (∀ s, sup = some s → ∃ sc, classes[s]? = some sc ∧ cl.classId = b * sc.classId) := by
  cases sup with
  | none =>
    simp only [declareClass, Option.some.injEq] at h
    exact ⟨newClass b, h.symm, rfl, rfl, fun _ => rfl, fun s hs => by cases hs⟩
  | some s =>
    have hsl := hs s rfl
    have h1 : (classes ++ [newClass b])[s]? = some classes[s] := by
      rw [List.getElem?_append_left hsl]; simp [hsl]
    have h2 : (classes ++ [newClass b])[classes.length]? = some (newClass b) := by
      simp
    simp only [declareClass, inherit, h1, h2, Option.some.injEq] at h
    refine ⟨{ baseId := b, classId := b * classes[s].classId, super := some s }, ?_, rfl, rfl,
      ?_, ?_⟩
    · rw [← h]
      simp [newClass]
    · intro hn
      cases hn
    · intro s' hs'
      cases hs'
      exact ⟨classes[s], by simp [hsl], rfl⟩

theorem hier_nil : Hier [] := by
  refine ⟨?_, ?_, ?_, ?_, ?_⟩ <;> intros <;> simp_all

theorem Hier.snoc {classes : List ObjClass} (hh : Hier classes) (cl : ObjClass) (sup : Option Nat)
    (hp : Nat.Prime cl.baseId) (hnew : ∀ c, c ∈ classes → c.baseId ≠ cl.baseId)
    (hsup : cl.super = sup) (hs : ∀ s, sup = some s → s < classes.length)
    (hroot : sup = none → cl.classId = cl.baseId)
    (hsub : ∀ s, sup = some s → ∃ sc, classes[s]? = some sc ∧
      cl.classId = cl.baseId * sc.classId) :
    Hier (classes ++ [cl]) := by
  have hget : ∀ (c : Nat) (x : ObjClass), (classes ++ [cl])[c]? = some x →
      (c < classes.length ∧ classes[c]? = some x) ∨ (c = classes.length ∧ x = cl) := by
    intro c x hx
    by_cases hc : c < classes.length
    · rw [List.getElem?_append_left hc] at hx
      exact Or.inl ⟨hc, hx⟩
    · have hlen : c < (classes ++ [cl]).length := (List.getElem?_eq_some.mp hx).1
      simp at hlen
      have hce : c = classes.length := by omega
      subst hce
      simp at hx
      exact Or.inr ⟨rfl, hx.symm⟩
  have hold : ∀ (c : Nat) (x : ObjClass), classes[c]? = some x →
      (classes ++ [cl])[c]? = some x := by
    intro c x hx
    have hc : c < classes.length := (List.getElem?_eq_some.mp hx).1
    rw [List.getElem?_append_left hc]; exact hx
  have hmem : ∀ (c : Nat) (x : ObjClass), classes[c]? = some x → x ∈ classes :=
    fun c x hx => List.mem_iff_getElem?.mpr ⟨c, hx⟩
  refine ⟨?_, ?_, ?_, ?_, ?_⟩
  · intro c x s hx hsx
    rcases hget c x hx with ⟨_, h⟩ | ⟨h1, h2⟩
    · exact hh.below c x s h hsx
    · subst h2
      rw [h1]
      exact hs s (by rw [← hsup]; exact hsx)
  · intro c x hx
    rcases hget c x hx with ⟨_, h⟩ | ⟨_, h2⟩
    · exact hh.prime c x h
    · subst h2; exact hp
  · intro i j ci cj hi hj hb
    rcases hget i ci hi with ⟨_, h⟩ | ⟨h1, h2⟩
    · rcases hget j cj hj with ⟨_, h'⟩ | ⟨h1', h2'⟩
      · exact hh.distinct i j ci cj h h' hb
      · subst h2'
        exact absurd hb (hnew ci (hmem i ci h))
    · rcases hget j cj hj with ⟨_, h'⟩ | ⟨h1', h2'⟩
      · subst h2
        exact absurd hb.symm (hnew cj (hmem j cj h'))
      · omega
  · intro c x hx hsx
    rcases hget c x hx with ⟨_, h⟩ | ⟨_, h2⟩
    · exact hh.root c x h hsx
    · subst h2
      exact hroot (by rw [← hsup]; exact hsx)
  · intro c x s hx hsx
    rcases hget c x hx with ⟨_, h⟩ | ⟨_, h2⟩
    · obtain ⟨sc, hsc, heq⟩ := hh.sub c x s h hsx
      exact ⟨sc, hold s sc hsc, heq⟩
    · subst h2
      obtain ⟨sc, hsc, heq⟩ := hsub s (by rw [← hsup]; exact hsx)
      exact ⟨sc, hold s sc hsc, heq⟩

/-- Class declarations keep the facts `Hier`. -/
theorem Built.hier {classes : List ObjClass} (h : Built classes) : Hier classes := by
  induction h with
  | empty => exact hier_nil
  | declare classes classes1 b sup _ hp hnew hs hd ih =>
    obtain ⟨cl, rfl, hb, hsup, hroot, hsub⟩ := declareClass_eq hs hd
    subst hb
    exact ih.snoc cl sup hp hnew hsup hs hroot hsub

theorem Hier.baseId_dvd {classes : List ObjClass} (hh : Hier classes) {c : Nat} {cl : ObjClass}
    (h : classes[c]? = some cl) : cl.baseId ∣ cl.classId := by
  cases hs : cl.super with
  | none => rw [hh.root c cl h hs]
  | some s =>
    obtain ⟨sc, _, heq⟩ := hh.sub c cl s h hs
    rw [heq]; exact Dvd.intro _ rfl

/-- The `classId` of a class on the chain of superclasses divides the `classId`. -/
theorem Hier.dvd_of_onChain {classes : List ObjClass} (hh : Hier classes) :
    ∀ (fuel k c : Nat) (K C : ObjClass), classes[k]? = some K → classes[c]? = some C →
      onChain classes fuel k c = true → K.classId ∣ C.classId := by
  intro fuel
  induction fuel with
  | zero => intro k c K C _ _ h; simp [onChain] at h
  | succ fuel ih =>
    intro k c K C hK hC h
    rw [onChain] at h
    by_cases hck : c = k
    · subst hck
      rw [hK] at hC; cases hC
      exact dvd_rfl
    · rw [if_neg hck] at h
      simp only [hC] at h
      cases hs : C.super with
      | none => rw [hs] at h; cases h
      | some s =>
        rw [hs] at h
        obtain ⟨sc, hsc, heq⟩ := hh.sub c C s hC hs
        rw [heq]
        exact Dvd.dvd.mul_left (ih k s K sc hK hsc h) _

/-- A prime that divides the `classId` of a class is the `baseId` of a class on its
chain of superclasses. -/
theorem Hier.prime_on_chain {classes : List ObjClass} (hh : Hier classes) {p : Nat}
    (hp : Nat.Prime p) :
    ∀ (fuel c : Nat) (C : ObjClass), c < fuel → classes[c]? = some C → p ∣ C.classId →
      ∃ j J, classes[j]? = some J ∧ J.baseId = p ∧ onChain classes fuel j c = true := by
  intro fuel
  induction fuel with
  | zero => intro c C h; omega
  | succ fuel ih =>
    intro c C hc hC hdvd
    cases hs : C.super with
    | none =>
      rw [hh.root c C hC hs] at hdvd
      have := (Nat.prime_dvd_prime_iff_eq hp (hh.prime c C hC)).mp hdvd
      exact ⟨c, C, hC, this.symm, by rw [onChain]; simp⟩
    | some s =>
      obtain ⟨sc, hsc, heq⟩ := hh.sub c C s hC hs
      rw [heq] at hdvd
      rcases (Nat.Prime.dvd_mul hp).mp hdvd with h | h
      · have := (Nat.prime_dvd_prime_iff_eq hp (hh.prime c C hC)).mp h
        exact ⟨c, C, hC, this.symm, by rw [onChain]; simp⟩
      · have hsc_lt := hh.below c C s hC hs
        obtain ⟨j, J, hJ, hb, hon⟩ := ih s sc (by omega) hsc h
        refine ⟨j, J, hJ, hb, ?_⟩
        rw [onChain]
        by_cases hcj : c = j
        · simp [hcj]
        · simp only [if_neg hcj, hC, hs]
          exact hon

/-- C8: in a class hierarchy built by class declarations, with a prime `baseId` for each
class that no other class has and `classId = baseId * super.classId` computed without
overflow, `instanceOf(K, C)` is true if and only if `K` is `C` or `K` is met on the
chain of superclasses of `C`. -/
theorem c8_instanceOf_iff_on_super_chain {classes : List ObjClass} (hb : Built classes)
    (k c : Nat) (K C : ObjClass) (hK : classes[k]? = some K) (hC : classes[c]? = some C) :
    instanceOf K C = true ↔ onChain classes classes.length k c = true := by
  have hh := hb.hier
  have hc : c < classes.length := (List.getElem?_eq_some.mp hC).1
  unfold instanceOf
  rw [beq_iff_eq]
  constructor
  · intro hmod
    have hdvd : K.classId ∣ C.classId := Nat.dvd_of_mod_eq_zero hmod
    have hbase : K.baseId ∣ C.classId := dvd_trans (hh.baseId_dvd hK) hdvd
    obtain ⟨j, J, hJ, hbj, hon⟩ :=
      hh.prime_on_chain (hh.prime k K hK) classes.length c C hc hC hbase
    have : j = k := hh.distinct j k J K hJ hK hbj
    subst this
    exact hon
  · intro hon
    exact Nat.mod_eq_zero_of_dvd (hh.dvd_of_onChain classes.length k c K C hK hC hon)

theorem demoClasses_built : Built demoClasses := by
  have h1 : Built [{ baseId := 2, classId := 2, super := none }] :=
    Built.declare [] _ 2 none Built.empty Nat.prime_two (by simp) (by simp) rfl
  have h2 : Built [{ baseId := 2, classId := 2, super := none },
      { baseId := 3, classId := 6, super := some 0 }] :=
    Built.declare _ _ 3 (some 0) h1 Nat.prime_three (by simp) (by simp) (by decide)
  exact Built.declare _ _ 5 none h2 Nat.prime_five (by simp) (by simp) rfl

theorem c8_instanceOf_iff_on_super_chain_witness :
    (instanceOf { baseId := 2, classId := 2, super := none }
        { baseId := 3, classId := 6, super := some 0 } = true ↔
      onChain demoClasses demoClasses.length 0 1 = true) ∧
    (instanceOf { baseId := 5, classId := 5, super := none }
        { baseId := 3, classId := 6, super := some 0 } = true ↔
      onChain demoClasses demoClasses.length 2 1 = true) :=
  ⟨c8_instanceOf_iff_on_super_chain demoClasses_built 0 1 _ _ rfl rfl,
    c8_instanceOf_iff_on_super_chain demoClasses_built 2 1 _ _ rfl rfl⟩

/-! ### Call frames -/

theorem pushMissing_eq (n : Nat) (stack : List Value) (stackArgs : Nat) :
    pushMissing n stack stackArgs = (stack ++ List.replicate n Value.nil, stackArgs + n) := by
  induction n generalizing stack stackArgs with
  | zero => simp [pushMissing]
  | succ n ih =>
    rw [pushMissing, ih, push]
    simp [List.replicate_succ, Nat.add_comm, Nat.add_left_comm]

/-- Claim C9: for `argCount` arguments on the stack and `arity ≤ maxArgs`, the call
opcodes reading `argCount` from one byte, so that it is 255 at most and
`argCount ≤ maxArgs + 255` holds: if `argCount < arity`, exactly `arity - argCount` nil
values are pushed and `varArgs` is 0; if `arity ≤ argCount ≤ maxArgs`, the stack is
unchanged and `varArgs` is `argCount - arity`; if `argCount > maxArgs`, exactly
`argCount - maxArgs` values are popped; and the result `stackArgs` is the number of
argument slots left on the stack, `frame->slots` being the slot of the callee below
them. -/
theorem c9_setupStackFrame (stack : List Value) (argCount arity maxArgs : Nat)
    (harity : arity ≤ maxArgs) (hbyte : argCount ≤ maxArgs + 255)
    (hstack : argCount ≤ stack.length) :
    (argCount < arity →
      (setupStackFrame stack argCount arity maxArgs).1 =
        stack ++ List.replicate (arity - argCount) Value.nil ∧
      (setupStackFrame stack argCount arity maxArgs).2.1.varArgs = 0) ∧
    (arity ≤ argCount → argCount ≤ maxArgs →
      (setupStackFrame stack argCount arity maxArgs).1 = stack ∧
      (setupStackFrame stack argCount arity maxArgs).2.1.varArgs =
        (argCount : Int) - (arity : Int)) ∧
    (maxArgs < argCount →
      (setupStackFrame stack argCount arity maxArgs).1 =
        stack.take (stack.length - (argCount - maxArgs))) ∧
    (setupStackFrame stack argCount arity maxArgs).1.length =
      (stack.length - argCount) + (setupStackFrame stack argCount arity maxArgs).2.2 ∧
    (setupStackFrame stack argCount arity maxArgs).2.1.slots =
      ((stack.length - argCount : Nat) : Int) - 1 := by
  by_cases h1 : argCount < arity
  · have hne : argCount ≠ arity := by omega
    have hadj : adjustArgs stack argCount arity maxArgs =
        (stack ++ List.replicate (arity - argCount) Value.nil, argCount + (arity - argCount),
          arity - argCount) := by
      simp only [adjustArgs, hne, ne_eq, not_false_eq_true, if_true, h1, pushMissing_eq]
    simp only [setupStackFrame, hadj, List.length_append, List.length_replicate]
    refine ⟨fun _ => ⟨trivial, by omega⟩, fun h => by omega, fun h => by omega, by omega, by omega⟩
  · by_cases h2 : maxArgs < argCount
    · have hne : argCount ≠ arity := by omega
      have hmod : (argCount - maxArgs) % 256 = argCount - maxArgs :=
        Nat.mod_eq_of_lt (by omega)
      have hadj : adjustArgs stack argCount arity maxArgs =
          (stack.take (stack.length - (argCount - maxArgs)),
            argCount - (argCount - maxArgs), 0) := by
        simp only [adjustArgs, hne, ne_eq, not_false_eq_true, if_true, h1, if_false,
          gt_iff_lt, h2, popn, hmod]
      simp only [setupStackFrame, hadj, List.length_take]
      refine ⟨fun h => by omega, fun _ h => by omega, fun _ => trivial, by omega, by omega⟩
    · have hadj : adjustArgs stack argCount arity maxArgs = (stack, argCount, 0) := by
        unfold adjustArgs
        by_cases hne : argCount ≠ arity
        · simp only [hne, ne_eq, not_false_eq_true, if_true, h1, if_false, gt_iff_lt, h2]
        · simp only [hne, if_false]
      simp only [setupStackFrame, hadj]
      refine ⟨fun h => by omega, fun _ _ => ⟨trivial, by simp⟩, fun h => by omega, by omega,
        by omega⟩

theorem c9_setupStackFrame_witness :
    (1 < 3 →
      (setupStackFrame [Value.obj 0, Value.number 1] 1 3 3).1 =
        [Value.obj 0, Value.number 1] ++ List.replicate (3 - 1) Value.nil ∧
      (setupStackFrame [Value.obj 0, Value.number 1] 1 3 3).2.1.varArgs = 0) ∧
    (3 ≤ 1 → 1 ≤ 3 →
      (setupStackFrame [Value.obj 0, Value.number 1] 1 3 3).1 = [Value.obj 0, Value.number 1] ∧
      (setupStackFrame [Value.obj 0, Value.number 1] 1 3 3).2.1.varArgs = ((1 : Nat) : Int) - ((3 : Nat) : Int)) ∧
    (3 < 1 →
      (setupStackFrame [Value.obj 0, Value.number 1] 1 3 3).1 =
        [Value.obj 0, Value.number 1].take ([Value.obj 0, Value.number 1].length - (1 - 3))) ∧
    (setupStackFrame [Value.obj 0, Value.number 1] 1 3 3).1.length =
      ([Value.obj 0, Value.number 1].length - 1) +
        (setupStackFrame [Value.obj 0, Value.number 1] 1 3 3).2.2 ∧
    (setupStackFrame [Value.obj 0, Value.number 1] 1 3 3).2.1.slots =
      (([Value.obj 0, Value.number 1].length - 1 : Nat) : Int) - 1 :=
  c9_setupStackFrame [Value.obj 0, Value.number 1] 1 3 3 (by decide) (by decide) (by decide)

/-! ### The opcode `UNPACK` -/

theorem peek_two (s : List Value) (a b : Value) :
    peek (s ++ [a, b]) 0 = some b ∧ peek (s ++ [a, b]) 1 = some a := by
  have hlen : (s ++ [a, b]).length = s.length + 2 := by simp
  constructor
  · unfold peek
    rw [hlen, if_pos (by omega)]
    have h1 : s.length + 2 - 1 - 0 = s.length + 1 := by omega
    rw [h1, List.getElem?_append_right (by omega)]
    have h2 : s.length + 1 - s.length = 1 := by omega
    rw [h2]
    rfl
  · unfold peek
    rw [hlen, if_pos (by omega)]
    have h1 : s.length + 2 - 1 - 1 = s.length := by omega
    rw [h1, List.getElem?_append_right (by omega)]
    simp

theorem pop_pop_two (s : List Value) (a b : Value) : pop (pop (s ++ [a, b])) = s := by
  have h : s ++ [a, b] = (s ++ [a]) ++ [b] := by simp
  rw [h]
  simp [pop, List.dropLast_concat]

theorem popn_two (s : List Value) (a b : Value) : popn (s ++ [a, b]) 2 = s := by
  simp [popn]

theorem binaryOp_numbers (op : Nat → Nat → Nat) (s : List Value) (x y : Nat) :
    binaryOp op (s ++ [Value.number x, Value.number y]) =
      NativeResult.returned (s ++ [Value.number (op x y)]) := by
  unfold binaryOp
  rw [(peek_two s _ _).1, (peek_two s _ _).2]
  simp [isNumber, asNumber, pop_pop_two, push]

theorem binaryOp_other (op : Nat → Nat → Nat) (s : List Value) (a b : Value)
    (h : ¬ (isNumber a = true ∧ isNumber b = true)) :
    binaryOp op (s ++ [a, b]) = NativeResult.raised "Operands must be numbers" := by
  unfold binaryOp
  rw [(peek_two s _ _).1, (peek_two s _ _).2]
  have : (!isNumber b || !isNumber a) = true := by
    cases ha : isNumber a <;> cases hb : isNumber b <;> simp_all
  simp [this]

/-- C11 as stated fails for `ADD`: with the operands nil and a number it raises a
runtime error whose message is "Operands must be two numbers or two strings", not
"Operands must be numbers". -/
theorem c11_add_raises_another_message :
    opAdd demoArith [Value.nil, Value.number 1] =
      NativeResult.raised "Operands must be two numbers or two strings" ∧
    opAdd demoArith [Value.nil, Value.number 1] ≠
      NativeResult.raised "Operands must be numbers" := by
  constructor <;> decide

/-- C11, amended: `SUBTRACT`, `MULTIPLY`, `DIVIDE` and `MODULO`, executed when the two
operands are not both numbers, raise the runtime error "Operands must be numbers";
`ADD`, executed when the two operands are neither both strings nor both numbers, raises
the runtime error "Operands must be two numbers or two strings"; when both operands are
numbers each of the five opcodes raises nothing and replaces the two operands by one
result. -/
theorem c11_arithmetic_opcodes (ar : ArithOps) (s : List Value) (a b : Value) :
    (¬ (isNumber a = true ∧ isNumber b = true) →
      opSubtract ar (s ++ [a, b]) = NativeResult.raised "Operands must be numbers" ∧
      opMultiply ar (s ++ [a, b]) = NativeResult.raised "Operands must be numbers" ∧
      opDivide ar (s ++ [a, b]) = NativeResult.raised "Operands must be numbers" ∧
      opModulo ar (s ++ [a, b]) = NativeResult.raised "Operands must be numbers") ∧
    (¬ (isNumber a = true ∧ isNumber b = true) →
      ¬ (ar.isString a = true ∧ ar.isString b = true) →
      opAdd ar (s ++ [a, b]) =
        NativeResult.raised "Operands must be two numbers or two strings") ∧
    (∀ x y, a = Value.number x → b = Value.number y →
      opSubtract ar (s ++ [a, b]) = NativeResult.returned (s ++ [Value.number (ar.sub x y)]) ∧
      opMultiply ar (s ++ [a, b]) = NativeResult.returned (s ++ [Value.number (ar.mul x y)]) ∧
      opDivide ar (s ++ [a, b]) = NativeResult.returned (s ++ [Value.number (ar.div x y)]) ∧
      opModulo ar (s ++ [a, b]) = NativeResult.returned (s ++ [Value.number (ar.fmod x y)]) ∧
      ∃ r, opAdd ar (s ++ [a, b]) = NativeResult.returned (s ++ [r])) := by
  refine ⟨?_, ?_, ?_⟩
  · intro h
    exact ⟨binaryOp_other _ s a b h, binaryOp_other _ s a b h, binaryOp_other _ s a b h,
      binaryOp_other _ s a b h⟩
  · intro hn hs
    unfold opAdd
    rw [(peek_two s _ _).1, (peek_two s _ _).2]
    have h1 : (ar.isString b && ar.isString a) = false := by
      cases ha : ar.isString a <;> cases hb : ar.isString b <;> simp_all
    have h2 : (isNumber b && isNumber a) = false := by
      cases ha : isNumber a <;> cases hb : isNumber b <;> simp_all
    simp [h1, h2]
  · intro x y ha hb
    subst ha hb
    refine ⟨binaryOp_numbers _ s x y, binaryOp_numbers _ s x y, binaryOp_numbers _ s x y,
      binaryOp_numbers _ s x y, ?_⟩
    unfold opAdd
    rw [(peek_two s _ _).1, (peek_two s _ _).2]
    by_cases hs : (ar.isString (Value.number y) && ar.isString (Value.number x)) = true
    · exact ⟨ar.concat (Value.number x) (Value.number y), by simp [hs, popn_two, push]⟩
    · exact ⟨Value.number (ar.add x y),
        by simp [hs, isNumber, asNumber, pop_pop_two, push]⟩

theorem c11_arithmetic_opcodes_witness :
    opSubtract demoArith ([] ++ [Value.nil, Value.number 1]) =
      NativeResult.raised "Operands must be numbers" ∧
    opAdd demoArith ([] ++ [Value.nil, Value.number 1]) =
      NativeResult.raised "Operands must be two numbers or two strings" ∧
    opModulo demoArith ([] ++ [Value.number 7, Value.number 4]) =
      NativeResult.returned ([] ++ [Value.number (demoArith.fmod 7 4)]) :=
  ⟨((c11_arithmetic_opcodes demoArith [] Value.nil (Value.number 1)).1 (by decide)).1,
    (c11_arithmetic_opcodes demoArith [] Value.nil (Value.number 1)).2.1 (by decide)
      (by decide),
    ((c11_arithmetic_opcodes demoArith [] (Value.number 7) (Value.number 4)).2.2 7 4 rfl
      rfl).2.2.2.1⟩


/-! ### Upvalues -/

theorem slotOf_eq_some {objs : List ObjUpvalue} {u s : Nat} :
    slotOf objs u = some s ↔ objs[u]? = some (ObjUpvalue.opened s) := by
  unfold slotOf
  cases h : objs[u]? with
  | none => simp
  | some o => cases o <;> simp

theorem slotOf_congr {objs objs1 : List ObjUpvalue} {u : Nat} (h : objs1[u]? = objs[u]?) :
    slotOf objs1 u = slotOf objs u := by
  unfold slotOf; rw [h]

theorem belowLast_congr {objs objs1 : List ObjUpvalue} {last u : Nat}
    (h : objs1[u]? = objs[u]?) : belowLast objs1 last u = belowLast objs last u := by
  unfold belowLast; rw [slotOf_congr h]

theorem OpenSorted.tail {stack : List Value} {objs : List ObjUpvalue} {u : Nat}
    {rest : List Nat} (h : OpenSorted stack objs (u :: rest)) : OpenSorted stack objs rest :=
  ⟨fun w hw => h.1 w (List.mem_cons_of_mem _ hw), (List.pairwise_cons.mp h.2).2⟩

theorem OpenSorted.head_lt {stack : List Value} {objs : List ObjUpvalue} {u : Nat}
    {rest : List Nat} (h : OpenSorted stack objs (u :: rest)) {s : Nat}
    (hs : objs[u]? = some (ObjUpvalue.opened s)) {w : Nat} (hw : w ∈ rest) :
    ∃ b, objs[w]? = some (ObjUpvalue.opened b) ∧ b < s := by
  obtain ⟨b, hb, _⟩ := h.1 w (List.mem_cons_of_mem _ hw)
  exact ⟨b, hb, (List.pairwise_cons.mp h.2).1 w hw s b (slotOf_eq_some.mpr hs)
    (slotOf_eq_some.mpr hb)⟩

theorem OpenSorted.head_not_mem {stack : List Value} {objs : List ObjUpvalue} {u : Nat}
    {rest : List Nat} (h : OpenSorted stack objs (u :: rest)) : u ∉ rest := by
  intro hu
  obtain ⟨s, hs, _⟩ := h.1 u (List.mem_cons_self _ _)
  obtain ⟨b, hb, hlt⟩ := h.head_lt hs hu
  rw [hs] at hb
  injection hb with hb
  injection hb with hb
  omega

theorem OpenSorted.agree {stack stack1 : List Value} {objs objs1 : List ObjUpvalue}
    {opened : List Nat} (h : OpenSorted stack objs opened)
    (hlen : stack1.length = stack.length)
    (hobjs : ∀ w, w ∈ opened → objs1[w]? = objs[w]?) : OpenSorted stack1 objs1 opened := by
  refine ⟨fun w hw => ?_, ?_⟩
  · rw [hobjs w hw, hlen]; exact h.1 w hw
  · refine h.2.imp_of_mem ?_
    intro a b ha hb hab x y hx hy
    rw [slotOf_congr (hobjs a ha)] at hx
    rw [slotOf_congr (hobjs b hb)] at hy
    exact hab x y hx hy

theorem getElem?_set_closed_ne {objs : List ObjUpvalue} {u w : Nat} {o : ObjUpvalue}
    (h : w ≠ u) : (objs.set u o)[w]? = objs[w]? := by
  rw [List.getElem?_set]
  simp [Ne.symm h]

/-- The loop of `closeUpvalues` on a well-formed open list: the upvalues that stay are
those below `last`, in their order; each upvalue at or above `last` is closed over the
value of its slot; every other upvalue object is unchanged. -/
theorem closeLoop_spec (stack : List Value) (last : Nat) :
    ∀ (opened : List Nat) (objs : List ObjUpvalue), OpenSorted stack objs opened →
      ∃ objs1, closeLoop stack last opened objs
          = some (opened.filter (belowLast objs last), objs1) ∧
        objs1.length = objs.length ∧
        (∀ u s, u ∈ opened → objs[u]? = some (ObjUpvalue.opened s) → last ≤ s →
          ∃ v, stack[s]? = some v ∧ objs1[u]? = some (ObjUpvalue.closed v)) ∧
        (∀ w, (w ∉ opened ∨ belowLast objs last w = true) → objs1[w]? = objs[w]?) := by
  intro opened
  induction opened with
  | nil =>
    intro objs _
    exact ⟨objs, by simp [closeLoop], rfl, by simp, fun _ _ => rfl⟩
  | cons u rest ih =>
    intro objs hs
    obtain ⟨s, hus, hslen⟩ := hs.1 u (List.mem_cons_self _ _)
    by_cases hge : last ≤ s
    · obtain ⟨v, hv⟩ : ∃ v, stack[s]? = some v :=
        ⟨stack[s], List.getElem?_eq_getElem hslen⟩
      have hnot := hs.head_not_mem
      have hne : ∀ w, w ∈ rest → w ≠ u := fun w hw h => hnot (h ▸ hw)
      have hs1 : OpenSorted stack (objs.set u (ObjUpvalue.closed v)) rest :=
        hs.tail.agree rfl (fun w hw => getElem?_set_closed_ne (hne w hw))
      obtain ⟨objs1, hrun, hlen, hclosed, hsame⟩ := ih _ hs1
      have hbu : belowLast objs last u = false := by
        simp [belowLast, slotOf, hus, hge]
      refine ⟨objs1, ?_, ?_, ?_, ?_⟩
      · simp only [closeLoop, hus, ge_iff_le, hge, if_true, hv]
        rw [hrun, List.filter_cons, hbu]
        simp only [Bool.false_eq_true, if_false]
        congr 2
        apply List.filter_congr
        intro w hw
        exact belowLast_congr (getElem?_set_closed_ne (hne w hw))
      · rw [hlen, List.length_set]
      · intro w b hw hwb hlb
        rcases List.mem_cons.mp hw with rfl | hw
        · rw [hus] at hwb
          injection hwb with hwb
          injection hwb with hwb
          subst hwb
          refine ⟨v, hv, ?_⟩
          rw [hsame w (Or.inl hnot), List.getElem?_set]
          have : w < objs.length := by
            by_contra hcon
            rw [List.getElem?_eq_none (by omega)] at hus
            cases hus
          simp [this]
        · exact hclosed w b hw (by rw [getElem?_set_closed_ne (hne w hw)]; exact hwb) hlb
      · intro w hw
        have hwu : w ≠ u := by
          rcases hw with hw | hw
          · exact fun h => hw (h ▸ List.mem_cons_self _ _)
          · intro h; rw [h, hbu] at hw; cases hw
        rw [hsame w ?_, getElem?_set_closed_ne hwu]
        rcases hw with hw | hw
        · exact Or.inl (fun h => hw (List.mem_cons_of_mem _ h))
        · exact Or.inr (by rw [belowLast_congr (getElem?_set_closed_ne hwu)]; exact hw)
    · have hall : ∀ w, w ∈ u :: rest → belowLast objs last w = true := by
        intro w hw
        rcases List.mem_cons.mp hw with rfl | hw
        · simp [belowLast, slotOf, hus]; omega
        · obtain ⟨b, hb, hlt⟩ := hs.head_lt hus hw
          simp [belowLast, slotOf, hb]; omega
      refine ⟨objs, ?_, rfl, ?_, fun _ _ => rfl⟩
      · simp only [closeLoop, hus, ge_iff_le, hge, if_false]
        rw [List.filter_eq_self.mpr hall]
      · intro w b hw hwb hlb
        have := hall w hw
        simp [belowLast, slotOf, hwb] at this
        omega


theorem mem_filter_belowLast {objs : List ObjUpvalue} {opened : List Nat} {last u s : Nat}
    (hs : objs[u]? = some (ObjUpvalue.opened s)) :
    u ∈ opened.filter (belowLast objs last) ↔ u ∈ opened ∧ s < last := by
  rw [List.mem_filter]
  simp [belowLast, slotOf, hs]

/-- Claim C15: `closeUpvalues(last)` on an open list sorted by descending slot returns;
the stack is unchanged; each open upvalue at or above `last` leaves the open list and is
closed, its own cell holding the value its stack slot held; each open upvalue below
`last` stays in the list, still open on the same slot; the new list is the old one
without the closed upvalues, in the same order. -/
theorem c15_closeUpvalues (vm : VM) (last : Nat)
    (hsorted : OpenSorted vm.stack vm.upvalueObjs vm.openUpvalues) :
    ∃ vm1, closeUpvalues vm last = some vm1 ∧
      vm1.stack = vm.stack ∧ vm1.stackTop = vm.stackTop ∧ vm1.frames = vm.frames ∧
      vm1.openUpvalues = vm.openUpvalues.filter (belowLast vm.upvalueObjs last) ∧
      (∀ u s, u ∈ vm.openUpvalues → vm.upvalueObjs[u]? = some (ObjUpvalue.opened s) →
        last ≤ s → u ∉ vm1.openUpvalues ∧
          ∃ v, vm.stack[s]? = some v ∧ vm1.upvalueObjs[u]? = some (ObjUpvalue.closed v) ∧
            readUpvalue vm1 u = some v) ∧
      (∀ u s, u ∈ vm.openUpvalues → vm.upvalueObjs[u]? = some (ObjUpvalue.opened s) →
        s < last → u ∈ vm1.openUpvalues ∧
          vm1.upvalueObjs[u]? = some (ObjUpvalue.opened s)) ∧
      (∀ w, w ∉ vm.openUpvalues → vm1.upvalueObjs[w]? = vm.upvalueObjs[w]?) := by
  obtain ⟨objs1, hrun, _, hclosed, hsame⟩ := closeLoop_spec vm.stack last _ _ hsorted
  refine ⟨{ vm with openUpvalues := vm.openUpvalues.filter (belowLast vm.upvalueObjs last),
                    upvalueObjs := objs1 },
    by simp only [closeUpvalues, hrun], rfl, rfl, rfl, rfl, ?_, ?_, ?_⟩
  · intro u s hu hus hle
    obtain ⟨v, hv, hc⟩ := hclosed u s hu hus hle
    refine ⟨?_, v, hv, hc, ?_⟩
    · show u ∉ vm.openUpvalues.filter (belowLast vm.upvalueObjs last)
      rw [mem_filter_belowLast hus]
      omega
    · simp only [readUpvalue]
      rw [hc]
  · intro u s hu hus hlt
    refine ⟨?_, ?_⟩
    · show u ∈ vm.openUpvalues.filter (belowLast vm.upvalueObjs last)
      rw [mem_filter_belowLast hus]
      exact ⟨hu, hlt⟩
    · show objs1[u]? = _
      rw [hsame u (Or.inr (by simp [belowLast, slotOf, hus, hlt])), hus]
  · intro w hw
    exact hsame w (Or.inl hw)


theorem captureWalk_of (objs : List ObjUpvalue) (slot : Nat) :
    ∀ (passed rest : List Nat),
      (∀ p, p ∈ passed → ∃ location, objs[p]? = some (ObjUpvalue.opened location) ∧
        slot < location) →
      (∀ u r, rest = u :: r → ∃ location, objs[u]? = some (ObjUpvalue.opened location) ∧
        location ≤ slot) →
      captureWalk objs slot (passed ++ rest) = some (passed, rest) := by
  intro passed
  induction passed with
  | nil =>
    intro rest _ hrest
    cases rest with
    | nil => rfl
    | cons u r =>
      obtain ⟨location, hu, hle⟩ := hrest u r rfl
      simp only [List.nil_append, captureWalk, hu]
      rw [if_neg (by omega)]
  | cons p passed ih =>
    intro rest hp hrest
    obtain ⟨location, hu, hlt⟩ := hp p (List.mem_cons_self _ _)
    have hrec := ih rest (fun q hq => hp q (List.mem_cons_of_mem _ hq)) hrest
    show captureWalk objs slot (p :: (passed ++ rest)) = _
    simp only [captureWalk, hu]
    rw [if_pos hlt, hrec]

theorem captureWalk_spec (objs : List ObjUpvalue) (slot : Nat) :
    ∀ (l passed rest : List Nat), captureWalk objs slot l = some (passed, rest) →
      l = passed ++ rest ∧
      (∀ p, p ∈ passed → ∃ location, objs[p]? = some (ObjUpvalue.opened location) ∧
        slot < location) ∧
      (∀ u r, rest = u :: r → ∃ location, objs[u]? = some (ObjUpvalue.opened location) ∧
        location ≤ slot) := by
  intro l
  induction l with
  | nil =>
    intro passed rest h
    simp only [captureWalk, Option.some.injEq, Prod.mk.injEq] at h
    obtain ⟨rfl, rfl⟩ := h
    exact ⟨rfl, by simp, by simp⟩
  | cons u l ih =>
    intro passed rest h
    simp only [captureWalk] at h
    cases hu : objs[u]? with
    | none => rw [hu] at h; cases h
    | some o =>
      rw [hu] at h
      cases o with
      | closed v => cases h
      | opened location =>
        simp only at h
        by_cases hlt : location > slot
        · rw [if_pos hlt] at h
          cases hw : captureWalk objs slot l with
          | none => rw [hw] at h; cases h
          | some pr =>
            obtain ⟨p1, r1⟩ := pr
            rw [hw] at h
            simp only [Option.some.injEq, Prod.mk.injEq] at h
            obtain ⟨rfl, rfl⟩ := h
            obtain ⟨hl, hp, hr⟩ := ih p1 r1 hw
            refine ⟨by rw [hl]; rfl, ?_, hr⟩
            intro p hpm
            rcases List.mem_cons.mp hpm with rfl | hpm
            · exact ⟨location, hu, hlt⟩
            · exact hp p hpm
        · rw [if_neg hlt] at h
          simp only [Option.some.injEq, Prod.mk.injEq] at h
          obtain ⟨rfl, rfl⟩ := h
          refine ⟨rfl, by simp, ?_⟩
          intro w r hwr
          injection hwr with h1 h2
          subst h1
          exact ⟨location, hu, by omega⟩

theorem captureWalk_total (objs : List ObjUpvalue) (slot : Nat) :
    ∀ (l : List Nat), (∀ u, u ∈ l → ∃ location, objs[u]? = some (ObjUpvalue.opened location)) →
      ∃ passed rest, captureWalk objs slot l = some (passed, rest) := by
  intro l
  induction l with
  | nil => intro _; exact ⟨[], [], rfl⟩
  | cons u l ih =>
    intro h
    obtain ⟨location, hu⟩ := h u (List.mem_cons_self _ _)
    obtain ⟨p, r, hw⟩ := ih (fun w hw => h w (List.mem_cons_of_mem _ hw))
    by_cases hlt : location > slot
    · exact ⟨u :: p, r, by simp only [captureWalk, hu, if_pos hlt, hw]⟩
    · exact ⟨[], u :: l, by simp only [captureWalk, hu, if_neg hlt]⟩

/-- An upvalue of a well-formed open list that points to `slot` is the one
`captureUpvalue` returns for `slot`, and the VM is unchanged. -/
theorem captureUpvalue_finds (vm : VM) (slot u : Nat)
    (hs : OpenSorted vm.stack vm.upvalueObjs vm.openUpvalues) (hu : u ∈ vm.openUpvalues)
    (hus : vm.upvalueObjs[u]? = some (ObjUpvalue.opened slot)) :
    captureUpvalue vm slot = some (vm, u) := by
  obtain ⟨l1, l2, hl⟩ := List.append_of_mem hu
  have hpw := hs.2
  rw [hl, List.pairwise_append] at hpw
  have hwalk : captureWalk vm.upvalueObjs slot vm.openUpvalues = some (l1, u :: l2) := by
    rw [hl]
    apply captureWalk_of
    · intro p hp
      obtain ⟨location, hpl, _⟩ := hs.1 p (by rw [hl]; exact List.mem_append_left _ hp)
      exact ⟨location, hpl, hpw.2.2 p hp u (List.mem_cons_self _ _) location slot
        (slotOf_eq_some.mpr hpl) (slotOf_eq_some.mpr hus)⟩
    · intro w r hwr
      injection hwr with h1 h2
      subst h1
      exact ⟨slot, hus, le_refl _⟩
  simp only [captureUpvalue, hwalk, hus, if_true]

/-- What `captureUpvalue` does on a well-formed open list: it returns an upvalue that is
open on `slot` and in the list, the list stays well formed, the stack is unchanged, each
upvalue of the list stays in it and each upvalue object that existed is unchanged. -/
theorem captureUpvalue_spec (vm : VM) (slot : Nat)
    (hs : OpenSorted vm.stack vm.upvalueObjs vm.openUpvalues) (hslot : slot < vm.stack.length) :
    ∃ vm1 u, captureUpvalue vm slot = some (vm1, u) ∧
      OpenSorted vm1.stack vm1.upvalueObjs vm1.openUpvalues ∧
      u ∈ vm1.openUpvalues ∧ vm1.upvalueObjs[u]? = some (ObjUpvalue.opened slot) ∧
      vm1.stack = vm.stack ∧ vm1.stackTop = vm.stackTop ∧ vm1.frames = vm.frames ∧
      (∀ w, w ∈ vm.openUpvalues → w ∈ vm1.openUpvalues) ∧
      (∀ w, w < vm.upvalueObjs.length → vm1.upvalueObjs[w]? = vm.upvalueObjs[w]?) := by
  obtain ⟨passed, rest, hwalk⟩ := captureWalk_total vm.upvalueObjs slot vm.openUpvalues
    (fun u hu => (hs.1 u hu).imp (fun _ h => h.1))
  obtain ⟨hl, hpassed, hrest⟩ := captureWalk_spec _ _ _ _ _ hwalk
  by_cases hfound : ∃ u r, rest = u :: r ∧ vm.upvalueObjs[u]? = some (ObjUpvalue.opened slot)
  · obtain ⟨u, r, hr, hus⟩ := hfound
    have hu : u ∈ vm.openUpvalues := by rw [hl, hr]; simp
    exact ⟨vm, u, captureUpvalue_finds vm slot u hs hu hus, hs, hu, hus, rfl, rfl, rfl,
      fun _ h => h, fun _ _ => rfl⟩
  · have hlt : ∀ w, w < vm.upvalueObjs.length →
        (vm.upvalueObjs ++ [ObjUpvalue.opened slot])[w]? = vm.upvalueObjs[w]? :=
      fun w hw => List.getElem?_append_left hw
    have hin : ∀ w, w ∈ vm.openUpvalues → w < vm.upvalueObjs.length := by
      intro w hw
      obtain ⟨location, hwl, _⟩ := hs.1 w hw
      by_contra hcon
      rw [List.getElem?_eq_none (by omega)] at hwl
      cases hwl
    have hnew : (vm.upvalueObjs ++ [ObjUpvalue.opened slot])[vm.upvalueObjs.length]?
        = some (ObjUpvalue.opened slot) := by
      rw [List.getElem?_append_right (le_refl _)]
      simp
    have hrun : captureUpvalue vm slot
        = some ({ vm with upvalueObjs := vm.upvalueObjs ++ [ObjUpvalue.opened slot],
                          openUpvalues := passed ++ vm.upvalueObjs.length :: rest },
                vm.upvalueObjs.length) := by
      simp only [captureUpvalue, hwalk]
      cases rest with
      | nil => rfl
      | cons u r =>
        have : ¬ vm.upvalueObjs[u]? = some (ObjUpvalue.opened slot) :=
          fun h => hfound ⟨u, r, rfl, h⟩
        simp only [if_neg this]
    have hrestlt : ∀ w, w ∈ rest → ∃ b, vm.upvalueObjs[w]? = some (ObjUpvalue.opened b) ∧
        b < slot := by
      intro w hw
      cases rest with
      | nil => cases hw
      | cons u r =>
        obtain ⟨location, hul, hle⟩ := hrest u r rfl
        have hne : location ≠ slot := fun h => hfound ⟨u, r, rfl, h ▸ hul⟩
        rcases List.mem_cons.mp hw with rfl | hw
        · exact ⟨location, hul, by omega⟩
        · have hsr : OpenSorted vm.stack vm.upvalueObjs (u :: r) :=
            ⟨fun x hx => hs.1 x (by rw [hl]; exact List.mem_append_right _ hx),
              (List.pairwise_append.mp (hl ▸ hs.2)).2.1⟩
          obtain ⟨b, hb, hblt⟩ := hsr.head_lt hul hw
          exact ⟨b, hb, by omega⟩
    have hold : OpenSorted vm.stack (vm.upvalueObjs ++ [ObjUpvalue.opened slot])
        vm.openUpvalues := hs.agree rfl (fun w hw => hlt w (hin w hw))
    have hpw := hold.2
    rw [hl, List.pairwise_append] at hpw
    refine ⟨_, _, hrun, ⟨?_, ?_⟩, ?_, hnew, rfl, rfl, rfl, ?_, hlt⟩
    · intro w hw
      show ∃ location, (vm.upvalueObjs ++ [ObjUpvalue.opened slot])[w]? = _ ∧ _
      rcases List.mem_append.mp hw with hw | hw
      · exact hold.1 w (by rw [hl]; exact List.mem_append_left _ hw)
      · rcases List.mem_cons.mp hw with rfl | hw
        · exact ⟨slot, hnew, hslot⟩
        · exact hold.1 w (by rw [hl]; exact List.mem_append_right _ hw)
    · show List.Pairwise _ (passed ++ vm.upvalueObjs.length :: rest)
      rw [List.pairwise_append]
      refine ⟨hpw.1, List.pairwise_cons.mpr ⟨?_, hpw.2.1⟩, ?_⟩
      · intro w hw a b ha hb
        obtain ⟨b1, hb1, hb1lt⟩ := hrestlt w hw
        rw [slotOf_eq_some, hnew] at ha
        rw [slotOf_eq_some, hlt w (hin w (by rw [hl]; exact List.mem_append_right _ hw)),
          hb1] at hb
        injection ha with ha; injection ha with ha
        injection hb with hb; injection hb with hb
        omega
      · intro p hp w hw a b ha hb
        rcases List.mem_cons.mp hw with rfl | hw
        · obtain ⟨a1, ha1, ha1lt⟩ := hpassed p hp
          rw [slotOf_eq_some, hlt p (hin p (by rw [hl]; exact List.mem_append_left _ hp)),
            ha1] at ha
          rw [slotOf_eq_some, hnew] at hb
          injection ha with ha; injection ha with ha
          injection hb with hb; injection hb with hb
          omega
        · exact hpw.2.2 p hp w hw a b ha hb
    · show vm.upvalueObjs.length ∈ passed ++ vm.upvalueObjs.length :: rest
      simp
    · intro w hw
      show w ∈ passed ++ vm.upvalueObjs.length :: rest
      rw [hl] at hw
      rcases List.mem_append.mp hw with hw | hw
      · exact List.mem_append_left _ hw
      · exact List.mem_append_right _ (List.mem_cons_of_mem _ hw)


theorem vmPush_eq (vm vm1 : VM) (value : Value) (h : vmPush vm value = some vm1) :
    vm.stackTop < vm.stack.length ∧
    vm1 = { vm with stack := vm.stack.set vm.stackTop value, stackTop := vm.stackTop + 1 } := by
  unfold vmPush storeAt at h
  by_cases hlt : vm.stackTop < vm.stack.length
  · rw [if_pos hlt] at h
    simp only [Option.map_some', Option.some.injEq] at h
    exact ⟨hlt, h.symm⟩
  · rw [if_neg hlt] at h
    cases h

/-- The loop of `CLOSURE` on a well-formed open list: the list stays well formed, the
stack is unchanged, no upvalue leaves the list, and the upvalue stored for a capture of
the local `index` is in the list and open on the slot `frame.slots + index`. -/
theorem closureLoop_spec (frame : Frame) :
    ∀ (captures : List (Bool × Nat)) (vm vm1 : VM) (us : List Nat),
      OpenSorted vm.stack vm.upvalueObjs vm.openUpvalues →
      (∀ k, (true, k) ∈ captures → frame.slots + k < vm.stack.length) →
      closureLoop frame captures vm = some (vm1, us) →
      OpenSorted vm1.stack vm1.upvalueObjs vm1.openUpvalues ∧
      vm1.stack = vm.stack ∧ vm1.stackTop = vm.stackTop ∧
      (∀ w, w ∈ vm.openUpvalues → w ∈ vm1.openUpvalues) ∧
      (∀ w, w < vm.upvalueObjs.length → vm1.upvalueObjs[w]? = vm.upvalueObjs[w]?) ∧
      (∀ (i index : Nat), captures[i]? = some (true, index) →
        ∃ u : Nat, us[i]? = some u ∧ u ∈ vm1.openUpvalues ∧
          vm1.upvalueObjs[u]? = some (ObjUpvalue.opened (frame.slots + index))) := by
  intro captures
  induction captures with
  | nil =>
    intro vm vm1 us hs _ h
    simp only [closureLoop, Option.some.injEq, Prod.mk.injEq] at h
    obtain ⟨rfl, rfl⟩ := h
    exact ⟨hs, rfl, rfl, fun _ h => h, fun _ _ => rfl, by simp⟩
  | cons c rest ih =>
    intro vm vm1 us hs hr h
    obtain ⟨isLocal, index⟩ := c
    cases isLocal with
    | true =>
      obtain ⟨vmA, u, hcap, hsA, huA, husA, hstack, htop, _, hkeep, hobjs⟩ :=
        captureUpvalue_spec vm (frame.slots + index) hs (hr index (List.mem_cons_self _ _))
      simp only [closureLoop, if_true, hcap] at h
      cases hrec : closureLoop frame rest vmA with
      | none => rw [hrec] at h; cases h
      | some r =>
        obtain ⟨vm2, us2⟩ := r
        rw [hrec] at h
        simp only [Option.some.injEq, Prod.mk.injEq] at h
        obtain ⟨rfl, rfl⟩ := h
        obtain ⟨hs2, hstack2, htop2, hkeep2, hobjs2, hcaps2⟩ :=
          ih vmA vm2 us2 hsA
            (fun k hk => by rw [hstack]; exact hr k (List.mem_cons_of_mem _ hk)) hrec
        have hulen : u < vmA.upvalueObjs.length := by
          by_contra hcon
          rw [List.getElem?_eq_none (by omega)] at husA
          cases husA
        have hlen : vm.upvalueObjs.length ≤ vmA.upvalueObjs.length := by
          by_contra hcon
          have h1 := hobjs vmA.upvalueObjs.length (by omega)
          rw [List.getElem?_eq_none (le_refl _)] at h1
          rw [List.getElem?_eq_getElem (by omega)] at h1
          cases h1
        refine ⟨hs2, hstack2.trans hstack, htop2.trans htop,
          fun w hw => hkeep2 w (hkeep w hw),
          fun w hw => (hobjs2 w (by omega)).trans (hobjs w hw), ?_⟩
        intro i k hik
        cases i with
        | zero =>
          simp only [List.getElem?_cons_zero, Option.some.injEq, Prod.mk.injEq, true_and]
            at hik
          subst hik
          exact ⟨u, by simp, hkeep2 u huA, (hobjs2 u hulen).trans husA⟩
        | succ i =>
          simp only [List.getElem?_cons_succ] at hik ⊢
          exact hcaps2 i k hik
    | false =>
      simp only [closureLoop, Bool.false_eq_true, if_false] at h
      cases hup : frame.upvalues[index]? with
      | none => rw [hup] at h; cases h
      | some u =>
        rw [hup] at h
        cases hrec : closureLoop frame rest vm with
        | none => rw [hrec] at h; cases h
        | some r =>
          obtain ⟨vm2, us2⟩ := r
          rw [hrec] at h
          simp only [Option.some.injEq, Prod.mk.injEq] at h
          obtain ⟨rfl, rfl⟩ := h
          obtain ⟨hs2, hstack2, htop2, hkeep2, hobjs2, hcaps2⟩ :=
            ih vm vm2 us2 hs (fun k hk => hr k (List.mem_cons_of_mem _ hk)) hrec
          refine ⟨hs2, hstack2, htop2, hkeep2, hobjs2, ?_⟩
          intro i k hik
          cases i with
          | zero => simp at hik
          | succ i =>
            simp only [List.getElem?_cons_succ] at hik ⊢
            exact hcaps2 i k hik

/-- The opcode `CLOSURE` on a well-formed open list. -/
theorem opClosure_spec (vm vm1 : VM) (frame : Frame) (closure : Value)
    (captures : List (Bool × Nat)) (us : List Nat)
    (hs : OpenSorted vm.stack vm.upvalueObjs vm.openUpvalues)
    (hr : ∀ k, (true, k) ∈ captures → frame.slots + k < vm.stack.length)
    (h : opClosure vm frame closure captures = some (vm1, us)) :
    OpenSorted vm1.stack vm1.upvalueObjs vm1.openUpvalues ∧
    vm1.stack.length = vm.stack.length ∧
    (∀ w, w ∈ vm.openUpvalues → w ∈ vm1.openUpvalues) ∧
    (∀ w, w < vm.upvalueObjs.length → vm1.upvalueObjs[w]? = vm.upvalueObjs[w]?) ∧
    (∀ (i index : Nat), captures[i]? = some (true, index) →
      ∃ u : Nat, us[i]? = some u ∧ u ∈ vm1.openUpvalues ∧
        vm1.upvalueObjs[u]? = some (ObjUpvalue.opened (frame.slots + index))) := by
  unfold opClosure at h
  cases hp : vmPush vm closure with
  | none => rw [hp] at h; cases h
  | some vmP =>
    rw [hp] at h
    obtain ⟨_, hvmP⟩ := vmPush_eq vm vmP closure hp
    have hlenP : vmP.stack.length = vm.stack.length := by rw [hvmP]; simp
    have hsP : OpenSorted vmP.stack vmP.upvalueObjs vmP.openUpvalues := by
      rw [hvmP]; exact hs.agree (by simp) (fun _ _ => rfl)
    obtain ⟨hs1, hstack, _, hkeep, hobjs, hcaps⟩ :=
      closureLoop_spec frame captures vmP vm1 us hsP (fun k hk => by rw [hlenP]; exact hr k hk) h
    refine ⟨hs1, by rw [hstack, hlenP], ?_, ?_, hcaps⟩
    · intro w hw; exact hkeep w (by rw [hvmP]; exact hw)
    · intro w hw
      rw [hobjs w (by rw [hvmP]; exact hw), hvmP]

/-- Claim C14: on a well-formed open list `captureUpvalue` returns, for a stack slot, an
upvalue open on that slot, and returns the same upvalue again in every later state in
which that upvalue is still open; two closures created by `CLOSURE` in the same frame
that capture the same local hold the same upvalue, and while it is open a `SET_UPVALUE`
through the first is read back by `GET_UPVALUE` through the second and by `GET_LOCAL`
of that slot. -/
theorem c14_upvalue_sharing (vm vm1 vm2 : VM) (frame : Frame) (closure1 closure2 : Value)
    (captures1 captures2 : List (Bool × Nat)) (us1 us2 : List Nat) (i j index : Nat)
    (hs : OpenSorted vm.stack vm.upvalueObjs vm.openUpvalues)
    (hr1 : ∀ k, (true, k) ∈ captures1 → frame.slots + k < vm.stack.length)
    (hr2 : ∀ k, (true, k) ∈ captures2 → frame.slots + k < vm.stack.length)
    (h1 : opClosure vm frame closure1 captures1 = some (vm1, us1))
    (h2 : opClosure vm1 frame closure2 captures2 = some (vm2, us2))
    (hi : captures1[i]? = some (true, index)) (hj : captures2[j]? = some (true, index)) :
    (∃ vmA u, captureUpvalue vm (frame.slots + index) = some (vmA, u) ∧
      vmA.upvalueObjs[u]? = some (ObjUpvalue.opened (frame.slots + index)) ∧
      ∀ vmB, OpenSorted vmB.stack vmB.upvalueObjs vmB.openUpvalues → u ∈ vmB.openUpvalues →
        vmB.upvalueObjs[u]? = some (ObjUpvalue.opened (frame.slots + index)) →
        captureUpvalue vmB (frame.slots + index) = some (vmB, u)) ∧
    ∃ u : Nat, us1[i]? = some u ∧ us2[j]? = some u ∧
      vm2.upvalueObjs[u]? = some (ObjUpvalue.opened (frame.slots + index)) ∧
      ∀ (vm3 : VM) (value : Value) (varArgs slot postArgs : Nat),
        vm3.upvalueObjs[u]? = some (ObjUpvalue.opened (frame.slots + index)) →
        frame.slots + index < vm3.stack.length → vmPeek vm3 0 = some value →
        slot + postArgs * varArgs = index →
        ∃ vm4, opSetUpvalue vm3 us1 i = some vm4 ∧
          opGetUpvalue vm4 us2 j = vmPush vm4 value ∧
          opGetLocal vm4 frame.slots varArgs slot postArgs = vmPush vm4 value := by
  have hin : frame.slots + index < vm.stack.length :=
    hr1 index (List.mem_iff_getElem?.mpr ⟨i, hi⟩)
  constructor
  · obtain ⟨vmA, u, hcap, _, _, hus, _⟩ := captureUpvalue_spec vm (frame.slots + index) hs hin
    exact ⟨vmA, u, hcap, hus, fun vmB hsB hu husB => captureUpvalue_finds vmB _ u hsB hu husB⟩
  · obtain ⟨hsA, hlenA, _, _, hcapsA⟩ := opClosure_spec vm vm1 frame closure1 captures1 us1 hs hr1 h1
    obtain ⟨hsB, _, hkeepB, hobjsB, hcapsB⟩ := opClosure_spec vm1 vm2 frame closure2 captures2 us2
      hsA (fun k hk => by rw [hlenA]; exact hr2 k hk) h2
    obtain ⟨u1, hu1, hmem1, hobj1⟩ := hcapsA i index hi
    obtain ⟨u2, hu2, hmem2, hobj2⟩ := hcapsB j index hj
    have hu1len : u1 < vm1.upvalueObjs.length := by
      by_contra hcon
      rw [List.getElem?_eq_none (by omega)] at hobj1
      cases hobj1
    have hobj1B : vm2.upvalueObjs[u1]? = some (ObjUpvalue.opened (frame.slots + index)) :=
      (hobjsB u1 hu1len).trans hobj1
    have hsame : u1 = u2 := by
      have a := captureUpvalue_finds vm2 _ u1 hsB (hkeepB u1 hmem1) hobj1B
      have b := captureUpvalue_finds vm2 _ u2 hsB hmem2 hobj2
      rw [a] at b
      simp only [Option.some.injEq, Prod.mk.injEq, true_and] at b
      exact b
    subst hsame
    refine ⟨u1, hu1, hu2, hobj1B, ?_⟩
    intro vm3 value varArgs slot postArgs hopen hlen hpeek hslot
    refine ⟨{ vm3 with stack := vm3.stack.set (frame.slots + index) value }, ?_, ?_, ?_⟩
    · simp only [opSetUpvalue, hu1, hpeek, writeUpvalue, hopen, storeAt, if_pos hlen,
        Option.map_some']
    · have : readUpvalue { vm3 with stack := vm3.stack.set (frame.slots + index) value } u1
          = some value := by
        simp only [readUpvalue, hopen]
        rw [List.getElem?_set]
        simp [hlen]
      simp only [opGetUpvalue, hu2, this]
    · have : (vm3.stack.set (frame.slots + index) value)[frame.slots
          + (slot + postArgs * varArgs)]? = some value := by
        rw [hslot, List.getElem?_set]
        simp [hlen]
      simp only [opGetLocal, this]


theorem demoUpvalueVM_sorted :
    OpenSorted demoUpvalueVM.stack demoUpvalueVM.upvalueObjs demoUpvalueVM.openUpvalues := by
  refine ⟨?_, ?_⟩
  · intro u hu
    simp only [demoUpvalueVM, List.mem_cons, List.mem_singleton, List.not_mem_nil,
      or_false] at hu
    rcases hu with rfl | rfl
    · exact ⟨3, rfl, by decide⟩
    · exact ⟨1, rfl, by decide⟩
  · simp only [demoUpvalueVM, List.pairwise_cons, List.mem_singleton, List.not_mem_nil,
      forall_eq, List.Pairwise.nil, and_true, IsEmpty.forall_iff, implies_true]
    intro a b ha hb
    simp only [slotOf, List.getElem?_cons_zero, List.getElem?_cons_succ, Option.some.injEq]
      at ha hb
    omega

theorem c15_closeUpvalues_witness :
    OpenSorted demoUpvalueVM.stack demoUpvalueVM.upvalueObjs demoUpvalueVM.openUpvalues ∧
    ∃ vm1, closeUpvalues demoUpvalueVM 2 = some vm1 ∧
      vm1.openUpvalues = [1] ∧
      vm1.upvalueObjs = [ObjUpvalue.closed (Value.number 13), ObjUpvalue.opened 1] := by
  refine ⟨demoUpvalueVM_sorted, ?_⟩
  obtain ⟨vm1, h, _⟩ := c15_closeUpvalues demoUpvalueVM 2 demoUpvalueVM_sorted
  refine ⟨vm1, h, ?_⟩
  have h2 : closeUpvalues demoUpvalueVM 2
      = some { demoUpvalueVM with
          openUpvalues := [1],
          upvalueObjs := [ObjUpvalue.closed (Value.number 13), ObjUpvalue.opened 1] } := by
    decide
  rw [h2] at h
  injection h with h
  subst h
  exact ⟨rfl, rfl⟩

theorem c14_upvalue_sharing_witness :
    OpenSorted demoUpvalueVM.stack demoUpvalueVM.upvalueObjs demoUpvalueVM.openUpvalues ∧
    opClosure demoUpvalueVM demoFrame (Value.obj 1) [(true, 2)] = some (demoClosureVM1, [2]) ∧
    opClosure demoClosureVM1 demoFrame (Value.obj 2) [(true, 3), (true, 2)]
      = some (demoClosureVM2, [0, 2]) ∧
    ∃ u : Nat, ([2] : List Nat)[0]? = some u ∧ ([0, 2] : List Nat)[1]? = some u ∧
      demoClosureVM2.upvalueObjs[u]? = some (ObjUpvalue.opened (demoFrame.slots + 2)) ∧
      ∀ (vm3 : VM) (value : Value) (varArgs slot postArgs : Nat),
        vm3.upvalueObjs[u]? = some (ObjUpvalue.opened (demoFrame.slots + 2)) →
        demoFrame.slots + 2 < vm3.stack.length → vmPeek vm3 0 = some value →
        slot + postArgs * varArgs = 2 →
        ∃ vm4, opSetUpvalue vm3 [2] 0 = some vm4 ∧
          opGetUpvalue vm4 [0, 2] 1 = vmPush vm4 value ∧
          opGetLocal vm4 demoFrame.slots varArgs slot postArgs = vmPush vm4 value :=
  ⟨demoUpvalueVM_sorted, by decide, by decide,
    (c14_upvalue_sharing demoUpvalueVM demoClosureVM1 demoClosureVM2 demoFrame (Value.obj 1)
      (Value.obj 2) [(true, 2)] [(true, 3), (true, 2)] [2] [0, 2] 0 1 2 demoUpvalueVM_sorted
      (by intro k hk
          simp only [List.mem_singleton, Prod.mk.injEq, true_and] at hk
          subst hk; decide)
      (by intro k hk
          simp only [List.mem_cons, Prod.mk.injEq, true_and, List.mem_singleton,
            List.not_mem_nil, or_false] at hk
          rcases hk with rfl | rfl <;> decide)
      (by decide) (by decide) rfl rfl).2⟩


/-! ### Exception propagation -/

theorem firstDecisive_append (asClass : Value → Option ObjClass) (exceptionClass : ObjClass)
    (vm : VM) (l1 l2 : List Candidate) :
    firstDecisive asClass exceptionClass vm (l1 ++ l2)
      = match firstDecisive asClass exceptionClass vm l1 with
        | none => firstDecisive asClass exceptionClass vm l2
        | some r => some r := by
  induction l1 with
  | nil => rfl
  | cons c l1 ih =>
    show firstDecisive asClass exceptionClass vm (c :: (l1 ++ l2)) = _
    simp only [firstDecisive]
    cases h : inspectRecord asClass exceptionClass vm c.frame c.record with
    | skipped => exact ih
    | matched a => rfl
    | aborted m => rfl
    | fault => rfl

/-- The loop over the records of one table agrees with the first decisive record of the
table. -/
theorem scanRecords_spec (asClass : Value → Option ObjClass) (exceptionClass : ObjClass)
    (vm : VM) (index : Nat) (frame : Frame) (tryBlock : TryBlock) :
    ∀ (records : List HandlerRecord),
      match scanRecords asClass exceptionClass vm frame records with
      | RecordOutcome.skipped =>
        firstDecisive asClass exceptionClass vm
          (records.map (fun record => { index := index, frame := frame,
                                        tryBlock := tryBlock, record := record })) = none
      | outcome => ∃ record,
        firstDecisive asClass exceptionClass vm
          (records.map (fun record => { index := index, frame := frame,
                                        tryBlock := tryBlock, record := record }))
          = some ({ index := index, frame := frame, tryBlock := tryBlock, record := record },
                  outcome) := by
  intro records
  induction records with
  | nil => simp [scanRecords, firstDecisive]
  | cons r rest ih =>
    simp only [scanRecords, List.map_cons, firstDecisive]
    cases h : inspectRecord asClass exceptionClass vm frame r with
    | skipped => simpa using ih
    | matched a => exact ⟨r, rfl⟩
    | aborted m => exact ⟨r, rfl⟩
    | fault => exact ⟨r, rfl⟩

/-- The loop over the try blocks of a frame agrees with the first decisive record of the
frame. -/
theorem scanTryBlocks_spec (tables : Nat → Nat → List HandlerRecord)
    (asClass : Value → Option ObjClass) (exceptionClass : ObjClass) (vm : VM) (index : Nat)
    (frame : Frame) :
    ∀ (handlerStack : Nat), handlerStack ≤ frame.handlerStack.length →
      scanTryBlocks tables asClass exceptionClass vm index frame handlerStack
        = (firstDecisive asClass exceptionClass vm
            (tryBlockCandidates tables index frame handlerStack)).map
            (fun r => settle vm r.1 r.2) := by
  intro handlerStack
  induction handlerStack with
  | zero => intro _; rfl
  | succ n ih =>
    intro hle
    have hget : frame.handlerStack[n]? = some frame.handlerStack[n] :=
      List.getElem?_eq_getElem (by omega)
    simp only [scanTryBlocks, tryBlockCandidates, hget, firstDecisive_append]
    have hrec := scanRecords_spec asClass exceptionClass vm index frame frame.handlerStack[n]
      (tables frame.function frame.handlerStack[n].handlerTableOffset)
    cases h : scanRecords asClass exceptionClass vm frame
        (tables frame.function frame.handlerStack[n].handlerTableOffset) with
    | skipped =>
      rw [h] at hrec
      simp only at hrec
      rw [hrec]
      exact ih (by omega)
    | matched a =>
      rw [h] at hrec
      obtain ⟨record, hrec⟩ := hrec
      rw [hrec]
      simp only [Option.map_some', settle]
      cases catchAt vm index frame frame.handlerStack[n] a <;> rfl
    | aborted m =>
      rw [h] at hrec
      obtain ⟨record, hrec⟩ := hrec
      rw [hrec]
      rfl
    | fault =>
      rw [h] at hrec
      obtain ⟨record, hrec⟩ := hrec
      rw [hrec]
      rfl

/-- The loop over the frames agrees with the first decisive record of the frames. -/
theorem propagateLoop_spec (tables : Nat → Nat → List HandlerRecord)
    (asClass : Value → Option ObjClass) (exceptionClass : ObjClass) (vm : VM) (exitFrame : Nat)
    (hwf : ∀ (i : Nat) (frame : Frame), exitFrame ≤ i → vm.frames[i]? = some frame →
      frame.handlerCount ≤ frame.handlerStack.length) :
    ∀ (count : Nat), count ≤ vm.frames.length →
      propagateLoop tables asClass exceptionClass exitFrame vm count
        = match firstDecisive asClass exceptionClass vm
            (candidates tables vm exitFrame count) with
          | none => Propagated.unhandled { vm with frames := vm.frames.take (min exitFrame count) }
          | some (c, outcome) => settle vm c outcome := by
  intro count
  induction count with
  | zero => intro _; simp [propagateLoop, candidates, firstDecisive]
  | succ n ih =>
    intro hle
    by_cases hgt : n + 1 > exitFrame
    · have hget : vm.frames[n]? = some vm.frames[n] := List.getElem?_eq_getElem (by omega)
      simp only [propagateLoop, candidates, if_pos hgt, hget, firstDecisive_append]
      rw [scanTryBlocks_spec tables asClass exceptionClass vm n vm.frames[n] _
        (hwf n _ (by omega) hget)]
      cases h : firstDecisive asClass exceptionClass vm
          (tryBlockCandidates tables n vm.frames[n] vm.frames[n].handlerCount) with
      | some r => rfl
      | none =>
        simp only [Option.map_none']
        rw [ih (by omega)]
        have : min exitFrame n = min exitFrame (n + 1) := by omega
        rw [this]
    · simp only [propagateLoop, candidates, if_neg hgt, firstDecisive]
      have : min exitFrame (n + 1) = n + 1 := by omega
      rw [this]

theorem propagateException_eq_selectHandler (tables : Nat → Nat → List HandlerRecord)
    (asClass : Value → Option ObjClass) (exceptionClass : ObjClass) (vm : VM) (exitFrame : Nat)
    (hwf : ∀ (i : Nat) (frame : Frame), exitFrame ≤ i → vm.frames[i]? = some frame →
      frame.handlerCount ≤ frame.handlerStack.length) :
    propagateException tables asClass exceptionClass vm exitFrame
      = selectHandler tables asClass exceptionClass vm exitFrame := by
  unfold propagateException selectHandler
  rw [propagateLoop_spec tables asClass exceptionClass vm exitFrame hwf _ (le_refl _)]
  have : vm.frames.take (min exitFrame vm.frames.length) = vm.frames.take exitFrame := by
    rcases Nat.le_total exitFrame vm.frames.length with h | h
    · rw [Nat.min_eq_left h]
    · rw [Nat.min_eq_right h, List.take_of_length_le h, List.take_of_length_le (le_refl _)]
  rw [this]

/-- The statements of a catch, when they run: the frames above the catching frame are
gone and the catching frame has the handler address as `ip`; the exception is on top of
the stack, at the index `frame.slots + tryBlock.stackOffset`. -/
theorem catchAt_spec (vm vm1 : VM) (index : Nat) (frame : Frame) (tryBlock : TryBlock)
    (handlerAddress : Nat) (h : catchAt vm index frame tryBlock handlerAddress = some vm1) :
    ∃ exception, vmPeek vm 0 = some exception ∧
      vm1.frames = vm.frames.take index ++ [{ frame with ip := handlerAddress }] ∧
      vm1.stackTop = frame.slots + tryBlock.stackOffset + 1 ∧
      vm1.stack = vm.stack.set (frame.slots + tryBlock.stackOffset) exception ∧
      vmPeek vm1 0 = some exception ∧
      vm1.upvalueObjs = vm.upvalueObjs ∧ vm1.openUpvalues = vm.openUpvalues := by
  unfold catchAt at h
  cases hp : vmPeek vm 0 with
  | none => rw [hp] at h; cases h
  | some exception =>
    rw [hp] at h
    simp only at h
    obtain ⟨hlt, hvm1⟩ := vmPush_eq _ vm1 exception h
    subst hvm1
    refine ⟨exception, rfl, rfl, rfl, rfl, ?_, rfl, rfl⟩
    simp only [vmPeek]
    rw [if_pos (by omega)]
    simp only [Nat.add_sub_cancel, Nat.sub_zero]
    rw [List.getElem?_set]
    simp only at hlt
    simp [hlt]


theorem demoThrowVM_handlers (exitFrame : Nat) :
    ∀ (i : Nat) (frame : Frame), exitFrame ≤ i → demoThrowVM.frames[i]? = some frame →
      frame.handlerCount ≤ frame.handlerStack.length := by
  intro i frame _ h
  have hmem : frame ∈ demoThrowVM.frames := List.mem_iff_getElem?.mpr ⟨i, h⟩
  simp only [demoThrowVM, List.mem_cons, List.mem_singleton, List.not_mem_nil, or_false]
    at hmem
  rcases hmem with rfl | rfl <;> decide

/-- Claim C12, counterexample: a handler table with a handler for an undefined global
followed by a handler whose class the exception is an instance of. The first record
whose class satisfies `instanceOf` is the second one, but `propagateException` does not
catch there: the inspection of the first record ends the process with the message of
`runtimeError`. -/
theorem c12_undefined_global_before_the_matching_record :
    candidates demoTables demoAbortVM 0 demoAbortVM.frames.length
      = [{ index := 0, frame := { function := 0, ip := 3, slots := 0, upvalues := [],
                                  handlerStack := [{ handlerTableOffset := 8, stackOffset := 1 }],
                                  handlerCount := 1 },
           tryBlock := { handlerTableOffset := 8, stackOffset := 1 },
           record := { typeVarType := VarType.varGlobal, typeHandle := 1, handlerAddress := 7 } },
         { index := 0, frame := { function := 0, ip := 3, slots := 0, upvalues := [],
                                  handlerStack := [{ handlerTableOffset := 8, stackOffset := 1 }],
                                  handlerCount := 1 },
           tryBlock := { handlerTableOffset := 8, stackOffset := 1 },
           record := { typeVarType := VarType.varGlobal, typeHandle := 0, handlerAddress := 9 } }] ∧
    demoAbortVM.globalValues[1]? = some Value.undefined ∧
    demoAbortVM.globalValues[0]? = some (Value.obj 50) ∧
    (demoAsClass (Value.obj 50)).map (fun c => instanceOf c demoExceptionClass) = some true ∧
    propagateException demoTables demoAsClass demoExceptionClass demoAbortVM 0
      = Propagated.aborted "Undefined global variable" := by
  refine ⟨by decide, by decide, by decide, by decide, by decide⟩

/-- Claim C12, amended: when the handler counts of the frames are within their handler
stacks, `propagateException` is the handler search `selectHandler`: frames from the
innermost outward down to `exitFrame`, try blocks from the most recent, records in
order, stopping at the first decisive record. If every record inspected before a
matching record holds a class the exception is no instance of, the catch takes place at
that record: the frames above its frame are discarded, `stackTop` is
`frame.slots + tryBlock.stackOffset` with the exception pushed on top, and the `ip` of
the frame is the handler address of the record. A global record whose variable is
undefined or not a class is decisive too: it ends the process. -/
theorem c12_propagateException (tables : Nat → Nat → List HandlerRecord)
    (asClass : Value → Option ObjClass) (exceptionClass : ObjClass) (vm : VM) (exitFrame : Nat)
    (hwf : ∀ (i : Nat) (frame : Frame), exitFrame ≤ i → vm.frames[i]? = some frame →
      frame.handlerCount ≤ frame.handlerStack.length) :
    propagateException tables asClass exceptionClass vm exitFrame
      = selectHandler tables asClass exceptionClass vm exitFrame ∧
    (∀ (before after : List Candidate) (c : Candidate) (exception : Value),
      candidates tables vm exitFrame vm.frames.length = before ++ c :: after →
      (∀ b, b ∈ before →
        inspectRecord asClass exceptionClass vm b.frame b.record = RecordOutcome.skipped) →
      inspectRecord asClass exceptionClass vm c.frame c.record
        = RecordOutcome.matched c.record.handlerAddress →
      vmPeek vm 0 = some exception →
      c.frame.slots + c.tryBlock.stackOffset < vm.stack.length →
      ∃ vm1, propagateException tables asClass exceptionClass vm exitFrame
          = Propagated.caught vm1 ∧
        vm1.frames = vm.frames.take c.index ++ [{ c.frame with ip := c.record.handlerAddress }] ∧
        vm1.stackTop = c.frame.slots + c.tryBlock.stackOffset + 1 ∧
        vmPeek vm1 0 = some exception) ∧
    (∀ (frame : Frame) (record : HandlerRecord) (classVal : Value),
      readClassVal vm frame record = some classVal →
      (inspectRecord asClass exceptionClass vm frame record = RecordOutcome.skipped ↔
        ∃ handlerClass, asClass classVal = some handlerClass ∧
          instanceOf handlerClass exceptionClass = false ∧
          ¬ (record.typeVarType = VarType.varGlobal ∧ classVal = Value.undefined)) ∧
      (inspectRecord asClass exceptionClass vm frame record
          = RecordOutcome.matched record.handlerAddress ↔
        ∃ handlerClass, asClass classVal = some handlerClass ∧
          instanceOf handlerClass exceptionClass = true ∧
          ¬ (record.typeVarType = VarType.varGlobal ∧ classVal = Value.undefined))) := by
  have heq := propagateException_eq_selectHandler tables asClass exceptionClass vm exitFrame hwf
  refine ⟨heq, ?_, ?_⟩
  · intro before after c exception hcand hbefore hmatch hpeek hlen
    have hfirst : firstDecisive asClass exceptionClass vm
        (candidates tables vm exitFrame vm.frames.length)
        = some (c, RecordOutcome.matched c.record.handlerAddress) := by
      rw [hcand, firstDecisive_append]
      have hnone : firstDecisive asClass exceptionClass vm before = none := by
        clear hcand
        induction before with
        | nil => rfl
        | cons b rest ih =>
          simp only [firstDecisive, hbefore b (List.mem_cons_self _ _)]
          exact ih (fun x hx => hbefore x (List.mem_cons_of_mem _ hx))
      rw [hnone]
      simp only [firstDecisive, hmatch]
    have hcatch : ∃ vm1, catchAt vm c.index c.frame c.tryBlock c.record.handlerAddress
        = some vm1 := by
      simp only [catchAt, hpeek, vmPush, storeAt, if_pos hlen, Option.map_some']
      exact ⟨_, rfl⟩
    obtain ⟨vm1, hvm1⟩ := hcatch
    obtain ⟨e, he, hframes, htop, _, hpeek1, _⟩ := catchAt_spec vm vm1 _ _ _ _ hvm1
    rw [hpeek] at he
    injection he with he
    subst he
    refine ⟨vm1, ?_, hframes, htop, hpeek1⟩
    rw [heq]
    simp only [selectHandler, hfirst, settle, hvm1]
  · intro frame record classVal hread
    simp only [inspectRecord, hread]
    by_cases hg : record.typeVarType = VarType.varGlobal ∧ classVal = Value.undefined
    · simp [hg]
    · rw [if_neg hg]
      cases hc : asClass classVal with
      | none =>
        by_cases hg2 : record.typeVarType = VarType.varGlobal
        · simp [hg2, hg]
        · simp [hg2]
      | some handlerClass =>
        cases hi : instanceOf handlerClass exceptionClass <;> simp [hi, hg]

theorem c12_propagateException_witness :
    (∀ (i : Nat) (frame : Frame), 0 ≤ i → demoThrowVM.frames[i]? = some frame →
      frame.handlerCount ≤ frame.handlerStack.length) ∧
    propagateException demoTables demoAsClass demoExceptionClass demoThrowVM 0
      = selectHandler demoTables demoAsClass demoExceptionClass demoThrowVM 0 ∧
    selectHandler demoTables demoAsClass demoExceptionClass demoThrowVM 0
      = Propagated.caught demoCaughtVM :=
  ⟨demoThrowVM_handlers 0,
    (c12_propagateException demoTables demoAsClass demoExceptionClass demoThrowVM 0
      (demoThrowVM_handlers 0)).1, by decide⟩

/-! ### The open upvalues and the stack top -/

theorem closeUpvalues_below (vm vm1 : VM) (last : Nat)
    (hs : OpenSorted vm.stack vm.upvalueObjs vm.openUpvalues)
    (h : closeUpvalues vm last = some vm1) :
    vm1.stack = vm.stack ∧ vm1.stackTop = vm.stackTop ∧ vm1.frames = vm.frames ∧
    ∀ (u location : Nat), u ∈ vm1.openUpvalues →
      vm1.upvalueObjs[u]? = some (ObjUpvalue.opened location) → location < last := by
  obtain ⟨objs1, hrun, _, _, hsame⟩ := closeLoop_spec vm.stack last _ _ hs
  simp only [closeUpvalues, hrun, Option.some.injEq] at h
  subst h
  refine ⟨rfl, rfl, rfl, ?_⟩
  intro u location hu hobj
  simp only at hu hobj
  have hb := (List.mem_filter.mp hu).2
  rw [hsame u (Or.inr hb)] at hobj
  simpa [belowLast, slotOf, hobj] using hb

/-- The opcode `CLOSE_UPVALUE` on a well-formed open list leaves every open upvalue
below the stack top. -/
theorem opCloseUpvalue_openBelowTop (vm vm1 : VM)
    (hs : OpenSorted vm.stack vm.upvalueObjs vm.openUpvalues)
    (h : opCloseUpvalue vm = some vm1) : OpenBelowTop vm1 := by
  unfold opCloseUpvalue at h
  by_cases h0 : vm.stackTop = 0
  · rw [if_pos h0] at h; cases h
  · rw [if_neg h0] at h
    cases hc : closeUpvalues vm (vm.stackTop - 1) with
    | none => rw [hc] at h; cases h
    | some vm2 =>
      rw [hc] at h
      obtain ⟨_, htop, _, hbelow⟩ := closeUpvalues_below vm vm2 _ hs hc
      simp only [Option.some.injEq] at h
      subst h
      intro u location hu hobj
      have := hbelow u location hu hobj
      simp only [htop]
      exact this

/-- The opcode `RETURN` on a well-formed open list leaves every open upvalue below the
stack top. -/
theorem opReturn_openBelowTop (vm vm1 : VM)
    (hs : OpenSorted vm.stack vm.upvalueObjs vm.openUpvalues)
    (h : opReturn vm = some vm1) : OpenBelowTop vm1 := by
  unfold opReturn at h
  cases hf : vm.frames.getLast? with
  | none => rw [hf] at h; cases h
  | some frame =>
    cases hp : vmPeek vm 0 with
    | none => rw [hf, hp] at h; cases h
    | some result =>
      rw [hf, hp] at h
      simp only at h
      cases hc : closeUpvalues vm frame.slots with
      | none => rw [hc] at h; cases h
      | some vm2 =>
        rw [hc] at h
        simp only at h
        obtain ⟨_, _, _, hbelow⟩ := closeUpvalues_below vm vm2 _ hs hc
        obtain ⟨_, hvm1⟩ := vmPush_eq _ vm1 result h
        subst hvm1
        intro u location hu hobj
        have := hbelow u location hu hobj
        show location < frame.slots + 1
        omega

/-- Claim C13, failing input: an exception thrown in an inner frame that has an open
upvalue. Before the throw every open upvalue is below the stack top. After the catch in
the outer frame, and likewise after the unroll of `THROW` to the exit frame, the stack
top is lower and the upvalue is still open on its slot, which is not below the stack
top; `RETURN` from the same frame closes the upvalue. -/
theorem c13_unwinding_leaves_an_open_upvalue_above_the_stack_top :
    OpenBelowTop demoThrowVM ∧
    propagateException demoTables demoAsClass demoExceptionClass demoThrowVM 0
      = Propagated.caught demoCaughtVM ∧
    ¬ OpenBelowTop demoCaughtVM ∧
    propagateException demoTables demoAsClass demoExceptionClass demoThrowVM 1
      = Propagated.unhandled { demoThrowVM with frames := demoThrowVM.frames.take 1 } ∧
    unrollTo demoThrowVM 1 (Value.obj 60) = some demoUnrolledVM ∧
    ¬ OpenBelowTop demoUnrolledVM ∧
    (∃ vm1, opReturn demoThrowVM = some vm1 ∧ OpenBelowTop vm1 ∧ vm1.openUpvalues = []) := by
  refine ⟨?_, by decide, ?_, by decide, by decide, ?_, ?_⟩
  · intro u location hu hobj
    simp only [demoThrowVM, List.mem_singleton] at hu
    subst hu
    simp only [demoThrowVM, List.getElem?_cons_zero, Option.some.injEq,
      ObjUpvalue.opened.injEq] at hobj
    subst hobj
    decide
  · intro h
    have := h 0 5 (by decide) (by decide)
    revert this
    decide
  · intro h
    have := h 0 5 (by decide) (by decide)
    revert this
    decide
  · refine ⟨{ demoThrowVM with
        stack := [Value.obj 1, Value.number 11, Value.obj 2, Value.obj 60, Value.number 14,
                  Value.number 15, Value.obj 60, Value.nil],
        stackTop := 4, frames := demoThrowVM.frames.take 1,
        upvalueObjs := [ObjUpvalue.closed (Value.number 15)], openUpvalues := [] },
      by decide, ?_, rfl⟩
    intro u location hu
    cases hu


/-! ### Class tables, inheritance and member references -/

theorem tableGet_tableSet_self {α : Type} (t : Table α) (key : String) (value : α) :
    tableGet (tableSet t key value).1 key = some value := by
  induction t with
  | nil => simp [tableSet, tableGet]
  | cons e rest ih =>
    obtain ⟨k, v⟩ := e
    by_cases h : k = key
    · simp [tableSet, tableGet, h]
    · simp [tableSet, tableGet, h, ih]

theorem tableGet_tableSet_other {α : Type} (t : Table α) (key other : String) (value : α)
    (h : other ≠ key) : tableGet (tableSet t key value).1 other = tableGet t other := by
  induction t with
  | nil => simp [tableSet, tableGet, Ne.symm h]
  | cons e rest ih =>
    obtain ⟨k, v⟩ := e
    by_cases hk : k = key
    · subst hk
      simp [tableSet, tableGet, Ne.symm h]
    · by_cases ho : k = other
      · subst ho
        simp [tableSet, tableGet, h]
      · simp [tableSet, tableGet, hk, ho, ih]

theorem tableSet_isNew {α : Type} (t : Table α) (key : String) (value : α) :
    (tableSet t key value).2 = true ↔ tableGet t key = none := by
  induction t with
  | nil => simp [tableSet, tableGet]
  | cons e rest ih =>
    obtain ⟨k, v⟩ := e
    by_cases hk : k = key
    · simp [tableSet, tableGet, hk]
    · simp [tableSet, tableGet, hk, ih]

theorem tableGet_eq_none_of_not_mem {α : Type} (t : Table α) (key : String)
    (h : key ∉ t.map Prod.fst) : tableGet t key = none := by
  induction t with
  | nil => rfl
  | cons e rest ih =>
    obtain ⟨k, v⟩ := e
    simp only [List.map_cons, List.mem_cons, not_or] at h
    simp only [tableGet, if_neg (Ne.symm h.1)]
    exact ih h.2

theorem tableGet_mem_keys {α : Type} (t : Table α) (key : String) (value : α)
    (h : tableGet t key = some value) : key ∈ t.map Prod.fst := by
  by_contra hn
  rw [tableGet_eq_none_of_not_mem t key hn] at h
  cases h

theorem tableSet_keys_nodup {α : Type} (t : Table α) (key : String) (value : α)
    (h : (t.map Prod.fst).Nodup) : ((tableSet t key value).1.map Prod.fst).Nodup ∧
      ∀ k, k ∈ (tableSet t key value).1.map Prod.fst ↔ k = key ∨ k ∈ t.map Prod.fst := by
  induction t with
  | nil => simp [tableSet]
  | cons e rest ih =>
    obtain ⟨k0, v0⟩ := e
    simp only [List.map_cons, List.nodup_cons] at h
    obtain ⟨ih1, ih2⟩ := ih h.2
    by_cases hk : k0 = key
    · subst hk
      simp only [tableSet, if_true, List.map_cons, List.nodup_cons, List.mem_cons]
      exact ⟨h, fun k => by tauto⟩
    · simp only [tableSet, if_neg hk, List.map_cons, List.nodup_cons, List.mem_cons]
      refine ⟨⟨?_, ih1⟩, fun k => ?_⟩
      · rw [ih2]
        intro hc
        rcases hc with hc | hc
        · exact hk hc
        · exact h.1 hc
      · rw [ih2]
        tauto

theorem tableAddAll_get_not_mem {α : Type} (source : Table α) :
    ∀ (dest : Table α) (key : String), key ∉ source.map Prod.fst →
      tableGet (tableAddAll source dest) key = tableGet dest key := by
  induction source with
  | nil => intro dest key _; rfl
  | cons e rest ih =>
    obtain ⟨k0, v0⟩ := e
    intro dest key h
    simp only [List.map_cons, List.mem_cons, not_or] at h
    simp only [tableAddAll]
    rw [ih _ key h.2, tableGet_tableSet_other _ _ _ _ h.1]

/-- After `tableAddAll(from, to)` every key of `from` has in `to` the value it has in
`from`. -/
theorem tableAddAll_get {α : Type} (source : Table α) :
    ∀ (dest : Table α) (key : String) (value : α), (source.map Prod.fst).Nodup →
      tableGet source key = some value →
      tableGet (tableAddAll source dest) key = some value := by
  induction source with
  | nil => intro dest key value _ h; cases h
  | cons e rest ih =>
    obtain ⟨k0, v0⟩ := e
    intro dest key value hnd h
    simp only [List.map_cons, List.nodup_cons] at hnd
    simp only [tableAddAll]
    by_cases hk : k0 = key
    · subst hk
      simp only [tableGet, if_true, Option.some.injEq] at h
      subst h
      rw [tableAddAll_get_not_mem rest _ _ hnd.1, tableGet_tableSet_self]
    · simp only [tableGet, if_neg hk] at h
      exact ih _ key value hnd.2 h

theorem inheritFields_keeps :
    ∀ (super fields fields1 : Table Nat), inheritFields super fields = (fields1, none) →
      ∀ (key : String) (index : Nat), tableGet fields key = some index →
        tableGet fields1 key = some index := by
  intro super
  induction super with
  | nil =>
    intro fields fields1 h key index hk
    simp only [inheritFields, Prod.mk.injEq, and_true] at h
    subst h
    exact hk
  | cons e rest ih =>
    obtain ⟨k0, v0⟩ := e
    intro fields fields1 h key index hk
    simp only [inheritFields] at h
    by_cases hnew : (tableSet fields k0 v0).2 = true
    · rw [if_pos hnew] at h
      refine ih _ _ h key index ?_
      have hne : key ≠ k0 := by
        intro hc
        subst hc
        rw [(tableSet_isNew fields key v0).mp hnew] at hk
        cases hk
      rw [tableGet_tableSet_other _ _ _ _ hne]
      exact hk
    · rw [if_neg hnew] at h
      simp at h

/-- When the loop of `inherit` over the fields of the superclass ends without the
runtime error, every field of the superclass has its index in the table of the
subclass. -/
theorem inheritFields_ok :
    ∀ (super fields fields1 : Table Nat), inheritFields super fields = (fields1, none) →
      ∀ (key : String) (index : Nat), tableGet super key = some index →
        tableGet fields1 key = some index := by
  intro super
  induction super with
  | nil => intro fields fields1 _ key index hk; cases hk
  | cons e rest ih =>
    obtain ⟨k0, v0⟩ := e
    intro fields fields1 h key index hk
    simp only [inheritFields] at h
    by_cases hnew : (tableSet fields k0 v0).2 = true
    · rw [if_pos hnew] at h
      by_cases hk0 : k0 = key
      · subst hk0
        simp only [tableGet, if_true, Option.some.injEq] at hk
        subst hk
        exact inheritFields_keeps _ _ _ h k0 v0 (tableGet_tableSet_self _ _ _)
      · simp only [tableGet, if_neg hk0] at hk
        exact ih _ _ h key index hk
    · rw [if_neg hnew] at h
      simp at h

theorem classAt_of_classObjAt (heap : List HeapObj) (r : Nat) (c : ClassObj)
    (h : classObjAt heap r = some c) : classAt heap (Value.obj r) = some (r, c) := by
  unfold classObjAt at h
  unfold classAt
  cases hr : heap[r]? with
  | none => rw [hr] at h; cases h
  | some o =>
    rw [hr] at h
    cases o <;> simp_all

theorem classObjAt_lt (heap : List HeapObj) (r : Nat) (c : ClassObj)
    (h : classObjAt heap r = some c) : r < heap.length := by
  unfold classObjAt at h
  by_contra hcon
  rw [List.getElem?_eq_none (by omega)] at h
  cases h

theorem classObjAt_set_self (heap : List HeapObj) (r : Nat) (c : ClassObj)
    (h : r < heap.length) : classObjAt (heap.set r (HeapObj.clazz c)) r = some c := by
  unfold classObjAt
  rw [List.getElem?_set]
  simp [h]

theorem classObjAt_set_other (heap : List HeapObj) (r other : Nat) (o : HeapObj)
    (h : other ≠ r) : classObjAt (heap.set r o) other = classObjAt heap other := by
  unfold classObjAt
  rw [List.getElem?_set]
  simp [Ne.symm h]

/-- What `inherit` does when it raises nothing: only the subclass object changes; it
has the superclass as `super`, the methods of the superclass under their names and the
fields of the superclass under their indices. -/
theorem opInherit_spec (st st1 : ObjVM) (sup sub : Nat) (P S : ClassObj)
    (hp1 : peek st.stack 1 = some (Value.obj sup))
    (hp0 : peek st.stack 0 = some (Value.obj sub))
    (hP : classObjAt st.heap sup = some P) (hS : classObjAt st.heap sub = some S)
    (hne : sup ≠ sub) (hdist : (P.methods.map Prod.fst).Nodup)
    (hinh : opInherit st = OpResult.next st1) :
    ∃ S1, classObjAt st1.heap sub = some S1 ∧ classObjAt st1.heap sup = some P ∧
      (∀ other, other ≠ sub → st1.heap[other]? = st.heap[other]?) ∧
      st1.stack = pop st.stack ∧
      S1.super = some sup ∧ S1.classId = S.baseId * P.classId ∧ S1.name = S.name ∧
      (∀ m v, tableGet P.methods m = some v → tableGet S1.methods m = some v) ∧
      (∀ f i, tableGet P.fields f = some i → tableGet S1.fields f = some i) := by
  simp only [opInherit, hp1, hp0, classAt_of_classObjAt _ _ _ hP,
    classAt_of_classObjAt _ _ _ hS] at hinh
  cases hf : inheritFields P.fields S.fields with
  | mk fields err =>
    rw [hf] at hinh
    cases err with
    | some key => simp at hinh
    | none =>
      simp only [OpResult.next.injEq] at hinh
      subst hinh
      refine ⟨_, classObjAt_set_self _ _ _ (classObjAt_lt _ _ _ hS), ?_, ?_, rfl, rfl, rfl,
        rfl, ?_, ?_⟩
      · rw [classObjAt_set_other _ _ _ _ hne]; exact hP
      · intro other ho
        show (st.heap.set sub _)[other]? = _
        rw [List.getElem?_set]
        simp [Ne.symm ho]
      · intro m v hm
        exact tableAddAll_get _ _ _ _ hdist hm
      · intro f i hfi
        exact inheritFields_ok _ _ _ hf f i hfi

/-- What `defineMethod` does: only the function object of the method and the class
object on the stack change; the method table of the class changes at the name of the
method only, and not at all when the name is the name of the class. -/
theorem opMethod_spec (st : ObjVM) (name : String) (f cl : Nat) (clazz : ClassObj)
    (parent : Option Nat)
    (hp0 : peek st.stack 0 = some (Value.obj f)) (hp1 : peek st.stack 1 = some (Value.obj cl))
    (hf : st.heap[f]? = some (HeapObj.function parent))
    (hc : classObjAt st.heap cl = some clazz) :
    ∃ st1 clazz1, opMethod st name = OpResult.next st1 ∧
      classObjAt st1.heap cl = some clazz1 ∧
      st1.heap[f]? = some (HeapObj.function (some cl)) ∧
      (∀ other, other ≠ cl → other ≠ f → st1.heap[other]? = st.heap[other]?) ∧
      st1.stack = pop st.stack ∧
      clazz1.super = clazz.super ∧ clazz1.fields = clazz.fields ∧
      clazz1.name = clazz.name ∧ clazz1.memberRefs = clazz.memberRefs ∧
      (∀ k, k ≠ name → tableGet clazz1.methods k = tableGet clazz.methods k) ∧
      (name ≠ clazz.name → tableGet clazz1.methods name = some (Value.obj f) ∧
        clazz1.initializer = clazz.initializer) ∧
      (name = clazz.name → clazz1.methods = clazz.methods ∧
        clazz1.initializer = Value.obj f) := by
  have hfc : f ≠ cl := by
    intro h
    subst h
    unfold classObjAt at hc
    rw [hf] at hc
    cases hc
  have hcl : cl < st.heap.length := classObjAt_lt _ _ _ hc
  have hfl : f < st.heap.length := by
    by_contra hcon
    rw [List.getElem?_eq_none (by omega)] at hf
    cases hf
  simp only [opMethod, hp0, hp1, hf, classAt_of_classObjAt _ _ _ hc]
  refine ⟨{ stack := pop st.stack,
            heap := (st.heap.set f (HeapObj.function (some cl))).set cl
              (HeapObj.clazz
                (if name = clazz.name then { clazz with initializer := Value.obj f }
                 else { clazz with methods := (tableSet clazz.methods name (Value.obj f)).1 })) },
    if name = clazz.name then { clazz with initializer := Value.obj f }
    else { clazz with methods := (tableSet clazz.methods name (Value.obj f)).1 },
    rfl, ?_, ?_, ?_, rfl, ?_⟩
  · exact classObjAt_set_self _ _ _ (by simpa using hcl)
  · show ((st.heap.set f _).set cl _)[f]? = _
    rw [List.getElem?_set, if_neg (Ne.symm hfc), List.getElem?_set]
    simp [hfl]
  · intro other h1 h2
    show ((st.heap.set f _).set cl _)[other]? = _
    rw [List.getElem?_set, if_neg (Ne.symm h1), List.getElem?_set, if_neg (Ne.symm h2)]
  · by_cases hn : name = clazz.name
    · rw [if_pos hn]
      exact ⟨rfl, rfl, rfl, rfl, fun _ _ => rfl, fun h => absurd hn h, fun _ => ⟨rfl, rfl⟩⟩
    · rw [if_neg hn]
      exact ⟨rfl, rfl, rfl, rfl, fun k hk => tableGet_tableSet_other _ _ _ _ hk,
        fun _ => ⟨tableGet_tableSet_self _ _ _, rfl⟩, fun h => absurd h hn⟩


/-- Claim C19: after an `INHERIT` that raises nothing, for a subclass `S` and a
superclass `P` that are two objects, `S` has `P` as `super`, every method name of `P`
maps in `S.methods` to the method of `P` and every field of `P` has its index in
`S.fields`, and `P` is unchanged. A later `METHOD m` for `S` returns, leaves `P`
unchanged and changes the method table of `S` at `m` only (the entry becomes the new
method; when `m` is the name of `S` the method is the initializer and the table is
unchanged); after it a `super.m` record of `RESOLVE_MEMBERS` for `S` resolves to the
cell of `m` in the method table of `P`, which holds the method of `P`. -/
theorem c19_inherit_then_override (st st1 : ObjVM) (sup sub : Nat) (P S : ClassObj)
    (hp1 : peek st.stack 1 = some (Value.obj sup))
    (hp0 : peek st.stack 0 = some (Value.obj sub))
    (hP : classObjAt st.heap sup = some P) (hS : classObjAt st.heap sub = some S)
    (hne : sup ≠ sub) (hdist : (P.methods.map Prod.fst).Nodup)
    (hinh : opInherit st = OpResult.next st1) :
    ∃ S1, classObjAt st1.heap sub = some S1 ∧ classObjAt st1.heap sup = some P ∧
      S1.super = some sup ∧
      (∀ m v, tableGet P.methods m = some v → tableGet S1.methods m = some v) ∧
      (∀ f i, tableGet P.fields f = some i → tableGet S1.fields f = some i) ∧
      ∀ (st2 : ObjVM) (S2 : ClassObj) (m : String) (f : Nat) (parent : Option Nat),
        classObjAt st2.heap sup = some P → classObjAt st2.heap sub = some S2 →
        S2.super = some sup →
        peek st2.stack 0 = some (Value.obj f) → peek st2.stack 1 = some (Value.obj sub) →
        st2.heap[f]? = some (HeapObj.function parent) →
        ∃ st3 S3, opMethod st2 m = OpResult.next st3 ∧
          classObjAt st3.heap sup = some P ∧ classObjAt st3.heap sub = some S3 ∧
          (∀ k, k ≠ m → tableGet S3.methods k = tableGet S2.methods k) ∧
          (m ≠ S2.name → tableGet S3.methods m = some (Value.obj f)) ∧
          (m = S2.name → S3.methods = S2.methods ∧ S3.initializer = Value.obj f) ∧
          ∀ (v : Value) (propType slot : Nat) (fields : List Value),
            tableGet P.methods m = some v →
            resolveMember st3.heap sub S3
                { super := true, propType := propType, propName := m, slot := slot }
              = some (Except.ok (MemberRef.classMember sup m)) ∧
            readMemberRef st3.heap (MemberRef.classMember sup m) fields = some v := by
  obtain ⟨S1, h1, h2, _, _, h3, _, _, h4, h5⟩ :=
    opInherit_spec st st1 sup sub P S hp1 hp0 hP hS hne hdist hinh
  refine ⟨S1, h1, h2, h3, h4, h5, ?_⟩
  intro st2 S2 m f parent hP2 hS2 hsuper hq0 hq1 hf
  obtain ⟨st3, S3, hrun, hc3, _, hother, _, hsup3, _, _, _, hk, hnew, hinit⟩ :=
    opMethod_spec st2 m f sub S2 parent hq0 hq1 hf hS2
  have hsf : sup ≠ f := by
    intro h
    subst h
    unfold classObjAt at hP2
    rw [hf] at hP2
    cases hP2
  have hP3 : classObjAt st3.heap sup = some P := by
    unfold classObjAt
    rw [hother sup hne hsf]
    exact hP2
  refine ⟨st3, S3, hrun, hP3, hc3, hk, fun h => (hnew h).1, hinit, ?_⟩
  intro v propType slot fields hv
  constructor
  · simp only [resolveMember, if_true, hsup3, hsuper, hP3, hv]
  · simp only [readMemberRef, hP3, hv]

theorem c19_inherit_then_override_witness :
    opInherit demoInheritVM = OpResult.next demoInheritedVM ∧
    ∃ S1, classObjAt demoInheritedVM.heap 5 = some S1 ∧
      classObjAt demoInheritedVM.heap 4 = some demoClassK ∧ S1.super = some 4 ∧
      (∀ m v, tableGet demoClassK.methods m = some v → tableGet S1.methods m = some v) ∧
      (∀ f i, tableGet demoClassK.fields f = some i → tableGet S1.fields f = some i) := by
  have hrun : opInherit demoInheritVM = OpResult.next demoInheritedVM := by decide
  obtain ⟨S1, h1, h2, h3, h4, h5, _⟩ :=
    c19_inherit_then_override demoInheritVM demoInheritedVM 4 5 demoClassK
      (newClassObj "S" 3) (by decide) (by decide) (by decide) (by decide) (by decide)
      (by decide) hrun
  exact ⟨hrun, S1, h1, h2, h3, h4, h5⟩

/-- The function `defineField` raises nothing. -/
theorem opField_raises_nothing (st st1 : ObjVM) (name message : String) :
    opField st name ≠ OpResult.threw message st1 := by
  unfold opField
  cases peek st.stack 0 with
  | none => simp
  | some classVal =>
    cases h : classAt st.heap classVal with
    | none => simp [h]
    | some c => simp [h]

/-- Claim C16, failing input: `FOREACH_INIT` on an instance of `$MapIterator`, a subclass
of `Iterator` without a method `iterator`. The opcode raises "Attempt to iterate
non-iterable value" and binds nothing; on an instance of the class `Iterator` itself it
stores the two bound methods into the locals. -/
theorem c16_foreach_rejects_an_instance_of_an_iterator_subclass :
    instanceAt demoIteratorHeap (Value.obj 12)
      = some (12, 2, [Value.nil, Value.number 0, Value.number 0]) ∧
    ((classObjAt demoIteratorHeap demoBuiltins.iteratorClass).bind fun iteratorClass =>
      (classObjAt demoIteratorHeap 2).map fun mapIterator =>
        (mapIterator.name, instanceOf iteratorClass.toObjClass mapIterator.toObjClass,
          tableGet mapIterator.methods "iterator"))
      = some ("$MapIterator", true, none) ∧
    (∀ doCall : ObjVM → OpResult ObjVM,
      opForeachInit demoBuiltins doCall (demoIteratorVM (Value.obj 12)) 0 0 0 0 1 0
        = OpResult.threw "Attempt to iterate non-iterable value"
            (demoIteratorVM (Value.obj 12))) ∧
    (∀ doCall : ObjVM → OpResult ObjVM,
      opForeachInit demoBuiltins doCall (demoIteratorVM (Value.obj 13)) 0 0 0 0 1 0
        = OpResult.next
            { stack := [Value.obj 14, Value.obj 15, Value.obj 13],
              heap := demoIteratorHeap ++ [HeapObj.boundMethod (Value.obj 13) 7,
                                           HeapObj.boundMethod (Value.obj 13) 8] }) :=
  ⟨by decide, by decide, fun _ => rfl, fun _ => rfl⟩

/-- Claim C17, failing input: `SET_PROPERTY` on an instance of a class that declares the
fields `x` and `y`. For the declared field `y` the value is stored in the slot of `y`
and the runtime error "Undefined field 'y'" is raised, the operands staying on the
stack; for the undeclared field `z` nothing is raised, no slot changes and the two
operands are replaced by the value. -/
theorem c17_set_property_raises_for_a_declared_field :
    opSetProperty demoPropertyVM "y"
      = OpResult.threw "Undefined field 'y'"
          { stack := [Value.obj 1, Value.number 5],
            heap := [HeapObj.clazz { name := "Point", baseId := 2, classId := 2, super := none,
                                     fields := [("x", 0), ("y", 1)], methods := [],
                                     initializer := Value.nil, memberRefs := [] },
                     HeapObj.inst 0 [Value.number 1, Value.number 5]] } ∧
    opSetProperty demoPropertyVM "z"
      = OpResult.next { stack := [Value.number 5], heap := demoPropertyVM.heap } :=
  ⟨by decide, by decide⟩

/-- Claim C18, failing input: `class P { a }` and `class S : P { a }` in the order
`CLASS`, `INHERIT`, `FIELD`. No runtime error is raised: the field `a` of `S` silently
takes the index 1 in place of the inherited index 0. The error "Field 'a' shadows field
from superclass" is raised only when the field of the subclass is declared before
`INHERIT`. -/
theorem c18_field_after_inherit_redefines_silently :
    runClassOps { stack := [], heap := [] } demoShadowOps
      = OpResult.next
          { stack := [Value.obj 0, Value.obj 1],
            heap := [HeapObj.clazz { name := "P", baseId := 2, classId := 2, super := none,
                                     fields := [("a", 0)], methods := [],
                                     initializer := Value.nil, memberRefs := [] },
                     HeapObj.clazz { name := "S", baseId := 3, classId := 6, super := some 0,
                                     fields := [("a", 1)], methods := [],
                                     initializer := Value.nil, memberRefs := [] }] } ∧
    runClassOps { stack := [], heap := [] } demoShadowEarlyOps
      = OpResult.threw "Field 'a' shadows field from superclass"
          { stack := [Value.obj 0, Value.obj 1],
            heap := [HeapObj.clazz { name := "P", baseId := 2, classId := 2, super := none,
                                     fields := [("a", 0)], methods := [],
                                     initializer := Value.nil, memberRefs := [] },
                     HeapObj.clazz { name := "S", baseId := 3, classId := 6, super := none,
                                     fields := [("a", 0)], methods := [],
                                     initializer := Value.nil, memberRefs := [] }] } :=
  ⟨by decide, by decide⟩

/-- Claim C20, failing input: the class `K` with the methods `f` and `m`, where `m`
holds `this.f()` with the ref index 0, and the class `S : K` with the methods `g` and
`n`, where `n` holds `this.g()` with the ref index 0. In the inherited method `m`
(function 1, whose `parentClass` is `K`) on an instance of `S`, `GET_MEMBER_PROPERTY`
takes the ref that `RESOLVE_MEMBERS` stored for `K`, the cell of `f`; `MEMBER_INVOKE`,
`SUPER_INVOKE` and `GET_SUPER` take the ref 0 of `S`, the cell of `g`. -/
theorem c20_invoke_reads_the_member_refs_of_the_receiver_class :
    runClassOps demoFunctionsVM demoMemberOps
      = OpResult.next { stack := [Value.obj 4, Value.obj 5], heap := demoMemberHeap } ∧
    parentMemberRef demoMemberVM.heap 1 0 = some (MemberRef.classMember 4 "f") ∧
    receiverMemberRef demoMemberVM.heap (Value.obj 6) 0 = some (MemberRef.classMember 5 "g") ∧
    opGetMemberProperty demoMemberVM 1 0
      = some { stack := [Value.obj 0], heap := demoMemberVM.heap } ∧
    opMemberInvoke demoMemberVM 0 0 = some (Value.obj 2, true) ∧
    opSuperInvoke demoMemberVM 0 0 = some (Value.obj 2) ∧
    opGetSuper demoMemberVM 0
      = some { stack := [Value.obj 7],
               heap := demoMemberVM.heap ++ [HeapObj.boundMethod (Value.obj 6) 2] } :=
  ⟨by decide, by decide, by decide, by decide, by decide, by decide, by decide⟩


/-! ### The scanner -/

theorem storeAt_mid {α : Type} (A J R : List α) (c x : α) :
    storeAt (A ++ J ++ c :: R) A.length x = some ((A ++ [x]) ++ (J ++ [c]).tail ++ R) := by
  unfold storeAt
  rw [if_pos (by simp)]
  congr 1
  cases J with
  | nil => simp
  | cons j J1 => simp

theorem getElem?_mid {α : Type} (A J R : List α) (c : α) :
    (A ++ J ++ c :: R)[A.length + J.length]? = some c := by
  rw [List.getElem?_append_right (by simp)]
  simp

theorem advance_mid (s : Scanner) (A J R : List Char) (c : Char)
    (hsrc : s.source = A ++ J ++ c :: R) (hcur : s.current = A.length + J.length) :
    s.advance = some (c, { s with current := s.current + 1 }) := by
  simp only [Scanner.advance, hsrc, hcur, getElem?_mid]

theorem tail_length_snoc {α : Type} (J : List α) (c : α) : (J ++ [c]).tail.length = J.length := by
  simp

theorem acceptedEscape_cases (c : Char) (h : acceptedEscape c = true) :
    c = 'n' ∨ c = 'r' ∨ c = 't' ∨ c = '\\' ∨ c = '\'' ∨ c = '"' := by
  simpa [acceptedEscape, or_assoc] using h

/-- An ordinary character in the mode `SCAN` is written at `output`. -/
theorem stringLoop_plain (delimiter : Char) (fuel : Nat) (s : Scanner) (A J R : List Char)
    (c : Char) (hsrc : s.source = A ++ J ++ c :: R) (hcur : s.current = A.length + J.length)
    (hcd : c ≠ delimiter) (hcb : c ≠ '\\') (hcn : c ≠ NUL) :
    stringLoop delimiter (fuel + 1) SSMODE.SCAN A.length s
      = stringLoop delimiter fuel SSMODE.SCAN (A.length + 1)
          { s with source := (A ++ [c]) ++ (J ++ [c]).tail ++ R, current := s.current + 1 } := by
  rw [stringLoop, advance_mid s A J R c hsrc hcur]
  simp only [if_neg hcd, if_neg hcb, if_neg hcn, hsrc, storeAt_mid]

/-- A backslash in the mode `SCAN` changes the mode. -/
theorem stringLoop_backslash (delimiter : Char) (fuel : Nat) (s : Scanner) (A J R : List Char)
    (hsrc : s.source = A ++ J ++ '\\' :: R) (hcur : s.current = A.length + J.length)
    (hd : '\\' ≠ delimiter) (output : Nat) :
    stringLoop delimiter (fuel + 1) SSMODE.SCAN output s
      = stringLoop delimiter fuel SSMODE.ESCAPE output { s with current := s.current + 1 } := by
  rw [stringLoop, advance_mid s A J R '\\' hsrc hcur]
  simp only [if_neg hd, if_true]

/-- The closing delimiter in the mode `SCAN` is written at `output` and ends the loop. -/
theorem stringLoop_close (delimiter : Char) (fuel : Nat) (s : Scanner) (A J R : List Char)
    (hsrc : s.source = A ++ J ++ delimiter :: R) (hcur : s.current = A.length + J.length) :
    stringLoop delimiter (fuel + 1) SSMODE.SCAN A.length s
      = some (Sum.inr (A.length + 1),
          { s with source := (A ++ [delimiter]) ++ (J ++ [delimiter]).tail ++ R,
                   current := s.current + 1 }) := by
  rw [stringLoop, advance_mid s A J R delimiter hsrc hcur]
  simp only [if_true, hsrc, storeAt_mid, Option.map_some']

/-- An accepted escape in the mode `ESCAPE`: the character it denotes is written at
`output` and the loop goes on in the mode `SCAN`. -/
theorem stringLoop_escape (delimiter : Char) (fuel : Nat) (s : Scanner) (A J R : List Char)
    (c : Char) (hsrc : s.source = A ++ J ++ c :: R) (hcur : s.current = A.length + J.length)
    (h : acceptedEscape c = true) :
    stringLoop delimiter (fuel + 1) SSMODE.ESCAPE A.length s
      = stringLoop delimiter fuel SSMODE.SCAN (A.length + 1)
          { s with source := (A ++ [decodeEscape c]) ++ (J ++ [c]).tail ++ R,
                   current := s.current + 1 } := by
  rw [stringLoop, advance_mid s A J R c hsrc hcur]
  simp only [hsrc]
  rcases acceptedEscape_cases c h with rfl | rfl | rfl | rfl | rfl | rfl
  · rw [if_neg (by decide), if_pos rfl, storeAt_mid]
    rfl
  · rw [if_neg (by decide), if_neg (by decide), if_pos rfl, storeAt_mid]
    rfl
  · rw [if_neg (by decide), if_neg (by decide), if_neg (by decide), if_pos rfl, storeAt_mid]
    rfl
  · rw [if_pos (by decide), storeAt_mid]
    rfl
  · rw [if_pos (by decide), storeAt_mid]
    rfl
  · rw [if_pos (by decide), storeAt_mid]
    rfl

/-- Another escape in the mode `ESCAPE` gives the error token. -/
theorem stringLoop_bad_escape (delimiter : Char) (fuel : Nat) (s : Scanner) (A J R : List Char)
    (c : Char) (hsrc : s.source = A ++ J ++ c :: R) (hcur : s.current = A.length + J.length)
    (h : acceptedEscape c = false) (hn : c ≠ NUL) (output : Nat) :
    stringLoop delimiter (fuel + 1) SSMODE.ESCAPE output s
      = some (Sum.inl (errorToken { s with current := s.current + 1 } "Invalid escape sequence"),
          { s with current := s.current + 1 }) := by
  rw [stringLoop, advance_mid s A J R c hsrc hcur]
  simp only [acceptedEscape, Bool.or_eq_false_iff, beq_eq_false_iff_ne, ne_eq] at h
  obtain ⟨⟨⟨⟨⟨h1, h2⟩, h3⟩, h4⟩, h5⟩, h6⟩ := h
  simp only [h1, h2, h3, h4, h5, h6, hn, or_self, if_false]


/-- The loop of `string` over a body of ordinary characters and accepted escapes that is
followed by the closing delimiter: the decoded body and the delimiter are written from
`output` on, the rest of the buffer is unchanged, and the scanner stands after the
closing delimiter. -/
theorem stringLoop_items (delimiter : Char) (hd : '\\' ≠ delimiter) (rest : List Char) :
    ∀ (items : List StrItem) (A J : List Char) (fuel : Nat) (s : Scanner),
      (∀ i, i ∈ items → i.ok delimiter = true) →
      (encodeItems items).length + 1 ≤ fuel →
      s.source = A ++ J ++ (encodeItems items ++ delimiter :: rest) →
      s.current = A.length + J.length →
      ∃ J1 : List Char, J1.length + items.length = J.length + (encodeItems items).length ∧
        stringLoop delimiter fuel SSMODE.SCAN A.length s
          = some (Sum.inr (A.length + items.length + 1),
              { s with source := A ++ decodeItems items ++ [delimiter] ++ J1 ++ rest,
                       current := s.current + (encodeItems items).length + 1 }) := by
  intro items
  induction items with
  | nil =>
    intro A J fuel s _ hfuel hsrc hcur
    obtain ⟨f, rfl⟩ : ∃ f, fuel = f + 1 := ⟨fuel - 1, by omega⟩
    refine ⟨(J ++ [delimiter]).tail, by simp [encodeItems], ?_⟩
    simp only [encodeItems, List.nil_append] at hsrc
    rw [stringLoop_close delimiter f s A J rest hsrc hcur]
    simp [encodeItems, decodeItems]
  | cons i items ih =>
    intro A J fuel s hok hfuel hsrc hcur
    have hi := hok i (List.mem_cons_self _ _)
    have hrest : ∀ k, k ∈ items → k.ok delimiter = true :=
      fun k hk => hok k (List.mem_cons_of_mem _ hk)
    cases i with
    | plain c =>
      simp only [StrItem.ok, Bool.and_eq_true, bne_iff_ne, ne_eq] at hi
      obtain ⟨⟨hcd, hcb⟩, hcn⟩ := hi
      simp only [encodeItems, StrItem.encode, List.length_append, List.length_cons,
        List.length_nil] at hfuel
      obtain ⟨f, rfl⟩ : ∃ f, fuel = f + 1 := ⟨fuel - 1, by omega⟩
      have hsrc1 : s.source = A ++ J ++ c :: (encodeItems items ++ delimiter :: rest) := by
        rw [hsrc]; simp [encodeItems, StrItem.encode]
      rw [stringLoop_plain delimiter f s A J _ c hsrc1 hcur hcd hcb hcn]
      obtain ⟨J1, hJ1, hrun⟩ := ih (A ++ [c]) (J ++ [c]).tail f
        { s with source := (A ++ [c]) ++ (J ++ [c]).tail
                              ++ (encodeItems items ++ delimiter :: rest),
                 current := s.current + 1 }
        hrest (by omega) rfl (by simp [hcur]; omega)
      refine ⟨J1, ?_, ?_⟩
      · simp only [tail_length_snoc] at hJ1
        simp only [encodeItems, StrItem.encode, List.length_append, List.length_cons,
          List.length_nil]
        omega
      · have hlen : (A ++ [c]).length = A.length + 1 := by simp
        rw [hlen] at hrun
        rw [hrun]
        simp only [encodeItems, StrItem.encode, decodeItems, List.map_cons, StrItem.decode,
          List.length_cons, List.length_append, List.length_nil, List.append_assoc,
          List.singleton_append, List.cons_append, List.nil_append, Option.some.injEq,
          Prod.mk.injEq, Sum.inr.injEq, Scanner.mk.injEq, true_and, and_true]
        omega
    | escape c =>
      simp only [StrItem.ok] at hi
      simp only [encodeItems, StrItem.encode, List.length_append, List.length_cons,
        List.length_nil] at hfuel
      obtain ⟨f, rfl⟩ : ∃ f, fuel = f + 2 := ⟨fuel - 2, by omega⟩
      have hsrc1 : s.source
          = A ++ J ++ '\\' :: (c :: (encodeItems items ++ delimiter :: rest)) := by
        rw [hsrc]; simp [encodeItems, StrItem.encode]
      rw [stringLoop_backslash delimiter (f + 1) s A J _ hsrc1 hcur hd]
      have hsrc2 : ({ s with current := s.current + 1 } : Scanner).source
          = A ++ (J ++ ['\\']) ++ c :: (encodeItems items ++ delimiter :: rest) := by
        show s.source = _
        rw [hsrc1]; simp
      rw [stringLoop_escape delimiter f _ A (J ++ ['\\']) _ c hsrc2 (by simp [hcur]; omega) hi]
      obtain ⟨J1, hJ1, hrun⟩ := ih (A ++ [decodeEscape c]) ((J ++ ['\\']) ++ [c]).tail f
        { s with source := (A ++ [decodeEscape c]) ++ ((J ++ ['\\']) ++ [c]).tail
                              ++ (encodeItems items ++ delimiter :: rest),
                 current := s.current + 1 + 1 }
        hrest (by omega) rfl (by simp [hcur]; omega)
      refine ⟨J1, ?_, ?_⟩
      · simp only [tail_length_snoc, List.length_append, List.length_singleton] at hJ1
        simp only [encodeItems, StrItem.encode, List.length_append, List.length_cons,
          List.length_nil]
        omega
      · have hlen : (A ++ [decodeEscape c]).length = A.length + 1 := by simp
        rw [hlen] at hrun
        rw [hrun]
        simp only [encodeItems, StrItem.encode, decodeItems, List.map_cons, StrItem.decode,
          List.length_cons, List.length_append, List.length_nil, List.append_assoc,
          List.singleton_append, List.cons_append, List.nil_append, Option.some.injEq,
          Prod.mk.injEq, Sum.inr.injEq, Scanner.mk.injEq, true_and, and_true]
        omega

/-- The loop of `string` over a body of ordinary characters and accepted escapes that is
followed by another escape: the error token "Invalid escape sequence". -/
theorem stringLoop_items_bad (delimiter : Char) (hd : '\\' ≠ delimiter) (rest : List Char)
    (bad : Char) (hbad : acceptedEscape bad = false) (hnul : bad ≠ NUL) :
    ∀ (items : List StrItem) (A J : List Char) (fuel : Nat) (s : Scanner),
      (∀ i, i ∈ items → i.ok delimiter = true) →
      (encodeItems items).length + 2 ≤ fuel →
      s.source = A ++ J ++ (encodeItems items ++ '\\' :: bad :: rest) →
      s.current = A.length + J.length →
      ∃ s1 : Scanner, s1.line = s.line ∧
        stringLoop delimiter fuel SSMODE.SCAN A.length s
          = some (Sum.inl (errorToken s1 "Invalid escape sequence"), s1) := by
  intro items
  induction items with
  | nil =>
    intro A J fuel s _ hfuel hsrc hcur
    simp only [encodeItems, List.length_nil] at hfuel
    obtain ⟨f, rfl⟩ : ∃ f, fuel = f + 2 := ⟨fuel - 2, by omega⟩
    simp only [encodeItems, List.nil_append] at hsrc
    rw [stringLoop_backslash delimiter (f + 1) s A J _ hsrc hcur hd]
    have hsrc2 : ({ s with current := s.current + 1 } : Scanner).source
        = A ++ (J ++ ['\\']) ++ bad :: rest := by
      show s.source = _
      rw [hsrc]; simp
    rw [stringLoop_bad_escape delimiter f _ A (J ++ ['\\']) rest bad hsrc2
      (by simp [hcur]; omega) hbad hnul]
    exact ⟨{ s with current := s.current + 1 + 1 }, rfl, rfl⟩
  | cons i items ih =>
    intro A J fuel s hok hfuel hsrc hcur
    have hi := hok i (List.mem_cons_self _ _)
    have hrest : ∀ k, k ∈ items → k.ok delimiter = true :=
      fun k hk => hok k (List.mem_cons_of_mem _ hk)
    cases i with
    | plain c =>
      simp only [StrItem.ok, Bool.and_eq_true, bne_iff_ne, ne_eq] at hi
      obtain ⟨⟨hcd, hcb⟩, hcn⟩ := hi
      simp only [encodeItems, StrItem.encode, List.length_append, List.length_cons,
        List.length_nil] at hfuel
      obtain ⟨f, rfl⟩ : ∃ f, fuel = f + 1 := ⟨fuel - 1, by omega⟩
      have hsrc1 : s.source = A ++ J ++ c :: (encodeItems items ++ '\\' :: bad :: rest) := by
        rw [hsrc]; simp [encodeItems, StrItem.encode]
      rw [stringLoop_plain delimiter f s A J _ c hsrc1 hcur hcd hcb hcn]
      have hlen : (A ++ [c]).length = A.length + 1 := by simp
      have := ih (A ++ [c]) (J ++ [c]).tail f
        { s with source := (A ++ [c]) ++ (J ++ [c]).tail
                              ++ (encodeItems items ++ '\\' :: bad :: rest),
                 current := s.current + 1 }
        hrest (by omega) rfl (by simp [hcur]; omega)
      rw [hlen] at this
      exact this
    | escape c =>
      simp only [StrItem.ok] at hi
      simp only [encodeItems, StrItem.encode, List.length_append, List.length_cons,
        List.length_nil] at hfuel
      obtain ⟨f, rfl⟩ : ∃ f, fuel = f + 2 := ⟨fuel - 2, by omega⟩
      have hsrc1 : s.source
          = A ++ J ++ '\\' :: (c :: (encodeItems items ++ '\\' :: bad :: rest)) := by
        rw [hsrc]; simp [encodeItems, StrItem.encode]
      rw [stringLoop_backslash delimiter (f + 1) s A J _ hsrc1 hcur hd]
      have hsrc2 : ({ s with current := s.current + 1 } : Scanner).source
          = A ++ (J ++ ['\\']) ++ c :: (encodeItems items ++ '\\' :: bad :: rest) := by
        show s.source = _
        rw [hsrc1]; simp
      rw [stringLoop_escape delimiter f _ A (J ++ ['\\']) _ c hsrc2 (by simp [hcur]; omega) hi]
      have hlen : (A ++ [decodeEscape c]).length = A.length + 1 := by simp
      have := ih (A ++ [decodeEscape c]) ((J ++ ['\\']) ++ [c]).tail f
        { s with source := (A ++ [decodeEscape c]) ++ ((J ++ ['\\']) ++ [c]).tail
                              ++ (encodeItems items ++ '\\' :: bad :: rest),
                 current := s.current + 1 + 1 }
        hrest (by omega) rfl (by simp [hcur]; omega)
      rw [hlen] at this
      exact this


theorem punctuation_quote (s : Scanner) : punctuation s '"' = scanString s '"' := rfl

theorem punctuation_apostrophe (s : Scanner) : punctuation s '\'' = scanString s '\'' := rfl

/-- The function `scanToken` on a scanner that stands at a string delimiter: the call
of `string`. -/
theorem scanToken_at_delimiter (s : Scanner) (delimiter : Char)
    (hd : delimiter = '"' ∨ delimiter = '\'')
    (hpeek : s.source[s.current]? = some delimiter) :
    scanToken s
      = scanString { s with start := s.current, current := s.current + 1 } delimiter := by
  have hskip : skipWhitespace s = some (true, s) := by
    unfold skipWhitespace
    rw [skipWhitespaceLoop]
    simp only [Scanner.peek, hpeek]
    rcases hd with rfl | rfl
    · rw [if_neg (by decide), if_neg (by decide), if_neg (by decide)]
    · rw [if_neg (by decide), if_neg (by decide), if_neg (by decide)]
  have hnul : (delimiter == NUL) = false := by
    rcases hd with rfl | rfl <;> decide
  have halpha : isAlpha delimiter = false := by
    rcases hd with rfl | rfl <;> decide
  have hdigit : isDigit delimiter = false := by
    rcases hd with rfl | rfl <;> decide
  simp only [scanToken, hskip, Scanner.isAtEnd, Scanner.peek, hpeek, Option.map_some', hnul,
    Scanner.advance, halpha, hdigit, Bool.false_eq_true, if_false]
  rcases hd with rfl | rfl
  · exact punctuation_quote _
  · exact punctuation_apostrophe _

/-- Claim C24: for a literal delimited by `'` or `"` whose body is made of ordinary
characters and the escapes `\n \r \t \\ \' \"`, `scanToken` returns a `TOKEN_STRING`
whose text, at `start` with `length` characters of the buffer after the call, is the
opening delimiter, the body with each escape replaced by the character it denotes, and
the closing delimiter; the scanner stands right after the closing delimiter of the
source, and the buffer before and after the literal is unchanged. A body followed by any
other escape gives the error token "Invalid escape sequence". -/
theorem c24_string_literals (delimiter : Char) (pre rest : List Char) (items : List StrItem)
    (start line : Nat) (hd : delimiter = '"' ∨ delimiter = '\'')
    (hok : ∀ i, i ∈ items → i.ok delimiter = true) :
    (∃ src1 : List Char,
      scanToken { source := pre ++ delimiter :: (encodeItems items ++ delimiter :: rest),
                  start := start, current := pre.length, line := line }
        = some ({ type := TokenType.TOKEN_STRING, start := TokenStart.source pre.length,
                  length := items.length + 2, line := line },
                { source := src1, start := pre.length,
                  current := pre.length + 1 + (encodeItems items).length + 1, line := line }) ∧
      (src1.drop pre.length).take (items.length + 2)
        = delimiter :: (decodeItems items ++ [delimiter]) ∧
      src1.take pre.length = pre ∧
      src1.drop (pre.length + 1 + (encodeItems items).length + 1) = rest) ∧
    (∀ bad : Char, acceptedEscape bad = false → bad ≠ NUL →
      ∃ s1 : Scanner,
        scanToken { source := pre ++ delimiter :: (encodeItems items ++ '\\' :: bad :: rest),
                    start := start, current := pre.length, line := line }
          = some ({ type := TokenType.TOKEN_ERROR,
                    start := TokenStart.message "Invalid escape sequence", length := 23,
                    line := line }, s1)) := by
  have hbs : '\\' ≠ delimiter := by
    rcases hd with rfl | rfl <;> decide
  constructor
  · rw [scanToken_at_delimiter _ delimiter hd
      (by show (pre ++ delimiter :: _)[pre.length]? = some delimiter
          rw [List.getElem?_append_right (le_refl _)]; simp)]
    obtain ⟨J1, hJ1, hrun⟩ := stringLoop_items delimiter hbs rest items (pre ++ [delimiter]) []
      ((pre ++ delimiter :: (encodeItems items ++ delimiter :: rest)).length + 1)
      { source := pre ++ delimiter :: (encodeItems items ++ delimiter :: rest),
        start := pre.length, current := pre.length + 1, line := line }
      hok (by simp; omega) (by simp) (by simp)
    have hdec : (decodeItems items).length = items.length := by simp [decodeItems]
    simp only [List.length_nil, Nat.zero_add] at hJ1
    refine ⟨(pre ++ [delimiter]) ++ decodeItems items ++ [delimiter] ++ J1 ++ rest, ?_, ?_, ?_, ?_⟩
    · simp only [scanString]
      have hlen : (pre ++ [delimiter]).length = pre.length + 1 := by simp
      rw [hlen] at hrun
      rw [hrun]
      simp only [makeTrimmedToken, Option.some.injEq, Prod.mk.injEq, Token.mk.injEq,
        Scanner.mk.injEq, true_and, and_true]
      omega
    · simp only [List.append_assoc, List.singleton_append, List.cons_append, List.nil_append]
      rw [List.drop_left]
      rw [show delimiter :: (decodeItems items ++ delimiter :: (J1 ++ rest))
            = (delimiter :: (decodeItems items ++ [delimiter])) ++ (J1 ++ rest) by simp]
      rw [List.take_left']
      simp [hdec]
    · simp only [List.append_assoc]
      rw [List.take_left]
    · have : (pre ++ [delimiter]) ++ decodeItems items ++ [delimiter] ++ J1 ++ rest
          = ((pre ++ [delimiter]) ++ decodeItems items ++ [delimiter] ++ J1) ++ rest := by
        simp
      rw [this, List.drop_left']
      simp [hdec]
      omega
  · intro bad hbad hnul
    rw [scanToken_at_delimiter _ delimiter hd
      (by show (pre ++ delimiter :: _)[pre.length]? = some delimiter
          rw [List.getElem?_append_right (le_refl _)]; simp)]
    obtain ⟨s1, hline, hrun⟩ := stringLoop_items_bad delimiter hbs rest bad hbad hnul items
      (pre ++ [delimiter]) []
      ((pre ++ delimiter :: (encodeItems items ++ '\\' :: bad :: rest)).length + 1)
      { source := pre ++ delimiter :: (encodeItems items ++ '\\' :: bad :: rest),
        start := pre.length, current := pre.length + 1, line := line }
      hok (by simp; omega) (by simp) (by simp)
    have hlen : (pre ++ [delimiter]).length = pre.length + 1 := by simp
    rw [hlen] at hrun
    refine ⟨s1, ?_⟩
    simp only [scanString]
    rw [hrun]
    simp only [errorToken, hline, Option.some.injEq, Prod.mk.injEq, Token.mk.injEq, true_and,
      and_true]
    decide


theorem c24_string_literals_witness :
    (∃ src1 : List Char,
      scanToken { source := [] ++ '"' :: (encodeItems demoStringItems ++ '"' :: [' ', 'x', NUL]),
                  start := 0, current := ([] : List Char).length, line := 1 }
        = some ({ type := TokenType.TOKEN_STRING,
                  start := TokenStart.source ([] : List Char).length,
                  length := demoStringItems.length + 2, line := 1 },
                { source := src1, start := ([] : List Char).length,
                  current := ([] : List Char).length + 1
                    + (encodeItems demoStringItems).length + 1, line := 1 }) ∧
      (src1.drop ([] : List Char).length).take (demoStringItems.length + 2)
        = '"' :: (decodeItems demoStringItems ++ ['"']) ∧
      src1.take ([] : List Char).length = [] ∧
      src1.drop (([] : List Char).length + 1 + (encodeItems demoStringItems).length + 1)
        = [' ', 'x', NUL]) ∧
    decodeItems demoStringItems = ['a', '\n', 'b'] :=
  ⟨(c24_string_literals '"' [] [' ', 'x', NUL] demoStringItems 0 1 (Or.inl rfl)
      (by decide)).1, by decide⟩

/-- Claim C22, counterexample: the words `foreach`, `function` and `import` are scanned
as `TOKEN_IDENTIFIER`. -/
theorem c22_import_is_scanned_as_an_identifier :
    firstTokenType "import" = some TokenType.TOKEN_IDENTIFIER ∧
    firstTokenType "foreach" = some TokenType.TOKEN_IDENTIFIER ∧
    firstTokenType "function" = some TokenType.TOKEN_IDENTIFIER :=
  ⟨by decide, by decide, by decide⟩

/-- Claim C22, amended: for each of the words `and`, `or`, `if`, `else`, `while`, `for`,
`break`, `continue`, `fun`, `return`, `class`, `this`, `super`, `true`, `false`, `nil`,
`var`, `print`, `try`, `catch` and `throw`, scanning a source that consists of the word
yields one token that spans the word and has the keyword type of the word. -/
theorem c22_keywords :
    keywordTable.map (fun p =>
        (scanToken (initScanner (sourceOf p.1))).map
          (fun r => (r.1.type, r.1.start, r.1.length, r.2.current)))
      = keywordTable.map (fun p =>
          some (p.2, TokenStart.source 0, p.1.length, p.1.length)) ∧
    keywordTable.all (fun p => p.2 != TokenType.TOKEN_IDENTIFIER) = true := by
  constructor <;> decide

/-- Claim C23, failing input: the comment `/*x**/` followed by `y`. The `*` that follows
a `*` puts the state machine back into `WSS_SCAN`, so the `/` does not close the
comment and `scanToken` returns the error token "Unterminated comment". In `/*/*/y`
the `*` that opens the comment counts as the start of the closing `*/`: the comment ends
after `/*/` and the first token is the `*` of the text. The comment `/*x*/` is
skipped. -/
theorem c23_block_comment_state_machine :
    scanToken (initScanner (sourceOf "/*x**/y"))
      = some ({ type := TokenType.TOKEN_ERROR,
                start := TokenStart.message "Unterminated comment", length := 20, line := 1 },
              { source := sourceOf "/*x**/y", start := 0, current := 7, line := 1 }) ∧
    (scanToken (initScanner (sourceOf "/*/*/y"))).map (fun r => (r.1.type, r.1.start))
      = some (TokenType.TOKEN_STAR, TokenStart.source 3) ∧
    (scanToken (initScanner (sourceOf "/*x*/y"))).map (fun r => (r.1.type, r.1.start))
      = some (TokenType.TOKEN_IDENTIFIER, TokenStart.source 5) :=
  ⟨by decide, by decide, by decide⟩

/-- Claim C25, failing input: the source of an unterminated string, the characters `"`
and `a` and the terminating NUL at the index 2. `string` reads the NUL with `advance`
before it tests it: `scanToken` returns the error token "Unterminated string" with the
cursor at the index 3, beyond the NUL, and the next call of `scanToken` reads outside
the buffer. -/
theorem c25_unterminated_string_moves_the_cursor_beyond_the_nul :
    ['"', 'a', NUL][2]? = some NUL ∧
    scanToken (initScanner ['"', 'a', NUL])
      = some ({ type := TokenType.TOKEN_ERROR,
                start := TokenStart.message "Unterminated string", length := 19, line := 1 },
              { source := ['"', 'a', NUL], start := 0, current := 3, line := 1 }) ∧
    Scanner.peek { source := ['"', 'a', NUL], start := 0, current := 3, line := 1 } = none ∧
    scanToken { source := ['"', 'a', NUL], start := 0, current := 3, line := 1 } = none :=
  ⟨by decide, by decide, by decide, by decide⟩


/-! ### `ADD` on a string and a number -/

/-- Claim C21, counterexample: `ADD` with a string as left operand and the number 0 as
right operand raises the runtime error "Operands must be two numbers or two strings". -/
theorem c21_add_of_a_string_and_a_number_raises :
    demoStringArith.isString (Value.obj 1) = true ∧
    opAdd demoStringArith [Value.obj 1, Value.number 0]
      = NativeResult.raised "Operands must be two numbers or two strings" :=
  ⟨by decide, by decide⟩

/-- Claim C21, amended: `ADD` applied to a string left operand and a number right operand
raises the runtime error "Operands must be two numbers or two strings"; it concatenates
only when both operands are strings. -/
theorem c21_add_string_and_number (ar : ArithOps) (s : List Value) (a b : Value)
    (ha : ar.isString a = true) (hna : isNumber a = false) (hb : isNumber b = true)
    (hsb : ar.isString b = false) :
    opAdd ar (s ++ [a, b])
      = NativeResult.raised "Operands must be two numbers or two strings" ∧
    ∀ c, ar.isString c = true →
      opAdd ar (s ++ [a, c]) = NativeResult.returned (push s (ar.concat a c)) := by
  constructor
  · unfold opAdd
    rw [(peek_two s _ _).1, (peek_two s _ _).2]
    simp [ha, hna, hb, hsb]
  · intro c hc
    unfold opAdd
    rw [(peek_two s _ _).1, (peek_two s _ _).2]
    simp [ha, hc, popn_two]

theorem c21_add_string_and_number_witness :
    opAdd demoStringArith ([] ++ [Value.obj 1, Value.number 0])
      = NativeResult.raised "Operands must be two numbers or two strings" ∧
    ∀ c, demoStringArith.isString c = true →
      opAdd demoStringArith ([] ++ [Value.obj 1, c])
        = NativeResult.returned (push [] (demoStringArith.concat (Value.obj 1) c)) :=
  c21_add_string_and_number demoStringArith [] (Value.obj 1) (Value.number 0) (by decide)
    (by decide) (by decide) (by decide)

/-! ### The width of `classId` -/

/-- Claim C30, counterexample: a chain of sixteen classes with the first sixteen primes
as `baseId`s and a `classId` of 64 bits. The product of the primes is not below `2 ^ 64`;
no declaration fails, the `classId` of the last class is the product modulo `2 ^ 64`,
and `instanceOf` denies that the last class is an instance of the second class, which is
on its chain of superclasses. -/
theorem c30_classId_wraps_at_depth_sixteen :
    demoPrimes.prod = 32589158477190044730 ∧ 2 ^ 64 ≤ demoPrimes.prod ∧
    ((declareChain 64 demoPrimes []).bind (fun classes => classes[15]?)).map
        (fun c => c.classId) = some 14142414403480493114 ∧
    ((declareChain 64 demoPrimes []).bind (fun classes =>
        (classes[1]?).bind (fun c1 => (classes[15]?).map (fun c15 =>
          (onChain classes 16 1 15, instanceOf c1 c15))))) = some (true, false) := by
  refine ⟨by decide, by decide, by decide, by decide⟩

/-- Claim C30, amended: `INHERIT` on two classes raises no error for the size of the
ids: it sets `subclass.classId` to the product `baseId * superclass.classId` taken in
the integer type of `classId`, that is modulo `2 ^ bits`; this is the exact product when
the product is below `2 ^ bits`, and then the result is that of the exact model. -/
theorem c30_inherit_classId (bits : Nat) (classes : List ObjClass) (sub sup : Nat)
    (subclass superclass : ObjClass) (hsup : classes[sup]? = some superclass)
    (hsub : classes[sub]? = some subclass) :
    inheritBounded bits classes sub sup
      = some (classes.set sub
          { baseId := subclass.baseId,
            classId := (subclass.baseId * superclass.classId) % 2 ^ bits,
            super := some sup }) ∧
    (subclass.baseId * superclass.classId < 2 ^ bits →
      inheritBounded bits classes sub sup = inherit classes sub sup) := by
  constructor
  · simp only [inheritBounded, hsup, hsub]
  · intro h
    simp only [inheritBounded, inherit, hsup, hsub, Nat.mod_eq_of_lt h]

theorem c30_inherit_classId_witness :
    inheritBounded 64 demoClasses 2 1
      = some (demoClasses.set 2 { baseId := 5, classId := (5 * 6) % 2 ^ 64, super := some 1 }) ∧
    inheritBounded 64 demoClasses 2 1 = inherit demoClasses 2 1 :=
  ⟨(c30_inherit_classId 64 demoClasses 2 1 { baseId := 5, classId := 5, super := none }
      { baseId := 3, classId := 6, super := some 0 } (by decide) (by decide)).1,
    (c30_inherit_classId 64 demoClasses 2 1 { baseId := 5, classId := 5, super := none }
      { baseId := 3, classId := 6, super := some 0 } (by decide) (by decide)).2 (by decide)⟩

/-! ### Modules -/

theorem importModule_self_import :
    ∀ (depth : Nat) (events : List ModuleEvent),
      importModule demoFiles depth { modules := [], events := events } "a" = none := by
  intro depth
  induction depth with
  | zero => intro events; rfl
  | succ n ih =>
    intro events
    have hfile : demoFiles "a" = some { compiles := true, imports := ["a"] } := by decide
    simp only [importModule, List.not_mem_nil, if_false, hfile, if_true, runBody]
    rw [ih]

/-- Claim C27, failing input: the module `m`, whose body imports nothing, imported twice
into a VM with an empty module table, and the module `a`, whose body imports `a`. The
first `import("m")` loads, compiles and runs the module and leaves the module table
empty; the second `import("m")` loads, compiles and runs it again. `import("a")` does
not return at any depth of nesting: each body runs the next import of `a`. A module
that is in the table is not loaded. -/
theorem c27_import_never_registers_the_module :
    importModule demoFiles 3 { modules := [], events := [] } "m"
      = some (true, { modules := [],
                      events := [ModuleEvent.loaded "m", ModuleEvent.compiled "m",
                                 ModuleEvent.ran "m"] }) ∧
    importModule demoFiles 3
        { modules := [],
          events := [ModuleEvent.loaded "m", ModuleEvent.compiled "m", ModuleEvent.ran "m"] }
        "m"
      = some (true, { modules := [],
                      events := [ModuleEvent.loaded "m", ModuleEvent.compiled "m",
                                 ModuleEvent.ran "m", ModuleEvent.loaded "m",
                                 ModuleEvent.compiled "m", ModuleEvent.ran "m"] }) ∧
    (∀ (depth : Nat) (events : List ModuleEvent),
      importModule demoFiles depth { modules := [], events := events } "a" = none) ∧
    importModule demoFiles 3 { modules := ["m"], events := [] } "m"
      = some (true, { modules := ["m"], events := [] }) :=
  ⟨by decide, by decide, importModule_self_import, by decide⟩


/-! ### String interning -/

theorem tableFindString_some (objects : List ObjString) (strings : List Nat)
    (chars : List Nat) (hash r : Nat)
    (h : tableFindString objects strings chars hash = some r) :
    r ∈ strings ∧ ∃ o, objects[r]? = some o ∧ o.hash = hash ∧ o.chars = chars := by
  unfold tableFindString at h
  have hmem := List.mem_of_find?_eq_some h
  have hp := List.find?_some h
  refine ⟨hmem, ?_⟩
  cases ho : objects[r]? with
  | none => simp [ho] at hp
  | some o =>
    simp only [ho, Bool.and_eq_true, decide_eq_true_eq] at hp
    exact ⟨o, rfl, hp.1, hp.2⟩

theorem tableFindString_none (objects : List ObjString) (strings : List Nat)
    (chars : List Nat) (hash : Nat)
    (h : tableFindString objects strings chars hash = none) :
    ∀ r o, r ∈ strings → objects[r]? = some o → ¬ (o.hash = hash ∧ o.chars = chars) := by
  unfold tableFindString at h
  intro r o hr ho hc
  have := List.find?_eq_none.mp h r hr
  simp [ho, hc.1, hc.2] at this

theorem tableFindString_isSome (objects : List ObjString) (strings : List Nat)
    (chars : List Nat) (hash r : Nat) (o : ObjString) (hr : r ∈ strings)
    (ho : objects[r]? = some o) (hh : o.hash = hash) (hc : o.chars = chars) :
    ∃ r1, tableFindString objects strings chars hash = some r1 := by
  cases h : tableFindString objects strings chars hash with
  | some r1 => exact ⟨r1, rfl⟩
  | none => exact absurd ⟨hh, hc⟩ (tableFindString_none _ _ _ _ h r o hr ho)

/-- What one call of `copyString` or `takeString` does on a well-formed table: the
table stays well formed, the string returned is a key of the table with the bytes of
the call, the objects that existed are unchanged and the keys stay keys; when the bytes
are those of a key, the VM is unchanged. -/
theorem InternCall.run_spec (hashString : List Nat → Nat) (vm : StringVM) (call : InternCall)
    (hinv : InternInv hashString vm) :
    InternInv hashString (call.run hashString vm).1 ∧
    (call.run hashString vm).2 ∈ (call.run hashString vm).1.strings ∧
    charsOf (call.run hashString vm).1 (call.run hashString vm).2 = some call.chars ∧
    (∀ r, r ∈ vm.strings → r ∈ (call.run hashString vm).1.strings ∧
      charsOf (call.run hashString vm).1 r = charsOf vm r) ∧
    ((∃ r, r ∈ vm.strings ∧ charsOf vm r = some call.chars) →
      (call.run hashString vm).1 = vm) := by
  have key : ∀ chars : List Nat,
      InternInv hashString (takeString hashString vm chars).1 ∧
      (takeString hashString vm chars).2 ∈ (takeString hashString vm chars).1.strings ∧
      charsOf (takeString hashString vm chars).1 (takeString hashString vm chars).2
        = some chars ∧
      (∀ r, r ∈ vm.strings → r ∈ (takeString hashString vm chars).1.strings ∧
        charsOf (takeString hashString vm chars).1 r = charsOf vm r) ∧
      ((∃ r, r ∈ vm.strings ∧ charsOf vm r = some chars) →
        (takeString hashString vm chars).1 = vm) := by
    intro chars
    unfold takeString
    cases hfind : tableFindString vm.objects vm.strings chars (hashString chars) with
    | some r =>
      obtain ⟨hr, o, ho, _, hc⟩ := tableFindString_some _ _ _ _ _ hfind
      refine ⟨hinv, hr, ?_, fun r1 h1 => ⟨h1, rfl⟩, fun _ => rfl⟩
      simp [charsOf, ho, hc]
    | none =>
      have hnone := tableFindString_none _ _ _ _ hfind
      have hold : ∀ r, r ∈ vm.strings →
          (vm.objects ++ [({ chars := chars, hash := hashString chars } : ObjString)])[r]?
            = vm.objects[r]? := by
        intro r hr
        obtain ⟨o, ho, _⟩ := hinv.1 r hr
        have hlt : r < vm.objects.length := by
          by_contra hcon
          rw [List.getElem?_eq_none (by omega)] at ho
          cases ho
        exact List.getElem?_append_left hlt
      have hnew : (vm.objects ++ [({ chars := chars, hash := hashString chars } : ObjString)])[
          vm.objects.length]? = some { chars := chars, hash := hashString chars } := by
        rw [List.getElem?_append_right (le_refl _)]
        simp
      have hfresh : ∀ r, r ∈ vm.strings → charsOf vm r ≠ some chars := by
        intro r hr hc
        obtain ⟨o, ho, hh⟩ := hinv.1 r hr
        simp only [charsOf, ho, Option.map_some', Option.some.injEq] at hc
        exact hnone r o hr ho ⟨by rw [hh, hc], hc⟩
      have holdc : ∀ r, r ∈ vm.strings →
          charsOf { objects := vm.objects ++ [{ chars := chars, hash := hashString chars }],
                    strings := vm.strings ++ [vm.objects.length] } r = charsOf vm r := by
        intro r hr
        simp only [charsOf, hold r hr]
      have hnewc :
          charsOf { objects := vm.objects ++ [{ chars := chars, hash := hashString chars }],
                    strings := vm.strings ++ [vm.objects.length] } vm.objects.length
            = some chars := by
        simp only [charsOf, hnew, Option.map_some']
      refine ⟨⟨?_, ?_⟩, ?_, hnewc, ?_, ?_⟩
      · intro r hr
        simp only [allocateString, List.mem_append, List.mem_singleton] at hr
        rcases hr with hr | rfl
        · obtain ⟨o, ho, hh⟩ := hinv.1 r hr
          exact ⟨o, by simp only [allocateString]; rw [hold r hr]; exact ho, hh⟩
        · exact ⟨_, hnew, rfl⟩
      · intro r1 r2 h1 h2 hc
        simp only [allocateString, List.mem_append, List.mem_singleton] at h1 h2
        simp only [allocateString] at hc
        rcases h1 with h1 | rfl <;> rcases h2 with h2 | rfl
        · rw [holdc r1 h1, holdc r2 h2] at hc
          exact hinv.2 r1 r2 h1 h2 hc
        · rw [holdc r1 h1, hnewc] at hc
          exact absurd hc (hfresh r1 h1)
        · rw [holdc r2 h2, hnewc] at hc
          exact absurd hc.symm (hfresh r2 h2)
        · rfl
      · simp [allocateString]
      · intro r hr
        exact ⟨by simp [allocateString, hr], holdc r hr⟩
      · intro ⟨r, hr, hc⟩
        exact absurd hc (hfresh r hr)
  cases call with
  | copy chars => exact key chars
  | take chars => exact key chars

/-- A sequence of calls keeps the table well formed, keeps the keys and keeps their
bytes. -/
theorem internAll_spec (hashString : List Nat → Nat) :
    ∀ (calls : List InternCall) (vm : StringVM), InternInv hashString vm →
      InternInv hashString (internAll hashString vm calls) ∧
      ∀ r, r ∈ vm.strings → r ∈ (internAll hashString vm calls).strings ∧
        charsOf (internAll hashString vm calls) r = charsOf vm r := by
  intro calls
  induction calls with
  | nil => intro vm hinv; exact ⟨hinv, fun r hr => ⟨hr, rfl⟩⟩
  | cons call rest ih =>
    intro vm hinv
    obtain ⟨hinv1, _, _, hkeep, _⟩ := InternCall.run_spec hashString vm call hinv
    obtain ⟨hinv2, hkeep2⟩ := ih _ hinv1
    refine ⟨hinv2, fun r hr => ?_⟩
    obtain ⟨h1, h2⟩ := hkeep r hr
    obtain ⟨h3, h4⟩ := hkeep2 r h1
    exact ⟨h3, h4.trans h2⟩

theorem internInv_empty (hashString : List Nat → Nat) :
    InternInv hashString { objects := [], strings := [] } := by
  constructor
  · intro r hr
    cases hr
  · intro r1 r2 hr
    cases hr

/-- Claim C26: in a VM whose interning table is well formed, as `copyString` and
`takeString` keep it from the empty table on, let a first call intern the bytes `s`,
any calls follow, and a last call intern the bytes `t`, each call being `copyString` or
`takeString`. The first and the last call return the same string object if and only if
`s` and `t` are the same bytes; and a call with the bytes of an interned string leaves
the VM unchanged, so it allocates no string object. -/
theorem c26_string_interning (hashString : List Nat → Nat) (vm : StringVM)
    (first last : InternCall) (between : List InternCall)
    (hinv : InternInv hashString vm) :
    ((first.run hashString vm).2
        = (last.run hashString (internAll hashString (first.run hashString vm).1 between)).2
      ↔ first.chars = last.chars) ∧
    (∀ call : InternCall, (∃ r, r ∈ vm.strings ∧ charsOf vm r = some call.chars) →
      (call.run hashString vm).1 = vm ∧
      (call.run hashString vm).1.objects.length = vm.objects.length) ∧
    InternInv hashString
      (last.run hashString (internAll hashString (first.run hashString vm).1 between)).1 := by
  obtain ⟨hinv1, hmem1, hchars1, _, _⟩ := InternCall.run_spec hashString vm first hinv
  obtain ⟨hinv2, hkeep2⟩ := internAll_spec hashString between _ hinv1
  obtain ⟨hinv3, hmem3, hchars3, hkeep3, _⟩ :=
    InternCall.run_spec hashString (internAll hashString (first.run hashString vm).1 between)
      last hinv2
  obtain ⟨hm2, hc2⟩ := hkeep2 _ hmem1
  obtain ⟨hm3, hc3⟩ := hkeep3 _ hm2
  have hfirst : charsOf
      (last.run hashString (internAll hashString (first.run hashString vm).1 between)).1
      (first.run hashString vm).2 = some first.chars := by
    rw [hc3, hc2, hchars1]
  refine ⟨⟨fun h => ?_, fun h => ?_⟩, ?_, hinv3⟩
  · rw [h, hchars3] at hfirst
    injection hfirst with hfirst
    exact hfirst.symm
  · exact hinv3.2 _ _ hm3 hmem3 (by rw [hfirst, hchars3, h])
  · intro call hex
    have := (InternCall.run_spec hashString vm call hinv).2.2.2.2 hex
    exact ⟨this, by rw [this]⟩

theorem c26_string_interning_witness :
    ((InternCall.run (fun chars => chars.length) { objects := [], strings := [] }
          (InternCall.copy [104, 105])).2
        = (InternCall.run (fun chars => chars.length)
            (internAll (fun chars => chars.length)
              (InternCall.run (fun chars => chars.length) { objects := [], strings := [] }
                (InternCall.copy [104, 105])).1 [InternCall.take [104, 111]])
            (InternCall.take [104, 105])).2
      ↔ (InternCall.copy [104, 105]).chars = (InternCall.take [104, 105]).chars) ∧
    (InternCall.run (fun chars => chars.length)
        (internAll (fun chars => chars.length)
          (InternCall.run (fun chars => chars.length) { objects := [], strings := [] }
            (InternCall.copy [104, 105])).1 [InternCall.take [104, 111]])
        (InternCall.take [104, 105]))
      = ({ objects := [{ chars := [104, 105], hash := 2 }, { chars := [104, 111], hash := 2 }],
           strings := [0, 1] }, 0) :=
  ⟨(c26_string_interning (fun chars => chars.length) { objects := [], strings := [] }
      (InternCall.copy [104, 105]) (InternCall.take [104, 105]) [InternCall.take [104, 111]]
      (internInv_empty _)).1, by decide⟩


/-! ### Calls and `runtimeError` -/

theorem adjustArgs_exact (stack : List Value) (n maxArgs : Nat) :
    adjustArgs stack n n maxArgs = (stack, n, 0) := by
  simp [adjustArgs]

/-- The function `runtimeError` when no exception is being handled and a frame record
is free: `EXCEPTION_VAL` is returned; the stack has one more value, a new instance of
`RuntimeException` whose field `message` holds the string of the text; `frameCount` is
unchanged and `handlingException` is 0 again. -/
theorem runtimeError_with_a_free_frame (env : ErrorEnv) (vm : CallVM) (message : String)
    (clazz : ClassObj) (init offset : Nat)
    (hhandling : vm.handlingException = 0) (hframes : vm.frameCount < vm.frames.length)
    (hclass : classObjAt vm.heap env.runtimeExceptionClass = some clazz)
    (hinit : clazz.initializer = Value.obj init)
    (hnative : env.callables init = Callable.native exceptionInit 2 2)
    (hfield : tableGet clazz.fields "message" = some offset)
    (hoffset : offset < clazz.fields.length) :
    ∃ frames1, runtimeError env vm message
      = ErrorResult.sentinel
          { stack := vm.stack ++ [Value.obj vm.heap.length],
            heap := vm.heap ++ [HeapObj.inst env.runtimeExceptionClass
              ((List.replicate clazz.fields.length Value.nil).set offset
                (env.stringValue message))],
            frames := frames1, frameCount := vm.frameCount, handlingException := 0 } := by
  have hget : vm.frames[vm.frameCount]? = some vm.frames[vm.frameCount] :=
    List.getElem?_eq_getElem hframes
  have hcl : env.runtimeExceptionClass < vm.heap.length := classObjAt_lt _ _ _ hclass
  have hclass2 : classObjAt (vm.heap ++ [newInstance env.runtimeExceptionClass clazz])
      env.runtimeExceptionClass = some clazz := by
    unfold classObjAt at hclass ⊢
    rw [List.getElem?_append_left hcl]
    exact hclass
  have hstack0 : (push (push vm.stack (Value.obj vm.heap.length)) (env.stringValue message))[
      vm.stack.length]? = some (Value.obj vm.heap.length) := by
    simp only [push, List.append_assoc]
    rw [List.getElem?_append_right (le_refl _)]
    simp
  have hstack1 : (push (push vm.stack (Value.obj vm.heap.length)) (env.stringValue message))[
      vm.stack.length + 1]? = some (env.stringValue message) := by
    simp only [push, List.append_assoc]
    rw [List.getElem?_append_right (Nat.le_add_right _ _)]
    simp
  have hlen : (push (push vm.stack (Value.obj vm.heap.length))
      (env.stringValue message)).length = vm.stack.length + 2 := by
    simp [push]
  have hinst : (vm.heap ++ [newInstance env.runtimeExceptionClass clazz])[vm.heap.length]?
      = some (HeapObj.inst env.runtimeExceptionClass
          (List.replicate clazz.fields.length Value.nil)) := by
    rw [List.getElem?_append_right (le_refl _)]
    simp [newInstance]
  have hset : setInstanceField (vm.heap ++ [newInstance env.runtimeExceptionClass clazz])
      vm.heap.length "message" (env.stringValue message)
      = some ((vm.heap ++ [newInstance env.runtimeExceptionClass clazz]).set vm.heap.length
          (HeapObj.inst env.runtimeExceptionClass
            ((List.replicate clazz.fields.length Value.nil).set offset
              (env.stringValue message))), false) := by
    simp only [setInstanceField, hinst, hclass2, hfield, storeAt, List.length_replicate,
      if_pos hoffset]
  have hheap : (vm.heap ++ [newInstance env.runtimeExceptionClass clazz]).set vm.heap.length
      (HeapObj.inst env.runtimeExceptionClass
        ((List.replicate clazz.fields.length Value.nil).set offset (env.stringValue message)))
      = vm.heap ++ [HeapObj.inst env.runtimeExceptionClass
        ((List.replicate clazz.fields.length Value.nil).set offset
          (env.stringValue message))] := by
    simp
  refine ⟨vm.frames.set vm.frameCount
    { vm.frames[vm.frameCount] with
      slots := ((vm.stack.length + 2 : Nat) : Int) - ((2 : Nat) : Int) }, ?_⟩
  have hslots : (((vm.stack.length + 2 : Nat) : Int) - ((2 : Nat) : Int)).toNat
      = vm.stack.length := by
    simp
  simp only [runtimeError, hhandling, ne_eq, not_true_eq_false, if_false, hclass, hinit,
    hnative, callMethod, callNative, hget, setupNativeStackFrame, if_true,
    adjustArgs_exact, hlen, exceptionInit, hslots, hstack0, hstack1, hset, hheap]
  simp [push, pop]

/-- Claim C28, failing input: a call of a native, or of a native closure, when
`frameCount` is `FRAMES_MAX`, whatever the arguments. Neither `callNative` nor
`callNativeClosure` tests `frameCount`: the frame record taken is
`frames[FRAMES_MAX]`, outside the array, and no "Stack overflow" is raised. The
function `call`, for functions and closures, raises "Stack overflow". -/
theorem c28_native_calls_do_not_test_the_frame_count :
    (∀ (function : NativeFn) (arity maxArgs argCount handling : Nat) (method : Bool)
        (stack : List Value) (heap : List HeapObj) (frames : List CallFrame),
      frames[frames.length]? = none ∧
      callNative function arity maxArgs
          { stack := stack, heap := heap, frames := frames, frameCount := frames.length,
            handlingException := handling } argCount method = OpResult.fault ∧
      callNativeClosure function arity maxArgs
          { stack := stack, heap := heap, frames := frames, frameCount := frames.length,
            handlingException := handling } argCount method = OpResult.fault ∧
      call { stack := stack, heap := heap, frames := frames, frameCount := frames.length,
             handlingException := handling } argCount arity maxArgs
        = OpResult.threw "Stack overflow"
            { stack := stack, heap := heap, frames := frames, frameCount := frames.length,
              handlingException := handling }) ∧
    callNative exceptionInit 2 2 (demoCallVM 2) 1 true = OpResult.fault := by
  refine ⟨?_, by decide⟩
  intro function arity maxArgs argCount handling method stack heap frames
  refine ⟨by simp, by simp [callNative], by simp [callNativeClosure], by simp [call, CallVM.framesMax]⟩

/-- Claim C29, failing input: `runtimeError` called with `handlingException == 0` when
`frameCount` is `FRAMES_MAX`, as `call` does for "Stack overflow". The call of the
initializer of `RuntimeException`, a native, takes the frame record
`frames[FRAMES_MAX]`, outside the array. With a free frame record the same call returns
`EXCEPTION_VAL` with one more value on the stack, the new instance with its message,
and with `frameCount` and `handlingException` as before. -/
theorem c29_runtimeError_at_the_frame_limit :
    (demoCallVM 2).frameCount = (demoCallVM 2).framesMax ∧
    (demoCallVM 2).handlingException = 0 ∧
    call (demoCallVM 2) 0 0 0 = OpResult.threw "Stack overflow" (demoCallVM 2) ∧
    runtimeError demoErrorEnv (demoCallVM 2) "Stack overflow" = ErrorResult.fault ∧
    runtimeError demoErrorEnv (demoCallVM 1) "boom"
      = ErrorResult.sentinel
          { stack := [Value.number 7, Value.obj 2],
            heap := demoErrorHeap ++ [HeapObj.inst 0 [Value.obj 104, Value.nil]],
            frames := [{ slots := 0, fixedArgs := 0, varArgs := 0 },
                       { slots := 1, fixedArgs := 0, varArgs := 0 }],
            frameCount := 1, handlingException := 0 } :=
  ⟨by decide, by decide, by decide, by decide, by decide⟩


/-! ### The order of the open-upvalue list -/

theorem OpenSorted.filter {stack : List Value} {objs : List ObjUpvalue} {opened : List Nat}
    (h : OpenSorted stack objs opened) (p : Nat → Bool) :
    OpenSorted stack objs (opened.filter p) :=
  ⟨fun w hw => h.1 w (List.mem_of_mem_filter hw), h.2.sublist (List.filter_sublist _)⟩

theorem OpenSorted.one_per_slot {stack : List Value} {objs : List ObjUpvalue}
    {opened : List Nat} (h : OpenSorted stack objs opened) :
    opened.Nodup ∧
    ∀ u w a, u ∈ opened → w ∈ opened → slotOf objs u = some a → slotOf objs w = some a →
      u = w := by
  have hne : opened.Pairwise (fun u w => slotOf objs u ≠ slotOf objs w) := by
    refine h.2.imp_of_mem ?_
    intro a b ha hb hab heq
    obtain ⟨x, hx, _⟩ := h.1 a ha
    have hxa : slotOf objs a = some x := slotOf_eq_some.mpr hx
    have := hab x x hxa (heq ▸ hxa)
    omega
  constructor
  · refine hne.imp ?_
    intro a b hab heq
    exact hab (by rw [heq])
  · intro u w a hu hw hua hwa
    by_contra huw
    have hsymm : Symmetric (fun u w : Nat => slotOf objs u ≠ slotOf objs w) :=
      fun _ _ hxy => Ne.symm hxy
    exact hne.forall hsymm hu hw huw (by rw [hua, hwa])

theorem closeUpvalues_openSorted (vm : VM) (last : Nat)
    (hs : OpenSorted vm.stack vm.upvalueObjs vm.openUpvalues) :
    ∃ vm1, closeUpvalues vm last = some vm1 ∧
      OpenSorted vm1.stack vm1.upvalueObjs vm1.openUpvalues := by
  obtain ⟨objs1, hloop, _, _, hkeep⟩ := closeLoop_spec vm.stack last _ _ hs
  refine ⟨{ vm with openUpvalues := vm.openUpvalues.filter (belowLast vm.upvalueObjs last),
                    upvalueObjs := objs1 }, ?_, ?_⟩
  · simp only [closeUpvalues, hloop]
  · refine (hs.filter _).agree rfl ?_
    intro w hw
    exact hkeep w (Or.inr (List.mem_filter.mp hw).2)

/-- Claim C31: the open-upvalue list is ordered by strictly descending stack slot, each
upvalue of it being open on a slot of the stack array. The empty list is so ordered; in
an ordered list no upvalue occurs twice and no two upvalues are open on the same slot;
`captureUpvalue`, for every slot of the stack array, and `closeUpvalues`, for every
`last`, return and leave the list ordered. -/
theorem c31_open_list_descends (vm : VM)
    (hs : OpenSorted vm.stack vm.upvalueObjs vm.openUpvalues) :
    OpenSorted vm.stack vm.upvalueObjs [] ∧
    vm.openUpvalues.Nodup ∧
    (∀ u w a, u ∈ vm.openUpvalues → w ∈ vm.openUpvalues →
      vm.upvalueObjs[u]? = some (ObjUpvalue.opened a) →
      vm.upvalueObjs[w]? = some (ObjUpvalue.opened a) → u = w) ∧
    (∀ slot, slot < vm.stack.length →
      ∃ vm1 u, captureUpvalue vm slot = some (vm1, u) ∧
        OpenSorted vm1.stack vm1.upvalueObjs vm1.openUpvalues) ∧
    (∀ last, ∃ vm1, closeUpvalues vm last = some vm1 ∧
        OpenSorted vm1.stack vm1.upvalueObjs vm1.openUpvalues) := by
  refine ⟨⟨fun u hu => (by cases hu), List.Pairwise.nil⟩, hs.one_per_slot.1, ?_, ?_, ?_⟩
  · intro u w a hu hw hua hwa
    exact hs.one_per_slot.2 u w a hu hw (slotOf_eq_some.mpr hua) (slotOf_eq_some.mpr hwa)
  · intro slot hslot
    obtain ⟨vm1, u, hc, hs1, _⟩ := captureUpvalue_spec vm slot hs hslot
    exact ⟨vm1, u, hc, hs1⟩
  · intro last
    exact closeUpvalues_openSorted vm last hs

theorem c31_open_list_descends_witness :
    OpenSorted demoUpvalueVM.stack demoUpvalueVM.upvalueObjs [] ∧
    demoUpvalueVM.openUpvalues.Nodup ∧
    (∀ u w a, u ∈ demoUpvalueVM.openUpvalues → w ∈ demoUpvalueVM.openUpvalues →
      demoUpvalueVM.upvalueObjs[u]? = some (ObjUpvalue.opened a) →
      demoUpvalueVM.upvalueObjs[w]? = some (ObjUpvalue.opened a) → u = w) ∧
    (∀ slot, slot < demoUpvalueVM.stack.length →
      ∃ vm1 u, captureUpvalue demoUpvalueVM slot = some (vm1, u) ∧
        OpenSorted vm1.stack vm1.upvalueObjs vm1.openUpvalues) ∧
    (∀ last, ∃ vm1, closeUpvalues demoUpvalueVM last = some vm1 ∧
        OpenSorted vm1.stack vm1.upvalueObjs vm1.openUpvalues) ∧
    captureUpvalue demoUpvalueVM 2
      = some ({ demoUpvalueVM with
                  upvalueObjs := [ObjUpvalue.opened 3, ObjUpvalue.opened 1,
                                  ObjUpvalue.opened 2],
                  openUpvalues := [0, 2, 1] }, 2) ∧
    (closeUpvalues demoUpvalueVM 2).map (fun vm1 => vm1.openUpvalues) = some [1] :=
  ⟨(c31_open_list_descends demoUpvalueVM demoUpvalueVM_sorted).1,
   (c31_open_list_descends demoUpvalueVM demoUpvalueVM_sorted).2.1,
   (c31_open_list_descends demoUpvalueVM demoUpvalueVM_sorted).2.2.1,
   (c31_open_list_descends demoUpvalueVM demoUpvalueVM_sorted).2.2.2.1,
   (c31_open_list_descends demoUpvalueVM demoUpvalueVM_sorted).2.2.2.2,
   by decide, by decide⟩


/-! ### The growth of the stack -/

theorem growArray_getElem? {α : Type} (cells : List (Option α)) (newCount i : Nat)
    (hi : i < cells.length) (hn : i < newCount) :
    (growArray cells newCount)[i]? = cells[i]? := by
  unfold growArray
  rw [List.getElem?_append_left (by simp; omega), List.getElem?_take_of_lt hn]

/-- The function `ensureStack` keeps the offsets of the frame bases and of the open
upvalues, and the cells of the old array that the new array holds; when it grows the
stack, the new depth is the old capacity less one, whatever the old depth was. -/
theorem ensureStack_offsets (growCapacity : Int → Int) (newStack : Int) (vm : StackVM)
    (required : Int) :
    (ensureStack growCapacity newStack vm required).frameOffsets = vm.frameOffsets ∧
    (ensureStack growCapacity newStack vm required).openOffsets = vm.openOffsets ∧
    (∀ i, i < vm.cells.length →
      i < (growCapacity (vm.stackTopMax - vm.stack + 1)).toNat →
      (ensureStack growCapacity newStack vm required).cells[i]? = vm.cells[i]?) ∧
    (required > vm.stackCapacity →
      (ensureStack growCapacity newStack vm required).depth = vm.stackTopMax - vm.stack) := by
  unfold ensureStack
  by_cases hreq : required > vm.stackCapacity
  · rw [if_pos hreq]
    refine ⟨?_, ?_, ?_, ?_⟩
    · by_cases hmoved : vm.stack = newStack
      · simp [StackVM.frameOffsets, hmoved]
      · simp [StackVM.frameOffsets, hmoved, List.map_map, Function.comp_def]
    · by_cases hmoved : vm.stack = newStack
      · simp [StackVM.openOffsets, hmoved]
      · simp [StackVM.openOffsets, hmoved, List.map_map, Function.comp_def]
    · intro i hi hn
      exact growArray_getElem? _ _ _ hi hn
    · intro _
      simp only [StackVM.depth]
      omega
  · rw [if_neg hreq]
    exact ⟨rfl, rfl, fun _ _ _ => rfl, fun h => absurd h hreq⟩

/-- Claim C32, failing input: a stack of four cells that holds two values, with two
frames and one open upvalue, and a call `ensureStack(5)`, the capacity being doubled.
The offsets of the frames and of the open upvalue and the two values are kept, but
`stackTop` is set to `stack + oldCapacity - 1`: the depth is 3 after the call and was 2
before it, whether the array moved (to the address 2000) or not. After every growing
call the depth is `stackTopMax - stack` of the old stack. -/
theorem c32_ensureStack_sets_the_depth_to_the_old_capacity :
    demoStackVM.depth = 2 ∧
    (ensureStack (fun capacity => capacity * 2) 2000 demoStackVM 5).depth = 3 ∧
    (ensureStack (fun capacity => capacity * 2) 1000 demoStackVM 5).depth = 3 ∧
    ensureStack (fun capacity => capacity * 2) 2000 demoStackVM 5
      = { stack := 2000,
          cells := [some (Value.number 1), some (Value.number 2), none, none, none, none,
                    none, none],
          stackTop := 2003, stackTopMax := 2007, stackCapacity := 8,
          frameSlots := [2000, 2001], openLocations := [2001] } ∧
    (ensureStack (fun capacity => capacity * 2) 2000 demoStackVM 5).frameOffsets
      = demoStackVM.frameOffsets ∧
    (ensureStack (fun capacity => capacity * 2) 2000 demoStackVM 5).openOffsets
      = demoStackVM.openOffsets ∧
    (∀ (growCapacity : Int → Int) (newStack : Int) (vm : StackVM) (required : Int),
      required > vm.stackCapacity →
      (ensureStack growCapacity newStack vm required).depth = vm.stackTopMax - vm.stack) :=
  ⟨by decide, by decide, by decide, by decide, by decide, by decide,
    fun growCapacity newStack vm required h =>
      (ensureStack_offsets growCapacity newStack vm required).2.2.2 h⟩


/-! ### The opcode `INSTANCEOF` -/

/-- The opcode `INSTANCEOF` with a class as right operand and a left operand for which
`classOfValue` returns a class: nothing is raised, and the two operands are replaced by
one boolean. -/
theorem opInstanceOf_of_class (vm : Builtins) (stack : List Value) (heap : List HeapObj)
    (left classVal : Value) (cl instClassRef : Nat) (clazz instClass : ClassObj)
    (hclass : classAt heap classVal = some (cl, clazz))
    (hleft : classOfValue vm heap left = some instClassRef)
    (hinst : classObjAt heap instClassRef = some instClass) :
    opInstanceOf vm { stack := stack ++ [left, classVal], heap := heap }
      = OpResult.next
          { stack := stack ++
              [Value.bool (instanceOf clazz.toObjClass instClass.toObjClass)],
            heap := heap } := by
  have h0 : peek (stack ++ [left, classVal]) 0 = some classVal := (peek_two stack _ _).1
  have hpop : pop (stack ++ [left, classVal]) = stack ++ [left] := by
    simp [pop, List.dropLast_append_cons]
  have h1 : peek (stack ++ [left]) 0 = some left := by
    simp [peek]
  have hpop2 : pop (stack ++ [left]) = stack := by
    simp [pop]
  simp only [opInstanceOf, h0, hclass, hpop, h1, hleft, hinst, hpop2, push]

/-- The opcode `INSTANCEOF` with a class as right operand and a left operand for which
`classOfValue` returns `NULL`: both operands are popped and nothing is pushed. -/
theorem opInstanceOf_of_no_class (vm : Builtins) (stack : List Value) (heap : List HeapObj)
    (left classVal : Value) (cl : Nat) (clazz : ClassObj)
    (hclass : classAt heap classVal = some (cl, clazz))
    (hleft : classOfValue vm heap left = none) :
    opInstanceOf vm { stack := stack ++ [left, classVal], heap := heap }
      = OpResult.next { stack := stack, heap := heap } := by
  have h0 : peek (stack ++ [left, classVal]) 0 = some classVal := (peek_two stack _ _).1
  have hpop : pop (stack ++ [left, classVal]) = stack ++ [left] := by
    simp [pop, List.dropLast_append_cons]
  have h1 : peek (stack ++ [left]) 0 = some left := by
    simp [peek]
  have hpop2 : pop (stack ++ [left]) = stack := by
    simp [pop]
  simp only [opInstanceOf, h0, hclass, hpop, h1, hleft, hpop2]

/-- Claim C35, failing input: `INSTANCEOF` with the class `A` as right operand and, as
left operand, nil or a function. `classOfValue` returns `NULL` for them and the opcode
pushes nothing: the two operands are popped and the stack holds one value less than
with a boolean. For an instance, a class, a number or a boolean as left operand one
boolean replaces the two operands. -/
theorem c35_instanceof_of_nil_pushes_nothing :
    opInstanceOf demoBuiltins (demoInstanceOfVM Value.nil)
      = OpResult.next { stack := [Value.number 7], heap := demoInstanceOfHeap } ∧
    opInstanceOf demoBuiltins (demoInstanceOfVM (Value.obj 2))
      = OpResult.next { stack := [Value.number 7], heap := demoInstanceOfHeap } ∧
    opInstanceOf demoBuiltins (demoInstanceOfVM (Value.obj 1))
      = OpResult.next { stack := [Value.number 7, Value.bool true],
                        heap := demoInstanceOfHeap } ∧
    opInstanceOf demoBuiltins (demoInstanceOfVM (Value.obj 0))
      = OpResult.next { stack := [Value.number 7, Value.bool true],
                        heap := demoInstanceOfHeap } ∧
    opInstanceOf demoBuiltins (demoInstanceOfVM (Value.number 1))
      = OpResult.next { stack := [Value.number 7, Value.bool false],
                        heap := demoInstanceOfHeap } ∧
    opInstanceOf demoBuiltins (demoInstanceOfVM (Value.bool true))
      = OpResult.next { stack := [Value.number 7, Value.bool false],
                        heap := demoInstanceOfHeap } ∧
    (∀ (stack : List Value) (left : Value),
      classOfValue demoBuiltins demoInstanceOfHeap left = none →
      opInstanceOf demoBuiltins
          { stack := stack ++ [left, Value.obj 0], heap := demoInstanceOfHeap }
        = OpResult.next { stack := stack, heap := demoInstanceOfHeap }) :=
  ⟨by decide, by decide, by decide, by decide, by decide, by decide,
    fun stack left h =>
      opInstanceOf_of_no_class demoBuiltins stack demoInstanceOfHeap left (Value.obj 0) 0
        (newClassObj "A" 2) (by decide) h⟩

/-! ### Exhausted map iterators -/

/-- The function `mapIteratorNext` on an iterator whose `modCount` is that of the table,
when `valueTableGetNext` returns -1 and leaves `entry` unset: the tuple is built from
`entry->key` and `entry->value`, read through the unset pointer. -/
theorem mapIteratorNext_exhausted (items : CloseTable) (it : MapIterator)
    (hmod : it.modCount = items.modCount)
    (hnext : closeTableGetNext items it.current = some (-1, none)) :
    mapIteratorNext items it = NativeResult.fault ∧
    mapIteratorHasNext items it = NativeResult.returned false := by
  constructor
  · simp [mapIteratorNext, hmod, hnext]
  · simp [mapIteratorHasNext, hnext]

/-- Claim C37, failing input: `next()` on the iterator of an empty map, and the second
`next()` on the iterator of a map with one entry. `hasNext()` returns false, since
`valueTableGetNext` returns -1; `next()` does not test the index and builds its tuple
from `entry->key` and `entry->value`, `entry` being a pointer that was never set. -/
theorem c37_next_on_an_exhausted_iterator_reads_an_unset_entry :
    closeTableGetNext initCloseTable (mapIterator initCloseTable).current = some (-1, none) ∧
    mapIteratorHasNext initCloseTable (mapIterator initCloseTable)
      = NativeResult.returned false ∧
    mapIteratorNext initCloseTable (mapIterator initCloseTable) = NativeResult.fault ∧
    mapIteratorNext (demoTable 1 0) (mapIterator (demoTable 1 0))
      = NativeResult.returned
          ({ current := 1, modCount := 1 }, Value.number 0, Value.number 100) ∧
    mapIteratorHasNext (demoTable 1 0) { current := 1, modCount := 1 }
      = NativeResult.returned false ∧
    mapIteratorNext (demoTable 1 0) { current := 1, modCount := 1 } = NativeResult.fault ∧
    (∀ (items : CloseTable) (it : MapIterator), it.modCount = items.modCount →
      closeTableGetNext items it.current = some (-1, none) →
      mapIteratorNext items it = NativeResult.fault) :=
  ⟨by decide, by decide, by decide, by decide, by decide, by decide,
    fun items it hmod hnext => (mapIteratorNext_exhausted items it hmod hnext).1⟩


/-! ### The frame of `setupStackFrame` and the stack top -/

/-- The frame set up by `setupStackFrame` for a call with at most `maxArgs` arguments:
`slots + 1 + fixedArgs + varArgs` is the stack top. -/
theorem setupStackFrame_top (stack : List Value) (argCount arity maxArgs : Nat)
    (hmax : argCount ≤ maxArgs) :
    (setupStackFrame stack argCount arity maxArgs).2.1.slots + 1
        + ((setupStackFrame stack argCount arity maxArgs).2.1.fixedArgs : Int)
        + (setupStackFrame stack argCount arity maxArgs).2.1.varArgs
      = ((setupStackFrame stack argCount arity maxArgs).1.length : Int) := by
  unfold setupStackFrame adjustArgs
  by_cases h1 : argCount = arity
  · subst h1
    simp
  · rw [if_pos h1]
    by_cases h2 : argCount < arity
    · rw [if_pos h2]
      simp only [pushMissing_eq, List.length_append, List.length_replicate]
      push_cast
      omega
    · rw [if_neg h2, if_neg (by omega)]
      simp only [Nat.cast_zero, add_zero]
      omega

/-- Claim C34, failing input: a call with three arguments of a function with `arity` 1
and `maxArgs` 1, the stack holding the callee and the three arguments. `adjustArgs`
pops the two extra arguments, and `setupStackFrame` sets `varArgs` to
`argCount + missingArgs - arity`, which is 2: no argument beyond the fixed one is on
the stack, and `slots + 1 + fixedArgs + varArgs` is 4 while the stack top is 2. A local
addressed with `postArgs` in the slot 2, right after the argument, is read at the
index 4. -/
theorem c34_varArgs_counts_the_popped_arguments :
    setupStackFrame [Value.obj 0, Value.number 1, Value.number 2, Value.number 3] 3 1 1
      = ([Value.obj 0, Value.number 1], { slots := 0, fixedArgs := 1, varArgs := 2 }, 1) ∧
    (setupStackFrame [Value.obj 0, Value.number 1, Value.number 2, Value.number 3] 3 1
        1).2.1.slots + 1
      + ((setupStackFrame [Value.obj 0, Value.number 1, Value.number 2, Value.number 3] 3 1
          1).2.1.fixedArgs : Int)
      + (setupStackFrame [Value.obj 0, Value.number 1, Value.number 2, Value.number 3] 3 1
          1).2.1.varArgs = 4 ∧
    (setupStackFrame [Value.obj 0, Value.number 1, Value.number 2, Value.number 3] 3 1
        1).1.length = 2 ∧
    (setupStackFrame [Value.obj 0, Value.number 1, Value.number 2, Value.number 3] 3 1
        1).2.1.slots
      + (2 + 1 * (setupStackFrame [Value.obj 0, Value.number 1, Value.number 2,
          Value.number 3] 3 1 1).2.1.varArgs) = 4 :=
  ⟨by decide, by decide, by decide, by decide⟩

/-! ### Words that resemble keywords -/

/-- Claim C38, failing input: the identifiers `thue` and `thy`. In `identifierType` the
case `'h'` of the switch on the second character of a word in `t` has no `break` and
falls through to the case `'r'`, which tests the third character for `u` and `y`:
`thue` is returned as `TOKEN_TRUE` and `thy` as `TOKEN_TRY`. The words `thus`, `trux`,
`th`, `tr`, `t`, `thi`, `classes`, `fo` and `iff` are identifiers, and `true`, `try`,
`this` and `throw` are keywords. -/
theorem c38_thue_is_scanned_as_true :
    scanToken (initScanner (sourceOf "thue"))
      = some ({ type := TokenType.TOKEN_TRUE, start := TokenStart.source 0, length := 4,
                line := 1 },
              { source := sourceOf "thue", start := 0, current := 4, line := 1 }) ∧
    scanToken (initScanner (sourceOf "thy"))
      = some ({ type := TokenType.TOKEN_TRY, start := TokenStart.source 0, length := 3,
                line := 1 },
              { source := sourceOf "thy", start := 0, current := 3, line := 1 }) ∧
    ["thus", "trux", "th", "tr", "t", "thi", "classes", "fo", "iff"].map firstTokenType
      = List.replicate 9 (some TokenType.TOKEN_IDENTIFIER) ∧
    ["true", "try", "this", "throw"].map firstTokenType
      = [some TokenType.TOKEN_TRUE, some TokenType.TOKEN_TRY, some TokenType.TOKEN_THIS,
         some TokenType.TOKEN_THROW] :=
  ⟨by decide, by decide, by decide, by decide⟩

/-! ### Token lines -/

/-- Claim C39, failing input: the source of a string literal that holds a newline,
followed by a blank and the identifier `x`. The function `string` reads the newline
without counting it: the identifier, which starts at the index 4 after one newline of
the source, has the line 1. After a comment or a blank with a newline the identifier
has the line 2. -/
theorem c39_newline_in_a_string_is_not_counted :
    scanTwo ['"', '\n', '"', ' ', 'x', NUL]
      = some ({ type := TokenType.TOKEN_STRING, start := TokenStart.source 0, length := 3,
                line := 1 },
              { type := TokenType.TOKEN_IDENTIFIER, start := TokenStart.source 4,
                length := 1, line := 1 }) ∧
    newlinesBefore ['"', '\n', '"', ' ', 'x', NUL] 4 = 1 ∧
    (scanTwo (sourceOf "a/*\n*/ x")).map (fun r => (r.2.type, r.2.start, r.2.line))
      = some (TokenType.TOKEN_IDENTIFIER, TokenStart.source 7, 2) ∧
    newlinesBefore (sourceOf "a/*\n*/ x") 7 = 1 ∧
    (scanTwo (sourceOf "a// c\n x")).map (fun r => (r.2.type, r.2.start, r.2.line))
      = some (TokenType.TOKEN_IDENTIFIER, TokenStart.source 7, 2) ∧
    (scanTwo (sourceOf "a \n x")).map (fun r => (r.2.type, r.2.start, r.2.line))
      = some (TokenType.TOKEN_IDENTIFIER, TokenStart.source 4, 2) :=
  ⟨by decide, by decide, by decide, by decide, by decide, by decide⟩

/-! ### Heap strings -/

/-- Claim C40, failing input: a new heap string (capacity 8, length 0) and a formatted
output of seven characters. `available` is 7 and is passed as the size to `vsnprintf`,
which writes six characters and the NUL and returns 7; `required <= available` holds
and `length` becomes 7. The seventh character is not in the buffer, the NUL is at the
index 6, and `chars[7]` was never written. With twenty characters the buffer grows to
21 cells and `vsnprintf` gets the size 20: the last character is lost again. Outputs of
six and of eight characters are stored whole. -/
theorem c40_the_last_character_is_cut_off :
    (∀ growCapacity : Nat → Nat,
      initHeapString.bind (fun s => addStringVFmt growCapacity s "abcdefg".toList)
        = some { chars := [some 'a', some 'b', some 'c', some 'd', some 'e', some 'f',
                           some NUL, none],
                 length := 7, capacity := 8 }) ∧
    cString [some 'a', some 'b', some 'c', some 'd', some 'e', some 'f', some NUL, none]
      = some "abcdef".toList ∧
    (initHeapString.bind (fun s =>
        addStringVFmt doubleCapacity s "abcdefghijklmnopqrst".toList)).map
        (fun s => (cString s.chars, s.length, s.capacity))
      = some (some "abcdefghijklmnopqrs".toList, 20, 21) ∧
    (initHeapString.bind (fun s => addStringVFmt doubleCapacity s "abcdef".toList)).map
        (fun s => (cString s.chars, s.length, s.capacity))
      = some (some "abcdef".toList, 6, 8) ∧
    (initHeapString.bind (fun s => addStringVFmt doubleCapacity s "abcdefgh".toList)).map
        (fun s => (cString s.chars, s.length, s.capacity))
      = some (some "abcdefgh".toList, 8, 16) :=
  ⟨fun _ => rfl, by decide, by decide, by decide, by decide⟩


/-! ### The layout of the fields -/

theorem tableGet_eq_none_iff {α : Type} (t : Table α) (key : String) :
    tableGet t key = none ↔ key ∉ t.map Prod.fst := by
  induction t with
  | nil => simp [tableGet]
  | cons p rest ih =>
    obtain ⟨k, v⟩ := p
    by_cases hk : k = key
    · simp [tableGet, hk]
    · simp [tableGet, hk, ih, Ne.symm hk]

theorem tableSet_append {α : Type} (t : Table α) (key : String) (value : α)
    (h : tableGet t key = none) : tableSet t key value = (t ++ [(key, value)], true) := by
  induction t with
  | nil => rfl
  | cons p rest ih =>
    obtain ⟨k, v⟩ := p
    by_cases hk : k = key
    · simp [tableGet, hk] at h
    · simp only [tableGet, hk, if_false] at h
      simp [tableSet, hk, ih h]

theorem tableGet_mem {α : Type} (t : Table α) (key : String) (value : α)
    (h : tableGet t key = some value) : (key, value) ∈ t := by
  induction t with
  | nil => simp [tableGet] at h
  | cons p rest ih =>
    obtain ⟨k, v⟩ := p
    by_cases hk : k = key
    · simp only [tableGet, hk, if_true, Option.some.injEq] at h
      subst hk; subst h
      exact List.mem_cons_self _ _
    · simp only [tableGet, hk, if_false] at h
      exact List.mem_cons_of_mem _ (ih h)

theorem tableGet_of_mem {α : Type} (t : Table α) (key : String) (value : α)
    (hn : (t.map Prod.fst).Nodup) (h : (key, value) ∈ t) : tableGet t key = some value := by
  induction t with
  | nil => cases h
  | cons p rest ih =>
    obtain ⟨k, v⟩ := p
    simp only [List.map_cons, List.nodup_cons] at hn
    rcases List.mem_cons.mp h with heq | hmem
    · injection heq with h1 h2
      subst h1; subst h2
      simp [tableGet]
    · have hk : k ≠ key := by
        intro hk
        subst hk
        exact hn.1 (List.mem_map_of_mem Prod.fst hmem)
      simp only [tableGet, hk, if_false]
      exact ih hn.2 hmem

theorem denseFields_nil : DenseFields [] :=
  ⟨List.nodup_nil, List.Perm.refl _⟩

/-- What a dense field table gives: the names have pairwise distinct indices, and the
indices are the numbers below the number of names. -/
theorem DenseFields.layout {fields : Table Nat} (h : DenseFields fields) :
    (∀ a b i, tableGet fields a = some i → tableGet fields b = some i → a = b) ∧
    (∀ i, (∃ name, tableGet fields name = some i) ↔ i < fields.length) := by
  have hvals : (fields.map Prod.snd).Nodup := h.2.nodup_iff.mpr (List.nodup_range _)
  constructor
  · intro a b i ha hb
    have hma := tableGet_mem _ _ _ ha
    have hmb := tableGet_mem _ _ _ hb
    have := List.inj_on_of_nodup_map hvals hma hmb rfl
    injection this
  · intro i
    constructor
    · rintro ⟨name, hname⟩
      have : i ∈ fields.map Prod.snd := List.mem_map_of_mem Prod.snd (tableGet_mem _ _ _ hname)
      exact List.mem_range.mp (h.2.mem_iff.mp this)
    · intro hi
      have : i ∈ fields.map Prod.snd := h.2.mem_iff.mpr (List.mem_range.mpr hi)
      obtain ⟨⟨name, j⟩, hmem, hj⟩ := List.mem_map.mp this
      simp only at hj
      subst hj
      exact ⟨name, tableGet_of_mem _ _ _ h.1 hmem⟩

theorem DenseFields.define {fields : Table Nat} (h : DenseFields fields) (name : String)
    (hnew : tableGet fields name = none) :
    DenseFields (fields ++ [(name, fields.length)]) := by
  constructor
  · rw [List.map_append, List.nodup_append]
    refine ⟨h.1, by simp, ?_⟩
    intro a ha hb
    simp only [List.map_cons, List.map_nil, List.mem_singleton] at hb
    subst hb
    exact (tableGet_eq_none_iff _ _).mp hnew ha
  · rw [List.map_append, List.length_append, List.length_singleton, List.range_succ]
    exact List.Perm.append_right _ h.2

/-- A run of `FIELD` opcodes for the class on top of the stack, with names that are
pairwise distinct and not in the field table of the class: nothing is raised, and each
name is added to the table with the next index. -/
theorem runClassOps_fields (cl : Nat) :
    ∀ (names : List String) (st : ObjVM) (clazz : ClassObj),
      peek st.stack 0 = some (Value.obj cl) → classObjAt st.heap cl = some clazz →
      names.Nodup → (∀ name, name ∈ names → tableGet clazz.fields name = none) →
      ∃ st1 clazz1, runClassOps st (names.map ClassOp.field) = OpResult.next st1 ∧
        st1.stack = st.stack ∧ classObjAt st1.heap cl = some clazz1 ∧
        clazz1.fields
          = clazz.fields ++ names.zip (List.range' clazz.fields.length names.length) := by
  intro names
  induction names with
  | nil =>
    intro st clazz _ hclass _ _
    exact ⟨st, clazz, rfl, rfl, hclass, by simp⟩
  | cons name rest ih =>
    intro st clazz htop hclass hnodup hnew
    have hname : tableGet clazz.fields name = none := hnew name (List.mem_cons_self _ _)
    have hstep : opField st name
        = OpResult.next
            { stack := st.stack,
              heap := st.heap.set cl (HeapObj.clazz
                { clazz with fields := clazz.fields ++ [(name, clazz.fields.length)] }) } := by
      simp only [opField, htop, classAt_of_classObjAt _ _ _ hclass,
        tableSet_append _ _ _ hname]
    have hclass1 := classObjAt_set_self st.heap cl
      { clazz with fields := clazz.fields ++ [(name, clazz.fields.length)] }
      (classObjAt_lt _ _ _ hclass)
    have hnodup1 := List.nodup_cons.mp hnodup
    obtain ⟨st1, clazz1, hrun, hstack, hcl1, hfields⟩ :=
      ih { stack := st.stack,
           heap := st.heap.set cl (HeapObj.clazz
             { clazz with fields := clazz.fields ++ [(name, clazz.fields.length)] }) }
        { clazz with fields := clazz.fields ++ [(name, clazz.fields.length)] }
        htop hclass1 hnodup1.2
        (by
          intro other hother
          rw [tableGet_eq_none_iff]
          have h1 := (tableGet_eq_none_iff _ _).mp (hnew other (List.mem_cons_of_mem _ hother))
          simp only [List.map_append, List.map_cons, List.map_nil, List.mem_append,
            List.mem_singleton, not_or]
          refine ⟨h1, ?_⟩
          intro heq
          subst heq
          exact hnodup1.1 hother)
    refine ⟨st1, clazz1, ?_, hstack, hcl1, ?_⟩
    · simp only [List.map_cons, runClassOps, ClassOp.step, hstep]
      exact hrun
    · rw [hfields]
      simp [List.range'_succ, Nat.add_comm]

theorem denseFields_zip (fields : Table Nat) (h : DenseFields fields) :
    ∀ (names : List String), names.Nodup →
      (∀ name, name ∈ names → tableGet fields name = none) →
      DenseFields (fields ++ names.zip (List.range' fields.length names.length)) := by
  intro names
  induction names generalizing fields with
  | nil => intro _ _; simpa using h
  | cons name rest ih =>
    intro hnodup hnew
    have hnodup1 := List.nodup_cons.mp hnodup
    have h1 := h.define name (hnew name (List.mem_cons_self _ _))
    have := ih (fields ++ [(name, fields.length)]) h1 hnodup1.2
      (by
        intro other hother
        rw [tableGet_eq_none_iff]
        have h2 := (tableGet_eq_none_iff _ _).mp (hnew other (List.mem_cons_of_mem _ hother))
        simp only [List.map_append, List.map_cons, List.map_nil, List.mem_append,
          List.mem_singleton, not_or]
        refine ⟨h2, ?_⟩
        intro heq
        subst heq
        exact hnodup1.1 hother)
    simpa [List.range'_succ, Nat.add_comm] using this

theorem inheritFields_append :
    ∀ (super fields : Table Nat),
      (∀ key, key ∈ super.map Prod.fst → tableGet fields key = none) →
      (super.map Prod.fst).Nodup → inheritFields super fields = (fields ++ super, none) := by
  intro super
  induction super with
  | nil => intro fields _ _; simp [inheritFields]
  | cons p rest ih =>
    intro fields hnew hnodup
    obtain ⟨k, v⟩ := p
    simp only [List.map_cons, List.nodup_cons] at hnodup
    have hk : tableGet fields k = none := hnew k (by simp)
    simp only [inheritFields, tableSet_append _ _ _ hk, if_true]
    rw [ih (fields ++ [(k, v)]) ?_ hnodup.2]
    · simp
    · intro key hkey
      rw [tableGet_eq_none_iff]
      have h1 := (tableGet_eq_none_iff _ _).mp (hnew key (by simp [hkey]))
      simp only [List.map_append, List.map_cons, List.map_nil, List.mem_append,
        List.mem_singleton, not_or]
      refine ⟨h1, ?_⟩
      intro heq
      subst heq
      exact hnodup.1 hkey

/-- The opcode `INHERIT` for a subclass that has no field yet and a superclass with a
dense field table: nothing is raised, and the subclass has the field table of the
superclass. -/
theorem opInherit_new_class (st : ObjVM) (sup sub : Nat) (P S : ClassObj)
    (hp1 : peek st.stack 1 = some (Value.obj sup))
    (hp0 : peek st.stack 0 = some (Value.obj sub))
    (hP : classObjAt st.heap sup = some P) (hS : classObjAt st.heap sub = some S)
    (hnew : S.fields = []) (hdense : DenseFields P.fields) :
    ∃ st1 S1, opInherit st = OpResult.next st1 ∧ st1.stack = pop st.stack ∧
      classObjAt st1.heap sub = some S1 ∧ S1.fields = P.fields ∧
      DenseFields S1.fields := by
  have hf : inheritFields P.fields S.fields = (P.fields, none) := by
    rw [hnew, inheritFields_append P.fields [] (fun _ _ => rfl) hdense.1]
    simp
  simp only [opInherit, hp1, hp0, classAt_of_classObjAt _ _ _ hP,
    classAt_of_classObjAt _ _ _ hS, hf]
  exact ⟨_, _, rfl, rfl, classObjAt_set_self _ _ _ (classObjAt_lt _ _ _ hS), rfl, hdense⟩

/-- Claim C33, counterexample: the opcodes of a class that declares the field `x`
twice. The second `FIELD` stores the field count 1 as the index of `x`: the table has
one name, and its index 1 is not below the field count 1. -/
theorem c33_a_field_declared_twice_gets_the_index_of_the_count :
    runClassOps { stack := [], heap := [] } demoTwiceOps
      = OpResult.next
          { stack := [Value.obj 0],
            heap := [HeapObj.clazz
              { toObjClass := newClass 2, name := "K", fields := [("x", 1)], methods := [],
                initializer := Value.nil, memberRefs := [] }] } ∧
    tableGet [("x", 1)] "x" = some 1 ∧ ([("x", 1)] : Table Nat).length = 1 ∧
    ¬ DenseFields [("x", 1)] := by
  refine ⟨by decide, by decide, by decide, ?_⟩
  intro h
  have := (h.layout.2 1).mp ⟨"x", by decide⟩
  simp at this

/-- Claim C33, amended: for a class on top of the stack whose field table is dense, as
that of a new class and that of a new class after `INHERIT` from a class with a dense
table, and for `FIELD` opcodes with pairwise distinct names that are not in the table:
the opcodes raise nothing, the table keeps its entries and has one more name for each
opcode, and it is dense, so the names have pairwise distinct indices, which are the
numbers below the field count. -/
theorem c33_field_layout (st : ObjVM) (cl : Nat) (clazz : ClassObj) (names : List String)
    (htop : peek st.stack 0 = some (Value.obj cl))
    (hclass : classObjAt st.heap cl = some clazz) (hdense : DenseFields clazz.fields)
    (hnames : names.Nodup)
    (hnew : ∀ name, name ∈ names → tableGet clazz.fields name = none) :
    ∃ st1 clazz1, runClassOps st (names.map ClassOp.field) = OpResult.next st1 ∧
      classObjAt st1.heap cl = some clazz1 ∧
      clazz1.fields.length = clazz.fields.length + names.length ∧
      (∀ name i, tableGet clazz.fields name = some i →
        tableGet clazz1.fields name = some i) ∧
      (∀ name, name ∈ names → ∃ i, tableGet clazz1.fields name = some i) ∧
      DenseFields clazz1.fields ∧
      (∀ a b i, tableGet clazz1.fields a = some i → tableGet clazz1.fields b = some i →
        a = b) ∧
      (∀ i, (∃ name, tableGet clazz1.fields name = some i) ↔ i < clazz1.fields.length) := by
  obtain ⟨st1, clazz1, hrun, _, hcl1, hfields⟩ :=
    runClassOps_fields cl names st clazz htop hclass hnames hnew
  have hd1 : DenseFields clazz1.fields := by
    rw [hfields]
    exact denseFields_zip _ hdense names hnames hnew
  refine ⟨st1, clazz1, hrun, hcl1, ?_, ?_, ?_, hd1, hd1.layout.1, hd1.layout.2⟩
  · rw [hfields]
    simp
  · intro name i hget
    refine tableGet_of_mem _ _ _ hd1.1 ?_
    rw [hfields]
    exact List.mem_append_left _ (tableGet_mem _ _ _ hget)
  · intro name hname
    cases hget : tableGet clazz1.fields name with
    | some i => exact ⟨i, rfl⟩
    | none =>
      exfalso
      have := (tableGet_eq_none_iff _ _).mp hget
      apply this
      rw [hfields, List.map_append]
      refine List.mem_append_right _ ?_
      rw [List.map_fst_zip _ _ (by simp)]
      exact hname

theorem c33_field_layout_witness :
    ∃ st1 clazz1,
      runClassOps { stack := push demoInheritedVM.stack (Value.obj 5),
                    heap := demoInheritedVM.heap }
          (["y", "z"].map ClassOp.field) = OpResult.next st1 ∧
      classObjAt st1.heap 5 = some clazz1 ∧
      clazz1.fields.length = ([("x", 0)] : Table Nat).length + ["y", "z"].length ∧
      (∀ name i, tableGet [("x", 0)] name = some i → tableGet clazz1.fields name = some i) ∧
      (∀ name, name ∈ ["y", "z"] → ∃ i, tableGet clazz1.fields name = some i) ∧
      DenseFields clazz1.fields ∧
      (∀ a b i, tableGet clazz1.fields a = some i → tableGet clazz1.fields b = some i →
        a = b) ∧
      (∀ i, (∃ name, tableGet clazz1.fields name = some i) ↔ i < clazz1.fields.length) :=
  c33_field_layout
    { stack := push demoInheritedVM.stack (Value.obj 5), heap := demoInheritedVM.heap } 5
    { name := "S", baseId := 3, classId := 6, super := some 4, fields := [("x", 0)],
      methods := [("f", Value.obj 0), ("m", Value.obj 1)], initializer := Value.nil,
      memberRefs := [] }
    ["y", "z"] (by decide) (by decide) ⟨by decide, by decide⟩ (by decide)
    (by
      intro name hname
      simp only [List.mem_cons, List.mem_singleton, List.not_mem_nil, or_false] at hname
      rcases hname with rfl | rfl <;> decide)


/-! ### The opcodes `GET_VARARG` and `SET_VARARG` -/

theorem varArgSlot_eq (frame : CallFrame) (index : Int) (k : Nat)
    (h : varArgSlot frame index = some k) :
    (k : Int) = frame.slots + (frame.fixedArgs : Int) + 1 + index := by
  unfold varArgSlot at h
  by_cases hk : 0 ≤ frame.slots + ((frame.fixedArgs : Int) + index + 1)
  · rw [if_pos hk] at h
    injection h with h
    omega
  · rw [if_neg hk] at h
    cases h

/-- Claim C36, counterexample: a frame with one fixed argument and one vararg, and the
index 1. `GET_VARARG` raises nothing and pushes the value of the slot 3, the local that
follows the pack; `SET_VARARG` raises nothing and overwrites that local. The pack is the
slot 2. -/
theorem c36_the_index_one_reaches_the_local_after_the_pack :
    opGetVararg (fun bits => (bits : Int)) demoVarArgFrame (demoVarArgVM [Value.number 1])
      = OpResult.next
          { stack := [Value.obj 0, Value.number 10, Value.number 20, Value.number 30,
                      Value.number 30, Value.nil, Value.nil],
            stackTop := 5, frames := [], upvalueObjs := [], openUpvalues := [],
            globalValues := [] } ∧
    opSetVararg (fun bits => (bits : Int)) demoVarArgFrame
        (demoVarArgVM [Value.number 1, Value.number 99])
      = OpResult.next
          { stack := [Value.obj 0, Value.number 10, Value.number 20, Value.number 99,
                      Value.number 99, Value.number 99, Value.nil, Value.nil],
            stackTop := 5, frames := [], upvalueObjs := [], openUpvalues := [],
            globalValues := [] } ∧
    varArgSlot demoVarArgFrame 1 = some 3 ∧ inVarArgPack demoVarArgFrame 3 = false ∧
    inVarArgPack demoVarArgFrame 2 = true :=
  ⟨by decide, by decide, by decide, by decide, by decide⟩

/-- Claim C36, amended: `GET_VARARG` and `SET_VARARG` do not compare the index with
`varArgs`. For every numeric index `i` whose slot `frame.slots[fixedArgs + 1 + i]` is in
the stack array, `GET_VARARG` raises nothing and replaces the index by the value of that
slot, and `SET_VARARG` raises nothing, stores the value into that slot and replaces the
index and the value by the value; the slot is in the vararg pack exactly when
`0 <= i < varArgs`. With an index that is not a number both raise "Arg index is not a
number". -/
theorem c36_vararg_opcodes (toInt : Nat → Int) (frame : CallFrame) (vm : VM) (bits k : Nat)
    (hslot : varArgSlot frame (toInt bits) = some k) (hk : k < vm.stack.length) :
    (inVarArgPack frame k = true ↔ 0 ≤ toInt bits ∧ toInt bits < frame.varArgs) ∧
    (∀ v, 0 < vm.stackTop → vm.stack[vm.stackTop - 1]? = some (Value.number bits) →
      vm.stack[k]? = some v →
      opGetVararg toInt frame vm
        = OpResult.next { vm with stack := vm.stack.set (vm.stackTop - 1) v }) ∧
    (∀ val, 1 < vm.stackTop → vm.stack[vm.stackTop - 2]? = some (Value.number bits) →
      vm.stack[vm.stackTop - 1]? = some val →
      opSetVararg toInt frame vm
        = OpResult.next
            { vm with stack := (vm.stack.set k val).set (vm.stackTop - 2) val,
                      stackTop := vm.stackTop - 1 }) ∧
    (∀ indexVal, isNumber indexVal = false → 0 < vm.stackTop →
      vm.stack[vm.stackTop - 1]? = some indexVal →
      opGetVararg toInt frame vm
        = OpResult.threw "Arg index is not a number"
            { vm with stackTop := vm.stackTop - 1 }) ∧
    (∀ indexVal, isNumber indexVal = false → 1 < vm.stackTop →
      vm.stack[vm.stackTop - 2]? = some indexVal →
      opSetVararg toInt frame vm = OpResult.threw "Arg index is not a number" vm) := by
  have hkeq := varArgSlot_eq frame _ k hslot
  refine ⟨?_, ?_, ?_, ?_, ?_⟩
  · simp only [inVarArgPack, decide_eq_true_eq]
    constructor
    · rintro ⟨h1, h2⟩
      constructor <;> omega
    · rintro ⟨h1, h2⟩
      constructor <;> omega
  · intro v htop hidx hv
    have hne : ¬ vm.stackTop = 0 := by omega
    have hlt : vm.stackTop - 1 < vm.stack.length := by
      by_contra hcon
      rw [List.getElem?_eq_none (by omega)] at hidx
      cases hidx
    simp only [opGetVararg, vmPop, hne, if_false, hidx, isNumber, Bool.not_true,
      Bool.false_eq_true, asNumber, hslot, hv, vmPush, storeAt, hlt, if_true, Option.map_some']
    have hadd : vm.stackTop - 1 + 1 = vm.stackTop := by omega
    rw [hadd]
  · intro val htop hidx hval
    have hne : ¬ vm.stackTop = 0 := by omega
    have hne1 : ¬ vm.stackTop - 1 = 0 := by omega
    have hlt1 : vm.stackTop - 1 < vm.stack.length := by
      by_contra hcon
      rw [List.getElem?_eq_none (by omega)] at hval
      cases hval
    have hlt2 : vm.stackTop - 1 - 1 < vm.stack.length := by omega
    have hpeek : vmPeek vm 1 = some (Value.number bits) := by
      simp only [vmPeek, htop, if_true]
      have : vm.stackTop - 1 - 1 = vm.stackTop - 2 := by omega
      rw [this, hidx]
    have hget : ((vm.stack.set k val)[vm.stackTop - 1 - 1]?).isSome = true := by
      rw [List.getElem?_set]
      split
      · simp [hk]
      · rw [List.getElem?_eq_getElem hlt2]; rfl
    obtain ⟨w, hw⟩ := Option.isSome_iff_exists.mp hget
    have hlt3 : vm.stackTop - 1 - 1 < (vm.stack.set k val).length := by simpa using hlt2
    simp only [opSetVararg, hpeek, isNumber, Bool.not_true, Bool.false_eq_true, if_false,
      vmPop, hne, hval, asNumber, hslot, storeAt, hk, if_true, hne1, hw, vmPush, hlt3,
      Option.map_some']
    have h2 : vm.stackTop - 1 - 1 = vm.stackTop - 2 := by omega
    have h3 : vm.stackTop - 2 + 1 = vm.stackTop - 1 := by omega
    rw [h2, h3]
  · intro indexVal hnum htop hidx
    have hne : ¬ vm.stackTop = 0 := by omega
    simp only [opGetVararg, vmPop, hne, if_false, hidx, hnum, Bool.not_false, if_true]
  · intro indexVal hnum htop hidx
    have hpeek : vmPeek vm 1 = some indexVal := by
      simp only [vmPeek, htop, if_true]
      have : vm.stackTop - 1 - 1 = vm.stackTop - 2 := by omega
      rw [this, hidx]
    simp only [opSetVararg, hpeek, hnum, Bool.not_false, if_true]

theorem c36_vararg_opcodes_witness :
    (inVarArgPack demoVarArgFrame 2 = true ↔
      0 ≤ (fun bits : Nat => (bits : Int)) 0 ∧
        (fun bits : Nat => (bits : Int)) 0 < demoVarArgFrame.varArgs) ∧
    opGetVararg (fun bits => (bits : Int)) demoVarArgFrame (demoVarArgVM [Value.number 0])
      = OpResult.next
          { demoVarArgVM [Value.number 0] with
            stack := (demoVarArgVM [Value.number 0]).stack.set
              ((demoVarArgVM [Value.number 0]).stackTop - 1) (Value.number 20) } :=
  ⟨(c36_vararg_opcodes (fun bits => (bits : Int)) demoVarArgFrame
      (demoVarArgVM [Value.number 0]) 0 2 (by decide) (by decide)).1,
   (c36_vararg_opcodes (fun bits => (bits : Int)) demoVarArgFrame
      (demoVarArgVM [Value.number 0]) 0 2 (by decide) (by decide)).2.1 (Value.number 20)
      (by decide) (by decide) (by decide)⟩

end Elox
